import Mathlib

/-!
# Bohrium: loop blocks, dependency graph, reduction, code generator and driver

A shallow embedding of `src/ve/uni/block.cpp`, `src/core/jitk/graph.cpp`,
`src/core/compute/cphvb_compute_reduce.cpp` and of the code generator and the driver of
`src/ve/uni/main.cpp`.  Each part states its own conventions where it starts.

Conventions of the embedding of `block.cpp`.

* Pointers (`bh_base*`, `bh_instruction*`) are natural numbers (addresses); the null
  pointer of `Block::_instr` is `none`.  Instructions live in a heap `Nat → bh_instruction`,
  because `create_nested_block` mutates them through their pointers.
* `std::set<T*>` is a `Finset Nat`, `std::vector<T>` is a `List T`.
* `int64_t` is `Int`; signed overflow is undefined in C++ and is not modelled.
* The code is modelled as built without `NDEBUG`: a violated `assert` ends the call with
  `Failure.assertion`, a `throw runtime_error(..)` with `Failure.runtime_error`, and an
  operation C++ leaves undefined (division by zero, a negative vector index) with
  `Failure.undefined`.
-/

namespace bohrium

/-- Ways in which a call ends without returning a value. -/
inductive Failure where
  | runtime_error (what : String)
  | assertion (cond : String)
  | undefined (what : String)
  deriving DecidableEq, Repr

/-! ## Blocks -/

/-- The class `Block` as `block.cpp` uses it: one record carrying the fields of both the
instruction leaf (`_instr`) and the loop node (all the others). -/
inductive Block where
  | mk (_block_list : List Block) (_instr : Option Nat) (rank : Nat) (size : Int)
       (_sweeps : Finset Nat) (_news : Finset Nat) (_frees : Finset Nat) (_temps : Finset Nat)
       (_reshapable : Bool)

namespace Block

def _block_list : Block → List Block
  | mk l _ _ _ _ _ _ _ _ => l

def _instr : Block → Option Nat
  | mk _ i _ _ _ _ _ _ _ => i

def rank : Block → Nat
  | mk _ _ r _ _ _ _ _ _ => r

def size : Block → Int
  | mk _ _ _ s _ _ _ _ _ => s

def _sweeps : Block → Finset Nat
  | mk _ _ _ _ s _ _ _ _ => s

def _news : Block → Finset Nat
  | mk _ _ _ _ _ n _ _ _ => n

def _frees : Block → Finset Nat
  | mk _ _ _ _ _ _ f _ _ => f

def _temps : Block → Finset Nat
  | mk _ _ _ _ _ _ _ t _ => t

def _reshapable : Block → Bool
  | mk _ _ _ _ _ _ _ _ r => r

/-- Modelled from the spec: `Block::isInstr` is declared in `block.hpp`, which is not among
the sources.  A block is an instruction leaf when it has no children; a loop node is a
block with children.  (`block.cpp` tests `_instr != NULL` separately inside the
`isInstr()` branch, so the instruction pointer is not the discriminator.) -/
def isInstr (b : Block) : Bool := b._block_list.isEmpty

mutual
/-- The recursive overload `Block::getAllInstr(vector<bh_instruction*> &out)`. -/
def getAllInstrOut : Block → List Nat → List Nat
  | mk l i _ _ _ _ _ _ _, out =>
    if l.isEmpty then
      (match i with
       | some p => out ++ [p]
       | none => out)
    else getAllInstrList l out
/-- The loop `for (const Block &b : _block_list) b.getAllInstr(out)`. -/
def getAllInstrList : List Block → List Nat → List Nat
  | [], out => out
  | b :: bs, out => getAllInstrList bs (getAllInstrOut b out)
end

/-- The overload `Block::getAllInstr()` returning a fresh vector. -/
def getAllInstr (b : Block) : List Nat := b.getAllInstrOut []

end Block

/-- The function `merge(a, b, based_on_block_b)`. -/
def merge (a b : Block) (based_on_block_b : Bool) : Except Failure Block :=
  if a.isInstr then .error (.assertion "not a.isInstr()")
  else if b.isInstr then .error (.assertion "not b.isInstr()")
  else
    let t1 := if based_on_block_b then b else a
    let t2 := if based_on_block_b then a else b
    -- Block ret(t1); ret._block_list.clear(); then both child lists are appended
    let block_list := ([] ++ a._block_list) ++ b._block_list
    let sweeps := t1._sweeps ∪ t2._sweeps
    let news := t1._news ∪ t2._news
    let frees := t1._frees ∪ t2._frees
    -- set_intersection(..., std::inserter(ret._temps, ..)) inserts into the copied set
    let temps := t1._temps ∪ (news ∩ frees)
    .ok (Block.mk block_list t1._instr t1.rank t1.size sweeps news frees temps
          (a._reshapable && b._reshapable))

/-! ## Views and instructions -/

/-- The struct `bh_view`: a window over a base.  `shape` and `stride` hold the `ndim`
entries in use; a constant has no base. -/
structure bh_view where
  base : Option Nat
  start : Int
  shape : List Int
  stride : List Int
  deriving DecidableEq, Repr

/-- The field `ndim`: the number of dimensions in use. -/
def bh_view.ndim (v : bh_view) : Nat := v.shape.length

/-- The entry `view.shape[r]`; a slot past `ndim` of the fixed-size array reads as 0. -/
def bh_view.shape_at (v : bh_view) (r : Nat) : Int := v.shape.getD r 0

/-- Modelled from the spec: `bh_is_constant` is declared in a header that is not among the
sources.  A view is a constant when it has no base. -/
def bh_is_constant (v : bh_view) : Bool := v.base.isNone

/-- Modelled from the spec: the opcode tables `bh_noperands`, `bh_opcode_is_system`,
`bh_opcode_is_sweep` and the constant `BH_MAXDIM` are declared in headers that are not
among the sources.  They are parameters of the embedding. -/
structure OpcodeInfo where
  bh_noperands : Nat → Nat
  bh_opcode_is_system : Nat → Bool
  bh_opcode_is_sweep : Nat → Bool
  BH_MAXDIM : Int

/-- The struct `bh_instruction`: an opcode, its operands (operand 0 is the output) and the
integer constant that carries the axis of a sweep. -/
structure bh_instruction where
  opcode : Nat
  operand : List bh_view
  constant : Int
  deriving DecidableEq, Repr

/-- A view slot that was never assigned. -/
def bh_view.unset : bh_view := ⟨none, 0, [], []⟩

/-- The expression `instr->operand[0]`. -/
def bh_instruction.operand0 (i : bh_instruction) : bh_view := i.operand.getD 0 bh_view.unset

/-- The instructions behind the pointers. -/
abbrev Heap := Nat → bh_instruction

/-- The heap after a write through the pointer `p`. -/
def Heap.store (heap : Heap) (p : Nat) (i : bh_instruction) : Heap :=
  fun q => if q = p then i else heap q

/-- The function `max_ndim_views`: the non-constant views with the greatest `ndim`. -/
def max_ndim_views (nviews : Nat) (view_list : List bh_view) : List bh_view :=
  let views := view_list.take nviews
  let ndim := views.foldl (fun ndim view =>
    if !bh_is_constant view then (if view.ndim > ndim then view.ndim else ndim) else ndim) 0
  views.filter (fun view => !bh_is_constant view && view.ndim == ndim)

/-- The inner loop of `dominating_shape` for one view: entry `j` of `shape` is raised to
`view->shape[j]`, or appended when `shape` is still shorter. -/
def dominating_shape_view (shape : List Int) (view : bh_view) : List Int :=
  (List.range view.ndim).foldl (fun shape j =>
    if shape.length > j then
      (if shape.getD j 0 < view.shape_at j then shape.set j (view.shape_at j) else shape)
    else shape ++ [view.shape_at j]) shape

/-- The function `dominating_shape`. -/
def dominating_shape (nviews : Nat) (view_list : List bh_view) : List Int :=
  (max_ndim_views nviews view_list).foldl dominating_shape_view []

/-- The dominating shape of an instruction, as `create_nested_block` computes it:
`dominating_shape(bh_noperands(instr->opcode), instr->operand)`. -/
def bh_instruction.dominating_shape (env : OpcodeInfo) (i : bh_instruction) : List Int :=
  bohrium.dominating_shape (env.bh_noperands i.opcode) i.operand

/-- Modelled from the spec: `bh_instruction::dominating_rank` is not among the sources.
It is the length of the dominating shape. -/
def bh_instruction.dominating_rank (env : OpcodeInfo) (i : bh_instruction) : Nat :=
  (i.dominating_shape env).length

/-- The strides of the standard row-major layout of a shape. -/
def contiguous_stride : List Int → List Int
  | [] => []
  | _ :: rest => rest.prod :: contiguous_stride rest

/-- Modelled from the spec: a view is reshapable iff its strides are the standard row-major
layout of its shape. -/
def bh_view.reshapable (v : bh_view) : Bool := v.stride == contiguous_stride v.shape

/-- Modelled from the spec: `bh_instruction::reshapable` is not among the sources.  An
instruction is reshapable iff every non-constant operand view is reshapable and it is not
a sweep. -/
def bh_instruction.reshapable (env : OpcodeInfo) (i : bh_instruction) : Bool :=
  (i.operand.take (env.bh_noperands i.opcode)).all
      (fun v => bh_is_constant v || v.reshapable)
    && !env.bh_opcode_is_sweep i.opcode

/-- The view `v` with a new shape and the row-major strides of that shape; a constant is
left alone. -/
def bh_view.reshape (shape : List Int) (v : bh_view) : bh_view :=
  if bh_is_constant v then v else ⟨v.base, v.start, shape, contiguous_stride shape⟩

/-- Modelled from the spec: `bh_instruction::reshape` is not among the sources.  It gives
every non-constant operand the new shape, with row-major strides, and never fails. -/
def bh_instruction.reshape (env : OpcodeInfo) (i : bh_instruction) (shape : List Int) :
    bh_instruction :=
  ⟨i.opcode,
   (i.operand.take (env.bh_noperands i.opcode)).map (bh_view.reshape shape)
     ++ i.operand.drop (env.bh_noperands i.opcode),
   i.constant⟩

/-- Modelled from the spec: `sweep_axis` is not among the sources.  A sweep carries its
axis as its integer constant; any other instruction has the axis `BH_MAXDIM`. -/
def sweep_axis (env : OpcodeInfo) (i : bh_instruction) : Int :=
  if env.bh_opcode_is_sweep i.opcode then i.constant else env.BH_MAXDIM

/-- The function `is_reshapeable`. -/
def is_reshapeable (env : OpcodeInfo) (heap : Heap) : List Nat → Except Failure Bool
  | [] => .error (.assertion "instr_list.size() > 0")
  | first :: rest =>
    let rank := (heap first).dominating_rank env
    .ok ((first :: rest).all (fun instr =>
      (heap instr).reshapable env && (heap instr).dominating_rank env == rank))

/-! ## Building a nested block -/

/-- The value `size` of the reshaping loop: the product of `instr->operand[0].shape[r]` for
`rank ≤ r < ndim`. -/
def trailing_size (rank : Nat) (i : bh_instruction) : Int := (i.operand0.shape.drop rank).prod

/-- The dimensions below `rank` that the reshaping loop copies from
`instr_list[0]->operand[0]`. -/
def leading_dims (rank : Nat) (i : bh_instruction) : List Int :=
  (List.range rank).map (fun r => i.operand0.shape_at r)

/-- One iteration of the reshaping loop of `create_nested_block` (the body of
`for (bh_instruction *instr: instr_list)` inside `if (is_reshapeable(instr_list))`), on
the state made of the heap and the variable `size_of_rank_dim`. -/
def reshape_step (env : OpcodeInfo) (rank first : Nat) (st : Heap × Int) (instr : Nat) :
    Except Failure (Heap × Int) :=
  let heap := st.1
  -- vector<int64_t> shape(rank + 1) with the first `rank` entries assigned
  let shape := leading_dims rank (heap first) ++ [0]
  let size := trailing_size rank (heap instr)
  let size_of_rank_dim := if st.2 = -1 then size else st.2
  if ¬ (size ≥ size_of_rank_dim) then .error (.assertion "size >= size_of_rank_dim")
  else
    let shape := shape.set rank size_of_rank_dim
    if size ≠ size_of_rank_dim then
      if size_of_rank_dim = 0 then .error (.undefined "division by zero")
      else if size.tmod size_of_rank_dim ≠ 0 then
        .error (.runtime_error
          "create_nested_block: shape is not divisible with 'size_of_rank_dim'")
      else
        let shape := shape ++ [size.tdiv size_of_rank_dim]
        .ok (heap.store instr ((heap instr).reshape env shape), size_of_rank_dim)
    else
      .ok (heap.store instr ((heap instr).reshape env shape), size_of_rank_dim)

/-- The reshaping stage of `create_nested_block`: when the list is reshapable every
instruction is reshaped in turn, otherwise the heap is left alone.  Returns the heap and
the value of `ret._reshapable`. -/
def reshape_stage (env : OpcodeInfo) (heap : Heap) (instr_list : List Nat) (rank : Nat)
    (size_of_rank_dim : Int) : Except Failure (Heap × Bool) :=
  match is_reshapeable env heap instr_list with
  | .error e => .error e
  | .ok false => .ok (heap, false)
  | .ok true =>
    match instr_list.foldlM (reshape_step env rank (instr_list.getD 0 0))
        (heap, size_of_rank_dim) with
    | .error e => .error e
    | .ok st => .ok (st.1, true)

/-- The debug check that every non-system instruction has the dominating shape `shape`. -/
def check_dominating_shape (env : OpcodeInfo) (heap : Heap) (shape : List Int)
    (instr_list : List Nat) : Except Failure Unit :=
  if instr_list.all (fun instr =>
      env.bh_opcode_is_system (heap instr).opcode
        || decide ((heap instr).dominating_shape env = shape))
  then .ok ()
  else .error (.assertion "t == shape")

/-- One iteration of the loop that finds the sweeped axes, on the vector `sweeps`. -/
def find_sweeps_step (env : OpcodeInfo) (heap : Heap) (nshape : Nat)
    (sweeps : List (Finset Nat)) (instr : Nat) : Except Failure (List (Finset Nat)) :=
  let axis := sweep_axis env (heap instr)
  if axis < env.BH_MAXDIM then
    if ¬ (axis < (nshape : Int)) then .error (.assertion "axis < (int)shape.size()")
    else if axis < 0 then .error (.undefined "negative index into sweeps")
    else .ok (sweeps.set axis.toNat (insert instr (sweeps.getD axis.toNat ∅)))
  else .ok sweeps

/-- The loop that finds the sweeped axes: `sweeps[axis]` collects the instructions that
sweep `axis`. -/
def find_sweeps (env : OpcodeInfo) (heap : Heap) (nshape : Nat) (instr_list : List Nat) :
    Except Failure (List (Finset Nat)) :=
  instr_list.foldlM (find_sweeps_step env heap nshape) (List.replicate nshape ∅)

/-- A default-constructed `Block` with the given rank, size and sweeps. -/
def Block.loop_header (rank : Nat) (size : Int) (sweeps : Finset Nat) : Block :=
  Block.mk [] none rank size sweeps ∅ ∅ ∅ false

/-- The instruction block `create_nested_block` makes for `instr`; its `size` is never
assigned and reads as 0. -/
def Block.instr_block (instr rank : Nat) : Block :=
  Block.mk [] (some instr) rank 0 ∅ ∅ ∅ ∅ false

/-- The statement `q->_block_list.push_back(b)` where `q` is the block reached from `ret` by
following `_block_list[0]` `depth` times. -/
def Block.push_back_at : Block → Nat → Block → Block
  | Block.mk l i r s sw n f t rs, 0, b => Block.mk (l ++ [b]) i r s sw n f t rs
  | Block.mk [] i r s sw n f t rs, _ + 1, _ => Block.mk [] i r s sw n f t rs
  | Block.mk (c :: cs) i r s sw n f t rs, d + 1, b =>
    Block.mk (Block.push_back_at c d b :: cs) i r s sw n f t rs

/-- The loop `for (int i = rank+1; i < shape.size(); ++i)`: each new loop block is pushed
onto the current parent, which then moves to `&parent->_block_list[0]`.  The state is
`ret` and the depth of `parent` below it. -/
def build_loops (shape : List Int) (sweeps : List (Finset Nat)) (rank : Nat)
    (ret : Block) : Block × Nat :=
  (List.range' (rank + 1) (shape.length - (rank + 1))).foldl
    (fun st i =>
      (st.1.push_back_at st.2 (Block.loop_header i (shape.getD i 0) (sweeps.getD i ∅)),
       st.2 + 1))
    (ret, 0)

/-- The function `create_nested_block`.  It returns the block together with the heap, in
which the instructions of a reshapable list have been reshaped. -/
def create_nested_block (env : OpcodeInfo) (heap : Heap) (instr_list : List Nat)
    (news frees temps : Finset Nat) (rank : Nat) (size_of_rank_dim : Int) :
    Except Failure (Block × Heap) :=
  match instr_list with
  | [] => .error (.runtime_error "create_nested_block: 'instr_list' is empty!")
  | first :: _ =>
    match reshape_stage env heap instr_list rank size_of_rank_dim with
    | .error e => .error e
    | .ok (heap, reshapable) =>
      let shape := (heap first).dominating_shape env
      match check_dominating_shape env heap shape instr_list with
      | .error e => .error e
      | .ok _ =>
        if ¬ (shape.length > rank) then .error (.assertion "(int)shape.size() > rank")
        else
          match find_sweeps env heap shape.length instr_list with
          | .error e => .error e
          | .ok sweeps =>
            let ret := Block.mk [] none rank (shape.getD rank 0) (sweeps.getD rank ∅)
              news frees temps reshapable
            let st := build_loops shape sweeps rank ret
            .ok (instr_list.foldl
                  (fun ret instr => ret.push_back_at st.2 (Block.instr_block instr shape.length))
                  st.1,
                 heap)

/-- The block reached from `b` by following the first child `k` times. -/
def Block.descend : Nat → Block → Option Block
  | 0, b => some b
  | k + 1, b =>
    match b._block_list with
    | [] => none
    | c :: _ => Block.descend k c

/-- The children of a loop node that heads `m` further nested loop nodes of the ranks
`i`, `i+1`, .., each the only child of the one before, the innermost of which has the
children `inner`.  This is the chain the claims describe, written out. -/
def chain_children (shape : List Int) (sweeps : List (Finset Nat)) (inner : List Block) :
    Nat → Nat → List Block
  | 0, _ => inner
  | m + 1, i =>
    [Block.mk (chain_children shape sweeps inner m (i + 1)) none i (shape.getD i 0)
      (sweeps.getD i ∅) ∅ ∅ ∅ false]

mutual
/-- The loop nodes of the tree rooted at a block, outermost first. -/
def Block.loop_nodes : Block → List Block
  | Block.mk l i r s sw n f t rs =>
    if l.isEmpty then [] else Block.mk l i r s sw n f t rs :: Block.loop_nodes_list l
/-- The loop nodes of the trees rooted at the blocks of a list. -/
def Block.loop_nodes_list : List Block → List Block
  | [] => []
  | b :: bs => Block.loop_nodes b ++ Block.loop_nodes_list bs
end

/-- The shape the claims give to a collapsed instruction: the leading dimensions followed
by the target size, and by `total / s` when the target size does not take it all. -/
def collapsed_shape (lead : List Int) (total s : Int) : List Int :=
  lead ++ (if total = s then [s] else [s, total.tdiv s])

/-- The target size in force in the reshaping loop: the argument `size_of_rank_dim`, or
the trailing size of the first instruction when the argument is −1. -/
def target_size (rank : Nat) (size_of_rank_dim : Int) (first : bh_instruction) : Int :=
  if size_of_rank_dim = -1 then trailing_size rank first else size_of_rank_dim

/-- What the reshaping loop keeps true of the heap `H` it has reached from the heap `h0`
after reshaping the instructions `done` to the target size `S`. -/
structure ReshapeInv (env : OpcodeInfo) (rank first : Nat) (h0 : Heap) (S : Int)
    (done : List Nat) (H : Heap) : Prop where
  opcode_eq : ∀ p, (H p).opcode = (h0 p).opcode
  constant_eq : ∀ p, (H p).constant = (h0 p).constant
  bases_eq : ∀ p, (H p).operand.map (fun v => v.base) = (h0 p).operand.map (fun v => v.base)
  total_eq : ∀ p, trailing_size rank (H p) = trailing_size rank (h0 p)
  lead_eq : leading_dims rank (H first) = leading_dims rank (h0 first)
  untouched : ∀ p, p ∉ done → H p = h0 p
  shaped : ∀ p ∈ done, ∀ v ∈ (H p).operand.take (env.bh_noperands (H p).opcode),
    bh_is_constant v = true ∨
      v.shape = collapsed_shape (leading_dims rank (h0 first)) (trailing_size rank (h0 p)) S

/-- Whether one of the `bh_noperands` operands of the instruction is not a constant. -/
def bh_instruction.has_array_operand (env : OpcodeInfo) (i : bh_instruction) : Bool :=
  (i.operand.take (env.bh_noperands i.opcode)).any (fun v => !bh_is_constant v)

/-! ## Concrete blocks used as test inputs -/

/-- An instruction leaf for the instruction at address `p`, printed at rank `r`. -/
def ex_leaf (p r : Nat) : Block := Block.mk [] (some p) r 0 ∅ ∅ ∅ ∅ false

/-- A rank-0 loop of size 8 over instruction 1, which creates base 10. -/
def ex_blockA : Block := Block.mk [ex_leaf 1 1] none 0 8 ∅ {10} ∅ ∅ true

/-- A rank-0 loop of size 8 over instructions 2 and 3, which frees base 10. -/
def ex_blockB : Block := Block.mk [ex_leaf 2 1, ex_leaf 3 1] none 0 8 {3} {11} {10} ∅ false

/-- A rank-0 loop whose temps set holds base 7, which is neither in news nor in frees. -/
def ex_blockStale : Block := Block.mk [ex_leaf 1 1] none 0 8 ∅ ∅ ∅ {7} true

/-- A rank-1 loop of size 4 over instruction 1. -/
def ex_childA : Block := Block.mk [ex_leaf 1 2] none 1 4 ∅ ∅ ∅ ∅ false

/-- A rank-1 loop of size 4 over instruction 2. -/
def ex_childB : Block := Block.mk [ex_leaf 2 2] none 1 4 ∅ ∅ ∅ ∅ false

/-- A rank-0 loop of size 8 whose only child is the rank-1 loop `ex_childA`. -/
def ex_nestA : Block := Block.mk [ex_childA] none 0 8 ∅ ∅ ∅ ∅ false

/-- A rank-0 loop of size 8 whose only child is the rank-1 loop `ex_childB`. -/
def ex_nestB : Block := Block.mk [ex_childB] none 0 8 ∅ ∅ ∅ ∅ false

/-- An opcode table for the test inputs: 0 is a system opcode without operands, 1 an
element-wise binary opcode, 2 a reduction (a sweep, three operands), 3 the system opcode
that frees its operand, 4 the identity copy. -/
def ex_env : OpcodeInfo :=
  ⟨fun o => if o = 1 then 3 else if o = 2 then 3 else if o = 3 then 1 else if o = 4 then 2 else 0,
   fun o => o = 0 || o = 3,
   fun o => o = 2,
   16⟩

/-- A contiguous view of the given shape on base `b`. -/
def ex_view (b : Nat) (shape : List Int) : bh_view := ⟨some b, 0, shape, contiguous_stride shape⟩

/-- A heap for the test inputs.  Instructions 1 and 2 are element-wise on contiguous 8×16
arrays; 3 reduces an 8×16 array along axis 1 and 6 along axis 0; 4 and 5 are element-wise
on contiguous vectors of 4 and of 8 elements. -/
def ex_heap : Heap := fun p =>
  if p = 1 then ⟨1, [ex_view 10 [8, 16], ex_view 11 [8, 16], ex_view 12 [8, 16]], 0⟩
  else if p = 2 then ⟨4, [ex_view 13 [8, 16], ex_view 10 [8, 16]], 0⟩
  else if p = 3 then ⟨2, [ex_view 14 [8], ex_view 10 [8, 16], bh_view.unset], 1⟩
  else if p = 4 then ⟨1, [ex_view 20 [4], ex_view 21 [4], ex_view 22 [4]], 0⟩
  else if p = 5 then ⟨1, [ex_view 23 [8], ex_view 24 [8], ex_view 25 [8]], 0⟩
  else if p = 6 then ⟨2, [ex_view 15 [16], ex_view 10 [8, 16], bh_view.unset], 0⟩
  else ⟨0, [], 0⟩

/-! ## The reduction of the compute library (`cphvb_compute_reduce.cpp`)

Conventions of this part.  An array is modelled by the view it denotes: the base array it
resolves to (`cphvb_base_array`), its element type, start, shape and stride.  The data
buffer of a base array is a total map from element offsets to values of one value domain
`α`; whether the `data` pointer is `NULL` is kept apart (`allocated`).  Reading or writing
through a `NULL` pointer and indexing outside a buffer are undefined in C++ and are not
modelled.  Messages printed to `stderr` are not modelled. -/

/-- The return codes `cphvb_error` used by the reduction. -/
inductive cphvb_error where
  | CPHVB_SUCCESS
  | CPHVB_ERROR
  | CPHVB_OUT_OF_MEMORY
  deriving DecidableEq, Repr

/-- Modelled from the spec: the struct `cphvb_array` is declared in `cphvb.h`, which is not
among the sources.  A view is a window over a base: `base` is the base array that
`cphvb_base_array` resolves to, `shape` and `stride` hold the `ndim` entries in use. -/
structure cphvb_array where
  base : Nat
  type : Nat
  start : Int
  shape : List Int
  stride : List Int
  deriving DecidableEq, Repr

/-- The field `ndim`. -/
def cphvb_array.ndim (a : cphvb_array) : Nat := a.shape.length

/-- An operand slot that holds no array. -/
def cphvb_array.null : cphvb_array := ⟨0, 0, 0, [], []⟩

/-- The data of the base arrays: `allocated b` tells whether the `data` pointer of base `b`
is set, `buf b` is the content of its buffer. -/
structure Mem (α : Type) where
  allocated : Nat → Bool
  buf : Nat → Int → α

/-- The store `data[off] = x` on the buffer of base `b`. -/
def Mem.write {α : Type} (m : Mem α) (b : Nat) (off : Int) (x : α) : Mem α :=
  ⟨m.allocated, fun b' off' => if b' = b ∧ off' = off then x else m.buf b' off'⟩

/-- The struct `cphvb_instruction`, as far as the reduction fills it in: the opcode and the
operands that are not `NULL`. -/
structure cphvb_instruction where
  opcode : Nat
  operand : List cphvb_array
  deriving DecidableEq, Repr

/-- The argument `cphvb_reduce_type` of the reduction. -/
structure cphvb_reduce_type where
  opcode : Nat
  axis : Nat
  operand : List cphvb_array
  deriving DecidableEq, Repr

/-- The functor templates of `functors.hpp` that the dispatch table instantiates. -/
inductive ReduceFunctor where
  | add | subtract | multiply | divide | power | greater | greater_equal | less
  | less_equal | equal | not_equal | logical_and | logical_or | logical_xor | maximum
  | minimum | bitwise_and | bitwise_or | bitwise_xor | left_shift | right_shift | arctan2
  | mod
  deriving DecidableEq, Repr

/-- The element types of the dispatch table. -/
inductive ElemType where
  | bool | complex128 | complex64 | float32 | float64 | int16 | int32 | int64 | int8
  | uint16 | uint32 | uint64 | uint8
  deriving DecidableEq, Repr

/-- Modelled from the spec: what `cphvb_compute_reduce.cpp` takes from headers and files
that are not among the sources, as parameters.  `opcode_of f` is the constant `CPHVB_F` of
the opcode that the functor `f_functor` implements and `type_of t` the constant `CPHVB_T`;
`functor f t` is the operation of `f_functor<T, T, T>` (it stores in its first argument the
result on the values of the other two); `cphvb_compute_apply` executes an instruction and
`cphvb_data_malloc` allocates the data of an array. -/
structure ComputeEnv (α : Type) where
  opcode_of : ReduceFunctor → Nat
  type_of : ElemType → Nat
  CPHVB_IDENTITY : Nat
  cphvb_operands : Nat → Nat
  functor : ReduceFunctor → ElemType → α → α → α
  cphvb_compute_apply : cphvb_instruction → Mem α → cphvb_error × Mem α
  cphvb_data_malloc : cphvb_array → Mem α → cphvb_error × Mem α

/-- The loop of the 1-D case: `count` more iterations from the offset `off0`, each calling
`opcode_func(data_out, data_out, data_in + off0)`. -/
def reduce_1d_loop {α : Type} (opcode_func : α → α → α) (out_base in_base : Nat)
    (stride : Int) : Nat → Int → Mem α → Mem α
  | 0, _, m => m
  | count + 1, off0, m =>
    reduce_1d_loop opcode_func out_base in_base stride count (off0 + stride)
      (m.write out_base 0 (opcode_func (m.buf out_base 0) (m.buf in_base off0)))

/-- The loop that copies every dimension but `axis` (`tmp.shape[j] = op_in->shape[i]`, and
the same for the strides). -/
def copy_except_axis (axis : Nat) (dims : List Int) (ndim : Nat) : List Int :=
  (List.range ndim).foldl (fun tmp i => if i ≠ axis then tmp ++ [dims.getD i 0] else tmp) []

/-- The loop `for (i = 1; i < nelements; ++i)` of the N-D case: `count` more applications of
the opcode to the output and the slice `tmp`, which then moves on by `stride`. -/
def reduce_nd_loop {α : Type} (env : ComputeEnv α) (opcode : Nat) (op_out : cphvb_array)
    (stride : Int) : Nat → cphvb_array → Mem α → cphvb_error × Mem α
  | 0, _, m => (.CPHVB_SUCCESS, m)
  | count + 1, tmp, m =>
    match env.cphvb_compute_apply ⟨opcode, [op_out, op_out, tmp]⟩ m with
    | (.CPHVB_SUCCESS, m') =>
      reduce_nd_loop env opcode op_out stride count
        ⟨tmp.base, tmp.type, tmp.start + stride, tmp.shape, tmp.stride⟩ m'
    | (err, m') => (err, m')

/-- The function template `cphvb_compute_reduce_any<T, Instr>`; `opcode_func` is the
functor `Instr`. -/
def cphvb_compute_reduce_any {α : Type} (env : ComputeEnv α) (opcode_func : α → α → α)
    (op_out op_in : cphvb_array) (axis : Nat) (opcode : Nat) (m : Mem α) :
    cphvb_error × Mem α :=
  let stride := op_in.stride.getD axis 0
  let nelements := op_in.shape.getD axis 0
  if op_in.ndim = 1 then
    -- *data_out = *data_in;
    let m := m.write op_out.base 0 (m.buf op_in.base 0)
    (.CPHVB_SUCCESS,
      reduce_1d_loop opcode_func op_out.base op_in.base stride (nelements - 1).toNat
        (op_in.start + 1) m)
  else
    let tmp : cphvb_array :=
      ⟨op_in.base, op_in.type, op_in.start, copy_except_axis axis op_in.shape op_in.ndim,
        copy_except_axis axis op_in.stride op_in.ndim⟩
    match env.cphvb_compute_apply ⟨env.CPHVB_IDENTITY, [op_out, tmp]⟩ m with
    | (.CPHVB_SUCCESS, m') =>
      reduce_nd_loop env opcode op_out stride (nelements - 1).toNat
        ⟨tmp.base, tmp.type, tmp.start + stride, tmp.shape, tmp.stride⟩ m'
    | (err, m') => (err, m')

/-- The case labels of one functor, for the element types in source order. -/
def table_row (f : ReduceFunctor) (types : List ElemType) : List (ReduceFunctor × ElemType) :=
  types.map (fun t => (f, t))

/-- The case labels of the `switch` in `cphvb_compute_reduce`, in source order: the label
`CPHVB_F + (CPHVB_T << 8)` returns `cphvb_compute_reduce_any<T, f_functor<T, T, T>>`. -/
def reduce_table : List (ReduceFunctor × ElemType) :=
  table_row .add
    [.bool, .complex128, .complex64, .float32, .float64, .int16, .int32, .int64, .int8, .uint16, .uint32, .uint64, .uint8] ++
  table_row .subtract
    [.bool, .complex128, .complex64, .float32, .float64, .int16, .int32, .int64, .int8, .uint16, .uint32, .uint64, .uint8] ++
  table_row .multiply
    [.bool, .complex128, .complex64, .float32, .float64, .int16, .int32, .int64, .int8, .uint16, .uint32, .uint64, .uint8] ++
  table_row .divide
    [.complex128, .complex64, .float32, .float64, .int16, .int32, .int64, .int8, .uint16, .uint32, .uint64, .uint8] ++
  table_row .power
    [.float32, .float64, .int16, .int32, .int64, .int8, .uint16, .uint32, .uint64, .uint8] ++
  table_row .greater
    [.bool, .float32, .float64, .int16, .int32, .int64, .int8, .uint16, .uint32, .uint64, .uint8] ++
  table_row .greater_equal
    [.bool, .float32, .float64, .int16, .int32, .int64, .int8, .uint16, .uint32, .uint64, .uint8] ++
  table_row .less
    [.bool, .float32, .float64, .int16, .int32, .int64, .int8, .uint16, .uint32, .uint64, .uint8] ++
  table_row .less_equal
    [.bool, .float32, .float64, .int16, .int32, .int64, .int8, .uint16, .uint32, .uint64, .uint8] ++
  table_row .equal
    [.bool, .complex128, .complex64, .float32, .float64, .int16, .int32, .int64, .int8, .uint16, .uint32, .uint64, .uint8] ++
  table_row .not_equal
    [.bool, .complex128, .complex64, .float32, .float64, .int16, .int32, .int64, .int8, .uint16, .uint32, .uint64, .uint8] ++
  table_row .logical_and
    [.bool, .float32, .float64, .int16, .int32, .int64, .int8, .uint16, .uint32, .uint64, .uint8] ++
  table_row .logical_or
    [.bool, .float32, .float64, .int16, .int32, .int64, .int8, .uint16, .uint32, .uint64, .uint8] ++
  table_row .logical_xor
    [.bool, .float32, .float64, .int16, .int32, .int64, .int8, .uint16, .uint32, .uint64, .uint8] ++
  table_row .maximum
    [.bool, .float32, .float64, .int16, .int32, .int64, .int8, .uint16, .uint32, .uint64, .uint8] ++
  table_row .minimum
    [.bool, .float32, .float64, .int16, .int32, .int64, .int8, .uint16, .uint32, .uint64, .uint8] ++
  table_row .bitwise_and
    [.bool, .int16, .int32, .int64, .int8, .uint16, .uint32, .uint64, .uint8] ++
  table_row .bitwise_or
    [.bool, .int16, .int32, .int64, .int8, .uint16, .uint32, .uint64, .uint8] ++
  table_row .bitwise_xor
    [.bool, .int16, .int32, .int64, .int8, .uint16, .uint32, .uint64, .uint8] ++
  table_row .left_shift
    [.int16, .int32, .int64, .int8, .uint16, .uint32, .uint64, .uint8] ++
  table_row .right_shift
    [.int16, .int32, .int64, .int8, .uint16, .uint32, .uint64, .uint8] ++
  table_row .arctan2
    [.float32, .float64] ++
  table_row .mod
    [.float32, .float64, .int16, .int32, .int64, .int8, .uint16, .uint32, .uint64, .uint8]

/-- The value of the case label of a table entry. -/
def case_label {α : Type} (env : ComputeEnv α) (e : ReduceFunctor × ElemType) : Nat :=
  env.opcode_of e.1 + (env.type_of e.2 <<< 8)

/-- The function `cphvb_compute_reduce`. -/
def cphvb_compute_reduce {α : Type} (env : ComputeEnv α) (a : cphvb_reduce_type) (m : Mem α) :
    cphvb_error × Mem α :=
  let opcode := a.opcode
  let axis := a.axis
  let op_out := a.operand.getD 0 cphvb_array.null
  let op_in := a.operand.getD 1 cphvb_array.null
  if env.cphvb_operands opcode ≠ 3 then (.CPHVB_ERROR, m)
  else if m.allocated op_in.base = false then (.CPHVB_ERROR, m)
  else if op_in.type ≠ op_out.type then (.CPHVB_ERROR, m)
  else
    match env.cphvb_data_malloc op_out m with
    | (.CPHVB_SUCCESS, m') =>
      let poly := opcode + (op_in.type <<< 8)
      match reduce_table.find? (fun e => case_label env e = poly) with
      | some e => cphvb_compute_reduce_any env (env.functor e.1 e.2) op_out op_in axis opcode m'
      | none => (.CPHVB_ERROR, m')
    | (_, m') => (.CPHVB_OUT_OF_MEMORY, m')

/-- The multi-indices of a shape, in row-major order. -/
def indices : List Int → List (List Nat)
  | [] => [[]]
  | n :: rest => (List.range n.toNat).flatMap (fun i => (indices rest).map (fun idx => i :: idx))

/-- The element offset of a multi-index in a view: `start + Σ idx[k] * stride[k]`. -/
def cphvb_array.offset (a : cphvb_array) (idx : List Nat) : Int :=
  a.start + (List.zipWith (fun (i : Nat) (st : Int) => (i : Int) * st) idx a.stride).sum

/-- Modelled from the spec: `cphvb_compute_apply` is not among the sources.  It executes an
instruction element by element over the index space of its output operand, each operand
being addressed with its own start and strides: the identity copies its input, a
three-operand opcode stores `sem opcode x y`. -/
def elementwise_apply {α : Type} (sem : Nat → α → α → α) (CPHVB_IDENTITY : Nat)
    (instr : cphvb_instruction) (m : Mem α) : cphvb_error × Mem α :=
  match instr.operand with
  | [out, x, y] =>
    (.CPHVB_SUCCESS,
      (indices out.shape).foldl (fun m idx =>
        m.write out.base (out.offset idx)
          (sem instr.opcode (m.buf x.base (x.offset idx)) (m.buf y.base (y.offset idx)))) m)
  | [out, x] =>
    if instr.opcode = CPHVB_IDENTITY then
      (.CPHVB_SUCCESS,
        (indices out.shape).foldl (fun m idx =>
          m.write out.base (out.offset idx) (m.buf x.base (x.offset idx))) m)
    else (.CPHVB_ERROR, m)
  | _ => (.CPHVB_ERROR, m)

/-! ## Concrete inputs for the reduction -/

/-- Opcode numbers for the test inputs: the functors in table order from 0. -/
def ex_opcode_of : ReduceFunctor → Nat
  | .add => 0
  | .subtract => 1
  | .multiply => 2
  | .divide => 3
  | .power => 4
  | .greater => 5
  | .greater_equal => 6
  | .less => 7
  | .less_equal => 8
  | .equal => 9
  | .not_equal => 10
  | .logical_and => 11
  | .logical_or => 12
  | .logical_xor => 13
  | .maximum => 14
  | .minimum => 15
  | .bitwise_and => 16
  | .bitwise_or => 17
  | .bitwise_xor => 18
  | .left_shift => 19
  | .right_shift => 20
  | .arctan2 => 21
  | .mod => 22

/-- Type numbers for the test inputs: the element types in table order from 0. -/
def ex_type_of : ElemType → Nat
  | .bool => 0
  | .complex128 => 1
  | .complex64 => 2
  | .float32 => 3
  | .float64 => 4
  | .int16 => 5
  | .int32 => 6
  | .int64 => 7
  | .int8 => 8
  | .uint16 => 9
  | .uint32 => 10
  | .uint64 => 11
  | .uint8 => 12

/-- Integer operations for the test inputs: opcode 0 adds, 2 multiplies, 14 takes the
maximum, 15 the minimum; any other opcode keeps its first argument. -/
def ex_sem (opcode : Nat) (x y : Int) : Int :=
  if opcode = 0 then x + y
  else if opcode = 2 then x * y
  else if opcode = 14 then max x y
  else if opcode = 15 then min x y
  else x

/-- An environment for the test inputs, over integer values: the 23 opcodes of the table
take three operands, the identity has the number 40, instructions are executed element by
element and an allocation always succeeds. -/
def ex_compute_env : ComputeEnv Int :=
  ⟨ex_opcode_of, ex_type_of, 40,
   fun o => if o < 23 then 3 else 2,
   fun f _ => ex_sem (ex_opcode_of f),
   elementwise_apply ex_sem 40,
   fun a m => (.CPHVB_SUCCESS, ⟨fun b => if b = a.base then true else m.allocated b, m.buf⟩)⟩

/-- A memory in which base 1 holds `0, 1, 2, ..` (element `i` at offset `i`), base 3 holds
`3, 1, 4, 1, 5` and base 2 is the not yet allocated output. -/
def ex_mem : Mem Int :=
  ⟨fun b => b = 1 || b = 3,
   fun b off =>
     if b = 1 then off
     else if b = 3 then ([3, 1, 4, 1, 5] : List Int).getD off.toNat 0
     else 0⟩

/-- A one-element output view on base 2. -/
def ex_out (type : Nat) : cphvb_array := ⟨2, type, 0, [1], [1]⟩

/-- A 1-D input view of `n` elements on base `b`. -/
def ex_in (b type : Nat) (start : Int) (n stride : Int) : cphvb_array :=
  ⟨b, type, start, [n], [stride]⟩

/-- The call `reduce(add, a[10], axis 0)` on the vector of base 1, element type 6. -/
def ex_reduce_add : cphvb_reduce_type := ⟨0, 0, [ex_out 6, ex_in 1 6 0 10 1]⟩

/-- The call `reduce(bitwise_and, a[10], axis 0)` on the vector of base 1 read with the
element type 3 (float32): a pair without case label. -/
def ex_reduce_and_float : cphvb_reduce_type := ⟨16, 0, [ex_out 3, ex_in 1 3 0 10 1]⟩

/-- The call `reduce(divide, a[10], axis 0)` on the vector of base 1 read with the element
type 0 (bool): a pair without case label. -/
def ex_reduce_divide_bool : cphvb_reduce_type := ⟨3, 0, [ex_out 0, ex_in 1 0 0 10 1]⟩

/-- The memory after the output of the test calls has been allocated. -/
def ex_mem_allocated : Mem Int :=
  ⟨fun b => if b = 2 then true else ex_mem.allocated b, ex_mem.buf⟩

/-- The claim about the 1-D reduction in the spec's words: the left fold of the operation
over the elements `x_j = data[start + j * stride]`, `j = 0 .. n − 1`, of the input view. -/
def spec_fold_1d {α : Type} (f : α → α → α) (data : Int → α) (start stride : Int) (n : Nat) :
    α :=
  ((List.range' 1 (n - 1)).map (fun (j : Nat) => data (start + (j : Int) * stride))).foldl f
    (data start)

/-- The slice at index `k` of the axis, in the words of the claim: the view on the input
with the axis dimension removed, the other shapes and strides kept in order, that starts
`k` strides of the axis further. -/
def slice_view (op_in : cphvb_array) (axis k : Nat) : cphvb_array :=
  ⟨op_in.base, op_in.type, op_in.start + (k : Int) * op_in.stride.getD axis 0,
    op_in.shape.eraseIdx axis, op_in.stride.eraseIdx axis⟩

/-- The 4×5 row-major matrix on base 1, whose element `(i, j)` is `i * 5 + j`. -/
def ex_matrix : cphvb_array := ⟨1, 6, 0, [4, 5], [5, 1]⟩

/-- A contiguous output vector of 4 elements on base 2. -/
def ex_rows : cphvb_array := ⟨2, 6, 0, [4], [1]⟩

/-! ## The dependency graph (`graph.cpp`)

The graph type `DAG` is a Boost `adjacency_list` declared in `graph.hpp`, which is not
among the sources; `breadth_first_search` is the Boost algorithm.  Vertices are the
numbers `0 .. n − 1` in the order of `add_vertex`; an edge is a pair (source, target). -/

/-- Modelled from the spec: the type `DAG` is declared in `graph.hpp`, which is not among
the sources.  A graph is plain adjacency data: the vertices, each carrying its block, and
the edges in the order they were added. -/
structure DAG (β : Type) where
  vertices : List β
  edges : List (Nat × Nat)

/-- The number of vertices. -/
def DAG.num_vertices {β : Type} (g : DAG β) : Nat := g.vertices.length

/-- The targets of the out-edges of the vertex `u`. -/
def DAG.out_edges {β : Type} (g : DAG β) (u : Nat) : List Nat :=
  (g.edges.filter (fun e => e.1 = u)).map Prod.snd

/-- Modelled from the spec: `breadth_first_search` is the Boost algorithm, which is not
among the sources.  This is its inner loop for the vertex `u` taken from the queue: every
out-edge is handed to `examine_edge`, which ends the search when `throws u v` holds; a
target that is still white becomes gray and joins the queue.  `seen` are the vertices that
are no longer white. -/
def bfs_examine (throws : Nat → Nat → Bool) (u : Nat) :
    List Nat → List Nat → List Nat → Option (List Nat × List Nat)
  | [], queue, seen => some (queue, seen)
  | v :: vs, queue, seen =>
    if throws u v then none
    else if v ∈ seen then bfs_examine throws u vs queue seen
    else bfs_examine throws u vs (queue ++ [v]) (v :: seen)

/-- Modelled from the spec: `breadth_first_search` is the Boost algorithm, which is not
among the sources.  This is its outer loop: vertices are taken from the queue until it is
empty or the visitor throws.  Every vertex enters the queue at most once, so the loop body
runs at most once per vertex; `fuel` bounds the number of runs. -/
def bfs_loop {β : Type} (g : DAG β) (throws : Nat → Nat → Bool) :
    Nat → List Nat → List Nat → Except Failure Unit
  | 0, _, _ => .ok ()
  | _ + 1, [], _ => .ok ()
  | fuel + 1, u :: queue, seen =>
    match bfs_examine throws u (g.out_edges u) queue seen with
    | none => .error (.runtime_error "")
    | some (queue', seen') => bfs_loop g throws fuel queue' seen'

/-- Modelled from the spec: `breadth_first_search` is the Boost algorithm, which is not
among the sources.  The call `breadth_first_search(dag, a, visitor(vis))` for a visitor whose
`examine_edge` throws `runtime_error("")` on the edges selected by `throws`. -/
def breadth_first_search {β : Type} (g : DAG β) (a : Nat) (throws : Nat → Nat → Bool) :
    Except Failure Unit :=
  bfs_loop g throws (g.num_vertices + 1) [a] [a]

/-- The function `path_exist`: `path_visitor` throws on an edge whose target is `b`,
`long_visitor` on an edge whose target is `b` and whose source is not `a`; the thrown
`runtime_error` is caught and turned into `true`. -/
def path_exist {β : Type} (a b : Nat) (dag : DAG β) (only_long_path : Bool) : Bool :=
  match (if only_long_path then
      breadth_first_search dag a (fun src tgt => src ≠ a && tgt = b)
    else
      breadth_first_search dag a (fun _ tgt => tgt = b)) with
  | .error (.runtime_error _) => true
  | _ => false

/-- The edge relation of a graph. -/
def DAG.edge {β : Type} (g : DAG β) (u v : Nat) : Prop := (u, v) ∈ g.edges

/-- A graph is well formed when its edges join vertices of the graph. -/
def DAG.wf {β : Type} (g : DAG β) : Prop :=
  ∀ e ∈ g.edges, e.1 < g.num_vertices ∧ e.2 < g.num_vertices

instance DAG.edge_decidable {β : Type} (g : DAG β) (u v : Nat) : Decidable (g.edge u v) := by
  unfold DAG.edge
  infer_instance

instance DAG.wf_decidable {β : Type} (g : DAG β) : Decidable g.wf := by
  unfold DAG.wf
  infer_instance

/-- The directed paths of a graph by their number of edges: `g.walk k u v` holds when `k`
edges lead from `u` to `v`. -/
def DAG.walk {β : Type} (g : DAG β) : Nat → Nat → Nat → Bool
  | 0, u, v => decide (u = v)
  | k + 1, u, v => (g.out_edges u).any (fun w => DAG.walk g k w v)

/-- A graph is acyclic when no vertex is reached from itself along at least one edge. -/
def DAG.acyclic {β : Type} (g : DAG β) : Prop :=
  ∀ v k, 0 < k → g.walk k v v = false

/-- The state of the search between two runs of the outer loop, for a search started at
`a`: the start vertex is no longer white; the queued vertices are not white; every vertex
that is not white is reached from `a`; a vertex that has left the queue has had all its
out-edges examined without a throw, and their targets are not white; no vertex was
coloured twice, and all coloured vertices belong to the graph. -/
structure BfsInv {β : Type} (g : DAG β) (throws : Nat → Nat → Bool) (a : Nat)
    (queue seen : List Nat) : Prop where
  start_seen : a ∈ seen
  queue_seen : ∀ v ∈ queue, v ∈ seen
  reach : ∀ v ∈ seen, ∃ k, g.walk k a v = true
  closed : ∀ u ∈ seen, u ∉ queue → ∀ v, g.edge u v → v ∈ seen ∧ throws u v = false
  seen_nodup : seen.Nodup
  seen_bound : ∀ v ∈ seen, v < g.num_vertices

/-- A graph for the test inputs: the edges 0→1, 1→2, 0→2 and 0→3 on four vertices. -/
def ex_dag : DAG Unit := ⟨[(), (), (), ()], [(0, 1), (1, 2), (0, 2), (0, 3)]⟩

/-! ## The dependency graph of a block list (`graph.cpp`, `from_block_list`) -/

/-- Modelled from the spec: the member functions `Block::validation`, `Block::getAllBases`
and `Block::depend_on` that `from_block_list` calls are declared in `jitk/block.hpp`, which
is not among the sources.  They are parameters of the embedding; `getAllBases` lists the
bases in the iteration order of the returned set. -/
structure BlockOps (β : Type) where
  validation : β → Bool
  getAllBases : β → List Nat
  depend_on : β → β → Bool

/-- The call `s.insert(x)` on a `std::set<Vertex>`, kept as the ascending list of its
elements. -/
def set_insert (x : Nat) : List Nat → List Nat
  | [] => [x]
  | y :: ys =>
    if x < y then x :: y :: ys
    else if x = y then y :: ys
    else y :: set_insert x ys

/-- The call `s.insert(first, last)` on a `std::set<Vertex>`. -/
def set_insert_range (s : List Nat) (range : List Nat) : List Nat :=
  range.foldl (fun acc x => set_insert x acc) s

/-- The loop `for (bh_base *base: block.getAllBases())` of `from_block_list`: the vertices
recorded for the base join `connecting_vertices`, then `vertex` is recorded for the base.
`base2vertices[base]` of a base without an entry is the empty set. -/
def connect_bases (vertex : Nat) :
    List Nat → (Nat → List Nat) → List Nat → (Nat → List Nat) × List Nat
  | [], base2vertices, connecting_vertices => (base2vertices, connecting_vertices)
  | base :: bases, base2vertices, connecting_vertices =>
    let vs := base2vertices base
    connect_bases vertex bases
      (fun b => if b = base then set_insert vertex vs else base2vertices b)
      (set_insert_range connecting_vertices vs)

/-- The body of `BOOST_REVERSE_FOREACH (Vertex v, connecting_vertices)` run over the
vertices `vs` in the order given: the edge `v → vertex` is added when `vertex != v` and
`block.depend_on(*graph[v])`.  `vertices` are the blocks attached to the vertices of the
graph; a vertex recorded in `base2vertices` is always one of them. -/
def add_edges {β : Type} (ops : BlockOps β) (block : β) (vertex : Nat) (vertices : List β) :
    List Nat → List (Nat × Nat) → List (Nat × Nat)
  | [], edges => edges
  | v :: vs, edges =>
    if vertex ≠ v ∧
        (match vertices[v]? with
         | some other => ops.depend_on block other
         | none => false) = true then
      add_edges ops block vertex vertices vs (edges ++ [(v, vertex)])
    else add_edges ops block vertex vertices vs edges

/-- The local variables `graph` and `base2vertices` of `from_block_list`. -/
structure from_block_state (β : Type) where
  graph : DAG β
  base2vertices : Nat → List Nat

/-- One run of the loop `for (const Block &block: block_list)` of `from_block_list`. -/
def from_block_step {β : Type} (ops : BlockOps β) (st : from_block_state β) (block : β) :
    Except Failure (from_block_state β) :=
  if ops.validation block = false then .error (.assertion "block.validation()")
  else
    -- Vertex vertex = boost::add_vertex(&block, graph)
    let vertex := st.graph.num_vertices
    let vertices := st.graph.vertices ++ [block]
    let r := connect_bases vertex (ops.getAllBases block) st.base2vertices []
    .ok ⟨⟨vertices, add_edges ops block vertex vertices r.2.reverse st.graph.edges⟩, r.1⟩

/-- The function `from_block_list`. -/
def from_block_list {β : Type} (ops : BlockOps β) (block_list : List β) :
    Except Failure (DAG β) :=
  (block_list.foldlM (from_block_step ops) ⟨⟨[], []⟩, fun _ => []⟩).map (fun st => st.graph)

/-- The blocks `A` at place `u` and `B` at place `v` of a list are joined by an edge of the
graph of `from_block_list` under this condition: `A` comes before `B`, a base of `A` is a
base of `B`, and `B.depend_on(A)` holds. -/
def edge_condition {β : Type} (ops : BlockOps β) (block_list : List β) (u v : Nat) : Prop :=
  u < v ∧ ∃ A B, block_list[u]? = some A ∧ block_list[v]? = some B ∧
    (∃ base, base ∈ ops.getAllBases A ∧ base ∈ ops.getAllBases B) ∧ ops.depend_on B A = true

/-- The state of `from_block_list` after the blocks `pre` have been added. -/
structure FromInv {β : Type} (ops : BlockOps β) (pre : List β) (st : from_block_state β) :
    Prop where
  vertices_eq : st.graph.vertices = pre
  base2vertices_spec : ∀ b x, x ∈ st.base2vertices b ↔
    ∃ blk, pre[x]? = some blk ∧ b ∈ ops.getAllBases blk
  edges_spec : ∀ u v, (u, v) ∈ st.graph.edges ↔ edge_condition ops pre u v

/-- Modelled from the spec: the bases an instruction reads or writes are the bases of its
array operands; operand 0 is the output, so its base is the base the instruction writes. -/
def bh_instruction.bases (i : bh_instruction) : List Nat :=
  i.operand.filterMap (fun v => v.base)

/-- Modelled from the spec: `Block::getAllBases` is declared in `jitk/block.hpp`, which is
not among the sources.  The bases of a block are the bases read or written by its
instructions. -/
def Block.getAllBases (heap : Heap) (b : Block) : List Nat :=
  b.getAllInstr.flatMap (fun p => (heap p).bases)

/-- Modelled from the spec: `Block::depend_on` is declared in `jitk/block.hpp`, which is not
among the sources.  A block depends on another block when one of its instructions reads or
writes a base that an instruction of the other block wrote. -/
def Block.depend_on (heap : Heap) (b other : Block) : Bool :=
  b.getAllInstr.any (fun i => other.getAllInstr.any (fun j =>
    match (heap j).operand0.base with
    | some w => decide (w ∈ (heap i).bases)
    | none => false))

/-- Modelled from the spec: the member functions of the block class of `jitk/block.hpp`,
which is not among the sources, on the blocks of this development.  What
`Block::validation` checks is not described; it is a parameter. -/
def block_ops (validation : Block → Bool) (heap : Heap) : BlockOps Block :=
  ⟨validation, Block.getAllBases heap, Block.depend_on heap⟩

/-- A block list for the test inputs: instruction 1 writes base 10, instructions 2 and 3
read it, instruction 4 works on other bases. -/
def ex_block_list : List Block :=
  [ex_blockA, ex_blockB, Block.mk [ex_leaf 4 1] none 0 4 ∅ ∅ ∅ ∅ true]

/-! ## The code generator of the uni vector engine (`ve/uni/main.cpp`)

Conventions of this part.  `main.cpp` is written against the block classes of
`jitk/block.hpp` (`Block`, `InstrB`, `LoopB`) and the class `BaseDB`, none of which is among
the sources; they are modelled in the namespace `jitk`.  An `InstrPtr` is a shared pointer
to an immutable instruction and is modelled by the instruction it points to.  The text
written to the stream `out` is kept as a list of tokens, one token for each group of
`<<` that the code writes together; `render` gives the text of a token. -/

/-- The expression `instr->operand[1]`. -/
def bh_instruction.operand1 (i : bh_instruction) : bh_view := i.operand.getD 1 bh_view.unset

/-- Modelled from the spec: `bh_view::insert_dim(dim, size, stride)` is not among the
sources.  It inserts a dimension of the given size and stride at the place `dim`. -/
def bh_view.insert_dim (v : bh_view) (dim : Int) (size stride : Int) : bh_view :=
  ⟨v.base, v.start, v.shape.insertIdx dim.toNat size, v.stride.insertIdx dim.toNat stride⟩

namespace jitk

/-- A pointer `bh_base*`; `none` is the null pointer. -/
abbrev BasePtr := Option Nat

/-- An `InstrPtr`, modelled by the instruction it points to. -/
abbrev InstrPtr := bh_instruction

mutual
/-- Modelled from the spec: the class `Block` of `jitk/block.hpp`, which is not among the
sources: either an instruction at a rank (`InstrB`) or a loop (`LoopB`). -/
inductive Block where
  | instr (rank : Nat) (instr : InstrPtr)
  | loop (l : LoopB)
/-- Modelled from the spec: the class `LoopB` of `jitk/block.hpp`, which is not among the
sources, with the fields `main.cpp` reads.  `_sweeps` is a `std::set<InstrPtr>`; it is kept
as the list of its elements in iteration order. -/
inductive LoopB where
  | mk (rank : Nat) (size : Int) (_block_list : List Block) (_sweeps : List InstrPtr)
end

/-- The field `rank` of a loop. -/
def LoopB.rank : LoopB → Nat
  | .mk r _ _ _ => r

/-- The field `size` of a loop. -/
def LoopB.size : LoopB → Int
  | .mk _ s _ _ => s

/-- The field `_block_list` of a loop. -/
def LoopB._block_list : LoopB → List Block
  | .mk _ _ l _ => l

/-- The field `_sweeps` of a loop. -/
def LoopB._sweeps : LoopB → List InstrPtr
  | .mk _ _ _ s => s

/-- The member function `Block::rank()`. -/
def Block.rank : Block → Nat
  | .instr r _ => r
  | .loop l => l.rank

/-- Modelled from the spec: `LoopB::isInnermost` is not among the sources.  A loop is
innermost when none of its children is a loop. -/
def LoopB.isInnermost (l : LoopB) : Bool :=
  l._block_list.all (fun b => match b with
    | .instr _ _ => true
    | .loop _ => false)

mutual
/-- The instructions of a block, in order. -/
def Block.getAllInstr : Block → List InstrPtr
  | .instr _ i => [i]
  | .loop l => LoopB.getAllInstr l
/-- Modelled from the spec: `LoopB::getAllInstr` is not among the sources.  It lists the
instructions of the loop and of the loops nested in it, in order. -/
def LoopB.getAllInstr : LoopB → List InstrPtr
  | .mk _ _ l _ => getAllInstrList l
/-- The instructions of a list of blocks, in order. -/
def getAllInstrList : List Block → List InstrPtr
  | [] => []
  | b :: bs => Block.getAllInstr b ++ getAllInstrList bs
end

/-- Modelled from the spec: `LoopB::getAllBases` is not among the sources.  It gives the
bases of the array operands of the instructions of the loop. -/
def LoopB.getAllBases (l : LoopB) : List BasePtr :=
  l.getAllInstr.flatMap (fun i => (i.operand.filter (fun v => !bh_is_constant v)).map
    (fun v => v.base))

mutual
/-- Modelled from the spec: `Block::replaceInstr` is not among the sources.  An instruction
block that holds `subject` holds `replacement` afterwards; a loop passes the call on. -/
def Block.replaceInstr (subject : InstrPtr) (replacement : bh_instruction) : Block → Block
  | .instr r i => if i = subject then .instr r replacement else .instr r i
  | .loop l => .loop (LoopB.replaceInstr subject replacement l)
/-- Modelled from the spec: `LoopB::replaceInstr` is not among the sources.  It replaces the
instruction `subject` by `replacement` wherever it stands in the loop or in a loop nested
in it, and changes nothing else. -/
def LoopB.replaceInstr (subject : InstrPtr) (replacement : bh_instruction) : LoopB → LoopB
  | .mk r s l sw => .mk r s (replaceInstrList subject replacement l) sw
/-- The replacement in a list of blocks. -/
def replaceInstrList (subject : InstrPtr) (replacement : bh_instruction) :
    List Block → List Block
  | [] => []
  | b :: bs => Block.replaceInstr subject replacement b
      :: replaceInstrList subject replacement bs
end

mutual
/-- The blocks with every instruction `i` replaced by `f i`. -/
def Block.mapInstr (f : bh_instruction → bh_instruction) : Block → Block
  | .instr r i => .instr r (f i)
  | .loop l => .loop (LoopB.mapInstr f l)
/-- The loop with every instruction `i` of it and of the loops nested in it replaced by
`f i`; ranks, sizes, the order of the children and the sweep sets are kept. -/
def LoopB.mapInstr (f : bh_instruction → bh_instruction) : LoopB → LoopB
  | .mk r s l sw => .mk r s (mapInstrList f l) sw
/-- The map over a list of blocks. -/
def mapInstrList (f : bh_instruction → bh_instruction) : List Block → List Block
  | [] => []
  | b :: bs => Block.mapInstr f b :: mapInstrList f bs
end

mutual
/-- The nesting depth of a block: 0 for an instruction. -/
def Block.depth : Block → Nat
  | .instr _ _ => 0
  | .loop l => LoopB.depth l
/-- The nesting depth of a loop: one more than the deepest child. -/
def LoopB.depth : LoopB → Nat
  | .mk _ _ l _ => depthList l + 1
/-- The depth of the deepest block of a list. -/
def depthList : List Block → Nat
  | [] => 0
  | b :: bs => max (Block.depth b) (depthList bs)
end

/-- Modelled from the spec: the class `BaseDB` of `jitk/base_db.hpp` is not among the
sources.  It numbers the bases in the order of their insertion (`_vec`, the id of a base is
its place) and keeps four sets of bases: the temporary arrays, the scalar-replaced bases
and the bases guarded by `omp atomic` and by `omp critical`. -/
structure BaseDB where
  _vec : List BasePtr
  _tmps : Finset BasePtr
  _scalar_replacements : Finset BasePtr
  _omp_atomic : Finset BasePtr
  _omp_critical : Finset BasePtr
  deriving DecidableEq

/-- The expression `base_ids[base]`: the id of a base. -/
def BaseDB.id (db : BaseDB) (base : BasePtr) : Nat := db._vec.indexOf base

/-- The member function `getBases`. -/
def BaseDB.getBases (db : BaseDB) : List BasePtr := db._vec

/-- The member function `isTmp`. -/
def BaseDB.isTmp (db : BaseDB) (base : BasePtr) : Bool := decide (base ∈ db._tmps)

/-- The member function `isScalarReplaced`. -/
def BaseDB.isScalarReplaced (db : BaseDB) (base : BasePtr) : Bool :=
  decide (base ∈ db._scalar_replacements)

/-- The member function `isOpenmpAtomic`. -/
def BaseDB.isOpenmpAtomic (db : BaseDB) (base : BasePtr) : Bool :=
  decide (base ∈ db._omp_atomic)

/-- The member function `isOpenmpCritical`. -/
def BaseDB.isOpenmpCritical (db : BaseDB) (base : BasePtr) : Bool :=
  decide (base ∈ db._omp_critical)

/-- The member function `insertScalarReplacement`. -/
def BaseDB.insertScalarReplacement (db : BaseDB) (base : BasePtr) : BaseDB :=
  ⟨db._vec, db._tmps, insert base db._scalar_replacements, db._omp_atomic, db._omp_critical⟩

/-- The member function `eraseScalarReplacement`. -/
def BaseDB.eraseScalarReplacement (db : BaseDB) (base : BasePtr) : BaseDB :=
  ⟨db._vec, db._tmps, db._scalar_replacements.erase base, db._omp_atomic, db._omp_critical⟩

/-- The member function `insertOpenmpAtomic`. -/
def BaseDB.insertOpenmpAtomic (db : BaseDB) (base : BasePtr) : BaseDB :=
  ⟨db._vec, db._tmps, db._scalar_replacements, insert base db._omp_atomic, db._omp_critical⟩

/-- The member function `insertOpenmpCritical`. -/
def BaseDB.insertOpenmpCritical (db : BaseDB) (base : BasePtr) : BaseDB :=
  ⟨db._vec, db._tmps, db._scalar_replacements, db._omp_atomic, insert base db._omp_critical⟩

/-- Modelled from the spec: the opcode constants and the opcode tables
`bh_opcode_is_reduction` and `has_reduce_identity` are declared in headers that are not
among the sources, and so is `LoopB::getLocalTemps`.  They are parameters of the
embedding, next to the tables of `OpcodeInfo`. -/
structure CodegenEnv where
  ops : OpcodeInfo
  bh_opcode_is_reduction : Nat → Bool
  has_reduce_identity : Nat → Bool
  getLocalTemps : LoopB → Finset BasePtr
  BH_IDENTITY : Nat
  BH_ADD_REDUCE : Nat
  BH_MULTIPLY_REDUCE : Nat
  BH_BITWISE_AND_REDUCE : Nat
  BH_BITWISE_OR_REDUCE : Nat
  BH_BITWISE_XOR_REDUCE : Nat
  BH_MAXIMUM_REDUCE : Nat
  BH_MINIMUM_REDUCE : Nat

/-- The two keys of the `ConfigParser` that the code generator reads with
`defaultGet<bool>(key, false)`. -/
structure ConfigParser where
  compiler_openmp : Bool
  compiler_openmp_simd : Bool

/-- A clause of the line `#pragma omp ...`: one piece appended to the stream `ss` of
`write_openmp_header`.  A reduction clause is `reduction(<symbol>:s<id>)` or
`reduction(<symbol>:t<id>)`; `symbol` is the result of `openmp_reduce_symbol`, `none` for
`NULL`. -/
inductive Clause where
  | parallel_for
  | simd
  | reduction (symbol : Option String) (scalar : Bool) (id : Nat)
  deriving DecidableEq

/-- The pieces of text that `write_loop_block` and `write_openmp_header` write. -/
inductive Tok where
  /-- The call `spaces(out, num)`. -/
  | spaces (num : Nat)
  /-- The line `<type> s<id>;` of a scalar replacement. -/
  | scalar_decl (base : BasePtr) (id : Nat)
  /-- The line `s<id> = <identity>;`, or `t<id> = <identity>;` for a temporary array. -/
  | seed (tmp : Bool) (id : Nat) (opcode : Nat) (base : BasePtr)
  /-- The line that opens the peeled iteration. -/
  | peel_open
  /-- The line `uint64_t i<rank> = 0;`. -/
  | iter_decl (rank : Nat)
  /-- The line `<type> t<id>;` of a temporary array. -/
  | tmp_decl (base : BasePtr) (id : Nat)
  /-- An empty line. -/
  | endl
  /-- The text of `write_instr(base_ids, instr, out)`. -/
  | instr (base_ids : BaseDB) (instr : bh_instruction)
  /-- The line of a closing brace. -/
  | close
  /-- The line `#pragma omp` followed by the clauses. -/
  | pragma_omp (clauses : List Clause)
  /-- The header `for(uint64_t i<rank>=<start>; i<rank> < <size>; ++i<rank>)`. -/
  | for_header (rank : Nat) (start : Nat) (size : Int)
  /-- The line `#pragma omp atomic`. -/
  | omp_atomic
  /-- The line `#pragma omp critical`. -/
  | omp_critical
  /-- The line `a<id><subscription> = s<id>;`. -/
  | store_back (id : Nat) (view : bh_view)
  deriving DecidableEq

/-- Modelled from the spec: the functions `write_type`, `write_reduce_identity`,
`write_instr` and `write_array_subscription` and the field `type` of a base are not among
the sources.  They are parameters of the rendering. -/
structure Writers where
  base_type : BasePtr → Nat
  write_type : Nat → String
  write_reduce_identity : Nat → Nat → String
  write_instr : BaseDB → bh_instruction → String
  write_array_subscription : bh_view → String

/-- The text of a clause. -/
def Clause.render : Clause → String
  | .parallel_for => " parallel for"
  | .simd => " simd"
  | .reduction symbol scalar id =>
    " reduction(" ++ symbol.getD "" ++ ":" ++ (if scalar then "s" else "t") ++ toString id ++ ")"

/-- The text of a token. -/
def Tok.render (w : Writers) : Tok → String
  | .spaces num => String.mk (List.replicate num ' ')
  | .scalar_decl base id => w.write_type (w.base_type base) ++ " s" ++ toString id ++ ";\n"
  | .seed tmp id opcode base =>
    (if tmp then "t" else "s") ++ toString id ++ " = "
      ++ w.write_reduce_identity opcode (w.base_type base) ++ ";\n"
  | .peel_open => "\x7b // Peeled loop, 1. sweep iteration \n"
  | .iter_decl rank => "uint64_t i" ++ toString rank ++ " = 0;\n"
  | .tmp_decl base id => w.write_type (w.base_type base) ++ " t" ++ toString id ++ ";\n"
  | .endl => "\n"
  | .instr base_ids i => w.write_instr base_ids i
  | .close => "\x7d\n"
  | .pragma_omp clauses => "#pragma omp" ++ String.join (clauses.map Clause.render) ++ "\n"
  | .for_header rank start size =>
    "for(uint64_t i" ++ toString rank ++ "=" ++ toString start ++ "; i" ++ toString rank
      ++ " < " ++ toString size ++ "; ++i" ++ toString rank ++ ") \x7b\n"
  | .omp_atomic => "#pragma omp atomic\n"
  | .omp_critical => "#pragma omp critical\n"
  | .store_back id view =>
    "a" ++ toString id ++ w.write_array_subscription view ++ " = s" ++ toString id ++ ";\n"

/-- The text of a list of tokens. -/
def render (w : Writers) (out : List Tok) : String := String.join (out.map (Tok.render w))

/-- The function `openmp_reduce_symbol`; `none` is `NULL`. -/
def openmp_reduce_symbol (env : CodegenEnv) (opcode : Nat) : Option String :=
  if opcode = env.BH_ADD_REDUCE then some "+"
  else if opcode = env.BH_MULTIPLY_REDUCE then some "*"
  else if opcode = env.BH_BITWISE_AND_REDUCE then some "&"
  else if opcode = env.BH_BITWISE_OR_REDUCE then some "|"
  else if opcode = env.BH_BITWISE_XOR_REDUCE then some "^"
  else if opcode = env.BH_MAXIMUM_REDUCE then some "max"
  else if opcode = env.BH_MINIMUM_REDUCE then some "min"
  else none

/-- The function `openmp_reduce_compatible`. -/
def openmp_reduce_compatible (env : CodegenEnv) (opcode : Nat) : Bool :=
  (openmp_reduce_symbol env opcode).isSome

/-- The function `openmp_compatible`. -/
def openmp_compatible (env : CodegenEnv) (block : LoopB) : Bool :=
  block._sweeps.all (fun instr => env.bh_opcode_is_reduction instr.opcode)

/-- The function `simd_compatible`. -/
def simd_compatible (env : CodegenEnv) (block : LoopB) (base_ids : BaseDB) : Bool :=
  block._sweeps.all (fun instr => openmp_reduce_compatible env instr.opcode)
    && block.getAllBases.all
      (fun b => !(base_ids.isOpenmpAtomic b || base_ids.isOpenmpCritical b))

/-- The function `openmp_atomic_compatible`. -/
def openmp_atomic_compatible (env : CodegenEnv) (opcode : Nat) : Bool :=
  opcode = env.BH_ADD_REDUCE || opcode = env.BH_MULTIPLY_REDUCE
    || opcode = env.BH_BITWISE_AND_REDUCE || opcode = env.BH_BITWISE_OR_REDUCE
    || opcode = env.BH_BITWISE_XOR_REDUCE

/-- The loop over `block._sweeps` in the `parallel for` branch of `write_openmp_header`:
a sweep joins `openmp_reductions`, or its output base is marked atomic or critical. -/
def protect_sweeps (env : CodegenEnv) :
    List InstrPtr → BaseDB → List InstrPtr → Except Failure (BaseDB × List InstrPtr)
  | [], base_ids, openmp_reductions => .ok (base_ids, openmp_reductions)
  | instr :: rest, base_ids, openmp_reductions =>
    if env.ops.bh_noperands instr.opcode ≠ 3 then
      .error (.assertion "bh_noperands(instr->opcode) == 3")
    else
      let base := instr.operand0.base
      if openmp_reduce_compatible env instr.opcode
          && (base_ids.isScalarReplaced base || base_ids.isTmp base) then
        protect_sweeps env rest base_ids (openmp_reductions ++ [instr])
      else if openmp_atomic_compatible env instr.opcode then
        protect_sweeps env rest (base_ids.insertOpenmpAtomic instr.operand0.base)
          openmp_reductions
      else
        protect_sweeps env rest (base_ids.insertOpenmpCritical instr.operand0.base)
          openmp_reductions

/-- The clause written for one entry of `openmp_reductions`. -/
def reduction_clause (env : CodegenEnv) (base_ids : BaseDB) (instr : InstrPtr) : Clause :=
  .reduction (openmp_reduce_symbol env instr.opcode)
    (base_ids.isScalarReplaced instr.operand0.base) (base_ids.id instr.operand0.base)

/-- The loop `for (const InstrPtr instr: openmp_reductions)` of `write_openmp_header`. -/
def write_reductions (env : CodegenEnv) (base_ids : BaseDB) :
    List InstrPtr → Except Failure (List Clause)
  | [] => .ok []
  | instr :: rest =>
    if env.ops.bh_noperands instr.opcode ≠ 3 then
      .error (.assertion "bh_noperands(instr->opcode) == 3")
    else
      match write_reductions env base_ids rest with
      | .error e => .error e
      | .ok clauses => .ok (reduction_clause env base_ids instr :: clauses)

/-- The `parallel for` part of `write_openmp_header` (the first `if`): the new state of
`base_ids`, the text appended to `ss` and the list `openmp_reductions`. -/
def parallel_part (env : CodegenEnv) (block : LoopB) (base_ids : BaseDB) :
    Except Failure (BaseDB × List Clause × List InstrPtr) :=
  if block.rank = 0 ∧ openmp_compatible env block = true then
    match protect_sweeps env block._sweeps base_ids [] with
    | .error e => .error e
    | .ok (base_ids1, openmp_reductions) => .ok (base_ids1, [.parallel_for], openmp_reductions)
  else .ok (base_ids, [], [])

/-- The `simd` part of `write_openmp_header` (the second `if`), on the text of `ss` and the
list `openmp_reductions`. -/
def simd_part (env : CodegenEnv) (block : LoopB) (base_ids : BaseDB) (enable_simd : Bool)
    (ss : List Clause) (openmp_reductions : List InstrPtr) : List Clause × List InstrPtr :=
  if enable_simd = true ∧ block.isInnermost = true ∧ simd_compatible env block base_ids = true then
    (ss ++ [.simd],
      if block.rank > 0 then openmp_reductions ++ block._sweeps else openmp_reductions)
  else (ss, openmp_reductions)

/-- The function `write_openmp_header`: the new state of `base_ids` and the text written
to `out`. -/
def write_openmp_header (env : CodegenEnv) (block : LoopB) (base_ids : BaseDB)
    (config : ConfigParser) : Except Failure (BaseDB × List Tok) :=
  if config.compiler_openmp = false then .ok (base_ids, [])
  else
    let enable_simd := config.compiler_openmp_simd
    match parallel_part env block base_ids with
    | .error e => .error e
    | .ok (base_ids1, ss1, reductions1) =>
      let r := simd_part env block base_ids1 enable_simd ss1 reductions1
      match write_reductions env base_ids1 r.2 with
      | .error e => .error e
      | .ok clauses =>
        let ss := r.1 ++ clauses
        if ss ≠ [] then .ok (base_ids1, [.pragma_omp ss, .spaces (4 + block.rank * 4)])
        else .ok (base_ids1, [])

/-- The function `sweeping_innermost_axis`. -/
def sweeping_innermost_axis (env : CodegenEnv) (instr : InstrPtr) : Except Failure Bool :=
  if env.ops.bh_opcode_is_sweep instr.opcode = false then .ok false
  else if env.ops.bh_noperands instr.opcode ≠ 3 then
    .error (.assertion "bh_noperands(instr->opcode) == 3")
  else .ok (decide (sweep_axis env.ops instr = (instr.operand1.ndim : Int) - 1))

/-- The first loop of `write_loop_block`: the outputs of the reductions over the innermost
axis are scalar replaced.  The result is the new state of `base_ids`, the text written and
the vector `scalar_replacements`. -/
def scalar_replace (env : CodegenEnv) (rank : Nat) :
    List InstrPtr → BaseDB → Except Failure (BaseDB × List Tok × List bh_view)
  | [], base_ids => .ok (base_ids, [], [])
  | instr :: rest, base_ids =>
    match (if env.bh_opcode_is_reduction instr.opcode = true then
        sweeping_innermost_axis env instr else .ok false) with
    | .error e => .error e
    | .ok false => scalar_replace env rank rest base_ids
    | .ok true =>
      let base := instr.operand0.base
      if base_ids.isTmp base = true then scalar_replace env rank rest base_ids
      else
        match scalar_replace env rank rest (base_ids.insertScalarReplacement base) with
        | .error e => .error e
        | .ok (base_ids1, out, scalar_replacements) =>
          .ok (base_ids1,
            [Tok.scalar_decl base (base_ids.id base), Tok.spaces (4 + rank * 4)] ++ out,
            instr.operand0 :: scalar_replacements)

/-- The value of `need_to_peel` after the second loop of `write_loop_block`. -/
def need_to_peel (env : CodegenEnv) (base_ids : BaseDB) (sweeps : List InstrPtr) : Bool :=
  sweeps.any (fun instr =>
    !(env.has_reduce_identity instr.opcode
      && (base_ids.isScalarReplaced instr.operand0.base || base_ids.isTmp instr.operand0.base)))

/-- The text of the loop under `if (not need_to_peel)`: one initial value for each sweep. -/
def write_seeds (base_ids : BaseDB) (rank : Nat) (sweeps : List InstrPtr) : List Tok :=
  sweeps.flatMap (fun instr =>
    [Tok.seed (base_ids.isTmp instr.operand0.base) (base_ids.id instr.operand0.base)
        instr.opcode instr.operand0.base,
      Tok.spaces (4 + rank * 4)])

/-- The instruction `sweep_instr` that takes the place of the sweep `instr` in the peeled
iteration.  The fields of the default-constructed `bh_instruction` that the code does not
assign (the third operand, the constant) are kept as unset. -/
def peel_instr (env : CodegenEnv) (instr : InstrPtr) : bh_instruction :=
  let operand1 := instr.operand1
  let operand0 := instr.operand0
  ⟨env.BH_IDENTITY,
   [if env.bh_opcode_is_reduction instr.opcode = true ∧ operand1.ndim > 1 then
      operand0.insert_dim instr.constant 1 0 else operand0,
    operand1, bh_view.unset],
   0⟩

/-- The block `peeled_block`: the copy of `block` in which every sweep has been replaced. -/
def peeled_block (env : CodegenEnv) (block : LoopB) : LoopB :=
  block._sweeps.foldl (fun peeled instr => peeled.replaceInstr instr (peel_instr env instr))
    block

/-- What the replacements of `peeled_block` do to one instruction: the replacements for
the sweeps are applied one after the other. -/
def peel_subst (env : CodegenEnv) : List InstrPtr → bh_instruction → bh_instruction
  | [], i => i
  | s :: rest, i => peel_subst env rest (if i = s then peel_instr env s else i)

/-- The declarations of the temporary arrays: the loop over `base_ids.getBases()`. -/
def write_tmp_decls (base_ids : BaseDB) (local_tmps : Finset BasePtr) (rank : Nat) :
    List Tok :=
  base_ids.getBases.flatMap (fun base =>
    if base ∈ local_tmps then [Tok.spaces (8 + rank * 4), Tok.tmp_decl base (base_ids.id base)]
    else [])

/-- The loop over `peeled_block._block_list`; `write` stands for the recursive call of
`write_loop_block`. -/
def write_peeled_list (write : BaseDB → LoopB → Except Failure (BaseDB × List Tok)) :
    List Block → BaseDB → Except Failure (BaseDB × List Tok)
  | [], base_ids => .ok (base_ids, [])
  | .instr rank instr :: bs, base_ids =>
    match write_peeled_list write bs base_ids with
    | .error e => .error e
    | .ok (base_ids1, out) =>
      .ok (base_ids1, [Tok.spaces (4 + rank * 4), Tok.instr base_ids instr] ++ out)
  | .loop l :: bs, base_ids =>
    match write base_ids l with
    | .error e => .error e
    | .ok (base_ids1, out1) =>
      match write_peeled_list write bs base_ids1 with
      | .error e => .error e
      | .ok (base_ids2, out2) => .ok (base_ids2, out1 ++ out2)

/-- The text of the block under `if (block._sweeps.size() > 0 and need_to_peel)`. -/
def write_peeled (env : CodegenEnv)
    (write : BaseDB → LoopB → Except Failure (BaseDB × List Tok))
    (block : LoopB) (base_ids : BaseDB) : Except Failure (BaseDB × List Tok) :=
  match write_peeled_list write (peeled_block env block)._block_list base_ids with
  | .error e => .error e
  | .ok (base_ids1, out) =>
    .ok (base_ids1,
      [Tok.peel_open, Tok.spaces (8 + block.rank * 4), Tok.iter_decl block.rank]
        ++ write_tmp_decls base_ids (env.getLocalTemps block) block.rank
        ++ [Tok.endl] ++ out
        ++ [Tok.spaces (4 + block.rank * 4), Tok.close, Tok.spaces (4 + block.rank * 4)])

/-- The text written for an instruction leaf of the loop body: the guard, if any, and the
instruction. -/
def write_leaf (env : CodegenEnv) (base_ids : BaseDB) (rank : Nat) (instr : InstrPtr) :
    List Tok :=
  (if env.ops.bh_noperands instr.opcode > 0 ∧ env.ops.bh_opcode_is_system instr.opcode = false then
    (if base_ids.isOpenmpAtomic instr.operand0.base = true then
      [Tok.spaces (4 + rank * 4), Tok.omp_atomic]
    else if base_ids.isOpenmpCritical instr.operand0.base = true then
      [Tok.spaces (4 + rank * 4), Tok.omp_critical]
    else [])
  else [])
    ++ [Tok.spaces (4 + rank * 4), Tok.instr base_ids instr]

/-- The loop over `block._block_list` that writes the body of the for-loop; `write` stands
for the recursive call of `write_loop_block`. -/
def write_body_list (env : CodegenEnv)
    (write : BaseDB → LoopB → Except Failure (BaseDB × List Tok)) :
    List Block → BaseDB → Except Failure (BaseDB × List Tok)
  | [], base_ids => .ok (base_ids, [])
  | .instr rank instr :: bs, base_ids =>
    match write_body_list env write bs base_ids with
    | .error e => .error e
    | .ok (base_ids1, out) => .ok (base_ids1, write_leaf env base_ids rank instr ++ out)
  | .loop l :: bs, base_ids =>
    match write base_ids l with
    | .error e => .error e
    | .ok (base_ids1, out1) =>
      match write_body_list env write bs base_ids1 with
      | .error e => .error e
      | .ok (base_ids2, out2) => .ok (base_ids2, out1 ++ out2)

/-- The last loop of `write_loop_block`: the scalars are stored back and the bases are no
longer scalar replaced. -/
def store_back (rank : Nat) : List bh_view → BaseDB → BaseDB × List Tok
  | [], base_ids => (base_ids, [])
  | view :: rest, base_ids =>
    let r := store_back rank rest (base_ids.eraseScalarReplacement view.base)
    (r.1, [Tok.spaces (4 + rank * 4), Tok.store_back (base_ids.id view.base) view] ++ r.2)

/-- The text that one call of `write_loop_block` writes, in its parts. -/
structure LoopText where
  decls : List Tok
  seeds : List Tok
  peeled : List Tok
  header : List Tok
  start : Nat
  tmp_decls : List Tok
  body : List Tok
  store : List Tok

/-- The parts in the order in which they are written, for the loop of the given rank and
size. -/
def LoopText.out (rank : Nat) (size : Int) (t : LoopText) : List Tok :=
  [Tok.spaces (4 + rank * 4)] ++ t.decls ++ t.seeds ++ t.peeled ++ t.header
    ++ [Tok.for_header rank t.start size] ++ t.tmp_decls ++ t.body
    ++ [Tok.spaces (4 + rank * 4), Tok.close] ++ t.store

/-- The body of `write_loop_block`; `write` stands for its recursive calls. -/
def write_loop_parts (env : CodegenEnv) (config : ConfigParser)
    (write : BaseDB → LoopB → Except Failure (BaseDB × List Tok))
    (base_ids : BaseDB) (block : LoopB) : Except Failure (BaseDB × LoopText) :=
  let local_tmps := env.getLocalTemps block
  match scalar_replace env block.rank block._sweeps base_ids with
  | .error e => .error e
  | .ok (base_ids1, decls, scalar_replacements) =>
    let need_to_peel := need_to_peel env base_ids1 block._sweeps
    let seeds := if need_to_peel = false then write_seeds base_ids1 block.rank block._sweeps else []
    let peel : Bool := decide (block._sweeps.length > 0) && need_to_peel
    match (if peel = true then write_peeled env write block base_ids1
        else .ok (base_ids1, [])) with
    | .error e => .error e
    | .ok (base_ids2, peeled) =>
      let for_loop_size := if peel = true then block.size - 1 else block.size
      match (if for_loop_size > 1 then write_openmp_header env block base_ids2 config
          else .ok (base_ids2, [])) with
      | .error e => .error e
      | .ok (base_ids3, header) =>
        let tmp_decls := write_tmp_decls base_ids3 local_tmps block.rank
        match write_body_list env write block._block_list base_ids3 with
        | .error e => .error e
        | .ok (base_ids4, body) =>
          let r := store_back block.rank scalar_replacements base_ids4
          .ok (r.1, ⟨decls, seeds, peeled, header, if peel = true then 1 else 0, tmp_decls,
            body, r.2⟩)

/-- The function `write_loop_block`.  The recursion follows the nesting of the loops;
`fuel` bounds its depth, and a loop nested deeper than that ends the call. -/
def write_loop_block (env : CodegenEnv) (config : ConfigParser) :
    Nat → BaseDB → LoopB → Except Failure (BaseDB × List Tok)
  | 0, _, _ => .error (.undefined "loops nested deeper than the fuel")
  | fuel + 1, base_ids, block =>
    match write_loop_parts env config (write_loop_block env config fuel) base_ids block with
    | .error e => .error e
    | .ok (base_ids1, t) => .ok (base_ids1, t.out block.rank block.size)

/-- The sweeps whose output `write_loop_block` scalar replaces: the reductions over the
innermost axis of their input whose output base is not a temporary array. -/
def scalar_replaced (env : CodegenEnv) (base_ids : BaseDB) (instr : InstrPtr) : Bool :=
  env.bh_opcode_is_reduction instr.opcode && env.ops.bh_opcode_is_sweep instr.opcode
    && decide (sweep_axis env.ops instr = (instr.operand1.ndim : Int) - 1)
    && !base_ids.isTmp instr.operand0.base

/-- The sweeps that get a reduction clause under `parallel for`: the opcode has an OpenMP
reduction symbol and the output base is scalar replaced or a temporary array. -/
def reduction_class (env : CodegenEnv) (base_ids : BaseDB) (instr : InstrPtr) : Bool :=
  openmp_reduce_compatible env instr.opcode
    && (base_ids.isScalarReplaced instr.operand0.base || base_ids.isTmp instr.operand0.base)

/-- The sweeps whose output base is marked atomic under `parallel for`: no reduction
clause, and the opcode supports the atomic guard. -/
def atomic_class (env : CodegenEnv) (base_ids : BaseDB) (instr : InstrPtr) : Bool :=
  !reduction_class env base_ids instr && openmp_atomic_compatible env instr.opcode

/-- The sweeps whose output base is marked critical under `parallel for`: all the others. -/
def critical_class (env : CodegenEnv) (base_ids : BaseDB) (instr : InstrPtr) : Bool :=
  !reduction_class env base_ids instr && !openmp_atomic_compatible env instr.opcode

/-- The state of `base_ids` after the bases in `atomic` and in `critical` have been marked. -/
def BaseDB.marked (db : BaseDB) (atomic critical : List BasePtr) : BaseDB :=
  ⟨db._vec, db._tmps, db._scalar_replacements, db._omp_atomic ∪ atomic.toFinset,
    db._omp_critical ∪ critical.toFinset⟩

/-- Whether a clause is a reduction clause. -/
def Clause.isReduction : Clause → Bool
  | .reduction _ _ _ => true
  | _ => false

/-- The text that the peeled iteration holds for a child of the block that is an
instruction. -/
def peeled_leaf (base_ids : BaseDB) : Block → List Tok
  | .instr rank i => [Tok.spaces (4 + rank * 4), Tok.instr base_ids i]
  | .loop _ => []

mutual
/-- The output bases of the sweeps of a block. -/
def Block.sweep_bases : Block → List BasePtr
  | .instr _ _ => []
  | .loop l => LoopB.sweep_bases l
/-- The output bases of the sweeps of a loop and of the loops nested in it. -/
def LoopB.sweep_bases : LoopB → List BasePtr
  | .mk _ _ l sw => sw.map (fun s => s.operand0.base) ++ sweep_bases_list l
/-- The output bases of the sweeps of the loops in a list of blocks. -/
def sweep_bases_list : List Block → List BasePtr
  | [] => []
  | b :: bs => Block.sweep_bases b ++ sweep_bases_list bs
end

mutual
/-- Every loop in the block has a rank above 0. -/
def Block.ranks_pos : Block → Bool
  | .instr _ _ => true
  | .loop l => LoopB.ranks_pos l
/-- The loop and the loops nested in it have a rank above 0. -/
def LoopB.ranks_pos : LoopB → Bool
  | .mk r _ l _ => decide (r > 0) && ranks_pos_list l
/-- Every loop in a list of blocks has a rank above 0. -/
def ranks_pos_list : List Block → Bool
  | [] => true
  | b :: bs => Block.ranks_pos b && ranks_pos_list bs
end

/-- No base is marked atomic or critical. -/
def BaseDB.unmarked (db : BaseDB) : Prop := db._omp_atomic = ∅ ∧ db._omp_critical = ∅

/-- The text holds neither `#pragma omp atomic` nor `#pragma omp critical`. -/
def unguarded (out : List Tok) : Prop := Tok.omp_atomic ∉ out ∧ Tok.omp_critical ∉ out

/-- What a call of `write_loop_block` may change in `base_ids`, as far as the numbering,
the temporary arrays and the scalar replacements go: nothing, except that a base may stop
being scalar replaced. -/
structure Frame (db db2 : BaseDB) : Prop where
  vec : db2._vec = db._vec
  tmps : db2._tmps = db._tmps
  scalar : db2._scalar_replacements ⊆ db._scalar_replacements

mutual
/-- Every sweep of the block and of the loops nested in it has three operands, which is
what the assertions of the code generator check. -/
def Block.sweeps_ternary (env : CodegenEnv) : Block → Bool
  | .instr _ _ => true
  | .loop l => LoopB.sweeps_ternary env l
/-- Every sweep of the loop and of the loops nested in it has three operands. -/
def LoopB.sweeps_ternary (env : CodegenEnv) : LoopB → Bool
  | .mk _ _ l sw =>
    sw.all (fun instr => env.ops.bh_noperands instr.opcode = 3) && sweeps_ternary_list env l
/-- Every sweep in a list of blocks has three operands. -/
def sweeps_ternary_list (env : CodegenEnv) : List Block → Bool
  | [] => true
  | b :: bs => Block.sweeps_ternary env b && sweeps_ternary_list env bs
end

/-- An opcode table for the test inputs: 0 is `BH_NONE` and 3 is `BH_FREE` (system), 1 is an
element-wise addition, 4 is `BH_IDENTITY`; 10 to 16 are the reductions with the OpenMP
symbols `+ * & | ^ max min`, 17 is a reduction without a symbol and 18 is a sweep that is
not a reduction.  The reductions 10 to 14 have an identity element. -/
def ex_codegen : CodegenEnv where
  ops := ⟨fun o => if o = 0 then 0 else if o = 3 then 1 else if o = 4 then 2 else 3,
    fun o => o = 0 || o = 3, fun o => decide (10 ≤ o), 16⟩
  bh_opcode_is_reduction := fun o => decide (10 ≤ o) && decide (o ≤ 17)
  has_reduce_identity := fun o => decide (10 ≤ o) && decide (o ≤ 14)
  getLocalTemps := fun _ => ∅
  BH_IDENTITY := 4
  BH_ADD_REDUCE := 10
  BH_MULTIPLY_REDUCE := 11
  BH_BITWISE_AND_REDUCE := 12
  BH_BITWISE_OR_REDUCE := 13
  BH_BITWISE_XOR_REDUCE := 14
  BH_MAXIMUM_REDUCE := 15
  BH_MINIMUM_REDUCE := 16

/-- The configuration with `compiler_openmp` and `compiler_openmp_simd` switched on. -/
def ex_config : ConfigParser := ⟨true, true⟩

/-- The reduction with the given opcode of the vector of `n` elements on base 0 into the
one element of base 1. -/
def ex_reduce (opcode : Nat) (n : Int) : bh_instruction :=
  ⟨opcode, [⟨some 1, 0, [1], [1]⟩, ⟨some 0, 0, [n], [1]⟩, bh_view.unset], 0⟩

/-- The kernel of the reduction `ex_reduce opcode n`: one loop of rank 0 and size `n`. -/
def ex_reduce_block (opcode : Nat) (n : Int) : LoopB :=
  .mk 0 n [.instr 1 (ex_reduce opcode n)] [ex_reduce opcode n]

/-- The bases 0, 1 and 2 numbered in this order, no flag set. -/
def ex_base_ids : BaseDB := ⟨[some 0, some 1, some 2], ∅, ∅, ∅, ∅⟩

/-- The sum along axis 0 of the 4×5 matrix on base 0 into the 5 elements of base 1. -/
def ex_column_sum : bh_instruction :=
  ⟨10, [⟨some 1, 0, [5], [1]⟩, ⟨some 0, 0, [4, 5], [5, 1]⟩, bh_view.unset], 0⟩

/-- The kernel of `ex_column_sum`: the loop of rank 0 sweeps, the loop of rank 1 holds the
instruction. -/
def ex_column_block : LoopB :=
  .mk 0 4 [.loop (.mk 1 5 [.instr 2 ex_column_sum] [])] [ex_column_sum]

/-- The sum along axis 1 of the 4×5 matrix on base 0 into the 4 elements of base 1. -/
def ex_row_sum : bh_instruction :=
  ⟨10, [⟨some 1, 0, [4], [1]⟩, ⟨some 0, 0, [4, 5], [5, 1]⟩, bh_view.unset], 1⟩

/-- The kernel of `ex_row_sum`: the loop of rank 1 sweeps and holds the instruction. -/
def ex_row_block : LoopB :=
  .mk 0 4 [.loop (.mk 1 5 [.instr 2 ex_row_sum] [ex_row_sum])] []

/-- Three sweeps of one loop of rank 0: a sum into base 1, a product along axis 0 into
base 2 and a maximum along axis 0 into base 0. -/
def ex_mixed_sweeps : List bh_instruction :=
  [ex_reduce 10 4,
   ⟨11, [⟨some 2, 0, [5], [1]⟩, ⟨some 0, 0, [4, 5], [5, 1]⟩, bh_view.unset], 0⟩,
   ⟨15, [⟨some 0, 0, [5], [1]⟩, ⟨some 2, 0, [4, 5], [5, 1]⟩, bh_view.unset], 0⟩]

/-- A loop of rank 0 with the sweeps `ex_mixed_sweeps`; the two sweeps along axis 0 stand in
a loop of rank 1. -/
def ex_mixed_block : LoopB :=
  .mk 0 4 [.instr 1 (ex_reduce 10 4),
      .loop (.mk 1 5 [.instr 2 (ex_mixed_sweeps.getD 1 (ex_reduce 10 4)),
        .instr 2 (ex_mixed_sweeps.getD 2 (ex_reduce 10 4))] [])]
    ex_mixed_sweeps

/-- The bases 0, 1 and 2 with base 1 scalar replaced. -/
def ex_base_ids_scalar : BaseDB := ex_base_ids.insertScalarReplacement (some 1)

/-- The opcode table `ex_codegen` with an identity element for each of the reductions 10 to
16, those with an OpenMP symbol. -/
def ex_codegen_identities : CodegenEnv where
  ops := ex_codegen.ops
  bh_opcode_is_reduction := ex_codegen.bh_opcode_is_reduction
  has_reduce_identity := fun o => decide (10 ≤ o) && decide (o ≤ 16)
  getLocalTemps := ex_codegen.getLocalTemps
  BH_IDENTITY := 4
  BH_ADD_REDUCE := 10
  BH_MULTIPLY_REDUCE := 11
  BH_BITWISE_AND_REDUCE := 12
  BH_BITWISE_OR_REDUCE := 13
  BH_BITWISE_XOR_REDUCE := 14
  BH_MAXIMUM_REDUCE := 15
  BH_MINIMUM_REDUCE := 16

/-- The bases 0, 1 and 2 numbered in this order, base 1 being a temporary array. -/
def ex_base_ids_tmp : BaseDB := ⟨[some 0, some 1, some 2], {some 1}, ∅, ∅, ∅⟩

/-- A rendering for the test inputs: every base holds `double`, the identity of an opcode
is written as `0`, instructions and subscriptions are left out. -/
def ex_writers : Writers :=
  ⟨fun _ => 0, fun _ => "double", fun _ _ => "0", fun _ _ => "...;\n", fun _ => "[0]"⟩

/-- The product along axis 1 of the 4×5×6 array on base 2 into the 4×6 elements of
base 3. -/
def ex_plane_product : bh_instruction :=
  ⟨11, [⟨some 3, 0, [4, 6], [6, 1]⟩, ⟨some 2, 0, [4, 5, 6], [30, 6, 1]⟩, bh_view.unset], 1⟩

/-- A kernel of a reduction `s` along axis 0 of a matrix and of `ex_plane_product`: the
loop of rank 0 and size 4 sweeps for `s`; the loop of rank 1 and size 5 nested in it holds
the instruction `s` and sweeps for the product, whose instruction stands in the loop of
rank 2 and size 6. -/
def ex_nested_peel_block (s : bh_instruction) : LoopB :=
  .mk 0 4
    [.loop (.mk 1 5 [.instr 2 s, .loop (.mk 2 6 [.instr 3 ex_plane_product] [])]
      [ex_plane_product])]
    [s]

/-- The bases 0, 1, 2 and 3 numbered in this order, no flag set. -/
def ex_base_ids_four : BaseDB := ⟨[some 0, some 1, some 2, some 3], ∅, ∅, ∅, ∅⟩

/-- The bases 0, 1, 2 and 3 with base 1 marked atomic. -/
def ex_base_ids_atomic : BaseDB := ex_base_ids_four.insertOpenmpAtomic (some 1)

/-- The bases 0, 1, 2 and 3 with base 1 marked critical. -/
def ex_base_ids_critical : BaseDB := ex_base_ids_four.insertOpenmpCritical (some 1)

/-- A rendering for the test inputs that tells the instructions apart: an instruction is
written as its opcode and the number of its output base. -/
def ex_writers_opcode : Writers :=
  ⟨fun _ => 0, fun _ => "double", fun _ _ => "0",
    fun db i => "op" ++ toString i.opcode ++ "(a" ++ toString (db.id i.operand0.base) ++ ");\n",
    fun _ => "[0]"⟩

/-- The maximum along axis 0 of the 4×5 matrix on base 0 into the 5 elements of base 1. -/
def ex_column_max : bh_instruction :=
  ⟨15, [⟨some 1, 0, [5], [1]⟩, ⟨some 0, 0, [4, 5], [5, 1]⟩, bh_view.unset], 0⟩


end jitk

/-! ## The driver of the uni vector engine (`ve/uni/main.cpp`): bases and constructor flags

Conventions of this part.  A `bh_base*` that is dereferenced is the address of a `bh_base`
in the memory `BaseMem`; the data pointer of a base is `none` for `NULL`. -/

/-- Modelled from the spec: the struct `bh_base` is declared in a header that is not among
the sources.  A base carries its element type, its number of elements and its data pointer,
which is null until the base is allocated. -/
structure bh_base where
  type : Nat
  nelem : Int
  data : Option Nat
  deriving DecidableEq, Repr

/-- The bases behind the pointers. -/
abbrev BaseMem := Nat → bh_base

/-- An element of `bhir->instr_list`: the struct `bh_instruction` with its field
`constructor`, which `set_constructor_flag` writes and the other parts of the embedding do
not read. -/
structure flagged_instruction extends bh_instruction where
  constructor : Bool
  deriving DecidableEq, Repr

/-- One run of the loop `for (bh_intp o = 0; o < nop; ++o)` of `set_constructor_flag`, on
the set `initiated` and the value of `instr.constructor`. -/
def flag_operand (mem : BaseMem) (instr : bh_instruction) (st : Finset Nat × Bool) (o : Nat) :
    Except Failure (Finset Nat × Bool) :=
  let v := instr.operand.getD o bh_view.unset
  if bh_is_constant v = false then
    match v.base with
    | none => .error (.assertion "v.base != NULL")
    | some base =>
      if (mem base).data = none ∧ base ∉ st.1 then
        if o = 0 then .ok (insert base st.1, true) else .ok st
      else .ok st
  else .ok st

/-- One run of the loop `for (bh_instruction &instr: instr_list)` of `set_constructor_flag`:
the flag is cleared, then the operands are visited.  The state is the set `initiated` and
the instructions already visited. -/
def set_constructor_flag_step (env : OpcodeInfo) (mem : BaseMem)
    (st : Finset Nat × List flagged_instruction) (instr : flagged_instruction) :
    Except Failure (Finset Nat × List flagged_instruction) :=
  match (List.range (env.bh_noperands instr.opcode)).foldlM
      (flag_operand mem instr.tobh_instruction) (st.1, false) with
  | .error e => .error e
  | .ok (initiated, flag) => .ok (initiated, st.2 ++ [⟨instr.tobh_instruction, flag⟩])

/-- The function `set_constructor_flag`: the instruction list with the new flags. -/
def set_constructor_flag (env : OpcodeInfo) (mem : BaseMem)
    (instr_list : List flagged_instruction) : Except Failure (List flagged_instruction) :=
  (instr_list.foldlM (set_constructor_flag_step env mem) (∅, [])).map (fun st => st.2)

/-- The instruction writes an array that has no data yet: its opcode has operands, its
output operand is not a constant and the data pointer of the output base is null. -/
def writes_unallocated (env : OpcodeInfo) (mem : BaseMem) (instr : bh_instruction) : Bool :=
  decide (0 < env.bh_noperands instr.opcode) &&
    (match instr.operand0.base with
     | some base => (mem base).data.isNone
     | none => false)

/-- The state of `set_constructor_flag` after the instructions `pre` have been visited:
`out` holds the same instructions; an instruction is flagged exactly when it writes an
array without data whose base was not in `initiated` before; and `initiated` holds the
output bases of the flagged instructions. -/
structure FlagInv (env : OpcodeInfo) (mem : BaseMem) (pre : List flagged_instruction)
    (st : Finset Nat × List flagged_instruction) : Prop where
  instrs : st.2.map (fun i => i.tobh_instruction) = pre.map (fun i => i.tobh_instruction)
  flags : ∀ (k : Nat) (i : flagged_instruction), st.2[k]? = some i →
    (i.constructor = true ↔ writes_unallocated env mem i.tobh_instruction = true ∧
      ∀ (j : Nat) (i2 : flagged_instruction), j < k → st.2[j]? = some i2 →
        i2.constructor = true → i2.operand0.base ≠ i.operand0.base)
  initiated : ∀ base, base ∈ st.1 ↔ ∃ (k : Nat) (i : flagged_instruction),
    st.2[k]? = some i ∧ i.constructor = true ∧ i.operand0.base = some base

/-- A memory for the test inputs: the bases 0 and 1 hold data, the others do not. -/
def ex_base_mem : BaseMem := fun p => ⟨0, 10, if p ≤ 1 then some (100 + p) else none⟩

/-- Instructions for the test inputs: an addition of the bases 0 and 1 into base 2, an
addition of the bases 2 and 3 into base 2, an addition into the allocated base 1, and the
release of base 3. -/
def ex_instr_list : List flagged_instruction :=
  [⟨⟨1, [ex_view 2 [10], ex_view 0 [10], ex_view 1 [10]], 0⟩, false⟩,
   ⟨⟨1, [ex_view 2 [10], ex_view 2 [10], ex_view 3 [10]], 0⟩, true⟩,
   ⟨⟨1, [ex_view 1 [10], ex_view 2 [10], ex_view 2 [10]], 0⟩, true⟩,
   ⟨⟨3, [ex_view 3 [10]], 0⟩, false⟩]

namespace jitk

/-! ## Pruning of the block list (`remove_empty_blocks` of `ve/uni/main.cpp`) -/

mutual
/-- Modelled from the spec: `Block::isSystemOnly` is not among the sources.  An instruction
is system-only when its opcode is a system opcode; a loop passes the call on. -/
def Block.isSystemOnly (env : OpcodeInfo) : Block → Bool
  | .instr _ i => env.bh_opcode_is_system i.opcode
  | .loop l => LoopB.isSystemOnly env l
/-- Modelled from the spec: `LoopB::isSystemOnly` is not among the sources.  A loop is
system-only when every instruction of it and of the loops nested in it has a system
opcode. -/
def LoopB.isSystemOnly (env : OpcodeInfo) : LoopB → Bool
  | .mk _ _ l _ => isSystemOnlyList env l
/-- Every block of the list is system-only. -/
def isSystemOnlyList (env : OpcodeInfo) : List Block → Bool
  | [] => true
  | b :: bs => Block.isSystemOnly env b && isSystemOnlyList env bs
end

mutual
/-- The function `remove_empty_blocks`.  The C++ loop walks the vector with the index `i`;
the blocks before `i` are final and the argument of this function is the part of the vector
from `i` on.  An instruction is passed over (`++i`), a system-only loop is erased (the
vector gets shorter and `i` stays), and any other loop has its own `_block_list` pruned in
place before it is passed over. -/
def remove_empty_blocks (env : OpcodeInfo) : List Block → List Block
  | [] => []
  | .instr rank instr :: bs => .instr rank instr :: remove_empty_blocks env bs
  | .loop l :: bs =>
    if LoopB.isSystemOnly env l = true then remove_empty_blocks env bs
    else .loop (remove_empty_loop env l) :: remove_empty_blocks env bs
/-- The call `remove_empty_blocks(b.getLoop()._block_list)`: the loop with its children
pruned in place. -/
def remove_empty_loop (env : OpcodeInfo) : LoopB → LoopB
  | .mk rank size l sweeps => .mk rank size (remove_empty_blocks env l) sweeps
end

mutual
/-- The loops of a block, at any nesting depth, in order. -/
def Block.loops : Block → List LoopB
  | .instr _ _ => []
  | .loop l => LoopB.loops l
/-- The loop itself followed by the loops nested in it. -/
def LoopB.loops : LoopB → List LoopB
  | .mk rank size l sweeps => .mk rank size l sweeps :: loops_list l
/-- The loops of a list of blocks, at any nesting depth, in order. -/
def loops_list : List Block → List LoopB
  | [] => []
  | b :: bs => Block.loops b ++ loops_list bs
end

/-- What identifies a loop apart from its children: rank, size and sweeps. -/
def LoopB.header (l : LoopB) : Nat × Int × List InstrPtr := (l.rank, l.size, l._sweeps)

/-- A block that `remove_empty_blocks` does not erase: an instruction, or a loop that is not
system-only. -/
def Block.survives (env : OpcodeInfo) : Block → Bool
  | .instr _ _ => true
  | .loop l => !LoopB.isSystemOnly env l

/-- A surviving block after the call: an instruction as it was, a loop with its children
pruned. -/
def Block.pruned (env : OpcodeInfo) : Block → Block
  | .instr rank i => .instr rank i
  | .loop l => .loop (remove_empty_loop env l)

/-- A block list for the test inputs: an addition, a loop that holds only the release of
base 3, and a loop that holds an addition and a nested loop with another release. -/
def ex_prune_list : List Block :=
  [.instr 1 ⟨1, [ex_view 2 [10], ex_view 0 [10], ex_view 1 [10]], 0⟩,
   .loop (.mk 0 10 [.instr 1 ⟨3, [ex_view 3 [10]], 0⟩] []),
   .loop (.mk 0 10 [.instr 1 ⟨1, [ex_view 1 [10], ex_view 2 [10], ex_view 2 [10]], 0⟩,
     .loop (.mk 1 1 [.instr 2 ⟨3, [ex_view 2 [10]], 0⟩] []),
     .instr 1 ⟨3, [ex_view 0 [10]], 0⟩] [])]

end jitk

/-! ## The greedy fuser (`jitk/fuser.hpp`)

`Impl::execute` calls `fuser_greedy`, which is declared in `jitk/fuser.hpp` and is not among
the sources.  It is modelled from the description of the strategy in the specification:
walk the list left-to-right; for each pair (current, next), if legal, merge in place,
otherwise advance; repeat to fixpoint. -/

/-- Modelled from the spec: what the greedy fuser asks of the blocks.  `legal l i` tells
whether the blocks at the places `i` and `i + 1` of the list `l` may be merged (the
legality of a merge depends on the other blocks of the list through the dependency
graph), and `merge a b` is the merged block. -/
structure FuserOps (β : Type) where
  legal : List β → Nat → Bool
  merge : β → β → β

/-- Modelled from the spec: the merge in place of the blocks at the places `i` and `i + 1`:
the merged block takes the place `i` and the list gets shorter by one. -/
def merge_in_place {β : Type} (ops : FuserOps β) (l : List β) (i : Nat) : List β :=
  match l[i]?, l[i + 1]? with
  | some a, some b => l.take i ++ [ops.merge a b] ++ l.drop (i + 2)
  | _, _ => l

/-- Modelled from the spec: one walk over the list from the left, from the place `i` on:
a legal pair (current, next) is merged in place and the walk stays on the merged block,
otherwise it advances.  The result is the list and whether a merge took place.  `fuel`
bounds the number of steps; twice the length of the list is enough for a walk from the
first place. -/
def greedy_walk {β : Type} (ops : FuserOps β) : Nat → List β → Nat → Bool → List β × Bool
  | 0, l, _, merged => (l, merged)
  | fuel + 1, l, i, merged =>
    if i + 1 < l.length then
      if ops.legal l i = true then greedy_walk ops fuel (merge_in_place ops l i) i true
      else greedy_walk ops fuel l (i + 1) merged
    else (l, merged)

/-- Modelled from the spec: the walk is repeated until a walk merges nothing.  Every walk
that merges makes the list shorter, so `fuel` need not be more than the length of the
list. -/
def greedy_repeat {β : Type} (ops : FuserOps β) : Nat → List β → List β
  | 0, l => l
  | fuel + 1, l =>
    let r := greedy_walk ops (2 * l.length) l 0 false
    if r.2 = true then greedy_repeat ops fuel r.1 else r.1

/-- Modelled from the spec: the function `fuser_greedy`. -/
def fuser_greedy {β : Type} (ops : FuserOps β) (block_list : List β) : List β :=
  greedy_repeat ops block_list.length block_list

/-- A fuser for the test inputs, on the blocks of `block.cpp`: two neighbours may be merged
when both are loops of the same rank and size, and they are merged by `merge`. -/
def ex_fuser_ops : FuserOps Block :=
  ⟨fun l i =>
    match l[i]?, l[i + 1]? with
    | some a, some b => !a.isInstr && !b.isInstr && decide (a.rank = b.rank)
        && decide (a.size = b.size)
    | _, _ => false,
   fun a b =>
    match merge a b false with
    | .ok r => r
    | .error _ => a⟩

namespace jitk

/-! ## The kernel wrapper and the driver (`write_kernel` and `Impl::execute` of
`ve/uni/main.cpp`)

Conventions of this part.  The text of `write_kernel` is kept as a list of tokens of its
own, `KTok`; the text of the loop nest is one token that holds the tokens of
`write_loop_block`.  The driver is modelled for one block of the block list, from the
construction of the kernel up to the call of the launcher function: what it hands over is
the source text and the `data_list`. -/

/-- The call `push_back(x)` on a vector, made only if the vector does not hold `x` yet. -/
def push_back_new {α : Type} [DecidableEq α] (vec : List α) (x : α) : List α :=
  if x ∈ vec then vec else vec ++ [x]

/-- A vector that is filled with `push_back` only for elements that it does not hold yet:
the elements of `l` in the order of their first occurrence. -/
def push_unique {α : Type} [DecidableEq α] (l : List α) : List α :=
  l.foldl push_back_new []

/-- The bases that the loop `for (int i = 0; i < nop; ++i)` over the operands of an
instruction meets under `if (not bh_is_constant(&v))`, in order. -/
def operand_bases (ops : OpcodeInfo) (instr : bh_instruction) : List BasePtr :=
  (((List.range (ops.bh_noperands instr.opcode)).map
    (fun o => instr.operand.getD o bh_view.unset)).filter (fun v => !bh_is_constant v)).map
    (fun v => v.base)

/-- Modelled from the spec: the member function `BaseDB::insert` is not among the sources.
A base that is not known yet gets the next id. -/
def BaseDB.insert (db : BaseDB) (base : BasePtr) : BaseDB :=
  ⟨push_back_new db._vec base, db._tmps, db._scalar_replacements, db._omp_atomic,
    db._omp_critical⟩

/-- Modelled from the spec: the member function `BaseDB::insertTmp` is not among the
sources.  The bases of the set become temporary arrays. -/
def BaseDB.insertTmp (db : BaseDB) (tmps : Finset BasePtr) : BaseDB :=
  ⟨db._vec, db._tmps ∪ tmps, db._scalar_replacements, db._omp_atomic, db._omp_critical⟩

/-- Modelled from the spec: what the constructor of `Kernel` reads off the loop block
through member functions of `LoopB` that are not among the sources. -/
structure KernelEnv where
  getAllTemps : LoopB → Finset BasePtr
  getAllFrees : LoopB → Finset BasePtr
  useRandom : LoopB → Bool

/-- Modelled from the spec: the class `Kernel` of `jitk/kernel.hpp` is not among the
sources.  It holds the loop block of the kernel, the non-temporary bases in a fixed order
(a vector), the temporary bases, the bases to free and whether the kernel draws random
numbers. -/
structure Kernel where
  block : LoopB
  _non_temps : List BasePtr
  _temps : Finset BasePtr
  _frees : Finset BasePtr
  _useRandom : Bool

/-- The member function `getNonTemps`. -/
def Kernel.getNonTemps (kernel : Kernel) : List BasePtr := kernel._non_temps

/-- The member function `getAllTemps`. -/
def Kernel.getAllTemps (kernel : Kernel) : Finset BasePtr := kernel._temps

/-- The member function `getFrees`. -/
def Kernel.getFrees (kernel : Kernel) : Finset BasePtr := kernel._frees

/-- The member function `useRandom`. -/
def Kernel.useRandom (kernel : Kernel) : Bool := kernel._useRandom

/-- The member function `getAllInstr`: the instructions of the block of the kernel. -/
def Kernel.getAllInstr (kernel : Kernel) : List InstrPtr := kernel.block.getAllInstr

/-- Modelled from the spec: the constructor `Kernel(block)` is not among the sources.  The
non-temporary bases of a kernel are the bases of the array operands of its instructions
that are not temporary arrays of the block, in the order in which the instructions first
touch them. -/
def Kernel.create (ops : OpcodeInfo) (kenv : KernelEnv) (block : LoopB) : Kernel :=
  ⟨block,
   push_unique ((block.getAllInstr.flatMap (operand_bases ops)).filter
     (fun b => decide (b ∉ kenv.getAllTemps block))),
   kenv.getAllTemps block, kenv.getAllFrees block, kenv.useRandom block⟩

/-- The base behind a pointer `bh_base*`; there is none behind the null pointer. -/
def base_at (mem : BaseMem) (base : BasePtr) : Except Failure bh_base :=
  match base with
  | some p => .ok (mem p)
  | none => .error (.undefined "null base")

/-- Modelled from the spec: `bh_data_malloc(base)` is not among the sources.  It allocates
the data of a base whose data pointer is null and leaves any other base as it is.  `alloc`
gives the address of the new data, or `none` when no memory is left, which is fatal. -/
def bh_data_malloc (alloc : Nat → Option Nat) (mem : BaseMem) (base : BasePtr) :
    Except Failure BaseMem :=
  match base with
  | none => .error (.undefined "null base")
  | some p =>
    match (mem p).data with
    | some _ => .ok mem
    | none =>
      match alloc p with
      | none => .error (.runtime_error "out of memory")
      | some d => .ok (fun q => if q = p then ⟨(mem p).type, (mem p).nelem, some d⟩ else mem q)

/-- The pieces of text that `write_kernel` writes. -/
inductive KTok where
  /-- The line `#include <header>`. -/
  | include_line (header : String)
  /-- An empty line. -/
  | endl
  /-- The text `void execute(`. -/
  | execute_open
  /-- A parameter `<type> a<id>[static <nelem>]` of `execute`. -/
  | param (type : Nat) (id : Nat) (nelem : Int)
  /-- The separator of two parameters or arguments. -/
  | comma
  /-- The end of the parameter list and the opening brace of `execute`. -/
  | execute_body
  /-- The text of `write_loop_block` for the block of the kernel. -/
  | body (out : List Tok)
  /-- The line of a closing brace. -/
  | close
  /-- The line `void launcher(void* data_list[])` with its opening brace. -/
  | launcher_open
  /-- The line `<type> *a<id> = data_list[<i>];`. -/
  | launcher_decl (type : Nat) (id : Nat) (i : Nat)
  /-- The call `spaces(ss, num)`. -/
  | spaces (num : Nat)
  /-- The text `execute(` of the call. -/
  | call_open
  /-- An argument `a<id>` of the call. -/
  | arg (id : Nat)
  /-- The end of the call. -/
  | call_close
  deriving DecidableEq

/-- The text of a token of `write_kernel`. -/
def KTok.render (w : Writers) : KTok → String
  | .include_line header => "#include <" ++ header ++ ">\n"
  | .endl => "\n"
  | .execute_open => "void execute("
  | .param type id nelem =>
    w.write_type type ++ " a" ++ toString id ++ "[static " ++ toString nelem ++ "]"
  | .comma => ", "
  | .execute_body => ") \x7b\n"
  | .body out => jitk.render w out
  | .close => "\x7d\n"
  | .launcher_open => "void launcher(void* data_list[]) \x7b\n"
  | .launcher_decl type id i =>
    w.write_type type ++ " *a" ++ toString id ++ " = data_list[" ++ toString i ++ "];\n"
  | .spaces num => String.mk (List.replicate num ' ')
  | .call_open => "execute("
  | .arg id => "a" ++ toString id
  | .call_close => ");\n"

/-- The text of a list of tokens of `write_kernel`. -/
def render_kernel (w : Writers) (ss : List KTok) : String :=
  String.join (ss.map (KTok.render w))

/-- The loop `for (bh_base *base: kernel.getNonTemps()) bh_data_malloc(base)`. -/
def malloc_all (alloc : Nat → Option Nat) : List BasePtr → BaseMem → Except Failure BaseMem
  | [], mem => .ok mem
  | base :: rest, mem =>
    match bh_data_malloc alloc mem base with
    | .error e => .error e
    | .ok mem1 => malloc_all alloc rest mem1

/-- The loop that writes the parameters of `execute`, over the rest of the vector
`kernel.getNonTemps()`; `i+1 < size` holds when a base follows. -/
def write_params (mem : BaseMem) (base_ids : BaseDB) : List BasePtr → Except Failure (List KTok)
  | [] => .ok []
  | b :: rest =>
    match base_at mem b with
    | .error e => .error e
    | .ok base =>
      match write_params mem base_ids rest with
      | .error e => .error e
      | .ok out =>
        .ok ([KTok.param base.type (base_ids.id b) base.nelem]
          ++ (if rest ≠ [] then [KTok.comma] else []) ++ out)

/-- The loop that writes the declarations of `launcher`, from the index `i` on. -/
def write_launcher_decls (mem : BaseMem) (base_ids : BaseDB) :
    Nat → List BasePtr → Except Failure (List KTok)
  | _, [] => .ok []
  | i, b :: rest =>
    match base_at mem b with
    | .error e => .error e
    | .ok base =>
      match write_launcher_decls mem base_ids (i + 1) rest with
      | .error e => .error e
      | .ok out => .ok (KTok.launcher_decl base.type (base_ids.id b) i :: out)

/-- The loop that writes the arguments of the call of `execute`. -/
def write_call_args (base_ids : BaseDB) : List BasePtr → List KTok
  | [] => []
  | b :: rest =>
    [KTok.arg (base_ids.id b)] ++ (if rest ≠ [] then [KTok.comma] else [])
      ++ write_call_args base_ids rest

/-- The function `write_kernel`: the bases after the allocations, the new state of
`base_ids` and the text written to `ss`.  `fuel` bounds the nesting depth of the loops, as
in `write_loop_block`. -/
def write_kernel (env : CodegenEnv) (config : ConfigParser) (fuel : Nat)
    (alloc : Nat → Option Nat) (kernel : Kernel) (base_ids : BaseDB) (mem : BaseMem) :
    Except Failure (BaseMem × BaseDB × List KTok) :=
  match malloc_all alloc kernel.getNonTemps mem with
  | .error e => .error e
  | .ok mem1 =>
    let includes :=
      [KTok.include_line "stdint.h", KTok.include_line "stdlib.h",
        KTok.include_line "stdbool.h", KTok.include_line "complex.h",
        KTok.include_line "tgmath.h", KTok.include_line "math.h"]
      ++ (if kernel.useRandom = true then
          [KTok.include_line "kernel_dependencies/random123_openmp.h"] else [])
      ++ [KTok.endl]
    match write_params mem1 base_ids kernel.getNonTemps with
    | .error e => .error e
    | .ok params =>
      match write_loop_block env config fuel base_ids kernel.block with
      | .error e => .error e
      | .ok (base_ids1, out) =>
        match write_launcher_decls mem1 base_ids1 0 kernel.getNonTemps with
        | .error e => .error e
        | .ok decls =>
          .ok (mem1, base_ids1,
            includes ++ [KTok.execute_open] ++ params ++ [KTok.execute_body]
              ++ [KTok.body out] ++ [KTok.close, KTok.endl]
              ++ [KTok.launcher_open] ++ decls ++ [KTok.spaces 4, KTok.call_open]
              ++ write_call_args base_ids1 kernel.getNonTemps
              ++ [KTok.call_close, KTok.close])

/-- The loops of `Impl::execute` that assign the ids: every base of an array operand of the
instructions is inserted into a new `BaseDB`. -/
def assign_ids (ops : OpcodeInfo) (instr_list : List InstrPtr) : BaseDB :=
  (instr_list.flatMap (operand_bases ops)).foldl BaseDB.insert ⟨[], ∅, ∅, ∅, ∅⟩

/-- The loop of `Impl::execute` that fills `data_list`. -/
def pack_data_list (mem : BaseMem) : List BasePtr → Except Failure (List Nat)
  | [] => .ok []
  | b :: rest =>
    match base_at mem b with
    | .error e => .error e
    | .ok base =>
      match base.data with
      | none => .error (.assertion "base->data != NULL")
      | some d =>
        match pack_data_list mem rest with
        | .error e => .error e
        | .ok data_list => .ok (d :: data_list)

/-- The body of the loop `for(const Block &block: block_list)` of `Impl::execute`, from the
construction of the kernel up to the call of the launcher function: the bases after the
allocations, the source text handed to the store and the `data_list` passed to the
function that the store returns. -/
def execute_block (env : CodegenEnv) (kenv : KernelEnv) (config : ConfigParser) (fuel : Nat)
    (alloc : Nat → Option Nat) (mem : BaseMem) (block : Block) :
    Except Failure (BaseMem × List KTok × List Nat) :=
  match block with
  | .instr _ _ => .error (.assertion "not block.isInstr()")
  | .loop l =>
    let kernel := Kernel.create env.ops kenv l
    let base_ids := (assign_ids env.ops kernel.getAllInstr).insertTmp kernel.getAllTemps
    match write_kernel env config fuel alloc kernel base_ids mem with
    | .error e => .error e
    | .ok (mem1, _, ss) =>
      match pack_data_list mem1 kernel.getNonTemps with
      | .error e => .error e
      | .ok data_list => .ok (mem1, ss, data_list)

/-- A kernel environment for the test inputs: base 2 is the one temporary array. -/
def ex_kernel_env : KernelEnv := ⟨fun _ => {some 2}, fun _ => {some 2}, fun _ => false⟩

/-- A kernel for the test inputs: `b = a + a` into the temporary array on base 2, then
`c = b + d` into base 1, with `a` on base 0 and `d` on base 3, in one loop of 10
iterations. -/
def ex_kernel_block : LoopB :=
  .mk 0 10
    [.instr 1 ⟨1, [ex_view 2 [10], ex_view 0 [10], ex_view 0 [10]], 0⟩,
     .instr 1 ⟨1, [ex_view 1 [10], ex_view 2 [10], ex_view 3 [10]], 0⟩] []

end jitk

/-! ## Facts about the traversal -/

theorem getAllInstrList_append (l1 l2 : List Block) (out : List Nat) :
    Block.getAllInstrList (l1 ++ l2) out
      = Block.getAllInstrList l2 (Block.getAllInstrList l1 out) := by
  induction l1 generalizing out with
  | nil => simp [Block.getAllInstrList]
  | cons b bs ih => simp [Block.getAllInstrList, ih]

mutual
theorem getAllInstrOut_acc : ∀ (b : Block) (out : List Nat),
    b.getAllInstrOut out = out ++ b.getAllInstrOut []
  | Block.mk l i _ _ _ _ _ _ _, out => by
    unfold Block.getAllInstrOut
    by_cases h : l.isEmpty
    · cases i <;> simp [h]
    · simp only [h]
      exact getAllInstrList_acc l out
theorem getAllInstrList_acc : ∀ (l : List Block) (out : List Nat),
    Block.getAllInstrList l out = out ++ Block.getAllInstrList l []
  | [], out => by simp [Block.getAllInstrList]
  | b :: bs, out => by
    simp only [Block.getAllInstrList]
    rw [getAllInstrList_acc bs (Block.getAllInstrOut b out),
        getAllInstrList_acc bs (Block.getAllInstrOut b []),
        getAllInstrOut_acc b out, List.append_assoc]
end

theorem getAllInstr_loop (b : Block) (h : b.isInstr = false) :
    b.getAllInstr = Block.getAllInstrList b._block_list [] := by
  cases b with
  | mk l i r s sw n f t rs =>
    simp only [Block.isInstr, Block._block_list] at h
    simp [Block.getAllInstr, Block.getAllInstrOut, Block._block_list, h]

/-- The value `merge` returns on two loop blocks, field by field. -/
theorem merge_loop_blocks (a b : Block) (based_on_block_b : Bool)
    (ha : a.isInstr = false) (hb : b.isInstr = false) :
    merge a b based_on_block_b
      = .ok (Block.mk (a._block_list ++ b._block_list)
          (if based_on_block_b then b else a)._instr
          (if based_on_block_b then b else a).rank
          (if based_on_block_b then b else a).size
          ((if based_on_block_b then b else a)._sweeps ∪ (if based_on_block_b then a else b)._sweeps)
          ((if based_on_block_b then b else a)._news ∪ (if based_on_block_b then a else b)._news)
          ((if based_on_block_b then b else a)._frees ∪ (if based_on_block_b then a else b)._frees)
          ((if based_on_block_b then b else a)._temps ∪
            (((if based_on_block_b then b else a)._news ∪ (if based_on_block_b then a else b)._news) ∩
             ((if based_on_block_b then b else a)._frees ∪ (if based_on_block_b then a else b)._frees)))
          (a._reshapable && b._reshapable)) := by
  simp [merge, ha, hb]

/-! ## Claims about `merge` -/

/-- C1: for loop blocks `a` and `b` and either value of `based_on_block_b`, `merge` returns
a block whose instructions in traversal order (`getAllInstr`) are exactly those of `a`
followed by those of `b`. -/
theorem merge_getAllInstr (a b : Block) (based_on_block_b : Bool)
    (ha : a.isInstr = false) (hb : b.isInstr = false) :
    ∃ r, merge a b based_on_block_b = .ok r ∧ r.getAllInstr = a.getAllInstr ++ b.getAllInstr := by
  refine ⟨_, merge_loop_blocks a b based_on_block_b ha hb, ?_⟩
  have hne : (a._block_list ++ b._block_list).isEmpty = false := by
    cases hl : a._block_list with
    | nil => simp [Block.isInstr, hl] at ha
    | cons c cs => rfl
  rw [getAllInstr_loop a ha, getAllInstr_loop b hb]
  simp only [Block.getAllInstr, Block.getAllInstrOut, hne]
  rw [getAllInstrList_append, getAllInstrList_acc b._block_list]
  simp

theorem merge_getAllInstr_witness :
    (ex_blockA.isInstr = false ∧ ex_blockB.isInstr = false) ∧
    ∃ r, merge ex_blockA ex_blockB true = .ok r ∧
      r.getAllInstr = ex_blockA.getAllInstr ++ ex_blockB.getAllInstr :=
  ⟨by decide, merge_getAllInstr ex_blockA ex_blockB true (by decide) (by decide)⟩

/-- C2: for loop blocks `a` and `b`, the child list of the block `merge` returns is the
children of `a` followed by the children of `b`, whichever block the result is based on. -/
theorem merge_block_list (a b : Block) (based_on_block_b : Bool)
    (ha : a.isInstr = false) (hb : b.isInstr = false) :
    ∃ r, merge a b based_on_block_b = .ok r ∧ r._block_list = a._block_list ++ b._block_list :=
  ⟨_, merge_loop_blocks a b based_on_block_b ha hb, rfl⟩

theorem merge_block_list_witness :
    (ex_blockA.isInstr = false ∧ ex_blockB.isInstr = false) ∧
    ∃ r, merge ex_blockA ex_blockB false = .ok r ∧
      r._block_list = ex_blockA._block_list ++ ex_blockB._block_list :=
  ⟨by decide, merge_block_list ex_blockA ex_blockB false (by decide) (by decide)⟩

/-- C3: for loop blocks `a` and `b`, the block `merge` returns has the union of the two
`sweeps` sets, of the two `news` sets and of the two `frees` sets, and it is reshapable
exactly when both `a` and `b` are. -/
theorem merge_sets_union (a b : Block) (based_on_block_b : Bool)
    (ha : a.isInstr = false) (hb : b.isInstr = false) :
    ∃ r, merge a b based_on_block_b = .ok r ∧
      r._sweeps = a._sweeps ∪ b._sweeps ∧ r._news = a._news ∪ b._news ∧
      r._frees = a._frees ∪ b._frees ∧ r._reshapable = (a._reshapable && b._reshapable) := by
  refine ⟨_, merge_loop_blocks a b based_on_block_b ha hb, ?_⟩
  cases based_on_block_b <;>
    simp [Block._sweeps, Block._news, Block._frees, Block._reshapable, Finset.union_comm]

theorem merge_sets_union_witness :
    (ex_blockA.isInstr = false ∧ ex_blockB.isInstr = false) ∧
    ∃ r, merge ex_blockA ex_blockB true = .ok r ∧
      r._sweeps = ex_blockA._sweeps ∪ ex_blockB._sweeps ∧
      r._news = ex_blockA._news ∪ ex_blockB._news ∧
      r._frees = ex_blockA._frees ∪ ex_blockB._frees ∧
      r._reshapable = (ex_blockA._reshapable && ex_blockB._reshapable) :=
  ⟨by decide, merge_sets_union ex_blockA ex_blockB true (by decide) (by decide)⟩

/-- C4, as stated, fails: `ex_blockStale` is a loop block whose temps set holds base 7
while its news and frees are empty; merged with `ex_blockB` (result based on the first
block) the returned block still has 7 among its temps, although the intersection of its
news and frees is empty. -/
theorem merge_temps_stale_counterexample :
    ex_blockStale.isInstr = false ∧ ex_blockB.isInstr = false ∧
    ∃ r, merge ex_blockStale ex_blockB false = .ok r ∧
      7 ∈ r._temps ∧ r._news ∩ r._frees = ∅ ∧ r._temps ≠ r._news ∩ r._frees := by
  refine ⟨by decide, by decide, _, merge_loop_blocks _ _ false (by decide) (by decide), ?_⟩
  decide

/-- C4 (amended): for loop blocks `a` and `b` such that the temps of the block the result
is based on (`b` if `based_on_block_b`, else `a`) lie within that block's news ∩ frees,
the block `merge` returns has temps equal to the intersection of its news and its frees;
and for all loop blocks, whatever their temps, a base that is new in `a` and freed in `b`
is a temp of the merged block. -/
theorem merge_temps (a b : Block) (based_on_block_b : Bool)
    (ha : a.isInstr = false) (hb : b.isInstr = false) :
    ∃ r, merge a b based_on_block_b = .ok r ∧
      (((if based_on_block_b then b else a)._temps ⊆
          (if based_on_block_b then b else a)._news ∩ (if based_on_block_b then b else a)._frees) →
        r._temps = r._news ∩ r._frees) ∧
      ∀ x, x ∈ a._news → x ∈ b._frees → x ∈ r._temps := by
  refine ⟨_, merge_loop_blocks a b based_on_block_b ha hb, ?_, ?_⟩
  · intro hsub
    simp only [Block._temps, Block._news, Block._frees]
    apply Finset.union_eq_right.mpr
    intro x hx
    have := hsub hx
    simp only [Finset.mem_inter, Finset.mem_union] at this ⊢
    exact ⟨Or.inl this.1, Or.inl this.2⟩
  · intro x hn hf
    cases based_on_block_b <;>
      simp [Block._temps, Finset.mem_union, Finset.mem_inter, hn, hf]

theorem merge_temps_witness :
    (ex_blockA.isInstr = false ∧ ex_blockB.isInstr = false) ∧
    ∃ r, merge ex_blockA ex_blockB false = .ok r ∧
      (((if false then ex_blockB else ex_blockA)._temps ⊆
          (if false then ex_blockB else ex_blockA)._news ∩
            (if false then ex_blockB else ex_blockA)._frees) →
        r._temps = r._news ∩ r._frees) ∧
      ∀ x, x ∈ ex_blockA._news → x ∈ ex_blockB._frees → x ∈ r._temps :=
  ⟨by decide, merge_temps ex_blockA ex_blockB false (by decide) (by decide)⟩

/-- C5, as stated, fails: `ex_nestA` and `ex_nestB` are loop blocks whose only children
are loop nodes of rank 1; `merge` returns a block with those two child loop nodes side by
side, not one merged child holding the children of both. -/
theorem merge_no_recursion_counterexample :
    ex_nestA.isInstr = false ∧ ex_nestB.isInstr = false ∧
    (∀ c ∈ ex_nestA._block_list ++ ex_nestB._block_list, c.isInstr = false ∧ c.rank = 1) ∧
    ∃ r, merge ex_nestA ex_nestB false = .ok r ∧
      r._block_list = [ex_childA, ex_childB] ∧ r._block_list.length ≠ 1 := by
  refine ⟨by decide, by decide, ?_, _, merge_loop_blocks _ _ false (by decide) (by decide), ?_⟩
  · intro c hc
    simp only [ex_nestA, ex_nestB, Block._block_list, List.cons_append, List.nil_append,
      List.mem_cons, List.mem_singleton, List.not_mem_nil, or_false] at hc
    rcases hc with rfl | rfl <;> decide
  · exact ⟨rfl, by decide⟩

/-- C5 (amended): for loop blocks `a` and `b` whose children are loop nodes of the same
rank `k`, `merge` does not recurse into the children: the returned block holds the child
loop nodes of `a` and of `b` side by side and unchanged, so it has as many children as
`a` and `b` together (at least two) and each of them is a child of `a` or a child of `b`. -/
theorem merge_no_recursion (a b : Block) (based_on_block_b : Bool) (k : Nat)
    (ha : a.isInstr = false) (hb : b.isInstr = false)
    (_hk : ∀ c ∈ a._block_list ++ b._block_list, c.isInstr = false ∧ c.rank = k) :
    ∃ r, merge a b based_on_block_b = .ok r ∧
      r._block_list.length = a._block_list.length + b._block_list.length ∧
      2 ≤ r._block_list.length ∧
      ∀ c ∈ r._block_list, c ∈ a._block_list ∨ c ∈ b._block_list := by
  refine ⟨_, merge_loop_blocks a b based_on_block_b ha hb, ?_, ?_, ?_⟩
  · simp [Block._block_list]
  · have h1 : 1 ≤ a._block_list.length := by
      cases hl : a._block_list with
      | nil => simp [Block.isInstr, hl] at ha
      | cons c cs => simp
    have h2 : 1 ≤ b._block_list.length := by
      cases hl : b._block_list with
      | nil => simp [Block.isInstr, hl] at hb
      | cons c cs => simp
    show 2 ≤ (a._block_list ++ b._block_list).length
    rw [List.length_append]
    omega
  · intro c hc
    simpa [Block._block_list] using hc

theorem merge_no_recursion_witness :
    (ex_nestA.isInstr = false ∧ ex_nestB.isInstr = false ∧
      ∀ c ∈ ex_nestA._block_list ++ ex_nestB._block_list, c.isInstr = false ∧ c.rank = 1) ∧
    ∃ r, merge ex_nestA ex_nestB true = .ok r ∧
      r._block_list.length = ex_nestA._block_list.length + ex_nestB._block_list.length ∧
      2 ≤ r._block_list.length ∧
      ∀ c ∈ r._block_list, c ∈ ex_nestA._block_list ∨ c ∈ ex_nestB._block_list :=
  have hk : ∀ c ∈ ex_nestA._block_list ++ ex_nestB._block_list, c.isInstr = false ∧ c.rank = 1 := by
    intro c hc
    simp only [ex_nestA, ex_nestB, Block._block_list, List.cons_append, List.nil_append,
      List.mem_cons, List.mem_singleton, List.not_mem_nil, or_false] at hc
    rcases hc with rfl | rfl <;> decide
  ⟨⟨by decide, by decide, hk⟩,
    merge_no_recursion ex_nestA ex_nestB true 1 (by decide) (by decide) hk⟩

/-! ## The chain built by `create_nested_block` -/

theorem push_back_at_chain (shape : List Int) (sweeps : List (Finset Nat)) (b : Block) :
    ∀ (m i : Nat) (inner : List Block) (instr : Option Nat) (r : Nat) (sz : Int)
      (sw n f t : Finset Nat) (rs : Bool),
      (Block.mk (chain_children shape sweeps inner m i) instr r sz sw n f t rs).push_back_at m b
        = Block.mk (chain_children shape sweeps (inner ++ [b]) m i) instr r sz sw n f t rs := by
  intro m
  induction m with
  | zero =>
    intro i inner instr r sz sw n f t rs
    simp only [chain_children, Block.push_back_at]
  | succ m ih =>
    intro i inner instr r sz sw n f t rs
    simp only [chain_children, Block.push_back_at, ih]

theorem chain_children_header (shape : List Int) (sweeps : List (Finset Nat)) :
    ∀ (m i : Nat),
      chain_children shape sweeps
          [Block.loop_header (i + m) (shape.getD (i + m) 0) (sweeps.getD (i + m) ∅)] m i
        = chain_children shape sweeps [] (m + 1) i := by
  intro m
  induction m with
  | zero => intro i; rfl
  | succ m ih =>
    intro i
    have h := ih (i + 1)
    have e : i + 1 + m = i + (m + 1) := by omega
    rw [e] at h
    simp only [chain_children] at h ⊢
    rw [h]

theorem build_loops_aux (shape : List Int) (sweeps : List (Finset Nat)) (rank : Nat)
    (instr : Option Nat) (sz : Int) (sw n f t : Finset Nat) (rs : Bool) :
    ∀ (c j : Nat),
      (List.range' (rank + 1 + j) c).foldl
          (fun (st : Block × Nat) i =>
            (st.1.push_back_at st.2
                (Block.loop_header i (shape.getD i 0) (sweeps.getD i ∅)),
             st.2 + 1))
          (Block.mk (chain_children shape sweeps [] j (rank + 1)) instr rank sz sw n f t rs, j)
        = (Block.mk (chain_children shape sweeps [] (j + c) (rank + 1)) instr rank sz sw n f t rs,
           j + c) := by
  intro c
  induction c with
  | zero => intro j; rfl
  | succ c ih =>
    intro j
    rw [List.range'_succ, List.foldl_cons]
    simp only []
    rw [push_back_at_chain, List.nil_append, chain_children_header]
    have e : rank + 1 + j + 1 = rank + 1 + (j + 1) := by omega
    rw [e, ih (j + 1)]
    have e2 : j + 1 + c = j + (c + 1) := by omega
    rw [e2]

theorem build_loops_eq (shape : List Int) (sweeps : List (Finset Nat)) (rank : Nat)
    (instr : Option Nat) (sz : Int) (sw n f t : Finset Nat) (rs : Bool) :
    build_loops shape sweeps rank (Block.mk [] instr rank sz sw n f t rs)
      = (Block.mk (chain_children shape sweeps [] (shape.length - (rank + 1)) (rank + 1))
            instr rank sz sw n f t rs,
         shape.length - (rank + 1)) := by
  have h := build_loops_aux shape sweeps rank instr sz sw n f t rs (shape.length - (rank + 1)) 0
  simp only [Nat.add_zero, Nat.zero_add] at h
  exact h

theorem push_leaves_eq (shape : List Int) (sweeps : List (Finset Nat)) (m i k : Nat)
    (instr : Option Nat) (r : Nat) (sz : Int) (sw n f t : Finset Nat) (rs : Bool) :
    ∀ (instr_list : List Nat) (inner : List Block),
      instr_list.foldl
          (fun ret p => ret.push_back_at m (Block.instr_block p k))
          (Block.mk (chain_children shape sweeps inner m i) instr r sz sw n f t rs)
        = Block.mk
            (chain_children shape sweeps
              (inner ++ instr_list.map (fun p => Block.instr_block p k)) m i)
            instr r sz sw n f t rs := by
  intro instr_list
  induction instr_list with
  | nil => intro inner; simp
  | cons p ps ih =>
    intro inner
    rw [List.foldl_cons, push_back_at_chain, ih]
    simp

theorem descend_chain (shape : List Int) (sweeps : List (Finset Nat)) (inner : List Block) :
    ∀ (k m i : Nat) (instr : Option Nat) (r : Nat) (sz : Int) (sw n f t : Finset Nat)
      (rs : Bool), k < m →
      (Block.mk (chain_children shape sweeps inner m i) instr r sz sw n f t rs).descend (k + 1)
        = some (Block.mk (chain_children shape sweeps inner (m - (k + 1)) (i + k + 1)) none
            (i + k) (shape.getD (i + k) 0) (sweeps.getD (i + k) ∅) ∅ ∅ ∅ false) := by
  intro k
  induction k with
  | zero =>
    intro m i instr r sz sw n f t rs hk
    obtain ⟨m', rfl⟩ : ∃ m', m = m' + 1 := ⟨m - 1, by omega⟩
    simp [Block.descend, Block._block_list, chain_children]
  | succ k ih =>
    intro m i instr r sz sw n f t rs hk
    obtain ⟨m', rfl⟩ : ∃ m', m = m' + 1 := ⟨m - 1, by omega⟩
    have h := ih m' (i + 1) none i (shape.getD i 0) (sweeps.getD i ∅) ∅ ∅ ∅ false (by omega)
    have e1 : i + 1 + k + 1 = i + (k + 1) + 1 := by omega
    have e2 : i + 1 + k = i + (k + 1) := by omega
    have e3 : m' - (k + 1) = m' + 1 - (k + 1 + 1) := by omega
    rw [e1, e2, e3] at h
    rw [← h]
    simp [Block.descend, Block._block_list, chain_children]

theorem descend_succ_eq : ∀ (k : Nat) (b node : Block), b.descend k = some node →
    b.descend (k + 1) = node._block_list.head? := by
  intro k
  induction k with
  | zero =>
    intro b node h
    simp only [Block.descend, Option.some.injEq] at h
    subst h
    cases hl : b._block_list <;> simp [Block.descend, hl]
  | succ k ih =>
    intro b node h
    cases hl : b._block_list with
    | nil => simp [Block.descend, hl] at h
    | cons c cs =>
      have h' : c.descend k = some node := by simpa [Block.descend, hl] using h
      have := ih c node h'
      rw [← this]
      conv_lhs => unfold Block.descend
      simp [hl]

theorem chain_children_ne_nil (shape : List Int) (sweeps : List (Finset Nat))
    (inner : List Block) (hin : inner ≠ []) (m i : Nat) :
    chain_children shape sweeps inner m i ≠ [] := by
  cases m with
  | zero => simpa [chain_children] using hin
  | succ m => simp [chain_children]

/-- The shape of the chain rooted at the block `create_nested_block` assembles. -/
theorem chain_nodes (shape : List Int) (sweeps : List (Finset Nat)) (leaves : List Block)
    (hl : leaves ≠ []) (rank : Nat) (news frees temps : Finset Nat) (rs : Bool)
    (hr : rank < shape.length) (k : Nat) (hk : k < shape.length - rank) :
    ∃ node,
      (Block.mk (chain_children shape sweeps leaves (shape.length - (rank + 1)) (rank + 1))
          none rank (shape.getD rank 0) (sweeps.getD rank ∅) news frees temps rs).descend k
        = some node ∧
      node.isInstr = false ∧ node.rank = rank + k ∧ node.size = shape.getD (rank + k) 0 ∧
      node._sweeps = sweeps.getD (rank + k) ∅ ∧
      node._block_list
        = chain_children shape sweeps leaves (shape.length - (rank + 1) - k) (rank + 1 + k) := by
  cases k with
  | zero =>
    refine ⟨_, rfl, ?_, rfl, rfl, rfl, rfl⟩
    simp only [Block.isInstr, Block._block_list, List.isEmpty_eq_false]
    exact chain_children_ne_nil shape sweeps leaves hl _ _
  | succ k =>
    have h := descend_chain shape sweeps leaves k (shape.length - (rank + 1)) (rank + 1) none
      rank (shape.getD rank 0) (sweeps.getD rank ∅) news frees temps rs (by omega)
    have e1 : rank + 1 + k = rank + (k + 1) := by omega
    rw [e1] at h
    refine ⟨_, h, ?_, rfl, rfl, rfl, ?_⟩
    · simp only [Block.isInstr, Block._block_list, List.isEmpty_eq_false]
      exact chain_children_ne_nil shape sweeps leaves hl _ _
    · simp only [Block._block_list]
      have e2 : rank + 1 + (k + 1) = rank + (k + 1) + 1 := by omega
      rw [e2]

/-! ## The search for sweeps -/

/-- The precondition on the sweep axes that `create_nested_block` asserts. -/
theorem find_sweeps_step_ok (env : OpcodeInfo) (heap : Heap) (n : Nat)
    (sweeps : List (Finset Nat)) (p : Nat)
    (h : sweep_axis env (heap p) < env.BH_MAXDIM →
      0 ≤ sweep_axis env (heap p) ∧ sweep_axis env (heap p) < n) :
    find_sweeps_step env heap n sweeps p
      = .ok (if sweep_axis env (heap p) < env.BH_MAXDIM then
          sweeps.set (sweep_axis env (heap p)).toNat
            (insert p (sweeps.getD (sweep_axis env (heap p)).toNat ∅))
        else sweeps) := by
  unfold find_sweeps_step
  by_cases hm : sweep_axis env (heap p) < env.BH_MAXDIM
  · obtain ⟨h0, hn⟩ := h hm
    have h0' : ¬ sweep_axis env (heap p) < 0 := by omega
    simp [hm, hn, h0']
  · simp [hm]

theorem find_sweeps_step_valid (env : OpcodeInfo) (heap : Heap) (n : Nat)
    (sweeps sw : List (Finset Nat)) (p : Nat)
    (h : find_sweeps_step env heap n sweeps p = .ok sw) :
    sweep_axis env (heap p) < env.BH_MAXDIM →
      0 ≤ sweep_axis env (heap p) ∧ sweep_axis env (heap p) < n := by
  intro hm
  unfold find_sweeps_step at h
  simp only [hm, if_true] at h
  by_cases hn : sweep_axis env (heap p) < n
  · by_cases h0 : sweep_axis env (heap p) < 0
    · simp [hn, h0] at h
    · exact ⟨by omega, hn⟩
  · simp [hn] at h

theorem find_sweeps_fold (env : OpcodeInfo) (heap : Heap) (n : Nat) :
    ∀ (l : List Nat) (init : List (Finset Nat)), init.length = n →
      (∀ p ∈ l, sweep_axis env (heap p) < env.BH_MAXDIM →
        0 ≤ sweep_axis env (heap p) ∧ sweep_axis env (heap p) < n) →
      ∃ sw, l.foldlM (find_sweeps_step env heap n) init = .ok sw ∧ sw.length = n ∧
        ∀ (i : Nat) (p : Nat), p ∈ sw.getD i ∅ ↔
          (p ∈ init.getD i ∅ ∨
            (i < n ∧ p ∈ l ∧ sweep_axis env (heap p) < env.BH_MAXDIM ∧
              sweep_axis env (heap p) = i)) := by
  intro l
  induction l with
  | nil =>
    intro init hlen _
    exact ⟨init, rfl, hlen, by simp⟩
  | cons q qs ih =>
    intro init hlen hv
    have hq := hv q (List.mem_cons_self _ _)
    rw [List.foldlM_cons, find_sweeps_step_ok env heap n init q hq]
    simp only [bind, Except.bind]
    by_cases hm : sweep_axis env (heap q) < env.BH_MAXDIM
    · obtain ⟨h0, hn⟩ := hq hm
      simp only [hm, if_true]
      obtain ⟨sw, hsw, hlen', hmem⟩ := ih
        (init.set (sweep_axis env (heap q)).toNat
          (insert q (init.getD (sweep_axis env (heap q)).toNat ∅)))
        (by simp [hlen]) (fun p hp => hv p (List.mem_cons_of_mem _ hp))
      refine ⟨sw, hsw, hlen', ?_⟩
      intro i p
      rw [hmem i p]
      have hlt : (sweep_axis env (heap q)).toNat < init.length := by omega
      by_cases hi : (sweep_axis env (heap q)).toNat = i
      · subst hi
        have hax : sweep_axis env (heap q) = ((sweep_axis env (heap q)).toNat : Int) := by omega
        simp only [List.getD_eq_getElem?_getD, List.getElem?_set_self hlt, Option.getD_some,
          Finset.mem_insert, List.mem_cons]
        constructor
        · rintro (h | h)
          · rcases h with rfl | h
            · exact Or.inr ⟨by omega, Or.inl rfl, hm, hax⟩
            · exact Or.inl h
          · exact Or.inr ⟨h.1, Or.inr h.2.1, h.2.2⟩
        · rintro (h | ⟨h1, h2 | h2, h3⟩)
          · exact Or.inl (Or.inr h)
          · exact Or.inl (Or.inl h2)
          · exact Or.inr ⟨h1, h2, h3⟩
      · simp only [List.getD_eq_getElem?_getD, List.getElem?_set_ne hi, List.mem_cons]
        constructor
        · rintro (h | h)
          · exact Or.inl h
          · exact Or.inr ⟨h.1, Or.inr h.2.1, h.2.2⟩
        · rintro (h | ⟨h1, h2 | h2, h3, h4⟩)
          · exact Or.inl h
          · subst h2
            exact absurd (by omega) hi
          · exact Or.inr ⟨h1, h2, h3, h4⟩
    · simp only [hm, if_false]
      obtain ⟨sw, hsw, hlen', hmem⟩ := ih init hlen (fun p hp => hv p (List.mem_cons_of_mem _ hp))
      refine ⟨sw, hsw, hlen', ?_⟩
      intro i p
      rw [hmem i p]
      simp only [List.mem_cons]
      constructor
      · rintro (h | h)
        · exact Or.inl h
        · exact Or.inr ⟨h.1, Or.inr h.2.1, h.2.2⟩
      · rintro (h | ⟨h1, h2 | h2, h3, h4⟩)
        · exact Or.inl h
        · subst h2
          exact absurd h3 hm
        · exact Or.inr ⟨h1, h2, h3, h4⟩

theorem find_sweeps_fold_valid (env : OpcodeInfo) (heap : Heap) (n : Nat) :
    ∀ (l : List Nat) (init sw : List (Finset Nat)),
      l.foldlM (find_sweeps_step env heap n) init = .ok sw →
      ∀ p ∈ l, sweep_axis env (heap p) < env.BH_MAXDIM →
        0 ≤ sweep_axis env (heap p) ∧ sweep_axis env (heap p) < n := by
  intro l
  induction l with
  | nil => intro init sw _ p hp; simp at hp
  | cons q qs ih =>
    intro init sw h p hp
    rw [List.foldlM_cons] at h
    cases hstep : find_sweeps_step env heap n init q with
    | error e => simp [hstep, bind, Except.bind] at h
    | ok sw1 =>
      simp only [hstep, bind, Except.bind] at h
      rcases List.mem_cons.mp hp with rfl | hp'
      · exact find_sweeps_step_valid env heap n init sw1 p hstep
      · exact ih sw1 sw h p hp'

/-- The vector `sweeps` that `create_nested_block` computes: it exists exactly when the
asserted precondition on the axes holds, and then `sweeps[i]` holds the instructions of
the list whose sweep axis is `i`. -/
theorem find_sweeps_spec (env : OpcodeInfo) (heap : Heap) (n : Nat) (l : List Nat) :
    ((∀ p ∈ l, sweep_axis env (heap p) < env.BH_MAXDIM →
        0 ≤ sweep_axis env (heap p) ∧ sweep_axis env (heap p) < n) →
      ∃ sw, find_sweeps env heap n l = .ok sw) ∧
    ∀ sw, find_sweeps env heap n l = .ok sw →
      (∀ p ∈ l, sweep_axis env (heap p) < env.BH_MAXDIM →
        0 ≤ sweep_axis env (heap p) ∧ sweep_axis env (heap p) < n) ∧
      ∀ (i : Nat) (p : Nat), p ∈ sw.getD i ∅ ↔
        (i < n ∧ p ∈ l ∧ sweep_axis env (heap p) < env.BH_MAXDIM ∧
          sweep_axis env (heap p) = i) := by
  constructor
  · intro hv
    obtain ⟨sw, hsw, _, _⟩ := find_sweeps_fold env heap n l (List.replicate n ∅) (by simp) hv
    exact ⟨sw, hsw⟩
  · intro sw hsw
    have hv := find_sweeps_fold_valid env heap n l _ sw hsw
    refine ⟨hv, ?_⟩
    obtain ⟨sw', hsw', _, hmem⟩ :=
      find_sweeps_fold env heap n l (List.replicate n ∅) (by simp) hv
    have e : sw' = sw := by
      unfold find_sweeps at hsw
      rw [hsw] at hsw'
      cases hsw'
      rfl
    subst e
    intro i p
    rw [hmem i p]
    have hrep : p ∉ (List.replicate n (∅ : Finset Nat)).getD i ∅ := by
      simp only [List.getD_eq_getElem?_getD]
      by_cases hi : i < n
      · simp [List.getElem?_replicate, hi]
      · simp [List.getElem?_replicate, hi]
    simp [hrep]

/-- The block `create_nested_block` assembles once the reshaping stage, the debug checks
and the search for sweeps have gone through. -/
theorem create_nested_block_ok_iff (env : OpcodeInfo) (heap : Heap) (first : Nat)
    (rest : List Nat) (news frees temps : Finset Nat) (rank : Nat) (s : Int)
    (blk : Block) (heap' : Heap) :
    create_nested_block env heap (first :: rest) news frees temps rank s = .ok (blk, heap') ↔
    ∃ rs sw,
      reshape_stage env heap (first :: rest) rank s = .ok (heap', rs) ∧
      check_dominating_shape env heap' ((heap' first).dominating_shape env) (first :: rest)
        = .ok () ∧
      rank < ((heap' first).dominating_shape env).length ∧
      find_sweeps env heap' ((heap' first).dominating_shape env).length (first :: rest)
        = .ok sw ∧
      blk = Block.mk
        (chain_children ((heap' first).dominating_shape env) sw
          ((first :: rest).map
            (fun p => Block.instr_block p ((heap' first).dominating_shape env).length))
          (((heap' first).dominating_shape env).length - (rank + 1)) (rank + 1))
        none rank (((heap' first).dominating_shape env).getD rank 0) (sw.getD rank ∅)
        news frees temps rs := by
  unfold create_nested_block
  simp only []
  cases hst : reshape_stage env heap (first :: rest) rank s with
  | error e => simp
  | ok st =>
    obtain ⟨H, rs⟩ := st
    simp only []
    cases hck : check_dominating_shape env H ((H first).dominating_shape env) (first :: rest) with
    | error e =>
      simp only [Except.ok.injEq, Prod.mk.injEq, false_iff, not_exists, not_and, reduceCtorEq]
      rintro rs' sw ⟨rfl, rfl⟩ h
      rw [hck] at h
      exact absurd h (by simp)
    | ok u =>
      simp only []
      by_cases hr : rank < ((H first).dominating_shape env).length
      · simp only [gt_iff_lt, hr, not_true_eq_false, if_false]
        cases hfs : find_sweeps env H ((H first).dominating_shape env).length (first :: rest) with
        | error e =>
          simp only [Except.ok.injEq, Prod.mk.injEq, false_iff, not_exists, not_and, reduceCtorEq]
          rintro rs' sw ⟨rfl, rfl⟩ _ _ h
          rw [hfs] at h
          exact absurd h (by simp)
        | ok sw =>
          simp only [Except.ok.injEq, Prod.mk.injEq]
          rw [build_loops_eq, push_leaves_eq]
          simp only [List.nil_append]
          constructor
          · rintro ⟨rfl, rfl⟩
            exact ⟨rs, sw, ⟨rfl, rfl⟩, hck, hr, hfs, rfl⟩
          · rintro ⟨rs', sw', ⟨rfl, rfl⟩, _, _, h, rfl⟩
            rw [hfs] at h
            cases h
            exact ⟨rfl, rfl⟩
      · simp only [gt_iff_lt, hr, not_false_eq_true, if_true]
        simp only [Except.ok.injEq, Prod.mk.injEq, false_iff, not_exists, not_and, reduceCtorEq]
        rintro rs' sw ⟨rfl, rfl⟩ _ h
        exact absurd h hr

theorem check_dominating_shape_ok (env : OpcodeInfo) (heap : Heap) (shape : List Int)
    (l : List Nat) :
    check_dominating_shape env heap shape l = .ok () ↔
      ∀ p ∈ l, env.bh_opcode_is_system (heap p).opcode = false →
        (heap p).dominating_shape env = shape := by
  unfold check_dominating_shape
  by_cases h : l.all (fun instr =>
      env.bh_opcode_is_system (heap instr).opcode
        || decide ((heap instr).dominating_shape env = shape)) = true
  · simp only [h, if_true, true_iff]
    intro p hp hsys
    have := List.all_eq_true.mp h p hp
    simpa [hsys] using this
  · simp only [h, if_false, reduceCtorEq, false_iff]
    intro hall
    apply h
    apply List.all_eq_true.mpr
    intro p hp
    cases hsys : env.bh_opcode_is_system (heap p).opcode with
    | true => simp
    | false => simpa using hall p hp hsys

theorem reshape_stage_not_reshapeable (env : OpcodeInfo) (heap : Heap) (l : List Nat)
    (rank : Nat) (s : Int) (h : is_reshapeable env heap l = .ok false) :
    reshape_stage env heap l rank s = .ok (heap, false) := by
  unfold reshape_stage
  rw [h]

/-! ## The reshaping loop -/

theorem leading_dims_length (rank : Nat) (i : bh_instruction) :
    (leading_dims rank i).length = rank := by
  simp [leading_dims]

theorem reshape_operand0 (env : OpcodeInfo) (i : bh_instruction) (sh : List Int) :
    (i.reshape env sh).operand0 = i.operand0 ∨ (i.reshape env sh).operand0.shape = sh := by
  unfold bh_instruction.reshape bh_instruction.operand0
  cases hops : i.operand with
  | nil => left; simp
  | cons v vs =>
    cases hn : env.bh_noperands i.opcode with
    | zero => left; simp
    | succ k =>
      simp only [List.take_succ_cons, List.map_cons, List.cons_append, List.getD_cons_zero]
      unfold bh_view.reshape
      by_cases hc : bh_is_constant v = true
      · left; simp [hc]
      · right; simp [hc]

theorem reshape_bases (env : OpcodeInfo) (i : bh_instruction) (sh : List Int) :
    (i.reshape env sh).operand.map (fun v => v.base) = i.operand.map (fun v => v.base) := by
  have hb : ∀ v : bh_view, (bh_view.reshape sh v).base = v.base := by
    intro v
    unfold bh_view.reshape
    by_cases hc : bh_is_constant v = true <;> simp [hc]
  unfold bh_instruction.reshape
  simp only [List.map_append, List.map_map]
  have : ((fun v : bh_view => v.base) ∘ bh_view.reshape sh) = fun v => v.base := by
    funext v
    exact hb v
  rw [this, ← List.map_append, List.take_append_drop]

theorem reshape_take (env : OpcodeInfo) (i : bh_instruction) (sh : List Int) :
    (i.reshape env sh).operand.take (env.bh_noperands (i.reshape env sh).opcode)
      = (i.operand.take (env.bh_noperands i.opcode)).map (bh_view.reshape sh) := by
  unfold bh_instruction.reshape
  simp only []
  by_cases hle : env.bh_noperands i.opcode ≤ i.operand.length
  · rw [List.take_append_of_le_length (by simp [hle])]
    rw [List.take_of_length_le (by simp)]
  · rw [List.drop_of_length_le (by omega), List.append_nil]
    rw [List.take_of_length_le (by simp)]

theorem reshape_shaped (env : OpcodeInfo) (i : bh_instruction) (sh : List Int) :
    ∀ v ∈ (i.reshape env sh).operand.take (env.bh_noperands (i.reshape env sh).opcode),
      bh_is_constant v = true ∨ v.shape = sh := by
  rw [reshape_take]
  intro v hv
  obtain ⟨w, _, rfl⟩ := List.mem_map.mp hv
  unfold bh_view.reshape
  by_cases hc : bh_is_constant w = true
  · left; simp [hc]
  · right; simp [hc]

theorem leading_dims_of_shape (rank : Nat) (i : bh_instruction) (lead tail : List Int)
    (hl : lead.length = rank) (h : i.operand0.shape = lead ++ tail) :
    leading_dims rank i = lead := by
  unfold leading_dims bh_view.shape_at
  rw [h]
  apply List.ext_getElem
  · simp [hl]
  · intro n h1 h2
    simp only [List.length_map, List.length_range] at h1
    simp [List.getD_eq_getElem?_getD, List.getElem?_append_left (by omega : n < lead.length),
      List.getElem?_eq_getElem (by omega : n < lead.length)]

theorem trailing_size_of_shape (rank : Nat) (i : bh_instruction) (lead tail : List Int)
    (hl : lead.length = rank) (h : i.operand0.shape = lead ++ tail) :
    trailing_size rank i = tail.prod := by
  unfold trailing_size
  rw [h, List.drop_append_of_le_length (by omega), List.drop_of_length_le (by omega)]
  simp

theorem reshape_step_eq (env : OpcodeInfo) (rank first : Nat) (H : Heap) (s : Int) (p : Nat) :
    reshape_step env rank first (H, s) p =
      if trailing_size rank (H p) < target_size rank s (H p) then
        .error (.assertion "size >= size_of_rank_dim")
      else if trailing_size rank (H p) = target_size rank s (H p) then
        .ok (H.store p ((H p).reshape env
              (collapsed_shape (leading_dims rank (H first)) (trailing_size rank (H p))
                (target_size rank s (H p)))),
             target_size rank s (H p))
      else if target_size rank s (H p) = 0 then .error (.undefined "division by zero")
      else if (trailing_size rank (H p)).tmod (target_size rank s (H p)) ≠ 0 then
        .error (.runtime_error
          "create_nested_block: shape is not divisible with 'size_of_rank_dim'")
      else
        .ok (H.store p ((H p).reshape env
              (collapsed_shape (leading_dims rank (H first)) (trailing_size rank (H p))
                (target_size rank s (H p)))),
             target_size rank s (H p)) := by
  have hset : ∀ x : Int, (leading_dims rank (H first) ++ [0]).set rank x
      = leading_dims rank (H first) ++ [x] := by
    intro x
    have hl := leading_dims_length rank (H first)
    rw [List.set_append_right _ _ (by omega)]
    simp [hl]
  unfold reshape_step
  simp only [hset, ge_iff_le, not_le, ne_eq]
  show (if trailing_size rank (H p) < target_size rank s (H p) then _ else _) = _
  by_cases h1 : trailing_size rank (H p) < target_size rank s (H p)
  · rw [if_pos h1, if_pos h1]
  · rw [if_neg h1, if_neg h1]
    show (if ¬ trailing_size rank (H p) = target_size rank s (H p) then _ else _) = _
    by_cases h2 : trailing_size rank (H p) = target_size rank s (H p)
    · rw [if_neg (not_not.mpr h2), if_pos h2]
      unfold collapsed_shape
      rw [if_pos h2]
      rfl
    · rw [if_pos h2, if_neg h2]
      show (if target_size rank s (H p) = 0 then _ else _) = _
      by_cases h3 : target_size rank s (H p) = 0
      · rw [if_pos h3, if_pos h3]
      · rw [if_neg h3, if_neg h3]
        show (if ¬ (trailing_size rank (H p)).tmod (target_size rank s (H p)) = 0 then _
          else _) = _
        by_cases h4 : (trailing_size rank (H p)).tmod (target_size rank s (H p)) = 0
        · rw [if_neg (not_not.mpr h4), if_neg (not_not.mpr h4)]
          unfold collapsed_shape
          rw [if_neg h2]
          simp only [List.append_assoc, List.singleton_append]
          rfl
        · rw [if_pos h4, if_pos h4]

theorem collapsed_tail_prod (total S : Int) (h : total = S ∨ total.tmod S = 0) :
    (if total = S then [S] else [S, total.tdiv S]).prod = total := by
  by_cases h1 : total = S
  · simp [h1]
  · rcases h with h | h
    · exact absurd h h1
    · simp only [h1, if_false, List.prod_cons, List.prod_nil, mul_one]
      exact Int.mul_tdiv_cancel_of_tmod_eq_zero h

theorem reshape_inv_store (env : OpcodeInfo) (rank first : Nat) (h0 H : Heap) (S : Int)
    (done : List Nat) (p : Nat) (hinv : ReshapeInv env rank first h0 S done H)
    (hdiv : trailing_size rank (h0 p) = S ∨ (trailing_size rank (h0 p)).tmod S = 0) :
    ReshapeInv env rank first h0 S (p :: done)
      (H.store p ((H p).reshape env
        (collapsed_shape (leading_dims rank (h0 first)) (trailing_size rank (h0 p)) S))) := by
  have hlen := leading_dims_length rank (h0 first)
  have hprod := collapsed_tail_prod _ _ hdiv
  have hop := reshape_operand0 env (H p)
    (collapsed_shape (leading_dims rank (h0 first)) (trailing_size rank (h0 p)) S)
  constructor
  · intro q
    by_cases hq : q = p
    · subst hq
      simpa [Heap.store, bh_instruction.reshape] using hinv.opcode_eq q
    · simpa [Heap.store, hq] using hinv.opcode_eq q
  · intro q
    by_cases hq : q = p
    · subst hq
      simpa [Heap.store, bh_instruction.reshape] using hinv.constant_eq q
    · simpa [Heap.store, hq] using hinv.constant_eq q
  · intro q
    by_cases hq : q = p
    · subst hq
      simp only [Heap.store, if_true]
      rw [reshape_bases]
      exact hinv.bases_eq q
    · simpa [Heap.store, hq] using hinv.bases_eq q
  · intro q
    by_cases hq : q = p
    · subst hq
      simp only [Heap.store, if_true]
      rcases hop with h | h
      · have e : trailing_size rank ((H q).reshape env
            (collapsed_shape (leading_dims rank (h0 first)) (trailing_size rank (h0 q)) S))
            = trailing_size rank (H q) :=
          congrArg (fun v : bh_view => (v.shape.drop rank).prod) h
        rw [e]
        exact hinv.total_eq q
      · rw [trailing_size_of_shape rank _ _ _ hlen h]
        exact hprod
    · simpa [Heap.store, hq] using hinv.total_eq q
  · by_cases hq : first = p
    · subst hq
      simp only [Heap.store, if_true]
      rcases hop with h | h
      · have e : leading_dims rank ((H first).reshape env
            (collapsed_shape (leading_dims rank (h0 first)) (trailing_size rank (h0 first)) S))
            = leading_dims rank (H first) :=
          congrArg (fun v : bh_view => (List.range rank).map (fun r => v.shape_at r)) h
        rw [e]
        exact hinv.lead_eq
      · exact leading_dims_of_shape rank _ _ _ hlen h
    · simpa [Heap.store, hq] using hinv.lead_eq
  · intro q hq
    have hqp : q ≠ p := fun h => hq (h ▸ List.mem_cons_self _ _)
    have hqd : q ∉ done := fun h => hq (List.mem_cons_of_mem _ h)
    simpa [Heap.store, hqp] using hinv.untouched q hqd
  · intro q hq
    by_cases hqp : q = p
    · subst hqp
      simp only [Heap.store, if_true]
      exact reshape_shaped env (H q) _
    · have hqd : q ∈ done := by
        rcases List.mem_cons.mp hq with h | h
        · exact absurd h hqp
        · exact h
      simpa [Heap.store, hqp] using hinv.shaped q hqd

theorem reshape_inv_init (env : OpcodeInfo) (rank first : Nat) (h0 : Heap) (S : Int) :
    ReshapeInv env rank first h0 S [] h0 :=
  ⟨fun _ => rfl, fun _ => rfl, fun _ => rfl, fun _ => rfl, rfl, fun _ _ => rfl,
    fun _ hp => absurd hp (List.not_mem_nil _)⟩

theorem reshape_step_inv_eq (env : OpcodeInfo) (rank first : Nat) (h0 H : Heap) (S s : Int)
    (done : List Nat) (p : Nat) (hinv : ReshapeInv env rank first h0 S done H)
    (hs : target_size rank s (h0 p) = S) :
    reshape_step env rank first (H, s) p =
      if trailing_size rank (h0 p) < S then .error (.assertion "size >= size_of_rank_dim")
      else if trailing_size rank (h0 p) = S then
        .ok (H.store p ((H p).reshape env
              (collapsed_shape (leading_dims rank (h0 first)) (trailing_size rank (h0 p)) S)), S)
      else if S = 0 then .error (.undefined "division by zero")
      else if (trailing_size rank (h0 p)).tmod S ≠ 0 then
        .error (.runtime_error
          "create_nested_block: shape is not divisible with 'size_of_rank_dim'")
      else
        .ok (H.store p ((H p).reshape env
              (collapsed_shape (leading_dims rank (h0 first)) (trailing_size rank (h0 p)) S)),
             S) := by
  have ht : target_size rank s (H p) = S := by
    unfold target_size at hs ⊢
    rw [hinv.total_eq p]
    exact hs
  rw [reshape_step_eq, ht, hinv.total_eq p, hinv.lead_eq]

theorem target_size_fixed (rank : Nat) (S : Int) (i : bh_instruction) (hS : S ≠ -1) :
    target_size rank S i = S := by
  unfold target_size
  rw [if_neg hS]

theorem reshape_fold_inv (env : OpcodeInfo) (rank first : Nat) (h0 : Heap) (S : Int)
    (hS : S ≠ -1) :
    ∀ (l : List Nat) (done : List Nat) (H : Heap) (s : Int) (st : Heap × Int),
      ReshapeInv env rank first h0 S done H →
      (∀ p, l.head? = some p → target_size rank s (h0 p) = S) →
      l.foldlM (reshape_step env rank first) (H, s) = .ok st →
      ReshapeInv env rank first h0 S (l.reverse ++ done) st.1 ∧
        ∀ p ∈ l, S ≤ trailing_size rank (h0 p) ∧
          (trailing_size rank (h0 p) = S ∨
            (S ≠ 0 ∧ (trailing_size rank (h0 p)).tmod S = 0)) := by
  intro l
  induction l with
  | nil =>
    intro done H s st hinv _ h
    simp only [List.foldlM_nil, pure, Except.pure, Except.ok.injEq] at h
    subst h
    exact ⟨by simpa using hinv, by simp⟩
  | cons p ps ih =>
    intro done H s st hinv hs h
    rw [List.foldlM_cons, reshape_step_inv_eq env rank first h0 H S s done p hinv (hs p rfl)] at h
    by_cases h1 : trailing_size rank (h0 p) < S
    · simp [h1, bind, Except.bind] at h
    · rw [if_neg h1] at h
      by_cases h2 : trailing_size rank (h0 p) = S
      · rw [if_pos h2] at h
        simp only [bind, Except.bind] at h
        obtain ⟨hinv', hall⟩ := ih (p :: done) _ S st
          (reshape_inv_store env rank first h0 H S done p hinv (Or.inl h2))
          (fun q _ => target_size_fixed rank S _ hS) h
        refine ⟨by simpa using hinv', ?_⟩
        intro q hq
        rcases List.mem_cons.mp hq with rfl | hq'
        · exact ⟨by omega, Or.inl h2⟩
        · exact hall q hq'
      · rw [if_neg h2] at h
        by_cases h3 : S = 0
        · simp [h3, bind, Except.bind] at h
        · rw [if_neg h3] at h
          by_cases h4 : (trailing_size rank (h0 p)).tmod S = 0
          · rw [if_neg (not_not.mpr h4)] at h
            simp only [bind, Except.bind] at h
            obtain ⟨hinv', hall⟩ := ih (p :: done) _ S st
              (reshape_inv_store env rank first h0 H S done p hinv (Or.inr h4))
              (fun q _ => target_size_fixed rank S _ hS) h
            refine ⟨by simpa using hinv', ?_⟩
            intro q hq
            rcases List.mem_cons.mp hq with rfl | hq'
            · exact ⟨by omega, Or.inr ⟨h3, h4⟩⟩
            · exact hall q hq'
          · rw [if_pos h4] at h
            simp [bind, Except.bind] at h

theorem reshape_fold_returns (env : OpcodeInfo) (rank first : Nat) (h0 : Heap) (S : Int)
    (hS : S ≠ -1) :
    ∀ (l : List Nat) (done : List Nat) (H : Heap) (s : Int),
      ReshapeInv env rank first h0 S done H →
      (∀ p, l.head? = some p → target_size rank s (h0 p) = S) →
      (∀ p ∈ l, S ≤ trailing_size rank (h0 p) ∧
        (trailing_size rank (h0 p) = S ∨
          (S ≠ 0 ∧ (trailing_size rank (h0 p)).tmod S = 0))) →
      ∃ st, l.foldlM (reshape_step env rank first) (H, s) = .ok st := by
  intro l
  induction l with
  | nil => intro done H s _ _ _; exact ⟨(H, s), rfl⟩
  | cons p ps ih =>
    intro done H s hinv hs hall
    obtain ⟨hle, hdiv⟩ := hall p (List.mem_cons_self _ _)
    rw [List.foldlM_cons, reshape_step_inv_eq env rank first h0 H S s done p hinv (hs p rfl)]
    rw [if_neg (by omega)]
    have hrest := fun q hq => hall q (List.mem_cons_of_mem _ hq)
    by_cases h2 : trailing_size rank (h0 p) = S
    · rw [if_pos h2]
      simp only [bind, Except.bind]
      exact ih (p :: done) _ S
        (reshape_inv_store env rank first h0 H S done p hinv (Or.inl h2))
        (fun q _ => target_size_fixed rank S _ hS) hrest
    · rcases hdiv with h | ⟨h3, h4⟩
      · exact absurd h h2
      · rw [if_neg h2, if_neg h3, if_neg (not_not.mpr h4)]
        simp only [bind, Except.bind]
        exact ih (p :: done) _ S
          (reshape_inv_store env rank first h0 H S done p hinv (Or.inr h4))
          (fun q _ => target_size_fixed rank S _ hS) hrest

theorem reshape_fold_throws (env : OpcodeInfo) (rank first : Nat) (h0 : Heap) (S : Int)
    (hS : S ≠ -1) (hS0 : S ≠ 0) :
    ∀ (l : List Nat) (done : List Nat) (H : Heap) (s : Int),
      ReshapeInv env rank first h0 S done H →
      (∀ p, l.head? = some p → target_size rank s (h0 p) = S) →
      (∀ p ∈ l, S ≤ trailing_size rank (h0 p)) →
      (∃ p ∈ l, (trailing_size rank (h0 p)).tmod S ≠ 0) →
      l.foldlM (reshape_step env rank first) (H, s)
        = .error (.runtime_error
            "create_nested_block: shape is not divisible with 'size_of_rank_dim'") := by
  intro l
  induction l with
  | nil =>
    intro done H s _ _ _ hex
    obtain ⟨p, hp, _⟩ := hex
    simp at hp
  | cons p ps ih =>
    intro done H s hinv hs hall hex
    have hle := hall p (List.mem_cons_self _ _)
    rw [List.foldlM_cons, reshape_step_inv_eq env rank first h0 H S s done p hinv (hs p rfl)]
    rw [if_neg (by omega)]
    have hrest := fun q hq => hall q (List.mem_cons_of_mem _ hq)
    by_cases h4 : (trailing_size rank (h0 p)).tmod S = 0
    · have hex' : ∃ q ∈ ps, (trailing_size rank (h0 q)).tmod S ≠ 0 := by
        obtain ⟨q, hq, hbad⟩ := hex
        rcases List.mem_cons.mp hq with rfl | hq'
        · exact absurd h4 hbad
        · exact ⟨q, hq', hbad⟩
      by_cases h2 : trailing_size rank (h0 p) = S
      · rw [if_pos h2]
        simp only [bind, Except.bind]
        exact ih (p :: done) _ S
          (reshape_inv_store env rank first h0 H S done p hinv (Or.inl h2))
          (fun q _ => target_size_fixed rank S _ hS) hrest hex'
      · rw [if_neg h2, if_neg hS0, if_neg (not_not.mpr h4)]
        simp only [bind, Except.bind]
        exact ih (p :: done) _ S
          (reshape_inv_store env rank first h0 H S done p hinv (Or.inr h4))
          (fun q _ => target_size_fixed rank S _ hS) hrest hex'
    · have h2 : trailing_size rank (h0 p) ≠ S := by
        intro h
        apply h4
        rw [h]
        exact Int.tmod_self
      rw [if_neg h2, if_neg hS0, if_pos h4]
      rfl

theorem reshape_step_opcode (env : OpcodeInfo) (rank first : Nat) (H : Heap) (s : Int)
    (p : Nat) (st : Heap × Int) (h : reshape_step env rank first (H, s) p = .ok st) :
    ∀ q, (st.1 q).opcode = (H q).opcode ∧ (st.1 q).constant = (H q).constant := by
  have key : ∀ sh, ∀ q, ((H.store p ((H p).reshape env sh)) q).opcode = (H q).opcode ∧
      ((H.store p ((H p).reshape env sh)) q).constant = (H q).constant := by
    intro sh q
    by_cases hq : q = p
    · subst hq
      simp [Heap.store, bh_instruction.reshape]
    · simp [Heap.store, hq]
  rw [reshape_step_eq] at h
  split at h
  · simp at h
  · split at h
    · simp only [Except.ok.injEq] at h
      subst h
      exact key _
    · split at h
      · simp at h
      · split at h
        · simp at h
        · simp only [Except.ok.injEq] at h
          subst h
          exact key _

theorem reshape_fold_opcode (env : OpcodeInfo) (rank first : Nat) :
    ∀ (l : List Nat) (H : Heap) (s : Int) (st : Heap × Int),
      l.foldlM (reshape_step env rank first) (H, s) = .ok st →
      ∀ q, (st.1 q).opcode = (H q).opcode ∧ (st.1 q).constant = (H q).constant := by
  intro l
  induction l with
  | nil =>
    intro H s st h q
    simp only [List.foldlM_nil, pure, Except.pure, Except.ok.injEq] at h
    subst h
    exact ⟨rfl, rfl⟩
  | cons p ps ih =>
    intro H s st h q
    rw [List.foldlM_cons] at h
    cases hstep : reshape_step env rank first (H, s) p with
    | error e => simp [hstep, bind, Except.bind] at h
    | ok st1 =>
      simp only [hstep, bind, Except.bind] at h
      have h1 := reshape_step_opcode env rank first H s p st1 hstep q
      have h2 := ih st1.1 st1.2 st h q
      exact ⟨h2.1.trans h1.1, h2.2.trans h1.2⟩

/-- The reshaping stage changes neither the opcode nor the constant of an instruction, so
it leaves every sweep axis as it was. -/
theorem reshape_stage_sweep_axis (env : OpcodeInfo) (heap : Heap) (l : List Nat) (rank : Nat)
    (s : Int) (H : Heap) (rs : Bool) (h : reshape_stage env heap l rank s = .ok (H, rs)) :
    ∀ q, sweep_axis env (H q) = sweep_axis env (heap q) := by
  intro q
  unfold reshape_stage at h
  split at h
  · simp at h
  · simp only [Except.ok.injEq, Prod.mk.injEq] at h
    rw [← h.1]
  · split at h
    · simp at h
    · rename_i st hfold
      simp only [Except.ok.injEq, Prod.mk.injEq] at h
      have := reshape_fold_opcode env rank _ l heap s st hfold q
      rw [← h.1]
      unfold sweep_axis
      rw [this.1, this.2]

/-! ## The loop nodes of the chain -/

theorem loop_nodes_list_leaves (k : Nat) (l : List Nat) :
    Block.loop_nodes_list (l.map (fun p => Block.instr_block p k)) = [] := by
  induction l with
  | nil => rfl
  | cons p ps ih =>
    simp only [List.map_cons, Block.loop_nodes_list, ih, List.append_nil]
    rfl

theorem loop_nodes_chain (shape : List Int) (sweeps : List (Finset Nat)) (k : Nat)
    (l : List Nat) (hl : l ≠ []) :
    ∀ (m i : Nat),
      (Block.loop_nodes_list
          (chain_children shape sweeps (l.map (fun p => Block.instr_block p k)) m i)).map
          Block.rank = List.range' i m ∧
      ∀ node ∈ Block.loop_nodes_list
          (chain_children shape sweeps (l.map (fun p => Block.instr_block p k)) m i),
        node._sweeps = sweeps.getD node.rank ∅ := by
  intro m
  induction m with
  | zero =>
    intro i
    simp [chain_children, loop_nodes_list_leaves]
  | succ m ih =>
    intro i
    obtain ⟨h1, h2⟩ := ih (i + 1)
    have hne : (chain_children shape sweeps (l.map (fun p => Block.instr_block p k)) m
        (i + 1)).isEmpty = false := by
      rw [List.isEmpty_eq_false]
      exact chain_children_ne_nil shape sweeps _ (by simpa using hl) m (i + 1)
    simp only [chain_children, Block.loop_nodes_list, Block.loop_nodes, hne, List.append_nil,
      Bool.false_eq_true, if_false, List.map_cons, h1, List.mem_cons]
    refine ⟨by rw [List.range'_succ]; rfl, ?_⟩
    rintro node (rfl | hn)
    · rfl
    · exact h2 node hn

theorem loop_nodes_top (shape : List Int) (sweeps : List (Finset Nat)) (k : Nat)
    (l : List Nat) (hl : l ≠ []) (m rank : Nat) (instr : Option Nat) (sz : Int)
    (n f t : Finset Nat) (rs : Bool) :
    ((Block.mk (chain_children shape sweeps (l.map (fun p => Block.instr_block p k)) m
        (rank + 1)) instr rank sz (sweeps.getD rank ∅) n f t rs).loop_nodes).map Block.rank
      = List.range' rank (m + 1) ∧
    ∀ node ∈ (Block.mk (chain_children shape sweeps (l.map (fun p => Block.instr_block p k)) m
        (rank + 1)) instr rank sz (sweeps.getD rank ∅) n f t rs).loop_nodes,
      node._sweeps = sweeps.getD node.rank ∅ := by
  obtain ⟨h1, h2⟩ := loop_nodes_chain shape sweeps k l hl m (rank + 1)
  have hne : (chain_children shape sweeps (l.map (fun p => Block.instr_block p k)) m
      (rank + 1)).isEmpty = false := by
    rw [List.isEmpty_eq_false]
    exact chain_children_ne_nil shape sweeps _ (by simpa using hl) m (rank + 1)
  simp only [Block.loop_nodes, hne, Bool.false_eq_true, if_false, List.map_cons, h1,
    List.mem_cons]
  refine ⟨by rw [List.range'_succ]; rfl, ?_⟩
  rintro node (rfl | hn)
  · rfl
  · exact h2 node hn

/-! ## The dominating shape of operands that share a shape -/

theorem dominating_shape_view_nil (v : bh_view) : dominating_shape_view [] v = v.shape := by
  have key : ∀ k, k ≤ v.shape.length →
      (List.range k).foldl (fun shape j =>
        if shape.length > j then
          (if shape.getD j 0 < v.shape_at j then shape.set j (v.shape_at j) else shape)
        else shape ++ [v.shape_at j]) [] = v.shape.take k := by
    intro k
    induction k with
    | zero => intro _; rfl
    | succ k ih =>
      intro hk
      rw [List.range_succ, List.foldl_append, ih (by omega)]
      have hlen : (v.shape.take k).length = k := by simp; omega
      simp only [List.foldl_cons, List.foldl_nil, hlen, gt_iff_lt, lt_irrefl, if_false]
      unfold bh_view.shape_at
      rw [List.take_succ, List.getD_eq_getElem?_getD,
        List.getElem?_eq_getElem (by omega : k < v.shape.length)]
      rfl
  have := key v.shape.length (le_refl _)
  rw [List.take_length] at this
  exact this

theorem dominating_shape_view_same (v : bh_view) : dominating_shape_view v.shape v = v.shape := by
  have key : ∀ l : List Nat,
      l.foldl (fun shape j =>
        if shape.length > j then
          (if shape.getD j 0 < v.shape_at j then shape.set j (v.shape_at j) else shape)
        else shape ++ [v.shape_at j]) v.shape = v.shape ∨ ∃ j ∈ l, v.shape.length ≤ j := by
    intro l
    induction l with
    | nil => left; rfl
    | cons j js ih =>
      by_cases hj : j < v.shape.length
      · rcases ih with h | ⟨i, hi, hle⟩
        · left
          simp only [List.foldl_cons, gt_iff_lt, hj, if_true]
          unfold bh_view.shape_at
          simp only [lt_irrefl, if_false]
          exact h
        · right
          exact ⟨i, List.mem_cons_of_mem _ hi, hle⟩
      · right
        exact ⟨j, List.mem_cons_self _ _, by omega⟩
  rcases key (List.range v.ndim) with h | ⟨j, hj, hle⟩
  · exact h
  · rw [List.mem_range] at hj
    unfold bh_view.ndim at hj
    omega

theorem dominating_shape_fold_same (sh : List Int) :
    ∀ (views : List bh_view), (∀ v ∈ views, v.shape = sh) →
      views.foldl dominating_shape_view sh = sh := by
  intro views
  induction views with
  | nil => intro _; rfl
  | cons v vs ih =>
    intro h
    have hv := h v (List.mem_cons_self _ _)
    rw [List.foldl_cons]
    have := dominating_shape_view_same v
    rw [hv] at this
    rw [this]
    exact ih (fun w hw => h w (List.mem_cons_of_mem _ hw))

theorem max_ndim_fold (sh : List Int) :
    ∀ (views : List bh_view) (acc : Nat),
      (∀ v ∈ views, bh_is_constant v = true ∨ v.shape = sh) →
      views.foldl (fun ndim view =>
        if !bh_is_constant view then (if view.ndim > ndim then view.ndim else ndim) else ndim) acc
        = if views.any (fun v => !bh_is_constant v) then max acc sh.length else acc := by
  intro views
  induction views with
  | nil => intro acc _; rfl
  | cons v vs ih =>
    intro acc h
    rw [List.foldl_cons, ih _ (fun w hw => h w (List.mem_cons_of_mem _ hw))]
    cases hc : bh_is_constant v with
    | true => simp [hc]
    | false =>
      have hs : v.shape = sh := by
        rcases h v (List.mem_cons_self _ _) with h1 | h1
        · rw [hc] at h1
          exact absurd h1 (by simp)
        · exact h1
      have hnd : v.ndim = sh.length := by unfold bh_view.ndim; rw [hs]
      have hstep : (if (!false) = true then (if v.ndim > acc then v.ndim else acc) else acc)
          = max acc sh.length := by
        rw [hnd]
        simp only [Bool.not_false, if_true, gt_iff_lt]
        by_cases hlt : acc < sh.length
        · rw [if_pos hlt]
          omega
        · rw [if_neg hlt]
          omega
      rw [hstep]
      simp only [List.any_cons, hc, Bool.not_false, Bool.true_or, if_true]
      by_cases hany : vs.any (fun v => !bh_is_constant v) = true
      · rw [if_pos hany]
        omega
      · rw [if_neg hany]

/-- When every non-constant operand has the shape `sh`, the dominating shape is `sh`, or
the empty shape if there is no non-constant operand. -/
theorem dominating_shape_uniform (nviews : Nat) (ops : List bh_view) (sh : List Int)
    (hall : ∀ v ∈ ops.take nviews, bh_is_constant v = true ∨ v.shape = sh) :
    dominating_shape nviews ops
      = if (ops.take nviews).any (fun v => !bh_is_constant v) then sh else [] := by
  unfold dominating_shape max_ndim_views
  simp only []
  rw [max_ndim_fold sh _ 0 hall]
  by_cases hany : (ops.take nviews).any (fun v => !bh_is_constant v) = true
  · simp only [hany, if_true, Nat.zero_max]
    have hfilter : (ops.take nviews).filter
        (fun view => !bh_is_constant view && view.ndim == sh.length)
        = (ops.take nviews).filter (fun view => !bh_is_constant view) := by
      apply List.filter_congr
      intro v hv
      rcases hall v hv with hc | hs
      · simp [hc]
      · have hnd : v.ndim = sh.length := by unfold bh_view.ndim; rw [hs]
        simp [hnd]
    rw [hfilter]
    have hshape : ∀ v ∈ (ops.take nviews).filter (fun view => !bh_is_constant view),
        v.shape = sh := by
      intro v hv
      rw [List.mem_filter] at hv
      rcases hall v hv.1 with hc | hs
      · simp [hc] at hv
      · exact hs
    cases hl : (ops.take nviews).filter (fun view => !bh_is_constant view) with
    | nil =>
      exfalso
      rw [List.any_eq_true] at hany
      obtain ⟨v, hv, hnc⟩ := hany
      have : v ∈ (ops.take nviews).filter (fun view => !bh_is_constant view) :=
        List.mem_filter.mpr ⟨hv, hnc⟩
      rw [hl] at this
      simp at this
    | cons v vs =>
      rw [hl] at hshape
      rw [List.foldl_cons, dominating_shape_view_nil, hshape v (List.mem_cons_self _ _)]
      exact dominating_shape_fold_same sh vs (fun w hw => hshape w (List.mem_cons_of_mem _ hw))
  · have hnone : (ops.take nviews).filter
        (fun view => !bh_is_constant view && view.ndim == 0) = [] := by
      rw [List.filter_eq_nil_iff]
      intro v hv hcond
      apply hany
      rw [List.any_eq_true]
      refine ⟨v, hv, ?_⟩
      simp only [Bool.and_eq_true] at hcond
      exact hcond.1
    simp only [hany, Bool.false_eq_true, if_false, hnone, List.foldl_nil]

/-! ## The reshaping stage -/

theorem reshape_inv_congr (env : OpcodeInfo) (rank first : Nat) (h0 H : Heap) (S : Int)
    (done done' : List Nat) (hmem : ∀ q, q ∈ done ↔ q ∈ done')
    (hinv : ReshapeInv env rank first h0 S done H) :
    ReshapeInv env rank first h0 S done' H :=
  ⟨hinv.opcode_eq, hinv.constant_eq, hinv.bases_eq, hinv.total_eq, hinv.lead_eq,
    fun q hq => hinv.untouched q (fun h => hq ((hmem q).mp h)),
    fun q hq => hinv.shaped q ((hmem q).mpr hq)⟩

theorem is_reshapeable_true (env : OpcodeInfo) (heap : Heap) (first : Nat) (rest : List Nat)
    (h : is_reshapeable env heap (first :: rest) = .ok true) :
    ∀ p ∈ first :: rest, (heap p).reshapable env = true := by
  intro p hp
  unfold is_reshapeable at h
  simp only [Except.ok.injEq] at h
  have := List.all_eq_true.mp h p hp
  simp only [Bool.and_eq_true] at this
  exact this.1

theorem reshapable_no_sweep (env : OpcodeInfo) (i : bh_instruction)
    (h : i.reshapable env = true) : ¬ sweep_axis env i < env.BH_MAXDIM := by
  unfold bh_instruction.reshapable at h
  simp only [Bool.and_eq_true, Bool.not_eq_true'] at h
  unfold sweep_axis
  rw [h.2]
  simp

theorem reshape_stage_reshapeable (env : OpcodeInfo) (heap : Heap) (first : Nat)
    (rest : List Nat) (rank : Nat) (s : Int)
    (h : is_reshapeable env heap (first :: rest) = .ok true) :
    reshape_stage env heap (first :: rest) rank s
      = match (first :: rest).foldlM (reshape_step env rank first) (heap, s) with
        | .error e => .error e
        | .ok st => .ok (st.1, true) := by
  unfold reshape_stage
  rw [h]
  rfl

/-- What a successful reshaping stage has done to a reshapable list. -/
theorem reshape_stage_inv (env : OpcodeInfo) (heap : Heap) (first : Nat) (rest : List Nat)
    (rank : Nat) (s : Int) (H : Heap) (rs : Bool)
    (hre : is_reshapeable env heap (first :: rest) = .ok true)
    (hS : target_size rank s (heap first) ≠ -1)
    (h : reshape_stage env heap (first :: rest) rank s = .ok (H, rs)) :
    rs = true ∧
    ReshapeInv env rank first heap (target_size rank s (heap first)) (first :: rest) H ∧
    ∀ p ∈ first :: rest, target_size rank s (heap first) ≤ trailing_size rank (heap p) ∧
      (trailing_size rank (heap p) = target_size rank s (heap first) ∨
        (target_size rank s (heap first) ≠ 0 ∧
          (trailing_size rank (heap p)).tmod (target_size rank s (heap first)) = 0)) := by
  rw [reshape_stage_reshapeable env heap first rest rank s hre] at h
  cases hfold : (first :: rest).foldlM (reshape_step env rank first) (heap, s) with
  | error e => simp [hfold] at h
  | ok st =>
    simp only [hfold, Except.ok.injEq, Prod.mk.injEq] at h
    obtain ⟨hinv, hall⟩ := reshape_fold_inv env rank first heap _ hS (first :: rest) [] heap s st
      (reshape_inv_init env rank first heap _)
      (fun p hp => by
        simp only [List.head?_cons, Option.some.injEq] at hp
        rw [← hp])
      hfold
    refine ⟨h.2.symm, ?_, hall⟩
    rw [← h.1]
    exact reshape_inv_congr env rank first heap st.1 _ _ _
      (by intro q; simp [or_comm]) hinv

theorem reshape_stage_returns (env : OpcodeInfo) (heap : Heap) (first : Nat) (rest : List Nat)
    (rank : Nat) (s : Int)
    (hre : is_reshapeable env heap (first :: rest) = .ok true)
    (hS : target_size rank s (heap first) ≠ -1)
    (hall : ∀ p ∈ first :: rest, target_size rank s (heap first) ≤ trailing_size rank (heap p) ∧
      (trailing_size rank (heap p) = target_size rank s (heap first) ∨
        (target_size rank s (heap first) ≠ 0 ∧
          (trailing_size rank (heap p)).tmod (target_size rank s (heap first)) = 0))) :
    ∃ H, reshape_stage env heap (first :: rest) rank s = .ok (H, true) := by
  rw [reshape_stage_reshapeable env heap first rest rank s hre]
  obtain ⟨st, hst⟩ := reshape_fold_returns env rank first heap _ hS (first :: rest) [] heap s
    (reshape_inv_init env rank first heap _)
    (fun p hp => by
      simp only [List.head?_cons, Option.some.injEq] at hp
      rw [← hp])
    hall
  exact ⟨st.1, by rw [hst]⟩

theorem reshape_stage_throws (env : OpcodeInfo) (heap : Heap) (first : Nat) (rest : List Nat)
    (rank : Nat) (s : Int)
    (hre : is_reshapeable env heap (first :: rest) = .ok true)
    (hS : target_size rank s (heap first) ≠ -1) (hS0 : target_size rank s (heap first) ≠ 0)
    (hall : ∀ p ∈ first :: rest, target_size rank s (heap first) ≤ trailing_size rank (heap p))
    (hex : ∃ p ∈ first :: rest,
      (trailing_size rank (heap p)).tmod (target_size rank s (heap first)) ≠ 0) :
    reshape_stage env heap (first :: rest) rank s
      = .error (.runtime_error
          "create_nested_block: shape is not divisible with 'size_of_rank_dim'") := by
  rw [reshape_stage_reshapeable env heap first rest rank s hre]
  rw [reshape_fold_throws env rank first heap _ hS hS0 (first :: rest) [] heap s
    (reshape_inv_init env rank first heap _)
    (fun p hp => by
      simp only [List.head?_cons, Option.some.injEq] at hp
      rw [← hp])
    hall hex]

theorem has_array_operand_inv (env : OpcodeInfo) (rank first : Nat) (h0 H : Heap) (S : Int)
    (done : List Nat) (hinv : ReshapeInv env rank first h0 S done H) (p : Nat) :
    (H p).has_array_operand env = (h0 p).has_array_operand env := by
  unfold bh_instruction.has_array_operand bh_is_constant
  have h1 : ∀ (ops : List bh_view) (n : Nat),
      (ops.take n).any (fun v => !v.base.isNone)
        = ((ops.map (fun v => v.base)).take n).any (fun b => !b.isNone) := by
    intro ops n
    rw [← List.map_take]
    induction ops.take n with
    | nil => rfl
    | cons v vs ih => simp only [List.any_cons, List.map_cons, ih]
  rw [h1, h1, hinv.bases_eq p, hinv.opcode_eq p]

/-- The dominating shape of a reshaped instruction. -/
theorem reshaped_dominating_shape (env : OpcodeInfo) (rank first : Nat) (h0 H : Heap) (S : Int)
    (done : List Nat) (hinv : ReshapeInv env rank first h0 S done H) (p : Nat) (hp : p ∈ done) :
    (H p).dominating_shape env
      = if (h0 p).has_array_operand env then
          collapsed_shape (leading_dims rank (h0 first)) (trailing_size rank (h0 p)) S
        else [] := by
  unfold bh_instruction.dominating_shape
  rw [dominating_shape_uniform _ _ _ (hinv.shaped p hp)]
  have := has_array_operand_inv env rank first h0 H S done hinv p
  unfold bh_instruction.has_array_operand at this ⊢
  rw [this]

/-! ## Failures after the reshaping stage -/

theorem find_sweeps_fold_error (env : OpcodeInfo) (heap : Heap) (n : Nat) :
    ∀ (l : List Nat) (init : List (Finset Nat)) (e : Failure),
      l.foldlM (find_sweeps_step env heap n) init = .error e →
      ∀ what, e ≠ .runtime_error what := by
  intro l
  induction l with
  | nil => intro init e h; simp [pure, Except.pure] at h
  | cons q qs ih =>
    intro init e h
    rw [List.foldlM_cons] at h
    cases hstep : find_sweeps_step env heap n init q with
    | error e1 =>
      simp only [hstep, bind, Except.bind, Except.error.injEq] at h
      subst h
      unfold find_sweeps_step at hstep
      intro what hw
      subst hw
      simp only [] at hstep
      split at hstep
      · split at hstep
        · simp at hstep
        · split at hstep
          · simp at hstep
          · simp at hstep
      · simp at hstep
    | ok sw1 =>
      simp only [hstep, bind, Except.bind] at h
      exact ih sw1 e h

/-- Once the reshaping stage has gone through, `create_nested_block` throws no runtime
error: what can still fail are the assertions. -/
theorem create_nested_block_no_throw (env : OpcodeInfo) (heap : Heap) (first : Nat)
    (rest : List Nat) (news frees temps : Finset Nat) (rank : Nat) (s : Int)
    (H : Heap) (rs : Bool)
    (hstage : reshape_stage env heap (first :: rest) rank s = .ok (H, rs)) :
    ∀ what, create_nested_block env heap (first :: rest) news frees temps rank s
      ≠ .error (.runtime_error what) := by
  intro what
  unfold create_nested_block
  simp only [hstage]
  cases hck : check_dominating_shape env H ((H first).dominating_shape env) (first :: rest) with
  | error e =>
    unfold check_dominating_shape at hck
    split at hck
    · simp at hck
    · simp only [Except.error.injEq] at hck
      subst hck
      simp
  | ok u =>
    simp only []
    by_cases hr : rank < ((H first).dominating_shape env).length
    · simp only [gt_iff_lt, hr, not_true_eq_false, if_false]
      cases hfs : find_sweeps env H ((H first).dominating_shape env).length (first :: rest) with
      | error e =>
        simp only [ne_eq, Except.error.injEq]
        exact find_sweeps_fold_error env H _ (first :: rest) _ e hfs what
      | ok sw => simp
    · simp [hr]

theorem create_nested_block_stage_error (env : OpcodeInfo) (heap : Heap) (first : Nat)
    (rest : List Nat) (news frees temps : Finset Nat) (rank : Nat) (s : Int) (e : Failure)
    (hstage : reshape_stage env heap (first :: rest) rank s = .error e) :
    create_nested_block env heap (first :: rest) news frees temps rank s = .error e := by
  unfold create_nested_block
  simp only [hstage]

/-- A reshapable list whose instructions all have the trailing total of the first one and
an operand that is not a constant passes the assertions that follow the reshaping stage. -/
theorem create_nested_block_reshapeable_returns (env : OpcodeInfo) (heap : Heap) (first : Nat)
    (rest : List Nat) (news frees temps : Finset Nat) (rank : Nat) (s : Int)
    (hre : is_reshapeable env heap (first :: rest) = .ok true)
    (hS : target_size rank s (heap first) ≠ -1)
    (hle : target_size rank s (heap first) ≤ trailing_size rank (heap first))
    (hdiv : trailing_size rank (heap first) = target_size rank s (heap first) ∨
      (target_size rank s (heap first) ≠ 0 ∧
        (trailing_size rank (heap first)).tmod (target_size rank s (heap first)) = 0))
    (hall : ∀ p ∈ first :: rest, trailing_size rank (heap p) = trailing_size rank (heap first) ∧
      (heap p).has_array_operand env = true) :
    ∃ blk heap', create_nested_block env heap (first :: rest) news frees temps rank s
      = .ok (blk, heap') := by
  obtain ⟨H, hstage⟩ := reshape_stage_returns env heap first rest rank s hre hS
    (fun p hp => by rw [(hall p hp).1]; exact ⟨hle, hdiv⟩)
  obtain ⟨_, hinv, _⟩ := reshape_stage_inv env heap first rest rank s H true hre hS hstage
  have hshape : ∀ p ∈ first :: rest, (H p).dominating_shape env
      = collapsed_shape (leading_dims rank (heap first)) (trailing_size rank (heap first))
          (target_size rank s (heap first)) := by
    intro p hp
    rw [reshaped_dominating_shape env rank first heap H _ _ hinv p hp, (hall p hp).2,
      (hall p hp).1]
    rfl
  have hfirst := hshape first (List.mem_cons_self _ _)
  have hck := (check_dominating_shape_ok env H ((H first).dominating_shape env)
    (first :: rest)).mpr (fun p hp _ => by rw [hshape p hp, hfirst])
  have hrank : rank < ((H first).dominating_shape env).length := by
    rw [hfirst]
    unfold collapsed_shape
    rw [List.length_append, leading_dims_length]
    split <;> simp
  have hax := reshape_stage_sweep_axis env heap (first :: rest) rank s H true hstage
  obtain ⟨sw, hsw⟩ := (find_sweeps_spec env H ((H first).dominating_shape env).length
    (first :: rest)).1 (fun p hp hlt => by
      rw [hax p] at hlt
      exact absurd hlt (reshapable_no_sweep env (heap p) (is_reshapeable_true env heap first rest hre p hp)))
  exact ⟨_, H, (create_nested_block_ok_iff env heap first rest news frees temps rank s _ H).mpr
    ⟨true, sw, hstage, hck, hrank, hsw, rfl⟩⟩

/-! ## Claims about `create_nested_block` -/

/-- C6, as stated, fails: instructions 1 and 2 of `ex_heap` share the dominating shape
8×16 and the start rank 0 is below its length 2, but the list is reshapable, so
`create_nested_block` (no target size: −1) returns one loop node of size 128 whose
children are the two instruction leaves, not a chain of two loop nodes of sizes 8 and 16. -/
theorem create_nested_block_chain_counterexample :
    (∀ p ∈ [1, 2], (ex_heap p).dominating_shape ex_env = [8, 16]) ∧
    ∃ blk heap', create_nested_block ex_env ex_heap [1, 2] ∅ ∅ ∅ 0 (-1) = .ok (blk, heap') ∧
      blk.size = 128 ∧ blk.size ≠ ([8, 16] : List Int).getD 0 0 ∧
      blk._block_list = [Block.instr_block 1 1, Block.instr_block 2 1] :=
  ⟨by decide, _, _, rfl, by decide, by decide, rfl⟩

/-- C6 (amended): take a non-empty instruction list and let `heap'` be the instructions
after the reshaping stage of `create_nested_block` (which rewrites the operand shapes of a
reshapable list and leaves any other list untouched).  If the first instruction and every
non-system instruction then have the dominating shape `shape`, the start rank `r` is below
`len(shape)` and every sweep axis lies in `0 .. len(shape) − 1`, then `create_nested_block`
returns a chain of `len(shape) − r` loop nodes: the `k`-th node has rank `r + k` and size
`shape[r + k]`, every node but the innermost has exactly one child (the next node), and
the children of the innermost node are one instruction leaf per input instruction, in
input order. -/
theorem create_nested_block_chain (env : OpcodeInfo) (heap : Heap) (first : Nat)
    (rest : List Nat) (news frees temps : Finset Nat) (rank : Nat) (s : Int)
    (heap' : Heap) (reshapable : Bool) (shape : List Int)
    (hstage : reshape_stage env heap (first :: rest) rank s = .ok (heap', reshapable))
    (hfirst : (heap' first).dominating_shape env = shape)
    (hshape : ∀ p ∈ first :: rest, env.bh_opcode_is_system (heap' p).opcode = false →
      (heap' p).dominating_shape env = shape)
    (hrank : rank < shape.length)
    (haxis : ∀ p ∈ first :: rest, sweep_axis env (heap' p) < env.BH_MAXDIM →
      0 ≤ sweep_axis env (heap' p) ∧ sweep_axis env (heap' p) < shape.length) :
    ∃ blk, create_nested_block env heap (first :: rest) news frees temps rank s
        = .ok (blk, heap') ∧
      ∀ k, k < shape.length - rank →
        ∃ node, blk.descend k = some node ∧ node.isInstr = false ∧
          node.rank = rank + k ∧ node.size = shape.getD (rank + k) 0 ∧
          (k + 1 < shape.length - rank →
            ∃ child, node._block_list = [child] ∧ blk.descend (k + 1) = some child) ∧
          (k + 1 = shape.length - rank →
            node._block_list = (first :: rest).map (fun p => Block.instr_block p shape.length)) := by
  subst hfirst
  obtain ⟨sw, hsw⟩ := (find_sweeps_spec env heap' _ (first :: rest)).1 haxis
  have hck := (check_dominating_shape_ok env heap' _ (first :: rest)).mpr hshape
  refine ⟨_, (create_nested_block_ok_iff env heap first rest news frees temps rank s _ heap').mpr
    ⟨reshapable, sw, hstage, hck, hrank, hsw, rfl⟩, ?_⟩
  intro k hk
  obtain ⟨node, hd, hi, hr, hs, _, hl⟩ := chain_nodes ((heap' first).dominating_shape env) sw
    ((first :: rest).map
      (fun p => Block.instr_block p ((heap' first).dominating_shape env).length))
    (by simp) rank news frees temps reshapable hrank k hk
  refine ⟨node, hd, hi, hr, hs, ?_, ?_⟩
  · intro hk1
    obtain ⟨m, hm⟩ : ∃ m, ((heap' first).dominating_shape env).length - (rank + 1) - k = m + 1 :=
      ⟨((heap' first).dominating_shape env).length - (rank + 1) - k - 1, by omega⟩
    rw [hm] at hl
    simp only [chain_children] at hl
    refine ⟨_, hl, ?_⟩
    rw [descend_succ_eq k _ node hd, hl]
    rfl
  · intro hk1
    have hm : ((heap' first).dominating_shape env).length - (rank + 1) - k = 0 := by omega
    rw [hm] at hl
    simpa [chain_children] using hl

theorem create_nested_block_chain_witness :
    (reshape_stage ex_env ex_heap [1, 3] 0 (-1) = .ok (ex_heap, false) ∧
      (ex_heap 1).dominating_shape ex_env = [8, 16] ∧
      (∀ p ∈ [1, 3], ex_env.bh_opcode_is_system (ex_heap p).opcode = false →
        (ex_heap p).dominating_shape ex_env = [8, 16]) ∧
      0 < ([8, 16] : List Int).length ∧
      (∀ p ∈ [1, 3], sweep_axis ex_env (ex_heap p) < ex_env.BH_MAXDIM →
        0 ≤ sweep_axis ex_env (ex_heap p) ∧
          sweep_axis ex_env (ex_heap p) < ([8, 16] : List Int).length)) ∧
    ∃ blk, create_nested_block ex_env ex_heap [1, 3] ∅ ∅ ∅ 0 (-1) = .ok (blk, ex_heap) ∧
      ∀ k, k < ([8, 16] : List Int).length - 0 →
        ∃ node, blk.descend k = some node ∧ node.isInstr = false ∧
          node.rank = 0 + k ∧ node.size = ([8, 16] : List Int).getD (0 + k) 0 ∧
          (k + 1 < ([8, 16] : List Int).length - 0 →
            ∃ child, node._block_list = [child] ∧ blk.descend (k + 1) = some child) ∧
          (k + 1 = ([8, 16] : List Int).length - 0 →
            node._block_list
              = [1, 3].map (fun p => Block.instr_block p ([8, 16] : List Int).length)) :=
  ⟨⟨rfl, by decide, by decide, by decide, by decide⟩,
    create_nested_block_chain ex_env ex_heap 1 [3] ∅ ∅ ∅ 0 (-1) ex_heap false [8, 16]
      rfl (by decide) (by decide) (by decide) (by decide)⟩

/-- C7, as stated, fails: instruction 6 of `ex_heap` sweeps axis 0 of an 8×16 array; the
nested block built for it from start rank 1 has a single loop node (rank 1), and that node
does not list instruction 6 in its sweeps, so the instruction is listed in no loop node. -/
theorem create_nested_block_sweeps_counterexample :
    sweep_axis ex_env (ex_heap 6) = 0 ∧ sweep_axis ex_env (ex_heap 6) < ex_env.BH_MAXDIM ∧
    ∃ blk heap', create_nested_block ex_env ex_heap [6] ∅ ∅ ∅ 1 (-1) = .ok (blk, heap') ∧
      blk.loop_nodes.map Block.rank = [1] ∧ ∀ node ∈ blk.loop_nodes, 6 ∉ node._sweeps :=
  ⟨by decide, by decide, _, _, rfl, by decide, by decide⟩

/-- C7 (amended): in the block returned by `create_nested_block` for start rank `r`, the
loop nodes have the ranks `r, r+1, .., len(shape) − 1`, one node each, and the sweeps set of
a loop node holds exactly the instructions of the list whose sweep axis equals the rank of
that node.  Hence an instruction whose sweep axis is at least `r` is listed in the sweeps
set of exactly one loop node, and an instruction whose sweep axis is below `r` is listed
in none. -/
theorem create_nested_block_sweeps (env : OpcodeInfo) (heap : Heap) (first : Nat)
    (rest : List Nat) (news frees temps : Finset Nat) (rank : Nat) (s : Int)
    (blk : Block) (heap' : Heap)
    (h : create_nested_block env heap (first :: rest) news frees temps rank s
      = .ok (blk, heap')) :
    blk.loop_nodes.map Block.rank
      = List.range' rank (((heap' first).dominating_shape env).length - rank) ∧
    (∀ node ∈ blk.loop_nodes, ∀ p, p ∈ node._sweeps ↔
      (p ∈ first :: rest ∧ sweep_axis env (heap p) < env.BH_MAXDIM ∧
        sweep_axis env (heap p) = node.rank)) ∧
    (∀ p ∈ first :: rest, sweep_axis env (heap p) < env.BH_MAXDIM →
      (rank : Int) ≤ sweep_axis env (heap p) →
      ∃! node, node ∈ blk.loop_nodes ∧ p ∈ node._sweeps) ∧
    (∀ p, sweep_axis env (heap p) < rank → ∀ node ∈ blk.loop_nodes, p ∉ node._sweeps) := by
  obtain ⟨rs, sw, hstage, _, hrank, hsw, rfl⟩ :=
    (create_nested_block_ok_iff env heap first rest news frees temps rank s blk heap').mp h
  have hax := reshape_stage_sweep_axis env heap (first :: rest) rank s heap' rs hstage
  obtain ⟨hvalid, hmem⟩ := (find_sweeps_spec env heap' _ (first :: rest)).2 sw hsw
  obtain ⟨hranks, hsweeps⟩ := loop_nodes_top ((heap' first).dominating_shape env) sw
    ((heap' first).dominating_shape env).length (first :: rest) (by simp)
    (((heap' first).dominating_shape env).length - (rank + 1)) rank none
    (((heap' first).dominating_shape env).getD rank 0) news frees temps rs
  have hcount : ((heap' first).dominating_shape env).length - (rank + 1) + 1
      = ((heap' first).dominating_shape env).length - rank := by omega
  rw [hcount] at hranks
  have hnode : ∀ node ∈ (Block.mk
      (chain_children ((heap' first).dominating_shape env) sw
        ((first :: rest).map
          (fun p => Block.instr_block p ((heap' first).dominating_shape env).length))
        (((heap' first).dominating_shape env).length - (rank + 1)) (rank + 1))
      none rank (((heap' first).dominating_shape env).getD rank 0) (sw.getD rank ∅)
      news frees temps rs).loop_nodes,
      rank ≤ node.rank ∧ node.rank < ((heap' first).dominating_shape env).length := by
    intro node hn
    have : node.rank ∈ List.range' rank (((heap' first).dominating_shape env).length - rank) := by
      rw [← hranks]
      exact List.mem_map_of_mem _ hn
    rw [List.mem_range'_1] at this
    omega
  have hlist : ∀ node ∈ (Block.mk
      (chain_children ((heap' first).dominating_shape env) sw
        ((first :: rest).map
          (fun p => Block.instr_block p ((heap' first).dominating_shape env).length))
        (((heap' first).dominating_shape env).length - (rank + 1)) (rank + 1))
      none rank (((heap' first).dominating_shape env).getD rank 0) (sw.getD rank ∅)
      news frees temps rs).loop_nodes, ∀ p, p ∈ node._sweeps ↔
      (p ∈ first :: rest ∧ sweep_axis env (heap p) < env.BH_MAXDIM ∧
        sweep_axis env (heap p) = node.rank) := by
    intro node hn p
    rw [hsweeps node hn, hmem node.rank p, hax p]
    have := (hnode node hn).2
    constructor
    · rintro ⟨_, h2, h3, h4⟩
      exact ⟨h2, h3, h4⟩
    · rintro ⟨h2, h3, h4⟩
      exact ⟨this, h2, h3, h4⟩
  refine ⟨hranks, hlist, ?_, ?_⟩
  · intro p hp hmax hle
    have hv := hvalid p hp (by rw [hax p]; exact hmax)
    rw [hax p] at hv
    have hin : (sweep_axis env (heap p)).toNat
        ∈ List.range' rank (((heap' first).dominating_shape env).length - rank) := by
      rw [List.mem_range'_1]
      omega
    rw [← hranks] at hin
    obtain ⟨node, hn, hr⟩ := List.mem_map.mp hin
    have hr' : sweep_axis env (heap p) = (node.rank : Int) := by omega
    refine ⟨node, ⟨hn, (hlist node hn p).mpr ⟨hp, hmax, hr'⟩⟩, ?_⟩
    rintro node' ⟨hn', hp'⟩
    have h1 := ((hlist node' hn' p).mp hp').2.2
    have hnd : (List.map Block.rank (Block.mk
      (chain_children ((heap' first).dominating_shape env) sw
        ((first :: rest).map
          (fun p => Block.instr_block p ((heap' first).dominating_shape env).length))
        (((heap' first).dominating_shape env).length - (rank + 1)) (rank + 1))
      none rank (((heap' first).dominating_shape env).getD rank 0) (sw.getD rank ∅)
      news frees temps rs).loop_nodes).Nodup := by
      rw [hranks]
      exact List.nodup_range' _ _
    exact List.inj_on_of_nodup_map hnd hn' hn (by omega)
  · intro p hlt node hn hp
    have h1 := ((hlist node hn p).mp hp).2.2
    have := (hnode node hn).1
    omega

theorem create_nested_block_sweeps_witness :
    ∃ blk heap', create_nested_block ex_env ex_heap [1, 3] ∅ ∅ ∅ 0 (-1) = .ok (blk, heap') ∧
      (blk.loop_nodes.map Block.rank
        = List.range' 0 (((heap' 1).dominating_shape ex_env).length - 0) ∧
      (∀ node ∈ blk.loop_nodes, ∀ p, p ∈ node._sweeps ↔
        (p ∈ [1, 3] ∧ sweep_axis ex_env (ex_heap p) < ex_env.BH_MAXDIM ∧
          sweep_axis ex_env (ex_heap p) = node.rank)) ∧
      (∀ p ∈ [1, 3], sweep_axis ex_env (ex_heap p) < ex_env.BH_MAXDIM →
        ((0 : Nat) : Int) ≤ sweep_axis ex_env (ex_heap p) →
        ∃! node, node ∈ blk.loop_nodes ∧ p ∈ node._sweeps) ∧
      (∀ p, sweep_axis ex_env (ex_heap p) < (0 : Nat) →
        ∀ node ∈ blk.loop_nodes, p ∉ node._sweeps)) :=
  ⟨_, _, rfl, create_nested_block_sweeps ex_env ex_heap 1 [3] ∅ ∅ ∅ 0 (-1) _ _ rfl⟩

/-- C8, as stated, fails: instructions 1 and 2 of `ex_heap` form a reshapable list of 8×16
arrays; collapsed along rank 0 with no target size given, the target is the total 128 and
instruction 1 is reshaped to the one-dimensional shape `[128]`, not to the two-dimensional
`[s, total/s] = [128, 1]`. -/
theorem create_nested_block_reshape_counterexample :
    is_reshapeable ex_env ex_heap [1, 2] = .ok true ∧
    trailing_size 0 (ex_heap 1) = 128 ∧ target_size 0 (-1) (ex_heap 1) = 128 ∧
    ∃ blk heap', create_nested_block ex_env ex_heap [1, 2] ∅ ∅ ∅ 0 (-1) = .ok (blk, heap') ∧
      (heap' 1).operand0.shape = [128] ∧ (heap' 1).operand0.shape.length ≠ 0 + 2 :=
  ⟨rfl, by decide, by decide, _, _, rfl, by decide, by decide⟩

/-- C8 (amended): when `create_nested_block` collapses a reshapable instruction list along
rank `r` to the target size `s` (the argument, or the trailing total of the first
instruction when the argument is −1; `s ≠ −1`), every non-constant operand of every
instruction gets the shape made of the first `r` dimensions of the first instruction's
output operand followed by `[s]` when `total = s` and by `[s, total/s]` otherwise, where
`total` is the product of the instruction's output dimensions from `r` onward.  The new
shape has `r+1` or `r+2` dimensions, and as many elements as the output operand had
whenever its first `r` dimensions are those of the first instruction. -/
theorem create_nested_block_reshape (env : OpcodeInfo) (heap : Heap) (first : Nat)
    (rest : List Nat) (news frees temps : Finset Nat) (rank : Nat) (s : Int)
    (blk : Block) (heap' : Heap)
    (hre : is_reshapeable env heap (first :: rest) = .ok true)
    (hS : target_size rank s (heap first) ≠ -1)
    (h : create_nested_block env heap (first :: rest) news frees temps rank s
      = .ok (blk, heap')) :
    ∀ p ∈ first :: rest,
      (∀ v ∈ (heap' p).operand.take (env.bh_noperands (heap' p).opcode),
        bh_is_constant v = true ∨
          v.shape = collapsed_shape (leading_dims rank (heap first))
            (trailing_size rank (heap p)) (target_size rank s (heap first))) ∧
      (collapsed_shape (leading_dims rank (heap first)) (trailing_size rank (heap p))
          (target_size rank s (heap first))).length
        = (if trailing_size rank (heap p) = target_size rank s (heap first) then rank + 1
           else rank + 2) ∧
      (leading_dims rank (heap first) = (heap p).operand0.shape.take rank →
        (collapsed_shape (leading_dims rank (heap first)) (trailing_size rank (heap p))
            (target_size rank s (heap first))).prod
          = (heap p).operand0.shape.prod) := by
  obtain ⟨rs, sw, hstage, _, _, _, _⟩ :=
    (create_nested_block_ok_iff env heap first rest news frees temps rank s blk heap').mp h
  obtain ⟨_, hinv, hall⟩ := reshape_stage_inv env heap first rest rank s heap' rs hre hS hstage
  intro p hp
  refine ⟨hinv.shaped p hp, ?_, ?_⟩
  · unfold collapsed_shape
    rw [List.length_append, leading_dims_length]
    split <;> simp
  · intro hlead
    have hdiv : trailing_size rank (heap p) = target_size rank s (heap first) ∨
        (trailing_size rank (heap p)).tmod (target_size rank s (heap first)) = 0 := by
      rcases (hall p hp).2 with h1 | h1
      · exact Or.inl h1
      · exact Or.inr h1.2
    unfold collapsed_shape
    rw [List.prod_append, collapsed_tail_prod _ _ hdiv, hlead]
    unfold trailing_size
    exact List.prod_take_mul_prod_drop _ _

theorem create_nested_block_reshape_witness :
    (is_reshapeable ex_env ex_heap [1, 2] = .ok true ∧ target_size 0 64 (ex_heap 1) ≠ -1) ∧
    ∃ blk heap', create_nested_block ex_env ex_heap [1, 2] ∅ ∅ ∅ 0 64 = .ok (blk, heap') ∧
      ∀ p ∈ [1, 2],
        (∀ v ∈ (heap' p).operand.take (ex_env.bh_noperands (heap' p).opcode),
          bh_is_constant v = true ∨
            v.shape = collapsed_shape (leading_dims 0 (ex_heap 1))
              (trailing_size 0 (ex_heap p)) (target_size 0 64 (ex_heap 1))) ∧
        (collapsed_shape (leading_dims 0 (ex_heap 1)) (trailing_size 0 (ex_heap p))
            (target_size 0 64 (ex_heap 1))).length
          = (if trailing_size 0 (ex_heap p) = target_size 0 64 (ex_heap 1) then 0 + 1
             else 0 + 2) ∧
        (leading_dims 0 (ex_heap 1) = (ex_heap p).operand0.shape.take 0 →
          (collapsed_shape (leading_dims 0 (ex_heap 1)) (trailing_size 0 (ex_heap p))
              (target_size 0 64 (ex_heap 1))).prod
            = (ex_heap p).operand0.shape.prod) :=
  ⟨⟨rfl, by decide⟩, _, _, rfl,
    create_nested_block_reshape ex_env ex_heap 1 [2] ∅ ∅ ∅ 0 64 _ _ rfl (by decide) rfl⟩

/-- C10: for a reshapable instruction list built at rank 0 with no target size given
(`size_of_rank_dim = −1`), whose first output has a non-negative element count, every
block `create_nested_block` returns is a single loop node (its children are the
instruction leaves, in order) of rank 0, tagged reshapable, whose size is the total
element count of the first instruction's output; and it does return one whenever every
instruction has that element count and an operand that is not a constant. -/
theorem create_nested_block_collapse (env : OpcodeInfo) (heap : Heap) (first : Nat)
    (rest : List Nat) (news frees temps : Finset Nat)
    (hre : is_reshapeable env heap (first :: rest) = .ok true)
    (hnn : 0 ≤ (heap first).operand0.shape.prod) :
    (∀ blk heap', create_nested_block env heap (first :: rest) news frees temps 0 (-1)
        = .ok (blk, heap') →
      blk.rank = 0 ∧ blk.size = (heap first).operand0.shape.prod ∧ blk._reshapable = true ∧
      blk._block_list = (first :: rest).map (fun p => Block.instr_block p 1) ∧
      blk.loop_nodes = [blk]) ∧
    ((∀ p ∈ first :: rest,
        (heap p).operand0.shape.prod = (heap first).operand0.shape.prod ∧
        (heap p).has_array_operand env = true) →
      ∃ blk heap', create_nested_block env heap (first :: rest) news frees temps 0 (-1)
        = .ok (blk, heap')) := by
  have htot : ∀ i : bh_instruction, trailing_size 0 i = i.operand0.shape.prod := by
    intro i
    simp [trailing_size]
  have htarget : target_size 0 (-1) (heap first) = (heap first).operand0.shape.prod := by
    unfold target_size
    rw [if_pos rfl, htot]
  have hS : target_size 0 (-1) (heap first) ≠ -1 := by
    rw [htarget]
    omega
  constructor
  · intro blk heap' h
    obtain ⟨rs, sw, hstage, _, hrank, _, rfl⟩ :=
      (create_nested_block_ok_iff env heap first rest news frees temps 0 (-1) blk heap').mp h
    obtain ⟨hrs, hinv, _⟩ := reshape_stage_inv env heap first rest 0 (-1) heap' rs hre hS hstage
    have hdom := reshaped_dominating_shape env 0 first heap heap' _ _ hinv first
      (List.mem_cons_self _ _)
    have hshape : (heap' first).dominating_shape env = [(heap first).operand0.shape.prod] := by
      cases harr : (heap first).has_array_operand env with
      | false =>
        rw [harr] at hdom
        rw [hdom] at hrank
        simp at hrank
      | true =>
        rw [harr, htarget, htot] at hdom
        rw [hdom]
        simp [collapsed_shape, leading_dims]
    subst hrs
    rw [hshape]
    refine ⟨rfl, rfl, rfl, rfl, ?_⟩
    simp only [List.length_singleton, Nat.sub_self, chain_children, Block.loop_nodes,
      List.map_cons, List.isEmpty_cons, Bool.false_eq_true, if_false, Block.loop_nodes_list,
      List.cons.injEq, true_and]
    have := loop_nodes_list_leaves 1 rest
    simp only [Block.instr_block, Block.loop_nodes, List.isEmpty_nil, if_true,
      List.nil_append] at this ⊢
    exact this
  · intro hall
    exact create_nested_block_reshapeable_returns env heap first rest news frees temps 0 (-1)
      hre hS (by rw [htarget, htot]) (Or.inl (by rw [htarget, htot]))
      (fun p hp => by
        rw [htot, htot]
        exact hall p hp)

theorem create_nested_block_collapse_witness :
    (is_reshapeable ex_env ex_heap [1, 2] = .ok true ∧
      0 ≤ (ex_heap 1).operand0.shape.prod) ∧
    (∀ blk heap', create_nested_block ex_env ex_heap [1, 2] ∅ ∅ ∅ 0 (-1) = .ok (blk, heap') →
      blk.rank = 0 ∧ blk.size = (ex_heap 1).operand0.shape.prod ∧ blk._reshapable = true ∧
      blk._block_list = [1, 2].map (fun p => Block.instr_block p 1) ∧
      blk.loop_nodes = [blk]) ∧
    ((∀ p ∈ [1, 2],
        (ex_heap p).operand0.shape.prod = (ex_heap 1).operand0.shape.prod ∧
        (ex_heap p).has_array_operand ex_env = true) →
      ∃ blk heap', create_nested_block ex_env ex_heap [1, 2] ∅ ∅ ∅ 0 (-1)
        = .ok (blk, heap')) :=
  ⟨⟨rfl, by decide⟩, create_nested_block_collapse ex_env ex_heap 1 [2] ∅ ∅ ∅ rfl (by decide)⟩

/-- Claim C9: `create_nested_block` throws its runtime error on the empty list.  On a
non-empty list that is not reshapable it throws no runtime error, and it returns a block
when the preconditions the function asserts hold (the non-system instructions share the
dominating shape of the first one, the start rank is below its length, the sweep axes lie
within it).  On a non-empty reshapable list with target size `s ≥ 1` (the argument, or the
trailing total of the first instruction when the argument is −1) whose totals are all at
least `s`, as the function asserts, it throws a runtime error exactly when some
instruction's trailing total satisfies `total % s ≠ 0`; and when the totals are multiples
of `s` it returns a block for a list of instructions with a common shape, that is, when
every instruction has the total of the first one and an operand that is not a constant,
which is what the assertions after the reshape ask for. -/
theorem create_nested_block_failure (env : OpcodeInfo) (heap : Heap)
    (news frees temps : Finset Nat) (rank : Nat) (s : Int) :
    create_nested_block env heap [] news frees temps rank s
      = .error (.runtime_error "create_nested_block: 'instr_list' is empty!") ∧
    ∀ (first : Nat) (rest : List Nat),
      (is_reshapeable env heap (first :: rest) = .ok false →
        (∀ what, create_nested_block env heap (first :: rest) news frees temps rank s
          ≠ .error (.runtime_error what)) ∧
        ((∀ p ∈ first :: rest, env.bh_opcode_is_system (heap p).opcode = false →
            (heap p).dominating_shape env = (heap first).dominating_shape env) →
          rank < ((heap first).dominating_shape env).length →
          (∀ p ∈ first :: rest, sweep_axis env (heap p) < env.BH_MAXDIM →
            0 ≤ sweep_axis env (heap p) ∧
              sweep_axis env (heap p) < ((heap first).dominating_shape env).length) →
          ∃ blk, create_nested_block env heap (first :: rest) news frees temps rank s
            = .ok (blk, heap))) ∧
      (is_reshapeable env heap (first :: rest) = .ok true →
        1 ≤ target_size rank s (heap first) →
        (∀ p ∈ first :: rest, target_size rank s (heap first) ≤ trailing_size rank (heap p)) →
        ((∃ what, create_nested_block env heap (first :: rest) news frees temps rank s
            = .error (.runtime_error what)) ↔
          ∃ p ∈ first :: rest,
            (trailing_size rank (heap p)).tmod (target_size rank s (heap first)) ≠ 0) ∧
        ((∀ p ∈ first :: rest,
            trailing_size rank (heap p) = trailing_size rank (heap first) ∧
            (heap p).has_array_operand env = true) →
          (trailing_size rank (heap first)).tmod (target_size rank s (heap first)) = 0 →
          ∃ blk heap', create_nested_block env heap (first :: rest) news frees temps rank s
            = .ok (blk, heap'))) := by
  refine ⟨rfl, ?_⟩
  intro first rest
  constructor
  · intro hre
    have hstage := reshape_stage_not_reshapeable env heap (first :: rest) rank s hre
    refine ⟨create_nested_block_no_throw env heap first rest news frees temps rank s heap false
      hstage, ?_⟩
    intro hshape hrank haxis
    obtain ⟨sw, hsw⟩ := (find_sweeps_spec env heap _ (first :: rest)).1 haxis
    have hck := (check_dominating_shape_ok env heap _ (first :: rest)).mpr hshape
    exact ⟨_, (create_nested_block_ok_iff env heap first rest news frees temps rank s _ heap).mpr
      ⟨false, sw, hstage, hck, hrank, hsw, rfl⟩⟩
  · intro hre hS1 hle
    have hS : target_size rank s (heap first) ≠ -1 := by omega
    have hS0 : target_size rank s (heap first) ≠ 0 := by omega
    constructor
    · constructor
      · rintro ⟨what, hwhat⟩
        by_contra hno
        have hall : ∀ p ∈ first :: rest,
            target_size rank s (heap first) ≤ trailing_size rank (heap p) ∧
            (trailing_size rank (heap p) = target_size rank s (heap first) ∨
              (target_size rank s (heap first) ≠ 0 ∧
                (trailing_size rank (heap p)).tmod (target_size rank s (heap first)) = 0)) := by
          intro p hp
          refine ⟨hle p hp, Or.inr ⟨hS0, ?_⟩⟩
          by_contra hbad
          exact hno ⟨p, hp, hbad⟩
        obtain ⟨H, hstage⟩ := reshape_stage_returns env heap first rest rank s hre hS hall
        exact create_nested_block_no_throw env heap first rest news frees temps rank s H true
          hstage what hwhat
      · intro hex
        exact ⟨_, create_nested_block_stage_error env heap first rest news frees temps rank s _
          (reshape_stage_throws env heap first rest rank s hre hS hS0 hle hex)⟩
    · intro hall hdiv
      exact create_nested_block_reshapeable_returns env heap first rest news frees temps rank s
        hre hS (hle first (List.mem_cons_self _ _)) (Or.inr ⟨hS0, hdiv⟩) hall

theorem create_nested_block_failure_witness :
    create_nested_block ex_env ex_heap [] ∅ ∅ ∅ 0 48
      = .error (.runtime_error "create_nested_block: 'instr_list' is empty!") ∧
    (is_reshapeable ex_env ex_heap [1, 2] = .ok true ∧
      1 ≤ target_size 0 48 (ex_heap 1) ∧
      (∀ p ∈ [1, 2], target_size 0 48 (ex_heap 1) ≤ trailing_size 0 (ex_heap p)) ∧
      ∃ p ∈ [1, 2], (trailing_size 0 (ex_heap p)).tmod (target_size 0 48 (ex_heap 1)) ≠ 0) ∧
    (∃ what, create_nested_block ex_env ex_heap [1, 2] ∅ ∅ ∅ 0 48
      = .error (.runtime_error what)) ∧
    (1 ≤ target_size 0 32 (ex_heap 1) ∧
      (∀ p ∈ [1, 2], target_size 0 32 (ex_heap 1) ≤ trailing_size 0 (ex_heap p)) ∧
      (∀ p ∈ [1, 2], (trailing_size 0 (ex_heap p)).tmod (target_size 0 32 (ex_heap 1)) = 0) ∧
      (∀ p ∈ [1, 2], trailing_size 0 (ex_heap p) = trailing_size 0 (ex_heap 1) ∧
        (ex_heap p).has_array_operand ex_env = true)) ∧
    (¬ ∃ what, create_nested_block ex_env ex_heap [1, 2] ∅ ∅ ∅ 0 32
      = .error (.runtime_error what)) ∧
    (∃ blk heap', create_nested_block ex_env ex_heap [1, 2] ∅ ∅ ∅ 0 32 = .ok (blk, heap')) ∧
    (is_reshapeable ex_env ex_heap [1, 3] = .ok false ∧
      (∀ p ∈ [1, 3], ex_env.bh_opcode_is_system (ex_heap p).opcode = false →
        (ex_heap p).dominating_shape ex_env = (ex_heap 1).dominating_shape ex_env) ∧
      0 < ((ex_heap 1).dominating_shape ex_env).length ∧
      (∀ p ∈ [1, 3], sweep_axis ex_env (ex_heap p) < ex_env.BH_MAXDIM →
        0 ≤ sweep_axis ex_env (ex_heap p) ∧
          sweep_axis ex_env (ex_heap p) < ((ex_heap 1).dominating_shape ex_env).length)) ∧
    (∀ what, create_nested_block ex_env ex_heap [1, 3] ∅ ∅ ∅ 0 (-1)
      ≠ .error (.runtime_error what)) ∧
    (∃ blk, create_nested_block ex_env ex_heap [1, 3] ∅ ∅ ∅ 0 (-1) = .ok (blk, ex_heap)) :=
  ⟨(create_nested_block_failure ex_env ex_heap ∅ ∅ ∅ 0 48).1,
    ⟨rfl, by decide, by decide, ⟨1, by decide, by decide⟩⟩,
    ((((create_nested_block_failure ex_env ex_heap ∅ ∅ ∅ 0 48).2 1 [2]).2 rfl (by decide)
      (by decide)).1).mpr ⟨1, by decide, by decide⟩,
    ⟨by decide, by decide, by decide, by decide⟩,
    fun h => by
      obtain ⟨p, hp, hbad⟩ := ((((create_nested_block_failure ex_env ex_heap ∅ ∅ ∅ 0 32).2 1
        [2]).2 rfl (by decide) (by decide)).1).mp h
      revert p
      decide,
    (((create_nested_block_failure ex_env ex_heap ∅ ∅ ∅ 0 32).2 1 [2]).2 rfl (by decide)
      (by decide)).2 (by decide) (by decide),
    ⟨rfl, by decide, by decide, by decide⟩,
    (((create_nested_block_failure ex_env ex_heap ∅ ∅ ∅ 0 (-1)).2 1 [3]).1 rfl).1,
    (((create_nested_block_failure ex_env ex_heap ∅ ∅ ∅ 0 (-1)).2 1 [3]).1 rfl).2 (by decide)
      (by decide) (by decide)⟩

/-! ## The dominating shape -/

theorem max_ndim_fold_spec :
    ∀ (views : List bh_view) (acc : Nat),
      acc ≤ views.foldl (fun ndim view =>
          if !bh_is_constant view then (if view.ndim > ndim then view.ndim else ndim)
          else ndim) acc ∧
      (∀ v ∈ views, bh_is_constant v = false →
        v.ndim ≤ views.foldl (fun ndim view =>
          if !bh_is_constant view then (if view.ndim > ndim then view.ndim else ndim)
          else ndim) acc) ∧
      (views.foldl (fun ndim view =>
          if !bh_is_constant view then (if view.ndim > ndim then view.ndim else ndim)
          else ndim) acc = acc ∨
        ∃ v ∈ views, bh_is_constant v = false ∧
          v.ndim = views.foldl (fun ndim view =>
            if !bh_is_constant view then (if view.ndim > ndim then view.ndim else ndim)
            else ndim) acc) := by
  intro views
  induction views with
  | nil => intro acc; simp
  | cons v vs ih =>
    intro acc
    rw [List.foldl_cons]
    obtain ⟨h1, h2, h3⟩ := ih
      (if !bh_is_constant v then (if v.ndim > acc then v.ndim else acc) else acc)
    have hstep : acc ≤ (if !bh_is_constant v then (if v.ndim > acc then v.ndim else acc)
        else acc) := by
      split
      · split <;> omega
      · exact le_refl _
    refine ⟨le_trans hstep h1, ?_, ?_⟩
    · intro w hw hc
      rcases List.mem_cons.mp hw with rfl | hw'
      · refine le_trans ?_ h1
        simp only [hc, Bool.not_false, if_true]
        split <;> omega
      · exact h2 w hw' hc
    · rcases h3 with h3 | ⟨w, hw, hc, hn⟩
      · have hs : (if !bh_is_constant v then (if v.ndim > acc then v.ndim else acc) else acc)
            = acc ∨ (bh_is_constant v = false ∧
              (if !bh_is_constant v then (if v.ndim > acc then v.ndim else acc) else acc)
                = v.ndim) := by
          cases hc : bh_is_constant v with
          | true => left; simp
          | false =>
            by_cases hgt : v.ndim > acc
            · right; simp [hgt]
            · left; simp [hgt]
        rcases hs with hs | ⟨hc, hs⟩
        · left
          rw [h3, hs]
        · right
          exact ⟨v, List.mem_cons_self _ _, hc, by rw [h3, hs]⟩
      · exact Or.inr ⟨w, List.mem_cons_of_mem _ hw, hc, hn⟩

theorem dominating_shape_view_max (shape : List Int) (v : bh_view)
    (hlen : shape.length = v.ndim) :
    (dominating_shape_view shape v).length = v.ndim ∧
    ∀ j, j < v.ndim →
      (dominating_shape_view shape v).getD j 0 = max (shape.getD j 0) (v.shape_at j) := by
  have key : ∀ k, k ≤ v.ndim →
      ((List.range k).foldl (fun shape j =>
        if shape.length > j then
          (if shape.getD j 0 < v.shape_at j then shape.set j (v.shape_at j) else shape)
        else shape ++ [v.shape_at j]) shape).length = v.ndim ∧
      ∀ j, j < v.ndim →
        ((List.range k).foldl (fun shape j =>
          if shape.length > j then
            (if shape.getD j 0 < v.shape_at j then shape.set j (v.shape_at j) else shape)
          else shape ++ [v.shape_at j]) shape).getD j 0
          = if j < k then max (shape.getD j 0) (v.shape_at j) else shape.getD j 0 := by
    intro k
    induction k with
    | zero => intro _; exact ⟨hlen, fun j _ => by simp⟩
    | succ k ih =>
      intro hk
      obtain ⟨hl, hget⟩ := ih (by omega)
      rw [List.range_succ, List.foldl_append]
      simp only [List.foldl_cons, List.foldl_nil]
      have hk' : k < v.ndim := by omega
      rw [if_pos (by rw [hl]; exact hk')]
      have hgk := hget k hk'
      rw [if_neg (lt_irrefl k)] at hgk
      by_cases hlt : shape.getD k 0 < v.shape_at k
      · rw [hgk, if_pos hlt]
        refine ⟨by rw [List.length_set]; exact hl, ?_⟩
        intro j hj
        by_cases hjk : j = k
        · subst hjk
          rw [List.getD_eq_getElem?_getD, List.getElem?_set_self (by rw [hl]; exact hk')]
          simp only [Option.getD_some, Nat.lt_succ_self, if_true]
          omega
        · rw [List.getD_eq_getElem?_getD, List.getElem?_set_ne (Ne.symm hjk),
            ← List.getD_eq_getElem?_getD, hget j hj]
          by_cases hjlt : j < k
          · rw [if_pos hjlt, if_pos (by omega)]
          · rw [if_neg hjlt, if_neg (by omega)]
      · rw [hgk, if_neg hlt]
        refine ⟨hl, ?_⟩
        intro j hj
        rw [hget j hj]
        by_cases hjk : j = k
        · subst hjk
          rw [if_neg (lt_irrefl j), if_pos (Nat.lt_succ_self j)]
          omega
        · by_cases hjlt : j < k
          · rw [if_pos hjlt, if_pos (by omega)]
          · rw [if_neg hjlt, if_neg (by omega)]
  obtain ⟨hl, hget⟩ := key v.ndim (le_refl _)
  refine ⟨hl, ?_⟩
  intro j hj
  have := hget j hj
  rw [if_pos hj] at this
  exact this

theorem dominating_shape_fold_max (m : Nat) :
    ∀ (ws : List bh_view) (shape0 : List Int), shape0.length = m →
      (∀ w ∈ ws, w.ndim = m) →
      (ws.foldl dominating_shape_view shape0).length = m ∧
      ∀ j, j < m →
        shape0.getD j 0 ≤ (ws.foldl dominating_shape_view shape0).getD j 0 ∧
        (∀ w ∈ ws, w.shape_at j ≤ (ws.foldl dominating_shape_view shape0).getD j 0) ∧
        ((ws.foldl dominating_shape_view shape0).getD j 0 = shape0.getD j 0 ∨
          ∃ w ∈ ws, w.shape_at j = (ws.foldl dominating_shape_view shape0).getD j 0) := by
  intro ws
  induction ws with
  | nil =>
    intro shape0 hlen _
    exact ⟨hlen, fun j _ => ⟨le_refl _, by simp, Or.inl rfl⟩⟩
  | cons v vs ih =>
    intro shape0 hlen hall
    have hv := hall v (List.mem_cons_self _ _)
    obtain ⟨hl1, hget1⟩ := dominating_shape_view_max shape0 v (by rw [hlen, hv])
    obtain ⟨hl, hget⟩ := ih (dominating_shape_view shape0 v) (by rw [hl1, hv])
      (fun w hw => hall w (List.mem_cons_of_mem _ hw))
    rw [List.foldl_cons]
    refine ⟨hl, ?_⟩
    intro j hj
    obtain ⟨h1, h2, h3⟩ := hget j hj
    have hg := hget1 j (by rw [hv]; exact hj)
    rw [hg] at h1 h3
    refine ⟨le_trans (le_max_left _ _) h1, ?_, ?_⟩
    · intro w hw
      rcases List.mem_cons.mp hw with rfl | hw'
      · exact le_trans (le_max_right _ _) h1
      · exact h2 w hw'
    · rcases h3 with h3 | ⟨w, hw, he⟩
      · rcases max_choice (shape0.getD j 0) (v.shape_at j) with hm | hm
        · left
          rw [h3, hm]
        · right
          exact ⟨v, List.mem_cons_self _ _, by rw [h3, hm]⟩
      · exact Or.inr ⟨w, List.mem_cons_of_mem _ hw, he⟩

/-- C12: for every operand list, the length of the shape `dominating_shape` returns is the
greatest `ndim` among the non-constant operands (it bounds all of them and, when there is
one, some non-constant operand attains it), its `j`-th entry is the maximum of `shape[j]`
over the non-constant operands of that greatest `ndim` (it is attained by one of them and
bounds them all), and a list without a non-constant operand yields the empty shape. -/
theorem dominating_shape_spec (nviews : Nat) (view_list : List bh_view) :
    (∀ v ∈ view_list.take nviews, bh_is_constant v = false →
      v.ndim ≤ (dominating_shape nviews view_list).length) ∧
    ((∃ v ∈ view_list.take nviews, bh_is_constant v = false) →
      ∃ v ∈ view_list.take nviews, bh_is_constant v = false ∧
        v.ndim = (dominating_shape nviews view_list).length) ∧
    (∀ j, j < (dominating_shape nviews view_list).length →
      (∃ v ∈ view_list.take nviews, bh_is_constant v = false ∧
        v.ndim = (dominating_shape nviews view_list).length ∧
        v.shape_at j = (dominating_shape nviews view_list).getD j 0) ∧
      (∀ v ∈ view_list.take nviews, bh_is_constant v = false →
        v.ndim = (dominating_shape nviews view_list).length →
        v.shape_at j ≤ (dominating_shape nviews view_list).getD j 0)) ∧
    ((∀ v ∈ view_list.take nviews, bh_is_constant v = true) →
      dominating_shape nviews view_list = []) := by
  obtain ⟨_, hbound, hatt⟩ := max_ndim_fold_spec (view_list.take nviews) 0
  unfold dominating_shape max_ndim_views
  simp only []
  generalize hM : (view_list.take nviews).foldl (fun ndim view =>
    if !bh_is_constant view then (if view.ndim > ndim then view.ndim else ndim) else ndim) 0
    = M at hbound hatt
  have hwid : ∀ w, w ∈ (view_list.take nviews).filter
      (fun view => !bh_is_constant view && view.ndim == M) ↔
      (w ∈ view_list.take nviews ∧ bh_is_constant w = false ∧ w.ndim = M) := by
    intro w
    simp [List.mem_filter]
  cases hl : (view_list.take nviews).filter
      (fun view => !bh_is_constant view && view.ndim == M) with
  | nil =>
    have hnone : ∀ v ∈ view_list.take nviews, bh_is_constant v = false → False := by
      intro v hv hc
      have hle := hbound v hv hc
      rcases hatt with h0 | ⟨w, hw, hwc, hwn⟩
      · have hmem := (hwid v).mpr ⟨hv, hc, by omega⟩
        rw [hl] at hmem
        simp at hmem
      · have hmem := (hwid w).mpr ⟨hw, hwc, hwn⟩
        rw [hl] at hmem
        simp at hmem
    simp only [List.foldl_nil, List.length_nil]
    refine ⟨fun v hv hc => (hnone v hv hc).elim, ?_, fun j hj => absurd hj (by omega),
      fun _ => trivial⟩
    rintro ⟨v, hv, hc⟩
    exact (hnone v hv hc).elim
  | cons w ws =>
    have hw : w ∈ view_list.take nviews ∧ bh_is_constant w = false ∧ w.ndim = M :=
      (hwid w).mp (by rw [hl]; exact List.mem_cons_self _ _)
    have hws : ∀ x ∈ ws, x ∈ view_list.take nviews ∧ bh_is_constant x = false ∧ x.ndim = M :=
      fun x hx => (hwid x).mp (by rw [hl]; exact List.mem_cons_of_mem _ hx)
    rw [List.foldl_cons, dominating_shape_view_nil]
    obtain ⟨hlen, hget⟩ := dominating_shape_fold_max M ws w.shape hw.2.2
      (fun x hx => (hws x hx).2.2)
    rw [hlen]
    refine ⟨hbound, fun _ => ⟨w, hw.1, hw.2.1, hw.2.2⟩, ?_, ?_⟩
    · intro j hj
      obtain ⟨h1, h2, h3⟩ := hget j hj
      constructor
      · rcases h3 with h3 | ⟨x, hx, he⟩
        · exact ⟨w, hw.1, hw.2.1, hw.2.2, h3.symm⟩
        · exact ⟨x, (hws x hx).1, (hws x hx).2.1, (hws x hx).2.2, he⟩
      · intro v hv hc hn
        have hmem := (hwid v).mpr ⟨hv, hc, hn⟩
        rw [hl] at hmem
        rcases List.mem_cons.mp hmem with rfl | hmem'
        · exact h1
        · exact h2 v hmem'
    · intro hall
      have := hall w hw.1
      rw [hw.2.1] at this
      exact absurd this (by simp)

/-! ## The reshapable tag -/

theorem reshape_stage_flag (env : OpcodeInfo) (heap : Heap) (l : List Nat) (rank : Nat)
    (s : Int) (H : Heap) (rs : Bool) (h : reshape_stage env heap l rank s = .ok (H, rs)) :
    is_reshapeable env heap l = .ok rs := by
  unfold reshape_stage at h
  split at h
  · simp at h
  · rename_i hre
    simp only [Except.ok.injEq, Prod.mk.injEq] at h
    rw [hre, ← h.2]
  · rename_i hre
    split at h
    · simp at h
    · simp only [Except.ok.injEq, Prod.mk.injEq] at h
      rw [hre, ← h.2]

theorem is_reshapeable_eq (env : OpcodeInfo) (heap : Heap) (first : Nat) (rest : List Nat)
    (b : Bool) (h : is_reshapeable env heap (first :: rest) = .ok b) :
    b = true ↔ ∀ p ∈ first :: rest, (heap p).reshapable env = true ∧
      (heap p).dominating_rank env = (heap first).dominating_rank env := by
  unfold is_reshapeable at h
  simp only [Except.ok.injEq] at h
  rw [← h, List.all_eq_true]
  constructor
  · intro hall p hp
    have := hall p hp
    simp only [Bool.and_eq_true, beq_iff_eq] at this
    exact this
  · intro hall p hp
    have := hall p hp
    simp only [Bool.and_eq_true, beq_iff_eq]
    exact this

/-- C11: the block returned by `create_nested_block` is tagged reshapable if and only if
every instruction of the list is reshapable and has the dominating rank of the first
instruction. -/
theorem create_nested_block_reshapable_flag (env : OpcodeInfo) (heap : Heap) (first : Nat)
    (rest : List Nat) (news frees temps : Finset Nat) (rank : Nat) (s : Int)
    (blk : Block) (heap' : Heap)
    (h : create_nested_block env heap (first :: rest) news frees temps rank s
      = .ok (blk, heap')) :
    blk._reshapable = true ↔
      ∀ p ∈ first :: rest, (heap p).reshapable env = true ∧
        (heap p).dominating_rank env = (heap first).dominating_rank env := by
  obtain ⟨rs, sw, hstage, _, _, _, rfl⟩ :=
    (create_nested_block_ok_iff env heap first rest news frees temps rank s blk heap').mp h
  exact is_reshapeable_eq env heap first rest rs
    (reshape_stage_flag env heap (first :: rest) rank s heap' rs hstage)

theorem create_nested_block_reshapable_flag_witness :
    ∃ blk heap', create_nested_block ex_env ex_heap [1, 3] ∅ ∅ ∅ 0 (-1) = .ok (blk, heap') ∧
      (blk._reshapable = true ↔
        ∀ p ∈ [1, 3], (ex_heap p).reshapable ex_env = true ∧
          (ex_heap p).dominating_rank ex_env = (ex_heap 1).dominating_rank ex_env) :=
  ⟨_, _, rfl, create_nested_block_reshapable_flag ex_env ex_heap 1 [3] ∅ ∅ ∅ 0 (-1) _ _ rfl⟩

/-! ## The sanity checks and the dispatch of `cphvb_compute_reduce` -/

theorem find_nodup_label {β : Type} (g : β → Nat) (poly : Nat) :
    ∀ (l : List β), (l.map g).Nodup → ∀ e ∈ l, g e = poly →
      l.find? (fun x => g x = poly) = some e := by
  intro l
  induction l with
  | nil => intro _ e he; simp at he
  | cons x xs ih =>
    intro hnd e he hg
    rw [List.map_cons, List.nodup_cons] at hnd
    rcases List.mem_cons.mp he with rfl | he'
    · simp [List.find?_cons, hg]
    · have hx : g x ≠ poly := by
        intro hxp
        apply hnd.1
        rw [hxp, ← hg]
        exact List.mem_map_of_mem g he'
      rw [List.find?_cons]
      simp only [hx, decide_False]
      exact ih hnd.2 e he' hg

/-- C18: `cphvb_compute_reduce` returns `CPHVB_ERROR` whenever the opcode does not take
three operands, or the base of the input operand has no data buffer, or the element types
of the input and of the output differ. -/
theorem cphvb_compute_reduce_rejects {α : Type} (env : ComputeEnv α) (a : cphvb_reduce_type)
    (m : Mem α)
    (h : env.cphvb_operands a.opcode ≠ 3 ∨
      m.allocated (a.operand.getD 1 cphvb_array.null).base = false ∨
      (a.operand.getD 1 cphvb_array.null).type ≠ (a.operand.getD 0 cphvb_array.null).type) :
    (cphvb_compute_reduce env a m).1 = .CPHVB_ERROR := by
  unfold cphvb_compute_reduce
  simp only []
  by_cases h1 : env.cphvb_operands a.opcode ≠ 3
  · rw [if_pos h1]
  · rw [if_neg h1]
    by_cases h2 : m.allocated (a.operand.getD 1 cphvb_array.null).base = false
    · rw [if_pos h2]
    · rw [if_neg h2]
      by_cases h3 : (a.operand.getD 1 cphvb_array.null).type
          ≠ (a.operand.getD 0 cphvb_array.null).type
      · rw [if_pos h3]
      · rcases h with h | h | h
        · exact absurd h h1
        · exact absurd h h2
        · exact absurd h h3

theorem cphvb_compute_reduce_rejects_witness :
    (ex_compute_env.cphvb_operands (⟨0, 0, [ex_out 7, ex_in 1 6 0 10 1]⟩ : cphvb_reduce_type).opcode
        ≠ 3 ∨
      ex_mem.allocated
        (((⟨0, 0, [ex_out 7, ex_in 1 6 0 10 1]⟩ : cphvb_reduce_type).operand.getD 1
          cphvb_array.null).base) = false ∨
      ((⟨0, 0, [ex_out 7, ex_in 1 6 0 10 1]⟩ : cphvb_reduce_type).operand.getD 1
          cphvb_array.null).type
        ≠ ((⟨0, 0, [ex_out 7, ex_in 1 6 0 10 1]⟩ : cphvb_reduce_type).operand.getD 0
          cphvb_array.null).type) ∧
    (cphvb_compute_reduce ex_compute_env ⟨0, 0, [ex_out 7, ex_in 1 6 0 10 1]⟩ ex_mem).1
      = .CPHVB_ERROR :=
  ⟨Or.inr (Or.inr (by decide)),
    cphvb_compute_reduce_rejects ex_compute_env ⟨0, 0, [ex_out 7, ex_in 1 6 0 10 1]⟩ ex_mem
      (Or.inr (Or.inr (by decide)))⟩

/-- C19: when `cphvb_compute_reduce` rejects a malformed input (an opcode that does not
take three operands, an input without data buffer, or mixed element types) it returns with
the memory exactly as it was: the output is neither allocated nor written and no element
is reduced, whatever `cphvb_data_malloc` and `cphvb_compute_apply` would do. -/
theorem cphvb_compute_reduce_rejects_unchanged {α : Type} (env : ComputeEnv α)
    (a : cphvb_reduce_type) (m : Mem α)
    (h : env.cphvb_operands a.opcode ≠ 3 ∨
      m.allocated (a.operand.getD 1 cphvb_array.null).base = false ∨
      (a.operand.getD 1 cphvb_array.null).type ≠ (a.operand.getD 0 cphvb_array.null).type) :
    cphvb_compute_reduce env a m = (.CPHVB_ERROR, m) := by
  unfold cphvb_compute_reduce
  simp only []
  by_cases h1 : env.cphvb_operands a.opcode ≠ 3
  · rw [if_pos h1]
  · rw [if_neg h1]
    by_cases h2 : m.allocated (a.operand.getD 1 cphvb_array.null).base = false
    · rw [if_pos h2]
    · rw [if_neg h2]
      by_cases h3 : (a.operand.getD 1 cphvb_array.null).type
          ≠ (a.operand.getD 0 cphvb_array.null).type
      · rw [if_pos h3]
      · rcases h with h | h | h
        · exact absurd h h1
        · exact absurd h h2
        · exact absurd h h3

theorem cphvb_compute_reduce_rejects_unchanged_witness :
    (ex_compute_env.cphvb_operands (⟨0, 0, [ex_out 6, ex_in 2 6 0 10 1]⟩ : cphvb_reduce_type).opcode
        ≠ 3 ∨
      ex_mem.allocated
        (((⟨0, 0, [ex_out 6, ex_in 2 6 0 10 1]⟩ : cphvb_reduce_type).operand.getD 1
          cphvb_array.null).base) = false ∨
      ((⟨0, 0, [ex_out 6, ex_in 2 6 0 10 1]⟩ : cphvb_reduce_type).operand.getD 1
          cphvb_array.null).type
        ≠ ((⟨0, 0, [ex_out 6, ex_in 2 6 0 10 1]⟩ : cphvb_reduce_type).operand.getD 0
          cphvb_array.null).type) ∧
    cphvb_compute_reduce ex_compute_env ⟨0, 0, [ex_out 6, ex_in 2 6 0 10 1]⟩ ex_mem
      = (.CPHVB_ERROR, ex_mem) :=
  ⟨Or.inr (Or.inl (by decide)),
    cphvb_compute_reduce_rejects_unchanged ex_compute_env ⟨0, 0, [ex_out 6, ex_in 2 6 0 10 1]⟩
      ex_mem (Or.inr (Or.inl (by decide)))⟩

/-- The entries of the dispatch table, by functor: `add`, `subtract`, `multiply`, `equal`
and `not_equal` have a case label at each of the 13 element types; `divide` at all but
bool; `power` and `mod` at the real floating-point and the integer types; the orderings,
the logical functors, `maximum` and `minimum` at all but the complex types; the bitwise
functors at bool and the integer types; the shifts at the integer types; `arctan2` at the
two real floating-point types. -/
theorem reduce_table_entries (f : ReduceFunctor) (t : ElemType) :
    (f, t) ∈ reduce_table ↔
      match f with
      | .add | .subtract | .multiply | .equal | .not_equal => True
      | .divide => t ≠ .bool
      | .power | .mod => t ≠ .bool ∧ t ≠ .complex64 ∧ t ≠ .complex128
      | .greater | .greater_equal | .less | .less_equal | .logical_and | .logical_or
      | .logical_xor | .maximum | .minimum => t ≠ .complex64 ∧ t ≠ .complex128
      | .bitwise_and | .bitwise_or | .bitwise_xor =>
        t ≠ .float32 ∧ t ≠ .float64 ∧ t ≠ .complex64 ∧ t ≠ .complex128
      | .left_shift | .right_shift =>
        t ≠ .bool ∧ t ≠ .float32 ∧ t ≠ .float64 ∧ t ≠ .complex64 ∧ t ≠ .complex128
      | .arctan2 => t = .float32 ∨ t = .float64 := by
  cases f <;> cases t <;> decide

set_option maxRecDepth 100000 in
/-- The dispatch table has 241 case labels. -/
theorem reduce_table_length : reduce_table.length = 241 := by decide

set_option maxRecDepth 100000 in
/-- No pair of a functor and an element type occurs twice in the dispatch table. -/
theorem reduce_table_nodup : reduce_table.Nodup := by decide

/-- Claim C20: take a well-formed call (a three-operand opcode below 256, an input with
data, equal element types, a successful allocation of the output leaving the memory `m'`),
the case labels of the table being distinct and the opcode constants below 256.  If the
pair (opcode, element type) has no entry in the dispatch table, `cphvb_compute_reduce`
returns `CPHVB_ERROR` and leaves `m'` as the allocation made it: nothing is reduced.  If it
has the entry of the functor `f` at the type `t`, the call is `cphvb_compute_reduce_any`
with the operation of `f` at `t`.  When the constants of the functors and of the types are
distinct, a call with the opcode of `f` on elements of type `t` is therefore decided by
whether `(f, t)` is in the table.  The table has 241 entries, no two alike; it holds `add`
at every element type, and it holds none of the pairs of a bitwise or shift functor
with a floating-point or complex type, nor `divide` at bool: its entries are those listed
by functor in the last part. -/
theorem cphvb_compute_reduce_dispatch {α : Type} (env : ComputeEnv α) (a : cphvb_reduce_type)
    (m m' : Mem α)
    (hops : env.cphvb_operands a.opcode = 3)
    (hin : m.allocated (a.operand.getD 1 cphvb_array.null).base = true)
    (hty : (a.operand.getD 1 cphvb_array.null).type = (a.operand.getD 0 cphvb_array.null).type)
    (hmalloc : env.cphvb_data_malloc (a.operand.getD 0 cphvb_array.null) m
      = (.CPHVB_SUCCESS, m'))
    (hlabels : (reduce_table.map (case_label env)).Nodup)
    (hop : a.opcode < 256) (hconst : ∀ f, env.opcode_of f < 256) :
    ((∀ e ∈ reduce_table, ¬ (env.opcode_of e.1 = a.opcode ∧
        env.type_of e.2 = (a.operand.getD 1 cphvb_array.null).type)) →
      cphvb_compute_reduce env a m = (.CPHVB_ERROR, m')) ∧
    (∀ e ∈ reduce_table, env.opcode_of e.1 = a.opcode →
      env.type_of e.2 = (a.operand.getD 1 cphvb_array.null).type →
      cphvb_compute_reduce env a m
        = cphvb_compute_reduce_any env (env.functor e.1 e.2)
            (a.operand.getD 0 cphvb_array.null) (a.operand.getD 1 cphvb_array.null)
            a.axis a.opcode m') ∧
    (Function.Injective env.opcode_of → Function.Injective env.type_of →
      ∀ (f : ReduceFunctor) (t : ElemType), a.opcode = env.opcode_of f →
        (a.operand.getD 1 cphvb_array.null).type = env.type_of t →
        cphvb_compute_reduce env a m
          = if (f, t) ∈ reduce_table then
              cphvb_compute_reduce_any env (env.functor f t)
                (a.operand.getD 0 cphvb_array.null) (a.operand.getD 1 cphvb_array.null)
                a.axis a.opcode m'
            else (.CPHVB_ERROR, m')) ∧
    reduce_table.length = 241 ∧ reduce_table.Nodup ∧
    (∀ t : ElemType, (ReduceFunctor.add, t) ∈ reduce_table) ∧
    (∀ f ∈ [ReduceFunctor.bitwise_and, .bitwise_or, .bitwise_xor, .left_shift, .right_shift],
      ∀ t ∈ [ElemType.float32, .float64, .complex64, .complex128], (f, t) ∉ reduce_table) ∧
    (ReduceFunctor.divide, ElemType.bool) ∉ reduce_table ∧
    (∀ (f : ReduceFunctor) (t : ElemType), (f, t) ∈ reduce_table ↔
      match f with
      | .add | .subtract | .multiply | .equal | .not_equal => True
      | .divide => t ≠ .bool
      | .power | .mod => t ≠ .bool ∧ t ≠ .complex64 ∧ t ≠ .complex128
      | .greater | .greater_equal | .less | .less_equal | .logical_and | .logical_or
      | .logical_xor | .maximum | .minimum => t ≠ .complex64 ∧ t ≠ .complex128
      | .bitwise_and | .bitwise_or | .bitwise_xor =>
        t ≠ .float32 ∧ t ≠ .float64 ∧ t ≠ .complex64 ∧ t ≠ .complex128
      | .left_shift | .right_shift =>
        t ≠ .bool ∧ t ≠ .float32 ∧ t ≠ .float64 ∧ t ≠ .complex64 ∧ t ≠ .complex128
      | .arctan2 => t = .float32 ∨ t = .float64) := by
  have hhead : cphvb_compute_reduce env a m
      = match reduce_table.find? (fun e => case_label env e
          = a.opcode + ((a.operand.getD 1 cphvb_array.null).type <<< 8)) with
        | some e => cphvb_compute_reduce_any env (env.functor e.1 e.2)
            (a.operand.getD 0 cphvb_array.null) (a.operand.getD 1 cphvb_array.null)
            a.axis a.opcode m'
        | none => (.CPHVB_ERROR, m') := by
    unfold cphvb_compute_reduce
    simp only []
    rw [if_neg (not_not.mpr hops), if_neg (by rw [hin]; simp), if_neg (not_not.mpr hty),
      hmalloc]
  have hnone : (∀ e ∈ reduce_table, ¬ (env.opcode_of e.1 = a.opcode ∧
        env.type_of e.2 = (a.operand.getD 1 cphvb_array.null).type)) →
      cphvb_compute_reduce env a m = (.CPHVB_ERROR, m') := by
    intro hno
    rw [hhead]
    have hnone : reduce_table.find? (fun e => case_label env e
        = a.opcode + ((a.operand.getD 1 cphvb_array.null).type <<< 8)) = none := by
      rw [List.find?_eq_none]
      intro e he hlab
      simp only [decide_eq_true_eq] at hlab
      apply hno e he
      unfold case_label at hlab
      rw [Nat.shiftLeft_eq, Nat.shiftLeft_eq] at hlab
      have h1 := hconst e.1
      constructor <;> omega
    rw [hnone]
  have hsome : ∀ e ∈ reduce_table, env.opcode_of e.1 = a.opcode →
      env.type_of e.2 = (a.operand.getD 1 cphvb_array.null).type →
      cphvb_compute_reduce env a m
        = cphvb_compute_reduce_any env (env.functor e.1 e.2)
            (a.operand.getD 0 cphvb_array.null) (a.operand.getD 1 cphvb_array.null)
            a.axis a.opcode m' := by
    intro e he h1 h2
    rw [hhead]
    have hlab : case_label env e
        = a.opcode + ((a.operand.getD 1 cphvb_array.null).type <<< 8) := by
      unfold case_label
      rw [h1, h2]
    have := find_nodup_label (case_label env) _ reduce_table hlabels e he hlab
    simp only [] at this
    rw [this]
  refine ⟨hnone, hsome, ?_, reduce_table_length, reduce_table_nodup, ?_, by decide, by decide,
    reduce_table_entries⟩
  · intro hio hit f t hf ht
    by_cases hmem : (f, t) ∈ reduce_table
    · rw [if_pos hmem]
      exact hsome (f, t) hmem hf.symm ht.symm
    · rw [if_neg hmem]
      apply hnone
      rintro ⟨f', t'⟩ he ⟨h1, h2⟩
      have e1 : f' = f := hio (h1.trans hf)
      have e2 : t' = t := hit (h2.trans ht)
      subst e1
      subst e2
      exact hmem he
  · intro t
    cases t <;> decide

theorem ex_opcode_of_injective : Function.Injective ex_opcode_of := by
  intro a b h
  cases a <;> cases b <;> first | rfl | exact absurd h (by decide)

theorem ex_type_of_injective : Function.Injective ex_type_of := by
  intro a b h
  cases a <;> cases b <;> first | rfl | exact absurd h (by decide)

set_option maxRecDepth 100000 in
theorem cphvb_compute_reduce_dispatch_witness :
    (ex_compute_env.cphvb_operands ex_reduce_add.opcode = 3 ∧
      ex_mem.allocated (ex_reduce_add.operand.getD 1 cphvb_array.null).base = true ∧
      (ex_reduce_add.operand.getD 1 cphvb_array.null).type
        = (ex_reduce_add.operand.getD 0 cphvb_array.null).type ∧
      ex_compute_env.cphvb_data_malloc (ex_reduce_add.operand.getD 0 cphvb_array.null) ex_mem
        = (.CPHVB_SUCCESS, ex_mem_allocated) ∧
      (reduce_table.map (case_label ex_compute_env)).Nodup ∧
      ex_reduce_add.opcode < 256 ∧ (∀ f, ex_compute_env.opcode_of f < 256)) ∧
    (ex_compute_env.cphvb_operands ex_reduce_and_float.opcode = 3 ∧
      ex_mem.allocated (ex_reduce_and_float.operand.getD 1 cphvb_array.null).base = true ∧
      (ex_reduce_and_float.operand.getD 1 cphvb_array.null).type
        = (ex_reduce_and_float.operand.getD 0 cphvb_array.null).type ∧
      ex_compute_env.cphvb_data_malloc (ex_reduce_and_float.operand.getD 0 cphvb_array.null)
          ex_mem
        = (.CPHVB_SUCCESS, ex_mem_allocated) ∧
      ex_reduce_and_float.opcode < 256) ∧
    ((ReduceFunctor.add, ElemType.int32) ∈ reduce_table ∧
      ex_compute_env.opcode_of .add = ex_reduce_add.opcode ∧
      ex_compute_env.type_of .int32 = (ex_reduce_add.operand.getD 1 cphvb_array.null).type ∧
      cphvb_compute_reduce ex_compute_env ex_reduce_add ex_mem
        = cphvb_compute_reduce_any ex_compute_env (fun x y => x + y) (ex_out 6)
            (ex_in 1 6 0 10 1) 0 0 ex_mem_allocated ∧
      (cphvb_compute_reduce ex_compute_env ex_reduce_add ex_mem).1 = .CPHVB_SUCCESS ∧
      (cphvb_compute_reduce ex_compute_env ex_reduce_add ex_mem).2.buf 2 0 = 45) ∧
    ((∀ e ∈ reduce_table, ¬ (ex_compute_env.opcode_of e.1 = ex_reduce_and_float.opcode ∧
        ex_compute_env.type_of e.2
          = (ex_reduce_and_float.operand.getD 1 cphvb_array.null).type)) ∧
      ex_compute_env.opcode_of .bitwise_and = ex_reduce_and_float.opcode ∧
      ex_compute_env.type_of .float32
        = (ex_reduce_and_float.operand.getD 1 cphvb_array.null).type ∧
      cphvb_compute_reduce ex_compute_env ex_reduce_and_float ex_mem
        = (.CPHVB_ERROR, ex_mem_allocated)) ∧
    ((ex_compute_env.cphvb_operands ex_reduce_divide_bool.opcode = 3 ∧
        ex_mem.allocated (ex_reduce_divide_bool.operand.getD 1 cphvb_array.null).base = true ∧
        (ex_reduce_divide_bool.operand.getD 1 cphvb_array.null).type
          = (ex_reduce_divide_bool.operand.getD 0 cphvb_array.null).type ∧
        ex_compute_env.cphvb_data_malloc
            (ex_reduce_divide_bool.operand.getD 0 cphvb_array.null) ex_mem
          = (.CPHVB_SUCCESS, ex_mem_allocated) ∧
        ex_reduce_divide_bool.opcode < 256) ∧
      Function.Injective ex_compute_env.opcode_of ∧
      Function.Injective ex_compute_env.type_of ∧
      ex_reduce_divide_bool.opcode = ex_compute_env.opcode_of .divide ∧
      (ex_reduce_divide_bool.operand.getD 1 cphvb_array.null).type
        = ex_compute_env.type_of .bool ∧
      (ReduceFunctor.divide, ElemType.bool) ∉ reduce_table ∧
      cphvb_compute_reduce ex_compute_env ex_reduce_divide_bool ex_mem
        = (.CPHVB_ERROR, ex_mem_allocated)) :=
  have hconst : ∀ f, ex_compute_env.opcode_of f < 256 := by
    intro f
    cases f <;> decide
  have hlabels : (reduce_table.map (case_label ex_compute_env)).Nodup := by decide
  have hno : ∀ e ∈ reduce_table,
      ¬ (ex_compute_env.opcode_of e.1 = ex_reduce_and_float.opcode ∧
        ex_compute_env.type_of e.2
          = (ex_reduce_and_float.operand.getD 1 cphvb_array.null).type) := by decide
  ⟨⟨by decide, by decide, by decide, rfl, hlabels, by decide, hconst⟩,
    ⟨by decide, by decide, by decide, rfl, by decide⟩,
    ⟨by decide, by decide, by decide,
      (cphvb_compute_reduce_dispatch ex_compute_env ex_reduce_add ex_mem ex_mem_allocated
        (by decide) (by decide) (by decide) rfl hlabels (by decide) hconst).2.1
        (.add, .int32) (by decide) (by decide) (by decide),
      by decide, by decide⟩,
    ⟨hno, by decide, by decide,
      (cphvb_compute_reduce_dispatch ex_compute_env ex_reduce_and_float ex_mem
        ex_mem_allocated (by decide) (by decide) (by decide) rfl hlabels (by decide)
        hconst).1 hno⟩,
    ⟨⟨by decide, by decide, by decide, rfl, by decide⟩, ex_opcode_of_injective,
      ex_type_of_injective, by decide, by decide, by decide,
      ((cphvb_compute_reduce_dispatch ex_compute_env ex_reduce_divide_bool ex_mem
        ex_mem_allocated (by decide) (by decide) (by decide) rfl hlabels (by decide)
        hconst).2.2.1 ex_opcode_of_injective ex_type_of_injective .divide .bool (by decide)
        (by decide)).trans (if_neg (by decide))⟩⟩

/-! ## The 1-D case of `cphvb_compute_reduce_any` -/

/-- The value the 1-D loop leaves in `data_out[0]` when input and output are different
bases: the fold of the operation over `data_in[off0], data_in[off0 + stride], ..`. -/
theorem reduce_1d_loop_spec {α : Type} (f : α → α → α) (ob xb : Nat) (hne : xb ≠ ob)
    (stride : Int) :
    ∀ (count : Nat) (off0 : Int) (m : Mem α),
      (reduce_1d_loop f ob xb stride count off0 m).buf ob 0
        = ((List.range count).map (fun (k : Nat) => m.buf xb (off0 + (k : Int) * stride))).foldl f
            (m.buf ob 0) ∧
      ∀ off, (reduce_1d_loop f ob xb stride count off0 m).buf xb off = m.buf xb off := by
  intro count
  induction count with
  | zero => intro off0 m; exact ⟨rfl, fun _ => rfl⟩
  | succ count ih =>
    intro off0 m
    obtain ⟨h1, h2⟩ := ih (off0 + stride)
      (m.write ob 0 (f (m.buf ob 0) (m.buf xb off0)))
    have hx : ∀ off, (m.write ob 0 (f (m.buf ob 0) (m.buf xb off0))).buf xb off
        = m.buf xb off := by
      intro off
      simp [Mem.write, hne]
    constructor
    · show (reduce_1d_loop f ob xb stride count (off0 + stride)
        (m.write ob 0 (f (m.buf ob 0) (m.buf xb off0)))).buf ob 0 = _
      rw [h1, List.range_succ_eq_map, List.map_cons, List.foldl_cons, List.map_map]
      have h0 : (m.write ob 0 (f (m.buf ob 0) (m.buf xb off0))).buf ob 0
          = f (m.buf ob 0) (m.buf xb (off0 + ((0 : Nat) : Int) * stride)) := by
        simp [Mem.write]
      rw [h0]
      congr 1
      apply List.map_congr_left
      intro k _
      simp only [Function.comp, hx, Nat.succ_eq_add_one, Nat.cast_add, Nat.cast_one]
      congr 1
      ring
    · intro off
      show (reduce_1d_loop f ob xb stride count (off0 + stride)
        (m.write ob 0 (f (m.buf ob 0) (m.buf xb off0)))).buf xb off = _
      rw [h2, hx]

/-- C16, evaluated on failing inputs: on the vector `0, 1, 2, ..` the view with start 0,
stride 2 and 5 elements holds `0, 2, 4, 6, 8`, whose sum is 20, but
`cphvb_compute_reduce_any` writes 16 (`base[0] + base[1] + base[3] + base[5] + base[7]`);
the view with start 2, stride 1 and 3 elements holds `2, 3, 4`, whose sum is 9, but the
function writes 7 (`base[0] + base[3] + base[4]`).  The two scenarios of the spec (start 0,
stride 1) do give 45 and 5. -/
theorem cphvb_compute_reduce_any_1d_failing :
    (cphvb_compute_reduce_any ex_compute_env (ex_sem 0) (ex_out 6) (ex_in 1 6 0 5 2) 0 0
        ex_mem_allocated).2.buf 2 0 = 16 ∧
    spec_fold_1d (ex_sem 0) (ex_mem_allocated.buf 1) 0 2 5 = 20 ∧
    (cphvb_compute_reduce_any ex_compute_env (ex_sem 0) (ex_out 6) (ex_in 1 6 2 3 1) 0 0
        ex_mem_allocated).2.buf 2 0 = 7 ∧
    spec_fold_1d (ex_sem 0) (ex_mem_allocated.buf 1) 2 1 3 = 9 ∧
    (cphvb_compute_reduce_any ex_compute_env (ex_sem 0) (ex_out 6) (ex_in 1 6 0 10 1) 0 0
        ex_mem_allocated).2.buf 2 0 = 45 ∧
    (cphvb_compute_reduce_any ex_compute_env (ex_sem 14) (ex_out 6) (ex_in 3 6 0 5 1) 0 14
        ex_mem_allocated).2.buf 2 0 = 5 := by
  refine ⟨by decide, by decide, by decide, by decide, by decide, by decide⟩

/-- What the 1-D case computes, for every input view on a base other than the output's:
`data_out[0]` receives the fold of the operation over `data_in[0]` and then
`data_in[start + 1 + k * stride]`, `k = 0 .. n − 2`; with start 0 and stride 1 this is
the fold over the elements of the view. -/
theorem cphvb_compute_reduce_any_1d {α : Type} (env : ComputeEnv α) (f : α → α → α)
    (op_out op_in : cphvb_array) (axis opcode : Nat) (m : Mem α)
    (hndim : op_in.ndim = 1) (hne : op_in.base ≠ op_out.base) :
    (cphvb_compute_reduce_any env f op_out op_in axis opcode m).1 = .CPHVB_SUCCESS ∧
    (cphvb_compute_reduce_any env f op_out op_in axis opcode m).2.buf op_out.base 0
      = ((List.range (op_in.shape.getD axis 0 - 1).toNat).map
          (fun (k : Nat) => m.buf op_in.base (op_in.start + 1 + (k : Int) * op_in.stride.getD axis 0))).foldl
          f (m.buf op_in.base 0) := by
  unfold cphvb_compute_reduce_any
  simp only [hndim, if_true]
  obtain ⟨h1, _⟩ := reduce_1d_loop_spec f op_out.base op_in.base hne (op_in.stride.getD axis 0)
    (op_in.shape.getD axis 0 - 1).toNat (op_in.start + 1)
    (m.write op_out.base 0 (m.buf op_in.base 0))
  refine ⟨trivial, ?_⟩
  rw [h1]
  have hx : ∀ off, (m.write op_out.base 0 (m.buf op_in.base 0)).buf op_in.base off
      = m.buf op_in.base off := by
    intro off
    simp [Mem.write, hne]
  have h0 : (m.write op_out.base 0 (m.buf op_in.base 0)).buf op_out.base 0
      = m.buf op_in.base 0 := by
    simp [Mem.write]
  rw [h0]
  congr 1
  apply List.map_congr_left
  intro k _
  exact hx _

/-! ## The N-D case of `cphvb_compute_reduce_any` -/

/-- One element-wise pass over the indices `L` that stores
`g (out[wr idx]) (x[rd idx])` at `out[wr idx]`, the written offsets being distinct and `x`
a different base: every visited element gets the value computed from the memory before the
pass, everything else is left alone. -/
theorem pass_spec {α : Type} (g : α → α → α) (ob xb : Nat) (hne : xb ≠ ob)
    (wr rd : List Nat → Int) :
    ∀ (L : List (List Nat)) (m : Mem α), (L.map wr).Nodup →
      (∀ idx ∈ L,
        (L.foldl (fun m idx =>
            m.write ob (wr idx) (g (m.buf ob (wr idx)) (m.buf xb (rd idx)))) m).buf ob (wr idx)
          = g (m.buf ob (wr idx)) (m.buf xb (rd idx))) ∧
      (∀ b, b ≠ ob → ∀ off,
        (L.foldl (fun m idx =>
            m.write ob (wr idx) (g (m.buf ob (wr idx)) (m.buf xb (rd idx)))) m).buf b off
          = m.buf b off) ∧
      (∀ off, off ∉ L.map wr →
        (L.foldl (fun m idx =>
            m.write ob (wr idx) (g (m.buf ob (wr idx)) (m.buf xb (rd idx)))) m).buf ob off
          = m.buf ob off) := by
  intro L
  induction L with
  | nil => intro m _; exact ⟨by simp, fun _ _ _ => rfl, fun _ _ => rfl⟩
  | cons i L ih =>
    intro m hnd
    rw [List.map_cons, List.nodup_cons] at hnd
    obtain ⟨h1, h2, h3⟩ := ih (m.write ob (wr i) (g (m.buf ob (wr i)) (m.buf xb (rd i)))) hnd.2
    simp only [List.foldl_cons]
    refine ⟨?_, ?_, ?_⟩
    · intro idx hidx
      rcases List.mem_cons.mp hidx with rfl | hidx'
      · rw [h3 _ hnd.1]
        simp [Mem.write]
      · rw [h1 idx hidx']
        have hwr : wr idx ≠ wr i := by
          intro he
          apply hnd.1
          rw [← he]
          exact List.mem_map_of_mem wr hidx'
        simp [Mem.write, hwr, hne]
    · intro b hb off
      rw [h2 b hb off]
      simp [Mem.write, hb]
    · intro off hoff
      rw [List.map_cons, List.mem_cons, not_or] at hoff
      rw [h3 off hoff.2]
      simp [Mem.write, hoff.1]

theorem offset_shift (a : cphvb_array) (d : Int) (idx : List Nat) :
    (⟨a.base, a.type, a.start + d, a.shape, a.stride⟩ : cphvb_array).offset idx
      = a.offset idx + d := by
  unfold cphvb_array.offset
  simp only []
  ring

/-- The loop of the N-D case with the element-wise executor: every output element is
folded with the `count` slices that start at `tmp`. -/
theorem reduce_nd_loop_spec {α : Type} (env : ComputeEnv α) (sem : Nat → α → α → α)
    (happly : env.cphvb_compute_apply = elementwise_apply sem env.CPHVB_IDENTITY)
    (opcode : Nat) (op_out : cphvb_array) (stride : Int)
    (hinj : ((indices op_out.shape).map op_out.offset).Nodup) :
    ∀ (count : Nat) (tmp : cphvb_array) (m : Mem α), tmp.base ≠ op_out.base →
      ∃ m', reduce_nd_loop env opcode op_out stride count tmp m = (.CPHVB_SUCCESS, m') ∧
        (∀ idx ∈ indices op_out.shape,
          m'.buf op_out.base (op_out.offset idx)
            = ((List.range count).map
                (fun (k : Nat) => m.buf tmp.base (tmp.offset idx + (k : Int) * stride))).foldl
                (sem opcode) (m.buf op_out.base (op_out.offset idx))) ∧
        ∀ b, b ≠ op_out.base → ∀ off, m'.buf b off = m.buf b off := by
  intro count
  induction count with
  | zero =>
    intro tmp m _
    exact ⟨m, rfl, fun _ _ => rfl, fun _ _ _ => rfl⟩
  | succ count ih =>
    intro tmp m hne
    obtain ⟨p1, p2, _⟩ := pass_spec (sem opcode) op_out.base tmp.base hne op_out.offset
      tmp.offset (indices op_out.shape) m hinj
    obtain ⟨m', hm', hval, hframe⟩ := ih
      ⟨tmp.base, tmp.type, tmp.start + stride, tmp.shape, tmp.stride⟩
      ((indices op_out.shape).foldl (fun m idx =>
        m.write op_out.base (op_out.offset idx)
          (sem opcode (m.buf op_out.base (op_out.offset idx))
            (m.buf tmp.base (tmp.offset idx)))) m) hne
    refine ⟨m', ?_, ?_, ?_⟩
    · unfold reduce_nd_loop
      rw [happly]
      unfold elementwise_apply
      simp only []
      exact hm'
    · intro idx hidx
      rw [hval idx hidx, p1 idx hidx, List.range_succ_eq_map, List.map_cons, List.foldl_cons,
        List.map_map]
      simp only [Nat.cast_zero, zero_mul, add_zero]
      congr 1
      apply List.map_congr_left
      intro k _
      simp only [Function.comp, offset_shift, Nat.succ_eq_add_one, Nat.cast_add, Nat.cast_one]
      rw [p2 tmp.base hne]
      congr 1
      ring
    · intro b hb off
      rw [hframe b hb off, p2 b hb off]

theorem copy_except_axis_eq (axis : Nat) (dims : List Int) :
    copy_except_axis axis dims dims.length = dims.eraseIdx axis := by
  have key : ∀ k, k ≤ dims.length →
      (List.range k).foldl (fun tmp i => if i ≠ axis then tmp ++ [dims.getD i 0] else tmp) []
        = (dims.take k).eraseIdx axis := by
    intro k
    induction k with
    | zero => intro _; rfl
    | succ k ih =>
      intro hk
      have hk' : k < dims.length := by omega
      rw [List.range_succ, List.foldl_append, ih (by omega)]
      simp only [List.foldl_cons, List.foldl_nil]
      have hlen : (dims.take k).length = k := by simp; omega
      have htake : dims.take (k + 1) = dims.take k ++ [dims.getD k 0] := by
        rw [List.take_succ, List.getD_eq_getElem?_getD, List.getElem?_eq_getElem hk']
        rfl
      rw [htake]
      by_cases hka : k = axis
      · subst hka
        rw [if_neg (by simp), List.eraseIdx_append_of_length_le (by omega),
          List.eraseIdx_of_length_le (by omega), hlen, Nat.sub_self]
        simp
      · rw [if_pos hka]
        by_cases hlt : axis < k
        · rw [List.eraseIdx_append_of_lt_length (by omega)]
        · rw [List.eraseIdx_of_length_le (by omega),
            List.eraseIdx_append_of_length_le (by omega), hlen]
          have : axis - k = (axis - k - 1) + 1 := by omega
          rw [this]
          simp
  have := key dims.length (le_refl _)
  rw [List.take_length] at this
  exact this

theorem zip_sum_insert (j : Nat) :
    ∀ (axis : Nat) (idx : List Nat) (st : List Int), axis ≤ idx.length → axis < st.length →
      (List.zipWith (fun (i : Nat) (s : Int) => (i : Int) * s) (idx.insertIdx axis j) st).sum
        = (List.zipWith (fun (i : Nat) (s : Int) => (i : Int) * s) idx
            (st.eraseIdx axis)).sum + (j : Int) * st.getD axis 0 := by
  intro axis
  induction axis with
  | zero =>
    intro idx st _ hst
    cases st with
    | nil => simp at hst
    | cons s st' =>
      simp only [List.insertIdx_zero, List.zipWith_cons_cons, List.sum_cons,
        List.eraseIdx_cons_zero, List.getD_cons_zero]
      ring
  | succ axis ih =>
    intro idx st hidx hst
    cases idx with
    | nil => simp at hidx
    | cons i idx' =>
      cases st with
      | nil => simp at hst
      | cons s st' =>
        simp only [List.length_cons, Nat.add_le_add_iff_right, Nat.add_lt_add_iff_right]
          at hidx hst
        simp only [List.insertIdx_succ_cons, List.zipWith_cons_cons, List.sum_cons,
          List.eraseIdx_cons_succ, List.getD_cons_succ]
        rw [ih idx' st' hidx hst]
        ring

theorem indices_length :
    ∀ (shape : List Int) (idx : List Nat), idx ∈ indices shape → idx.length = shape.length := by
  intro shape
  induction shape with
  | nil =>
    intro idx h
    simp only [indices, List.mem_singleton] at h
    rw [h]
    rfl
  | cons n rest ih =>
    intro idx h
    simp only [indices, List.mem_flatMap, List.mem_map] at h
    obtain ⟨i, _, tail, htail, rfl⟩ := h
    simp [ih tail htail]

theorem slice_view_offset (op_in : cphvb_array) (axis k : Nat) (idx : List Nat)
    (hidx : axis ≤ idx.length) (hst : axis < op_in.stride.length) :
    (slice_view op_in axis k).offset idx = op_in.offset (idx.insertIdx axis k) := by
  unfold slice_view cphvb_array.offset
  simp only []
  rw [zip_sum_insert k axis idx op_in.stride hidx hst]
  ring

/-- The loop of the N-D case with the element-wise executor, as the sequence of the
instructions it executes. -/
theorem reduce_nd_loop_fold {α : Type} (env : ComputeEnv α) (sem : Nat → α → α → α)
    (happly : env.cphvb_compute_apply = elementwise_apply sem env.CPHVB_IDENTITY)
    (opcode : Nat) (op_out : cphvb_array) (stride : Int) :
    ∀ (count : Nat) (tmp : cphvb_array) (m : Mem α),
      reduce_nd_loop env opcode op_out stride count tmp m
        = (.CPHVB_SUCCESS,
            (List.range count).foldl (fun mm (k : Nat) =>
              (env.cphvb_compute_apply ⟨opcode, [op_out, op_out,
                ⟨tmp.base, tmp.type, tmp.start + (k : Int) * stride, tmp.shape, tmp.stride⟩]⟩
                mm).2) m) := by
  intro count
  induction count with
  | zero => intro tmp m; rfl
  | succ count ih =>
    intro tmp m
    have h0 : (⟨tmp.base, tmp.type, tmp.start + ((0 : Nat) : Int) * stride, tmp.shape,
        tmp.stride⟩ : cphvb_array) = tmp := by
      cases tmp
      simp
    have hstep : reduce_nd_loop env opcode op_out stride (count + 1) tmp m
        = reduce_nd_loop env opcode op_out stride count
            ⟨tmp.base, tmp.type, tmp.start + stride, tmp.shape, tmp.stride⟩
            (env.cphvb_compute_apply ⟨opcode, [op_out, op_out, tmp]⟩ m).2 := by
      conv_lhs => unfold reduce_nd_loop
      rw [happly]
      unfold elementwise_apply
      simp only []
    rw [hstep, ih, List.range_succ_eq_map, List.foldl_cons, List.foldl_map, h0]
    congr 1
    apply congrArg (fun g => List.foldl g _ (List.range count))
    funext mm k
    have hk : tmp.start + stride + (k : Int) * stride
        = tmp.start + ((Nat.succ k : Nat) : Int) * stride := by
      push_cast
      ring
    simp only [hk]

/-- C17: let the instructions be executed element by element, the input view have at least
two dimensions, `axis` be one of them, the output lie on another base, have the shape of
the input without the axis and address distinct elements at distinct indices.  Then
`cphvb_compute_reduce_any` succeeds; the memory it leaves is the one obtained by first
executing the identity from the slice at index 0 of the axis (the view with the axis
dimension removed, the other shapes and strides kept in order) to the output and then the
opcode on the output and the slices at the indices `1 .. n − 1`, in order; and each output
element equals the left fold of the opcode over the input elements along the axis. -/
theorem cphvb_compute_reduce_any_nd {α : Type} (env : ComputeEnv α) (sem : Nat → α → α → α)
    (f : α → α → α) (op_out op_in : cphvb_array) (axis opcode : Nat) (m : Mem α)
    (happly : env.cphvb_compute_apply = elementwise_apply sem env.CPHVB_IDENTITY)
    (hndim : 2 ≤ op_in.ndim) (haxis : axis < op_in.ndim)
    (hstr : op_in.stride.length = op_in.ndim)
    (hbase : op_in.base ≠ op_out.base)
    (hshape : op_out.shape = op_in.shape.eraseIdx axis)
    (hinj : ((indices op_out.shape).map op_out.offset).Nodup) :
    ∃ m', cphvb_compute_reduce_any env f op_out op_in axis opcode m = (.CPHVB_SUCCESS, m') ∧
      m' = (List.range' 1 (op_in.shape.getD axis 0 - 1).toNat).foldl
          (fun mm (k : Nat) =>
            (env.cphvb_compute_apply ⟨opcode, [op_out, op_out, slice_view op_in axis k]⟩ mm).2)
          (env.cphvb_compute_apply ⟨env.CPHVB_IDENTITY, [op_out, slice_view op_in axis 0]⟩ m).2 ∧
      ∀ idx ∈ indices op_out.shape,
        m'.buf op_out.base (op_out.offset idx)
          = ((List.range' 1 (op_in.shape.getD axis 0 - 1).toNat).map
              (fun (j : Nat) => m.buf op_in.base (op_in.offset (idx.insertIdx axis j)))).foldl
              (sem opcode) (m.buf op_in.base (op_in.offset (idx.insertIdx axis 0))) := by
  have hsh : copy_except_axis axis op_in.shape op_in.ndim = op_in.shape.eraseIdx axis :=
    copy_except_axis_eq axis op_in.shape
  have hst : copy_except_axis axis op_in.stride op_in.ndim = op_in.stride.eraseIdx axis := by
    rw [← hstr]
    exact copy_except_axis_eq axis op_in.stride
  have e0 : (⟨op_in.base, op_in.type, op_in.start, op_in.shape.eraseIdx axis,
      op_in.stride.eraseIdx axis⟩ : cphvb_array) = slice_view op_in axis 0 := by
    unfold slice_view
    simp
  have e1 : ∀ k : Nat, (⟨(slice_view op_in axis 0).base, (slice_view op_in axis 0).type,
      (slice_view op_in axis 0).start + op_in.stride.getD axis 0 +
        (k : Int) * op_in.stride.getD axis 0,
      (slice_view op_in axis 0).shape, (slice_view op_in axis 0).stride⟩ : cphvb_array)
      = slice_view op_in axis (1 + k) := by
    intro k
    unfold slice_view
    simp only [cphvb_array.mk.injEq, true_and, and_true]
    push_cast
    ring
  have hne1 : ¬ op_in.ndim = 1 := by omega
  have hhead : cphvb_compute_reduce_any env f op_out op_in axis opcode m
      = reduce_nd_loop env opcode op_out (op_in.stride.getD axis 0)
          (op_in.shape.getD axis 0 - 1).toNat
          ⟨(slice_view op_in axis 0).base, (slice_view op_in axis 0).type,
            (slice_view op_in axis 0).start + op_in.stride.getD axis 0,
            (slice_view op_in axis 0).shape, (slice_view op_in axis 0).stride⟩
          (env.cphvb_compute_apply ⟨env.CPHVB_IDENTITY, [op_out, slice_view op_in axis 0]⟩
            m).2 := by
    have e2 : (⟨op_in.base, op_in.type, op_in.start + op_in.stride.getD axis 0,
        op_in.shape.eraseIdx axis, op_in.stride.eraseIdx axis⟩ : cphvb_array)
        = ⟨(slice_view op_in axis 0).base, (slice_view op_in axis 0).type,
            (slice_view op_in axis 0).start + op_in.stride.getD axis 0,
            (slice_view op_in axis 0).shape, (slice_view op_in axis 0).stride⟩ := by
      simp [slice_view]
    unfold cphvb_compute_reduce_any
    simp only [hne1, if_false, hsh, hst, e0]
    rw [happly]
    unfold elementwise_apply
    simp only [if_true]
    rw [e2]
  have hxb : (slice_view op_in axis 0).base ≠ op_out.base := hbase
  obtain ⟨c1, c2, _⟩ := pass_spec (fun _ b => b) op_out.base (slice_view op_in axis 0).base hxb
    op_out.offset (slice_view op_in axis 0).offset (indices op_out.shape) m hinj
  have hm0 : (env.cphvb_compute_apply ⟨env.CPHVB_IDENTITY, [op_out, slice_view op_in axis 0]⟩
      m).2 = (indices op_out.shape).foldl (fun m idx =>
        m.write op_out.base (op_out.offset idx)
          (m.buf (slice_view op_in axis 0).base ((slice_view op_in axis 0).offset idx))) m := by
    rw [happly]
    unfold elementwise_apply
    simp only [if_true]
  obtain ⟨m', hm', hval, _⟩ := reduce_nd_loop_spec env sem happly opcode op_out
    (op_in.stride.getD axis 0) hinj (op_in.shape.getD axis 0 - 1).toNat
    ⟨(slice_view op_in axis 0).base, (slice_view op_in axis 0).type,
      (slice_view op_in axis 0).start + op_in.stride.getD axis 0,
      (slice_view op_in axis 0).shape, (slice_view op_in axis 0).stride⟩
    ((env.cphvb_compute_apply ⟨env.CPHVB_IDENTITY, [op_out, slice_view op_in axis 0]⟩ m).2)
    hxb
  refine ⟨m', by rw [hhead, hm'], ?_, ?_⟩
  · have hfold := reduce_nd_loop_fold env sem happly opcode op_out (op_in.stride.getD axis 0)
      (op_in.shape.getD axis 0 - 1).toNat
      ⟨(slice_view op_in axis 0).base, (slice_view op_in axis 0).type,
        (slice_view op_in axis 0).start + op_in.stride.getD axis 0,
        (slice_view op_in axis 0).shape, (slice_view op_in axis 0).stride⟩
      ((env.cphvb_compute_apply ⟨env.CPHVB_IDENTITY, [op_out, slice_view op_in axis 0]⟩ m).2)
    rw [hm'] at hfold
    simp only [Prod.mk.injEq, true_and] at hfold
    rw [hfold, List.range'_eq_map_range, List.foldl_map]
    simp only [e1]
  · intro idx hidx
    have hlen : axis ≤ idx.length := by
      rw [indices_length _ idx hidx, hshape, List.length_eraseIdx]
      unfold cphvb_array.ndim at haxis
      split <;> omega
    have hstl : axis < op_in.stride.length := by rw [hstr]; exact haxis
    rw [hval idx hidx, hm0, c1 idx hidx, List.range'_eq_map_range, List.map_map,
      slice_view_offset op_in axis 0 idx hlen hstl]
    congr 1
    apply List.map_congr_left
    intro k _
    simp only [Function.comp]
    have hoff : (⟨(slice_view op_in axis 0).base, (slice_view op_in axis 0).type,
        (slice_view op_in axis 0).start + op_in.stride.getD axis 0,
        (slice_view op_in axis 0).shape, (slice_view op_in axis 0).stride⟩ : cphvb_array).offset
          idx + (k : Int) * op_in.stride.getD axis 0
        = op_in.offset (idx.insertIdx axis (1 + k)) := by
      rw [← slice_view_offset op_in axis (1 + k) idx hlen hstl]
      unfold slice_view cphvb_array.offset
      simp only []
      push_cast
      ring
    rw [c2 _ hxb, hoff]
    rfl

theorem cphvb_compute_reduce_any_nd_witness :
    (ex_compute_env.cphvb_compute_apply = elementwise_apply ex_sem ex_compute_env.CPHVB_IDENTITY ∧
      2 ≤ ex_matrix.ndim ∧ 1 < ex_matrix.ndim ∧ ex_matrix.stride.length = ex_matrix.ndim ∧
      ex_matrix.base ≠ ex_rows.base ∧ ex_rows.shape = ex_matrix.shape.eraseIdx 1 ∧
      ((indices ex_rows.shape).map ex_rows.offset).Nodup) ∧
    (∃ m', cphvb_compute_reduce_any ex_compute_env (ex_sem 0) ex_rows ex_matrix 1 0
        ex_mem_allocated = (.CPHVB_SUCCESS, m') ∧
      m' = (List.range' 1 (ex_matrix.shape.getD 1 0 - 1).toNat).foldl
          (fun mm (k : Nat) =>
            (ex_compute_env.cphvb_compute_apply
              ⟨0, [ex_rows, ex_rows, slice_view ex_matrix 1 k]⟩ mm).2)
          (ex_compute_env.cphvb_compute_apply
            ⟨ex_compute_env.CPHVB_IDENTITY, [ex_rows, slice_view ex_matrix 1 0]⟩
            ex_mem_allocated).2 ∧
      ∀ idx ∈ indices ex_rows.shape,
        m'.buf ex_rows.base (ex_rows.offset idx)
          = ((List.range' 1 (ex_matrix.shape.getD 1 0 - 1).toNat).map
              (fun (j : Nat) =>
                ex_mem_allocated.buf ex_matrix.base
                  (ex_matrix.offset (idx.insertIdx 1 j)))).foldl
              (ex_sem 0)
              (ex_mem_allocated.buf ex_matrix.base (ex_matrix.offset (idx.insertIdx 1 0)))) ∧
    (List.range 4).map (fun (i : Nat) =>
        (cphvb_compute_reduce_any ex_compute_env (ex_sem 0) ex_rows ex_matrix 1 0
          ex_mem_allocated).2.buf 2 i) = [10, 35, 60, 85] :=
  ⟨⟨rfl, by decide, by decide, by decide, by decide, by decide, by decide⟩,
    cphvb_compute_reduce_any_nd ex_compute_env ex_sem (ex_sem 0) ex_rows ex_matrix 1 0
      ex_mem_allocated rfl (by decide) (by decide) (by decide) (by decide) (by decide)
      (by decide),
    by decide⟩

/-! ## Breadth-first search -/

theorem mem_out_edges {β : Type} (g : DAG β) (u v : Nat) :
    v ∈ g.out_edges u ↔ g.edge u v := by
  unfold DAG.out_edges DAG.edge
  simp only [List.mem_map, List.mem_filter, decide_eq_true_eq]
  constructor
  · rintro ⟨e, ⟨he, h1⟩, h2⟩
    have : e = (u, v) := by
      cases e
      simp only at h1 h2
      rw [h1, h2]
    rw [← this]
    exact he
  · intro h
    exact ⟨(u, v), ⟨h, rfl⟩, rfl⟩

theorem bfs_examine_none (throws : Nat → Nat → Bool) (u : Nat) :
    ∀ (ts queue seen : List Nat),
      bfs_examine throws u ts queue seen = none ↔ ∃ v ∈ ts, throws u v = true := by
  intro ts
  induction ts with
  | nil => intro queue seen; simp [bfs_examine]
  | cons v vs ih =>
    intro queue seen
    unfold bfs_examine
    by_cases ht : throws u v = true
    · simp [ht]
    · simp only [ht, Bool.false_eq_true, if_false, List.mem_cons, exists_eq_or_imp, false_or]
      by_cases hs : v ∈ seen
      · simp only [hs, if_true]
        exact ih queue seen
      · simp only [hs, if_false]
        exact ih (queue ++ [v]) (v :: seen)

theorem bfs_examine_some (throws : Nat → Nat → Bool) (u : Nat) :
    ∀ (ts queue seen queue2 seen2 : List Nat),
      bfs_examine throws u ts queue seen = some (queue2, seen2) →
      (∀ v ∈ ts, throws u v = false) ∧
      (∀ x, x ∈ seen2 ↔ x ∈ seen ∨ x ∈ ts) ∧
      (∀ x, x ∈ queue2 ↔ x ∈ queue ∨ (x ∈ ts ∧ x ∉ seen)) ∧
      (seen.Nodup → seen2.Nodup) ∧
      (queue.Nodup → (∀ x ∈ queue, x ∈ seen) → queue2.Nodup) ∧
      queue2.length + seen.length = queue.length + seen2.length := by
  intro ts
  induction ts with
  | nil =>
    intro queue seen queue2 seen2 h
    simp only [bfs_examine, Option.some.injEq, Prod.mk.injEq] at h
    obtain ⟨rfl, rfl⟩ := h
    exact ⟨by simp, by simp, by simp, fun h => h, fun h _ => h, rfl⟩
  | cons v vs ih =>
    intro queue seen queue2 seen2 h
    unfold bfs_examine at h
    by_cases ht : throws u v = true
    · simp [ht] at h
    · simp only [ht, Bool.false_eq_true, if_false] at h
      have htf : throws u v = false := by simpa using ht
      by_cases hs : v ∈ seen
      · simp only [hs, if_true] at h
        obtain ⟨h1, h2, h3, h4, h5, h6⟩ := ih queue seen queue2 seen2 h
        refine ⟨?_, ?_, ?_, h4, h5, h6⟩
        · intro x hx
          rcases List.mem_cons.mp hx with rfl | hx'
          · exact htf
          · exact h1 x hx'
        · intro x
          rw [h2 x, List.mem_cons]
          constructor
          · rintro (h | h)
            · exact Or.inl h
            · exact Or.inr (Or.inr h)
          · rintro (h | rfl | h)
            · exact Or.inl h
            · exact Or.inl hs
            · exact Or.inr h
        · intro x
          rw [h3 x, List.mem_cons]
          constructor
          · rintro (h | ⟨h, hn⟩)
            · exact Or.inl h
            · exact Or.inr ⟨Or.inr h, hn⟩
          · rintro (h | ⟨rfl | h, hn⟩)
            · exact Or.inl h
            · exact absurd hs hn
            · exact Or.inr ⟨h, hn⟩
      · simp only [hs, if_false] at h
        obtain ⟨h1, h2, h3, h4, h5, h6⟩ := ih (queue ++ [v]) (v :: seen) queue2 seen2 h
        refine ⟨?_, ?_, ?_, ?_, ?_, ?_⟩
        · intro x hx
          rcases List.mem_cons.mp hx with rfl | hx'
          · exact htf
          · exact h1 x hx'
        · intro x
          rw [h2 x, List.mem_cons, List.mem_cons]
          constructor
          · rintro ((rfl | h) | h)
            · exact Or.inr (Or.inl rfl)
            · exact Or.inl h
            · exact Or.inr (Or.inr h)
          · rintro (h | rfl | h)
            · exact Or.inl (Or.inr h)
            · exact Or.inl (Or.inl rfl)
            · exact Or.inr h
        · intro x
          rw [h3 x, List.mem_append, List.mem_singleton, List.mem_cons, List.mem_cons]
          constructor
          · rintro ((h | rfl) | ⟨h, hn⟩)
            · exact Or.inl h
            · exact Or.inr ⟨Or.inl rfl, hs⟩
            · exact Or.inr ⟨Or.inr h, fun hx => hn (Or.inr hx)⟩
          · rintro (h | ⟨rfl | h, hn⟩)
            · exact Or.inl (Or.inl h)
            · exact Or.inl (Or.inr rfl)
            · by_cases hxv : x = v
              · exact Or.inl (Or.inr hxv)
              · refine Or.inr ⟨h, ?_⟩
                rintro (hx | hx)
                · exact hxv hx
                · exact hn hx
        · intro hnd
          exact h4 (List.nodup_cons.mpr ⟨hs, hnd⟩)
        · intro hnd hsub
          apply h5
          · rw [List.nodup_append]
            refine ⟨hnd, List.nodup_singleton v, ?_⟩
            intro x hx hxv
            rw [List.mem_singleton] at hxv
            subst hxv
            exact hs (hsub x hx)
          · intro x hx
            rw [List.mem_append, List.mem_singleton] at hx
            rcases hx with hx | rfl
            · exact List.mem_cons_of_mem _ (hsub x hx)
            · exact List.mem_cons_self _ _
        · simp only [List.length_append, List.length_cons, List.length_nil] at h6
          omega

theorem walk_succ {β : Type} (g : DAG β) (k u v : Nat) :
    g.walk (k + 1) u v = true ↔ ∃ x, g.edge u x ∧ g.walk k x v = true := by
  show (g.out_edges u).any (fun w => DAG.walk g k w v) = true ↔ _
  rw [List.any_eq_true]
  constructor
  · rintro ⟨x, hx, h⟩
    exact ⟨x, (mem_out_edges g u x).mp hx, h⟩
  · rintro ⟨x, hx, h⟩
    exact ⟨x, (mem_out_edges g u x).mpr hx, h⟩

theorem walk_zero {β : Type} (g : DAG β) (u v : Nat) :
    g.walk 0 u v = true ↔ u = v := by
  show decide (u = v) = true ↔ _
  simp

theorem walk_succ_last {β : Type} (g : DAG β) :
    ∀ (k u v : Nat), g.walk (k + 1) u v = true ↔ ∃ w, g.walk k u w = true ∧ g.edge w v := by
  intro k
  induction k with
  | zero =>
    intro u v
    rw [walk_succ]
    constructor
    · rintro ⟨x, hx, h⟩
      rw [walk_zero] at h
      subst h
      exact ⟨u, (walk_zero g u u).mpr rfl, hx⟩
    · rintro ⟨w, h, hw⟩
      rw [walk_zero] at h
      subst h
      exact ⟨v, hw, (walk_zero g v v).mpr rfl⟩
  | succ k ih =>
    intro u v
    rw [walk_succ]
    constructor
    · rintro ⟨x, hx, h⟩
      obtain ⟨w, h1, h2⟩ := (ih x v).mp h
      exact ⟨w, (walk_succ g k u w).mpr ⟨x, hx, h1⟩, h2⟩
    · rintro ⟨w, h, hw⟩
      obtain ⟨x, hx, h1⟩ := (walk_succ g k u w).mp h
      exact ⟨x, hx, (ih x v).mpr ⟨w, h1, hw⟩⟩

theorem walk_increasing {β : Type} (g : DAG β) (hinc : ∀ e ∈ g.edges, e.1 < e.2) :
    ∀ (k u v : Nat), g.walk k u v = true → u + k ≤ v := by
  intro k
  induction k with
  | zero =>
    intro u v h
    rw [walk_zero] at h
    omega
  | succ k ih =>
    intro u v h
    obtain ⟨x, hx, h1⟩ := (walk_succ g k u v).mp h
    have h2 := ih x v h1
    have h3 := hinc (u, x) hx
    simp only at h3
    omega

theorem acyclic_of_increasing {β : Type} (g : DAG β) (hinc : ∀ e ∈ g.edges, e.1 < e.2) :
    g.acyclic := by
  intro v k hk
  cases h : g.walk k v v with
  | false => rfl
  | true =>
    have := walk_increasing g hinc k v v h
    omega

theorem seen_length_le (seen : List Nat) (n : Nat) (hnd : seen.Nodup)
    (hb : ∀ v ∈ seen, v < n) : seen.length ≤ n := by
  have h := (List.subperm_of_subset hnd (fun v hv => List.mem_range.mpr (hb v hv))).length_le
  simpa using h

theorem bfs_loop_result {β : Type} (g : DAG β) (throws : Nat → Nat → Bool) :
    ∀ (fuel : Nat) (queue seen : List Nat),
      bfs_loop g throws fuel queue seen = .ok () ∨
      bfs_loop g throws fuel queue seen = .error (.runtime_error "") := by
  intro fuel
  induction fuel with
  | zero => intro queue seen; exact Or.inl rfl
  | succ fuel ih =>
    intro queue seen
    cases queue with
    | nil => exact Or.inl rfl
    | cons u queue =>
      unfold bfs_loop
      cases h : bfs_examine throws u (g.out_edges u) queue seen with
      | none => exact Or.inr rfl
      | some p => exact ih p.1 p.2

theorem bfs_inv_closed {β : Type} (g : DAG β) (throws : Nat → Nat → Bool) (a : Nat)
    (seen : List Nat) (hinv : BfsInv g throws a [] seen) :
    ∀ (k u : Nat), g.walk k a u = true → u ∈ seen := by
  intro k
  induction k with
  | zero =>
    intro u h
    rw [walk_zero] at h
    subst h
    exact hinv.start_seen
  | succ k ih =>
    intro u h
    obtain ⟨w, h1, h2⟩ := (walk_succ_last g k a u).mp h
    exact (hinv.closed w (ih w h1) (List.not_mem_nil w) u h2).1

theorem bfs_inv_step {β : Type} (g : DAG β) (throws : Nat → Nat → Bool) (a u : Nat)
    (hwf : g.wf) (queue seen queue2 seen2 : List Nat)
    (hinv : BfsInv g throws a (u :: queue) seen)
    (h : bfs_examine throws u (g.out_edges u) queue seen = some (queue2, seen2)) :
    BfsInv g throws a queue2 seen2 ∧
      queue2.length + seen.length = queue.length + seen2.length := by
  obtain ⟨h1, h2, h3, h4, _, h6⟩ :=
    bfs_examine_some throws u (g.out_edges u) queue seen queue2 seen2 h
  have hu : u ∈ seen := hinv.queue_seen u (List.mem_cons_self _ _)
  refine ⟨⟨?_, ?_, ?_, ?_, ?_, ?_⟩, h6⟩
  · exact (h2 a).mpr (Or.inl hinv.start_seen)
  · intro x hx
    rcases (h3 x).mp hx with hq | ⟨ht, _⟩
    · exact (h2 x).mpr (Or.inl (hinv.queue_seen x (List.mem_cons_of_mem _ hq)))
    · exact (h2 x).mpr (Or.inr ht)
  · intro x hx
    rcases (h2 x).mp hx with hs | ht
    · exact hinv.reach x hs
    · obtain ⟨k, hk⟩ := hinv.reach u hu
      exact ⟨k + 1, (walk_succ_last g k a x).mpr ⟨u, hk, (mem_out_edges g u x).mp ht⟩⟩
  · intro x hx hxq v hv
    by_cases hxu : x = u
    · subst hxu
      have hvt : v ∈ g.out_edges x := (mem_out_edges g x v).mpr hv
      exact ⟨(h2 v).mpr (Or.inr hvt), h1 v hvt⟩
    · have hxs : x ∈ seen := by
        rcases (h2 x).mp hx with hs | ht
        · exact hs
        · by_cases hs : x ∈ seen
          · exact hs
          · exact absurd ((h3 x).mpr (Or.inr ⟨ht, hs⟩)) hxq
      have hxq2 : x ∉ u :: queue := by
        intro hm
        rcases List.mem_cons.mp hm with h | h
        · exact hxu h
        · exact hxq ((h3 x).mpr (Or.inl h))
      obtain ⟨c1, c2⟩ := hinv.closed x hxs hxq2 v hv
      exact ⟨(h2 v).mpr (Or.inl c1), c2⟩
  · exact h4 hinv.seen_nodup
  · intro x hx
    rcases (h2 x).mp hx with hs | ht
    · exact hinv.seen_bound x hs
    · exact (hwf (u, x) ((mem_out_edges g u x).mp ht)).2

theorem bfs_loop_spec {β : Type} (g : DAG β) (throws : Nat → Nat → Bool) (a : Nat)
    (hwf : g.wf) :
    ∀ (fuel : Nat) (queue seen : List Nat), BfsInv g throws a queue seen →
      queue.length + (g.num_vertices - seen.length) < fuel →
      (bfs_loop g throws fuel queue seen = .error (.runtime_error "") ↔
        ∃ k u v, g.walk k a u = true ∧ g.edge u v ∧ throws u v = true) := by
  intro fuel
  induction fuel with
  | zero => intro queue seen _ hm; omega
  | succ fuel ih =>
    intro queue seen hinv hm
    cases queue with
    | nil =>
      constructor
      · intro h
        exact absurd h (by simp [bfs_loop])
      · rintro ⟨k, u, v, hk, he, ht⟩
        have hu := bfs_inv_closed g throws a seen hinv k u hk
        have := (hinv.closed u hu (List.not_mem_nil u) v he).2
        rw [this] at ht
        exact absurd ht (by simp)
    | cons u queue =>
      unfold bfs_loop
      cases h : bfs_examine throws u (g.out_edges u) queue seen with
      | none =>
        simp only [true_iff]
        obtain ⟨v, hv, ht⟩ := (bfs_examine_none throws u (g.out_edges u) queue seen).mp h
        obtain ⟨k, hk⟩ := hinv.reach u (hinv.queue_seen u (List.mem_cons_self _ _))
        exact ⟨k, u, v, hk, (mem_out_edges g u v).mp hv, ht⟩
      | some p =>
        obtain ⟨queue2, seen2⟩ := p
        obtain ⟨hinv2, hlen⟩ := bfs_inv_step g throws a u hwf queue seen queue2 seen2 hinv h
        apply ih queue2 seen2 hinv2
        have l1 := seen_length_le seen2 g.num_vertices hinv2.seen_nodup hinv2.seen_bound
        have l2 := seen_length_le seen g.num_vertices hinv.seen_nodup hinv.seen_bound
        simp only [List.length_cons] at hm
        omega

theorem bfs_inv_start {β : Type} (g : DAG β) (throws : Nat → Nat → Bool) (a : Nat)
    (ha : a < g.num_vertices) : BfsInv g throws a [a] [a] := by
  refine ⟨List.mem_singleton.mpr rfl, fun v hv => hv, ?_, ?_, List.nodup_singleton a, ?_⟩
  · intro v hv
    rw [List.mem_singleton] at hv
    subst hv
    exact ⟨0, (walk_zero g v v).mpr rfl⟩
  · intro u hu hq
    exact absurd hu hq
  · intro v hv
    rw [List.mem_singleton] at hv
    subst hv
    exact ha

theorem breadth_first_search_spec {β : Type} (g : DAG β) (throws : Nat → Nat → Bool)
    (a : Nat) (hwf : g.wf) (ha : a < g.num_vertices) :
    (breadth_first_search g a throws = .error (.runtime_error "") ↔
      ∃ k u v, g.walk k a u = true ∧ g.edge u v ∧ throws u v = true) ∧
    (breadth_first_search g a throws = .ok () ∨
      breadth_first_search g a throws = .error (.runtime_error "")) := by
  refine ⟨?_, bfs_loop_result g throws _ _ _⟩
  apply bfs_loop_spec g throws a hwf _ _ _ (bfs_inv_start g throws a ha)
  simp only [List.length_singleton]
  omega

theorem path_exist_eq {β : Type} (a b : Nat) (g : DAG β) (only_long_path : Bool)
    (hwf : g.wf) (ha : a < g.num_vertices) :
    path_exist a b g only_long_path = true ↔
      ∃ k u v, g.walk k a u = true ∧ g.edge u v ∧
        (if only_long_path then (decide (u ≠ a) && decide (v = b)) else decide (v = b)) = true := by
  cases only_long_path with
  | false =>
    obtain ⟨h1, h2⟩ := breadth_first_search_spec g (fun _ tgt => decide (tgt = b)) a hwf ha
    simp only [Bool.false_eq_true, if_false] at *
    rw [← h1]
    unfold path_exist
    simp only [Bool.false_eq_true, if_false]
    rcases h2 with h | h
    · rw [h]; simp
    · rw [h]; simp
  | true =>
    obtain ⟨h1, h2⟩ :=
      breadth_first_search_spec g (fun src tgt => decide (src ≠ a) && decide (tgt = b)) a hwf ha
    simp only [if_true] at *
    rw [← h1]
    unfold path_exist
    simp only [if_true]
    rcases h2 with h | h
    · rw [h]; simp
    · rw [h]; simp

theorem path_exist_false_iff {β : Type} (a b : Nat) (dag : DAG β) (hwf : dag.wf)
    (ha : a < dag.num_vertices) :
    path_exist a b dag false = true ↔ ∃ k, 0 < k ∧ dag.walk k a b = true := by
  rw [path_exist_eq a b dag false hwf ha]
  simp only [Bool.false_eq_true, if_false, decide_eq_true_eq]
  constructor
  · rintro ⟨k, u, v, hk, he, rfl⟩
    exact ⟨k + 1, Nat.succ_pos k, (walk_succ_last dag k a v).mpr ⟨u, hk, he⟩⟩
  · rintro ⟨k, hk, h⟩
    obtain ⟨j, rfl⟩ : ∃ j, k = j + 1 := ⟨k - 1, by omega⟩
    obtain ⟨w, h1, h2⟩ := (walk_succ_last dag j a b).mp h
    exact ⟨j, w, b, h1, h2, rfl⟩

/-- Claim C13: in a graph whose edges join its vertices, for a vertex `a` the call
`path_exist(a, b, dag, false)` returns true exactly when a path of at least one edge leads
from `a` to `b`; in an acyclic graph it returns false for `a = b`. -/
theorem path_exist_short {β : Type} (a b : Nat) (dag : DAG β) (hwf : dag.wf)
    (ha : a < dag.num_vertices) :
    (path_exist a b dag false = true ↔ ∃ k, 0 < k ∧ dag.walk k a b = true) ∧
    (dag.acyclic → path_exist a a dag false = false) := by
  refine ⟨path_exist_false_iff a b dag hwf ha, ?_⟩
  intro hac
  cases h : path_exist a a dag false with
  | false => rfl
  | true =>
    obtain ⟨k, hk, hw⟩ := (path_exist_false_iff a a dag hwf ha).mp h
    rw [hac a k hk] at hw
    exact absurd hw (by simp)

theorem path_exist_short_witness :
    ex_dag.wf ∧ 0 < ex_dag.num_vertices ∧ path_exist 0 2 ex_dag false = true ∧
    path_exist 3 0 ex_dag false = false ∧
    ((path_exist 0 2 ex_dag false = true ↔ ∃ k, 0 < k ∧ ex_dag.walk k 0 2 = true) ∧
      (ex_dag.acyclic → path_exist 0 0 ex_dag false = false)) :=
  ⟨by decide, by decide, by decide, by decide,
    path_exist_short 0 2 ex_dag (by decide) (by decide)⟩

/-- Claim C14: in an acyclic graph whose edges join its vertices, for a vertex `a` the call
`path_exist(a, b, dag, true)` returns true exactly when a path of more than one edge leads
from `a` to `b`. -/
theorem path_exist_long {β : Type} (a b : Nat) (dag : DAG β) (hwf : dag.wf)
    (ha : a < dag.num_vertices) (hac : dag.acyclic) :
    path_exist a b dag true = true ↔ ∃ k, 1 < k ∧ dag.walk k a b = true := by
  rw [path_exist_eq a b dag true hwf ha]
  simp only [if_true, Bool.and_eq_true, decide_eq_true_eq]
  constructor
  · rintro ⟨k, u, v, hk, he, hu, rfl⟩
    refine ⟨k + 1, ?_, (walk_succ_last dag k a v).mpr ⟨u, hk, he⟩⟩
    cases k with
    | zero => exact absurd ((walk_zero dag a u).mp hk).symm hu
    | succ j => omega
  · rintro ⟨k, hk, h⟩
    obtain ⟨j, rfl⟩ : ∃ j, k = j + 1 := ⟨k - 1, by omega⟩
    obtain ⟨w, h1, h2⟩ := (walk_succ_last dag j a b).mp h
    refine ⟨j, w, b, h1, h2, ?_, rfl⟩
    intro hwa
    subst hwa
    rw [hac w j (by omega)] at h1
    exact absurd h1 (by simp)

theorem path_exist_long_witness :
    ex_dag.wf ∧ 0 < ex_dag.num_vertices ∧ ex_dag.acyclic ∧
    path_exist 0 2 ex_dag true = true ∧ path_exist 0 3 ex_dag true = false ∧
    (path_exist 0 2 ex_dag true = true ↔ ∃ k, 1 < k ∧ ex_dag.walk k 0 2 = true) :=
  ⟨by decide, by decide, acyclic_of_increasing ex_dag (by decide), by decide, by decide,
    path_exist_long 0 2 ex_dag (by decide) (by decide)
      (acyclic_of_increasing ex_dag (by decide))⟩

/-! ## The graph of a block list -/

theorem mem_set_insert (x z : Nat) : ∀ (l : List Nat), z ∈ set_insert x l ↔ z = x ∨ z ∈ l := by
  intro l
  induction l with
  | nil => simp [set_insert]
  | cons y ys ih =>
    unfold set_insert
    by_cases h1 : x < y
    · simp [h1]
    · by_cases h2 : x = y
      · subst h2
        simp
      · simp only [h1, h2, if_false, List.mem_cons, ih]
        tauto

theorem mem_set_insert_range (z : Nat) : ∀ (range s : List Nat),
    z ∈ set_insert_range s range ↔ z ∈ s ∨ z ∈ range := by
  intro range
  induction range with
  | nil => intro s; simp [set_insert_range]
  | cons x xs ih =>
    intro s
    have h := ih (set_insert x s)
    unfold set_insert_range at h ⊢
    rw [List.foldl_cons, h, mem_set_insert, List.mem_cons]
    tauto

theorem connect_bases_spec (vertex : Nat) : ∀ (bases : List Nat) (b2v : Nat → List Nat)
    (conn : List Nat),
    (∀ b x, x ∈ (connect_bases vertex bases b2v conn).1 b ↔
      x ∈ b2v b ∨ (x = vertex ∧ b ∈ bases)) ∧
    (∀ x, x ≠ vertex → (x ∈ (connect_bases vertex bases b2v conn).2 ↔
      x ∈ conn ∨ ∃ b ∈ bases, x ∈ b2v b)) := by
  intro bases
  induction bases with
  | nil => intro b2v conn; simp [connect_bases]
  | cons base bases ih =>
    intro b2v conn
    obtain ⟨h1, h2⟩ := ih (fun b => if b = base then set_insert vertex (b2v base) else b2v b)
      (set_insert_range conn (b2v base))
    unfold connect_bases
    simp only []
    constructor
    · intro b x
      rw [h1 b x]
      by_cases hb : b = base
      · subst hb
        simp only [if_true, mem_set_insert, List.mem_cons, true_or, and_true]
        tauto
      · simp only [hb, if_false, List.mem_cons, false_or]
    · intro x hx
      rw [h2 x hx, mem_set_insert_range]
      constructor
      · rintro ((h | h) | ⟨b, hb, h⟩)
        · exact Or.inl h
        · exact Or.inr ⟨base, List.mem_cons_self _ _, h⟩
        · by_cases hbb : b = base
          · subst hbb
            simp only [if_true, mem_set_insert] at h
            rcases h with h | h
            · exact absurd h hx
            · exact Or.inr ⟨b, List.mem_cons_self _ _, h⟩
          · simp only [hbb, if_false] at h
            exact Or.inr ⟨b, List.mem_cons_of_mem _ hb, h⟩
      · rintro (h | ⟨b, hb, h⟩)
        · exact Or.inl (Or.inl h)
        · rcases List.mem_cons.mp hb with hbb | hbb
          · subst hbb
            exact Or.inl (Or.inr h)
          · refine Or.inr ⟨b, hbb, ?_⟩
            by_cases hbe : b = base
            · subst hbe
              simp only [if_true, mem_set_insert]
              exact Or.inr h
            · simp only [hbe, if_false]
              exact h

theorem add_edges_spec {β : Type} (ops : BlockOps β) (block : β) (vertex : Nat)
    (vertices : List β) : ∀ (vs : List Nat) (edges : List (Nat × Nat)) (e : Nat × Nat),
    e ∈ add_edges ops block vertex vertices vs edges ↔
      e ∈ edges ∨ ∃ v ∈ vs, e = (v, vertex) ∧ vertex ≠ v ∧
        ∃ other, vertices[v]? = some other ∧ ops.depend_on block other = true := by
  intro vs
  induction vs with
  | nil => intro edges e; simp [add_edges]
  | cons v vs ih =>
    intro edges e
    have hcond : (vertex ≠ v ∧
        (match vertices[v]? with
         | some other => ops.depend_on block other
         | none => false) = true) ↔
        (vertex ≠ v ∧ ∃ other, vertices[v]? = some other ∧ ops.depend_on block other = true) := by
      cases vertices[v]? with
      | none => simp
      | some o => simp
    unfold add_edges
    by_cases hc : vertex ≠ v ∧
        (match vertices[v]? with
         | some other => ops.depend_on block other
         | none => false) = true
    · rw [if_pos hc, ih]
      have hc2 := hcond.mp hc
      simp only [List.mem_append, List.mem_singleton, List.mem_cons, exists_eq_or_imp,
        List.not_mem_nil, or_false]
      constructor
      · rintro ((h | h) | h)
        · exact Or.inl h
        · exact Or.inr (Or.inl ⟨h, hc2⟩)
        · exact Or.inr (Or.inr h)
      · rintro (h | ⟨h, _⟩ | h)
        · exact Or.inl (Or.inl h)
        · exact Or.inl (Or.inr h)
        · exact Or.inr h
    · rw [if_neg hc, ih]
      have hc2 : ¬ (vertex ≠ v ∧ ∃ other, vertices[v]? = some other ∧
          ops.depend_on block other = true) := fun h => hc (hcond.mpr h)
      simp only [List.mem_cons, exists_eq_or_imp]
      constructor
      · rintro (h | h)
        · exact Or.inl h
        · exact Or.inr (Or.inr h)
      · rintro (h | ⟨_, h⟩ | h)
        · exact Or.inl h
        · exact absurd h hc2
        · exact Or.inr h

theorem getElem?_snoc {β : Type} (pre : List β) (block blk : β) (x : Nat) :
    (pre ++ [block])[x]? = some blk ↔
      pre[x]? = some blk ∨ (x = pre.length ∧ blk = block) := by
  by_cases h : x < pre.length
  · rw [List.getElem?_append_left h]
    constructor
    · exact Or.inl
    · rintro (h1 | ⟨h1, _⟩)
      · exact h1
      · omega
  · have h2 : pre.length ≤ x := Nat.le_of_not_lt h
    rw [List.getElem?_append_right h2, List.getElem?_eq_none h2]
    by_cases h3 : x = pre.length
    · subst h3
      simp [eq_comm]
    · have : x - pre.length ≠ 0 := by omega
      obtain ⟨j, hj⟩ : ∃ j, x - pre.length = j + 1 := ⟨x - pre.length - 1, by omega⟩
      rw [hj]
      simp [h3]

theorem getElem?_lt {β : Type} (l : List β) (x : Nat) (b : β) (h : l[x]? = some b) :
    x < l.length := by
  by_contra hc
  rw [List.getElem?_eq_none (Nat.le_of_not_lt hc)] at h
  exact absurd h (by simp)

theorem from_block_step_inv {β : Type} (ops : BlockOps β) (pre : List β)
    (st : from_block_state β) (block : β) (hinv : FromInv ops pre st)
    (hval : ops.validation block = true) :
    ∃ st2, from_block_step ops st block = .ok st2 ∧ FromInv ops (pre ++ [block]) st2 := by
  unfold from_block_step
  rw [if_neg (by simp [hval])]
  refine ⟨_, rfl, ?_⟩
  have hn : st.graph.num_vertices = pre.length := by
    unfold DAG.num_vertices
    rw [hinv.vertices_eq]
  obtain ⟨c1, c2⟩ := connect_bases_spec st.graph.num_vertices (ops.getAllBases block)
    st.base2vertices []
  refine ⟨?_, ?_, ?_⟩
  · show st.graph.vertices ++ [block] = pre ++ [block]
    rw [hinv.vertices_eq]
  · intro b x
    show x ∈ (connect_bases st.graph.num_vertices (ops.getAllBases block)
      st.base2vertices []).1 b ↔ _
    rw [c1 b x, hinv.base2vertices_spec b x, hn]
    constructor
    · rintro (⟨blk, h1, h2⟩ | ⟨h1, h2⟩)
      · exact ⟨blk, (getElem?_snoc pre block blk x).mpr (Or.inl h1), h2⟩
      · exact ⟨block, (getElem?_snoc pre block block x).mpr (Or.inr ⟨h1, rfl⟩), h2⟩
    · rintro ⟨blk, h1, h2⟩
      rcases (getElem?_snoc pre block blk x).mp h1 with h | ⟨h, rfl⟩
      · exact Or.inl ⟨blk, h, h2⟩
      · exact Or.inr ⟨h, h2⟩
  · intro u v
    show (u, v) ∈ add_edges ops block st.graph.num_vertices (st.graph.vertices ++ [block])
      (connect_bases st.graph.num_vertices (ops.getAllBases block)
        st.base2vertices []).2.reverse st.graph.edges ↔ _
    rw [add_edges_spec, hinv.edges_spec u v, hn, hinv.vertices_eq]
    constructor
    · rintro (⟨h1, A, B, hA, hB, hs, hd⟩ | ⟨w, hw, he, hne, other, ho, hd⟩)
      · exact ⟨h1, A, B, (getElem?_snoc pre block A u).mpr (Or.inl hA),
          (getElem?_snoc pre block B v).mpr (Or.inl hB), hs, hd⟩
      · simp only [Prod.mk.injEq] at he
        obtain ⟨rfl, rfl⟩ := he
        rw [List.mem_reverse, ← hn, c2 u (by rw [hn]; exact fun h => hne h.symm)] at hw
        rcases hw with hw | ⟨b, hb, hw⟩
        · exact absurd hw (List.not_mem_nil u)
        · obtain ⟨blk, hblk, hbb⟩ := (hinv.base2vertices_spec b u).mp hw
          have hlt := getElem?_lt pre u blk hblk
          have ho2 : other = blk := by
            rcases (getElem?_snoc pre block other u).mp ho with h | ⟨h, _⟩
            · rw [hblk] at h
              exact (Option.some.inj h).symm
            · omega
          subst ho2
          exact ⟨hlt, other, block, ho,
            (getElem?_snoc pre block block pre.length).mpr (Or.inr ⟨rfl, rfl⟩),
            ⟨b, hbb, hb⟩, hd⟩
    · rintro ⟨h1, A, B, hA, hB, ⟨b, hbA, hbB⟩, hd⟩
      rcases (getElem?_snoc pre block B v).mp hB with hB2 | ⟨hv, hBb⟩
      · have hvlt := getElem?_lt pre v B hB2
        rcases (getElem?_snoc pre block A u).mp hA with hA2 | ⟨hu, _⟩
        · exact Or.inl ⟨h1, A, B, hA2, hB2, ⟨b, hbA, hbB⟩, hd⟩
        · omega
      · subst hv
        rw [hBb] at hd hbB
        rcases (getElem?_snoc pre block A u).mp hA with hA2 | ⟨hu, _⟩
        · refine Or.inr ⟨u, ?_, rfl, by omega, A, hA, hd⟩
          rw [List.mem_reverse, ← hn, c2 u (by rw [hn]; omega)]
          exact Or.inr ⟨b, hbB, (hinv.base2vertices_spec b u).mpr ⟨A, hA2, hbA⟩⟩
        · omega

theorem from_block_fold_inv {β : Type} (ops : BlockOps β) :
    ∀ (rest pre : List β) (st : from_block_state β), FromInv ops pre st →
      (∀ b ∈ rest, ops.validation b = true) →
      ∃ st2, rest.foldlM (from_block_step ops) st = .ok st2 ∧ FromInv ops (pre ++ rest) st2 := by
  intro rest
  induction rest with
  | nil =>
    intro pre st hinv _
    exact ⟨st, rfl, by rw [List.append_nil]; exact hinv⟩
  | cons block rest ih =>
    intro pre st hinv hval
    obtain ⟨st1, h1, hinv1⟩ := from_block_step_inv ops pre st block hinv
      (hval block (List.mem_cons_self _ _))
    obtain ⟨st2, h2, hinv2⟩ := ih (pre ++ [block]) st1 hinv1
      (fun b hb => hval b (List.mem_cons_of_mem _ hb))
    refine ⟨st2, ?_, ?_⟩
    · rw [List.foldlM_cons, h1]
      exact h2
    · rw [List.append_assoc] at hinv2
      exact hinv2

theorem from_block_list_spec {β : Type} (ops : BlockOps β) (block_list : List β)
    (hval : ∀ b ∈ block_list, ops.validation b = true) :
    ∃ g, from_block_list ops block_list = .ok g ∧ g.vertices = block_list ∧
      ∀ u v, g.edge u v ↔ edge_condition ops block_list u v := by
  have h0 : FromInv ops [] (⟨⟨[], []⟩, fun _ => []⟩ : from_block_state β) := by
    refine ⟨rfl, ?_, ?_⟩
    · intro b x
      simp
    · intro u v
      unfold edge_condition
      simp
  obtain ⟨st, h1, hinv⟩ := from_block_fold_inv ops block_list [] _ h0 hval
  refine ⟨st.graph, ?_, hinv.vertices_eq, hinv.edges_spec⟩
  unfold from_block_list
  rw [h1]
  rfl

theorem operand0_base_mem (i : bh_instruction) (base : Nat)
    (h : i.operand0.base = some base) : base ∈ i.bases := by
  unfold bh_instruction.bases
  rw [List.mem_filterMap]
  unfold bh_instruction.operand0 at h
  cases hl : i.operand with
  | nil =>
    rw [hl] at h
    exact absurd h (by simp [bh_view.unset])
  | cons v vs =>
    rw [hl] at h
    exact ⟨v, List.mem_cons_self _ _, h⟩

theorem depend_on_iff (heap : Heap) (b other : Block) :
    Block.depend_on heap b other = true ↔
      ∃ i ∈ b.getAllInstr, ∃ j ∈ other.getAllInstr, ∃ base,
        (heap j).operand0.base = some base ∧ base ∈ (heap i).bases := by
  unfold Block.depend_on
  simp only [List.any_eq_true]
  constructor
  · rintro ⟨i, hi, j, hj, h⟩
    cases hb : (heap j).operand0.base with
    | none =>
      rw [hb] at h
      exact absurd h (by simp)
    | some w =>
      rw [hb] at h
      exact ⟨i, hi, j, hj, w, hb, by simpa using h⟩
  · rintro ⟨i, hi, j, hj, base, h1, h2⟩
    refine ⟨i, hi, j, hj, ?_⟩
    rw [h1]
    simpa using h2

theorem depend_on_shares_base (heap : Heap) (b other : Block)
    (h : Block.depend_on heap b other = true) :
    ∃ base, base ∈ Block.getAllBases heap other ∧ base ∈ Block.getAllBases heap b := by
  obtain ⟨i, hi, j, hj, base, h1, h2⟩ := (depend_on_iff heap b other).mp h
  refine ⟨base, ?_, ?_⟩
  · unfold Block.getAllBases
    rw [List.mem_flatMap]
    exact ⟨j, hj, operand0_base_mem (heap j) base h1⟩
  · unfold Block.getAllBases
    rw [List.mem_flatMap]
    exact ⟨i, hi, h2⟩

/-- Claim C15: for a list of blocks that pass `validation`, `from_block_list` returns a
graph whose vertices are the blocks of the list in their order, and in which the edge from
the block `A` at place `u` to the block `B` at place `v` exists exactly when `A` precedes
`B` and some instruction of `B` reads or writes a base that some instruction of `A`
wrote. -/
theorem from_block_list_edges (validation : Block → Bool) (heap : Heap)
    (block_list : List Block) (hval : ∀ b ∈ block_list, validation b = true) :
    ∃ g, from_block_list (block_ops validation heap) block_list = .ok g ∧
      g.vertices = block_list ∧
      ∀ u v, g.edge u v ↔
        u < v ∧ ∃ A B, block_list[u]? = some A ∧ block_list[v]? = some B ∧
          ∃ i ∈ B.getAllInstr, ∃ j ∈ A.getAllInstr, ∃ base,
            (heap j).operand0.base = some base ∧ base ∈ (heap i).bases := by
  obtain ⟨g, h1, h2, h3⟩ := from_block_list_spec (block_ops validation heap) block_list hval
  refine ⟨g, h1, h2, ?_⟩
  intro u v
  rw [h3 u v]
  unfold edge_condition
  constructor
  · rintro ⟨hlt, A, B, hA, hB, _, hd⟩
    exact ⟨hlt, A, B, hA, hB, (depend_on_iff heap B A).mp hd⟩
  · rintro ⟨hlt, A, B, hA, hB, hd⟩
    have hd2 : Block.depend_on heap B A = true := (depend_on_iff heap B A).mpr hd
    exact ⟨hlt, A, B, hA, hB, depend_on_shares_base heap B A hd2, hd2⟩

theorem from_block_list_edges_witness :
    (∀ b ∈ ex_block_list, (fun _ => true) b = true) ∧
    from_block_list (block_ops (fun _ => true) ex_heap) ex_block_list
      = .ok ⟨ex_block_list, [(0, 1)]⟩ ∧
    ∃ g, from_block_list (block_ops (fun _ => true) ex_heap) ex_block_list = .ok g ∧
      g.vertices = ex_block_list ∧
      ∀ u v, g.edge u v ↔
        u < v ∧ ∃ A B, ex_block_list[u]? = some A ∧ ex_block_list[v]? = some B ∧
          ∃ i ∈ B.getAllInstr, ∃ j ∈ A.getAllInstr, ∃ base,
            (ex_heap j).operand0.base = some base ∧ base ∈ (ex_heap i).bases :=
  ⟨fun _ _ => rfl, rfl,
    from_block_list_edges (fun _ => true) ex_heap ex_block_list (fun _ _ => rfl)⟩

namespace jitk

/-! ## The code generator: the shape of blocks -/

mutual
theorem block_replaceInstr_eq_mapInstr (s r : bh_instruction) : ∀ (b : Block),
    b.replaceInstr s r = b.mapInstr (fun i => if i = s then r else i)
  | .instr k i => by
    unfold Block.replaceInstr Block.mapInstr
    by_cases h : i = s
    · simp [h]
    · simp [h]
  | .loop l => by
    unfold Block.replaceInstr Block.mapInstr
    rw [loop_replaceInstr_eq_mapInstr s r l]
theorem loop_replaceInstr_eq_mapInstr (s r : bh_instruction) : ∀ (l : LoopB),
    l.replaceInstr s r = l.mapInstr (fun i => if i = s then r else i)
  | .mk a b l c => by
    unfold LoopB.replaceInstr LoopB.mapInstr
    rw [replaceInstrList_eq_mapInstrList s r l]
theorem replaceInstrList_eq_mapInstrList (s r : bh_instruction) : ∀ (l : List Block),
    replaceInstrList s r l = mapInstrList (fun i => if i = s then r else i) l
  | [] => rfl
  | b :: bs => by
    unfold replaceInstrList mapInstrList
    rw [block_replaceInstr_eq_mapInstr s r b, replaceInstrList_eq_mapInstrList s r bs]
end

mutual
theorem block_mapInstr_mapInstr (f g : bh_instruction → bh_instruction) : ∀ (b : Block),
    (b.mapInstr f).mapInstr g = b.mapInstr (fun i => g (f i))
  | .instr k i => by simp only [Block.mapInstr]
  | .loop l => by
    simp only [Block.mapInstr]
    rw [loop_mapInstr_mapInstr f g l]
theorem loop_mapInstr_mapInstr (f g : bh_instruction → bh_instruction) : ∀ (l : LoopB),
    (l.mapInstr f).mapInstr g = l.mapInstr (fun i => g (f i))
  | .mk a b l c => by
    simp only [LoopB.mapInstr]
    rw [mapInstrList_mapInstrList f g l]
theorem mapInstrList_mapInstrList (f g : bh_instruction → bh_instruction) :
    ∀ (l : List Block), mapInstrList g (mapInstrList f l) = mapInstrList (fun i => g (f i)) l
  | [] => rfl
  | b :: bs => by
    simp only [mapInstrList]
    rw [block_mapInstr_mapInstr f g b, mapInstrList_mapInstrList f g bs]
end

mutual
theorem block_mapInstr_id : ∀ (b : Block), b.mapInstr (fun i => i) = b
  | .instr k i => by simp only [Block.mapInstr]
  | .loop l => by
    simp only [Block.mapInstr]
    rw [loop_mapInstr_id l]
theorem loop_mapInstr_id : ∀ (l : LoopB), l.mapInstr (fun i => i) = l
  | .mk a b l c => by
    simp only [LoopB.mapInstr]
    rw [mapInstrList_id l]
theorem mapInstrList_id : ∀ (l : List Block), mapInstrList (fun i => i) l = l
  | [] => rfl
  | b :: bs => by
    simp only [mapInstrList]
    rw [block_mapInstr_id b, mapInstrList_id bs]
end

mutual
theorem block_depth_mapInstr (f : bh_instruction → bh_instruction) : ∀ (b : Block),
    (b.mapInstr f).depth = b.depth
  | .instr k i => by simp only [Block.mapInstr, Block.depth]
  | .loop l => by
    simp only [Block.mapInstr, Block.depth]
    exact loop_depth_mapInstr f l
theorem loop_depth_mapInstr (f : bh_instruction → bh_instruction) : ∀ (l : LoopB),
    (l.mapInstr f).depth = l.depth
  | .mk a b l c => by
    simp only [LoopB.mapInstr, LoopB.depth]
    rw [depthList_mapInstr f l]
theorem depthList_mapInstr (f : bh_instruction → bh_instruction) : ∀ (l : List Block),
    depthList (mapInstrList f l) = depthList l
  | [] => rfl
  | b :: bs => by
    simp only [mapInstrList, depthList]
    rw [block_depth_mapInstr f b, depthList_mapInstr f bs]
end

mutual
theorem block_sweeps_ternary_mapInstr (env : CodegenEnv) (f : bh_instruction → bh_instruction) :
    ∀ (b : Block), (b.mapInstr f).sweeps_ternary env = b.sweeps_ternary env
  | .instr k i => by simp only [Block.mapInstr, Block.sweeps_ternary]
  | .loop l => by
    simp only [Block.mapInstr, Block.sweeps_ternary]
    exact loop_sweeps_ternary_mapInstr env f l
theorem loop_sweeps_ternary_mapInstr (env : CodegenEnv) (f : bh_instruction → bh_instruction) :
    ∀ (l : LoopB), (l.mapInstr f).sweeps_ternary env = l.sweeps_ternary env
  | .mk a b l c => by
    simp only [LoopB.mapInstr, LoopB.sweeps_ternary]
    rw [sweeps_ternary_list_mapInstr env f l]
theorem sweeps_ternary_list_mapInstr (env : CodegenEnv) (f : bh_instruction → bh_instruction) :
    ∀ (l : List Block), sweeps_ternary_list env (mapInstrList f l) = sweeps_ternary_list env l
  | [] => rfl
  | b :: bs => by
    simp only [mapInstrList, sweeps_ternary_list]
    rw [block_sweeps_ternary_mapInstr env f b, sweeps_ternary_list_mapInstr env f bs]
end

mutual
theorem block_getAllInstr_mapInstr (f : bh_instruction → bh_instruction) : ∀ (b : Block),
    (b.mapInstr f).getAllInstr = b.getAllInstr.map f
  | .instr k i => by simp only [Block.mapInstr, Block.getAllInstr, List.map]
  | .loop l => by
    simp only [Block.mapInstr, Block.getAllInstr]
    exact loop_getAllInstr_mapInstr f l
theorem loop_getAllInstr_mapInstr (f : bh_instruction → bh_instruction) : ∀ (l : LoopB),
    (l.mapInstr f).getAllInstr = l.getAllInstr.map f
  | .mk a b l c => by
    simp only [LoopB.mapInstr, LoopB.getAllInstr]
    exact getAllInstrList_mapInstr f l
theorem getAllInstrList_mapInstr (f : bh_instruction → bh_instruction) : ∀ (l : List Block),
    getAllInstrList (mapInstrList f l) = (getAllInstrList l).map f
  | [] => rfl
  | b :: bs => by
    simp only [mapInstrList, getAllInstrList, List.map_append]
    rw [block_getAllInstr_mapInstr f b, getAllInstrList_mapInstr f bs]
end

theorem LoopB.mapInstr_fields (f : bh_instruction → bh_instruction) (l : LoopB) :
    (l.mapInstr f).rank = l.rank ∧ (l.mapInstr f).size = l.size ∧
    (l.mapInstr f)._sweeps = l._sweeps ∧
    (l.mapInstr f)._block_list = mapInstrList f l._block_list := by
  cases l
  simp only [LoopB.mapInstr, LoopB.rank, LoopB.size, LoopB._sweeps, LoopB._block_list,
    and_self]

/-- The substitution that the replacements of `peeled_block` add up to. -/
theorem peeled_fold_eq (env : CodegenEnv) : ∀ (sweeps : List InstrPtr) (block : LoopB),
    sweeps.foldl (fun peeled instr => peeled.replaceInstr instr (peel_instr env instr)) block
      = block.mapInstr (peel_subst env sweeps) := by
  intro sweeps
  induction sweeps with
  | nil =>
    intro block
    simp only [List.foldl]
    exact (loop_mapInstr_id block).symm
  | cons s rest ih =>
    intro block
    simp only [List.foldl]
    rw [ih, loop_replaceInstr_eq_mapInstr, loop_mapInstr_mapInstr]
    rfl

theorem peeled_block_eq (env : CodegenEnv) (block : LoopB) :
    peeled_block env block = block.mapInstr (peel_subst env block._sweeps) :=
  peeled_fold_eq env block._sweeps block

theorem peel_subst_eq (env : CodegenEnv) : ∀ (sweeps : List InstrPtr),
    (∀ s ∈ sweeps, s.opcode ≠ env.BH_IDENTITY) → ∀ (i : bh_instruction),
    peel_subst env sweeps i = if i ∈ sweeps then peel_instr env i else i := by
  intro sweeps
  induction sweeps with
  | nil => intro _ i; simp [peel_subst]
  | cons s rest ih =>
    intro h i
    have hrest : ∀ s ∈ rest, s.opcode ≠ env.BH_IDENTITY :=
      fun x hx => h x (List.mem_cons_of_mem _ hx)
    unfold peel_subst
    rw [ih hrest]
    by_cases his : i = s
    · subst his
      have hnot : peel_instr env i ∉ rest := by
        intro hm
        exact hrest _ hm rfl
      simp [hnot]
    · simp [his]

/-! ## The code generator: the stages of `write_loop_block` -/

theorem Frame.refl (db : BaseDB) : Frame db db := ⟨rfl, rfl, Finset.Subset.refl _⟩

theorem Frame.trans {a b c : BaseDB} (h1 : Frame a b) (h2 : Frame b c) : Frame a c :=
  ⟨h2.vec.trans h1.vec, h2.tmps.trans h1.tmps, Finset.Subset.trans h2.scalar h1.scalar⟩

theorem sweep_cond_ok (env : CodegenEnv) (instr : InstrPtr) (b : Bool)
    (h : (if env.bh_opcode_is_reduction instr.opcode = true then
        sweeping_innermost_axis env instr else .ok false) = .ok b) :
    b = (env.bh_opcode_is_reduction instr.opcode && env.ops.bh_opcode_is_sweep instr.opcode
      && decide (sweep_axis env.ops instr = (instr.operand1.ndim : Int) - 1)) := by
  by_cases hr : env.bh_opcode_is_reduction instr.opcode = true
  · rw [if_pos hr] at h
    unfold sweeping_innermost_axis at h
    by_cases hs : env.ops.bh_opcode_is_sweep instr.opcode = false
    · rw [if_pos hs] at h
      cases h
      simp [hs]
    · rw [if_neg hs] at h
      by_cases hn : env.ops.bh_noperands instr.opcode ≠ 3
      · rw [if_pos hn] at h
        cases h
      · rw [if_neg hn] at h
        cases h
        have hs2 : env.ops.bh_opcode_is_sweep instr.opcode = true := by simpa using hs
        simp [hr, hs2]
  · rw [if_neg hr] at h
    cases h
    have hr2 : env.bh_opcode_is_reduction instr.opcode = false := by simpa using hr
    simp [hr2]

theorem sweep_cond_returns (env : CodegenEnv) (instr : InstrPtr)
    (h3 : env.ops.bh_noperands instr.opcode = 3) :
    ∃ b, (if env.bh_opcode_is_reduction instr.opcode = true then
        sweeping_innermost_axis env instr else .ok false) = .ok b := by
  by_cases hr : env.bh_opcode_is_reduction instr.opcode = true
  · rw [if_pos hr]
    unfold sweeping_innermost_axis
    by_cases hs : env.ops.bh_opcode_is_sweep instr.opcode = false
    · rw [if_pos hs]
      exact ⟨_, rfl⟩
    · rw [if_neg hs, if_neg (by simp [h3])]
      exact ⟨_, rfl⟩
  · rw [if_neg hr]
    exact ⟨_, rfl⟩

theorem scalar_replaced_insert (env : CodegenEnv) (db : BaseDB) (b : BasePtr) :
    scalar_replaced env (db.insertScalarReplacement b) = scalar_replaced env db := rfl

theorem scalar_replace_ok (env : CodegenEnv) (rank : Nat) : ∀ (sweeps : List InstrPtr)
    (db db1 : BaseDB) (decls : List Tok) (srs : List bh_view),
    scalar_replace env rank sweeps db = .ok (db1, decls, srs) →
    srs = (sweeps.filter (scalar_replaced env db)).map (fun s => s.operand0) ∧
    decls = (sweeps.filter (scalar_replaced env db)).flatMap (fun s =>
      [Tok.scalar_decl s.operand0.base (db.id s.operand0.base), Tok.spaces (4 + rank * 4)]) ∧
    db1 = ⟨db._vec, db._tmps,
      db._scalar_replacements ∪ (srs.map (fun v => v.base)).toFinset,
      db._omp_atomic, db._omp_critical⟩ := by
  intro sweeps
  induction sweeps with
  | nil =>
    intro db db1 decls srs h
    simp only [scalar_replace, Except.ok.injEq, Prod.mk.injEq] at h
    obtain ⟨rfl, rfl, rfl⟩ := h
    simp
  | cons s rest ih =>
    intro db db1 decls srs h
    unfold scalar_replace at h
    cases hc : (if env.bh_opcode_is_reduction s.opcode = true then
        sweeping_innermost_axis env s else .ok false) with
    | error e =>
      rw [hc] at h
      cases h
    | ok b =>
      rw [hc] at h
      have hb := sweep_cond_ok env s b hc
      cases b with
      | false =>
        simp only [] at h
        have hf : scalar_replaced env db s = false := by
          unfold scalar_replaced
          rw [← hb]
          rfl
        rw [List.filter_cons_of_neg (by simp [hf])]
        exact ih db db1 decls srs h
      | true =>
        simp only [] at h
        by_cases ht : db.isTmp s.operand0.base = true
        · rw [if_pos ht] at h
          have hf : scalar_replaced env db s = false := by
            unfold scalar_replaced
            rw [ht]
            simp
          rw [List.filter_cons_of_neg (by simp [hf])]
          exact ih db db1 decls srs h
        · rw [if_neg ht] at h
          have hf : scalar_replaced env db s = true := by
            unfold scalar_replaced
            rw [← hb]
            simpa using ht
          cases hr : scalar_replace env rank rest
              (db.insertScalarReplacement s.operand0.base) with
          | error e =>
            rw [hr] at h
            cases h
          | ok r =>
            obtain ⟨db2, out, srs2⟩ := r
            rw [hr] at h
            simp only [Except.ok.injEq, Prod.mk.injEq] at h
            obtain ⟨rfl, rfl, rfl⟩ := h
            obtain ⟨e1, e2, e3⟩ := ih _ _ _ _ hr
            rw [scalar_replaced_insert] at e1 e2
            rw [List.filter_cons_of_pos hf]
            refine ⟨?_, ?_, ?_⟩
            · rw [e1]
              rfl
            · rw [e2]
              rfl
            · rw [e3]
              simp only [BaseDB.insertScalarReplacement, List.map_cons, List.toFinset_cons,
                BaseDB.mk.injEq, true_and, and_true]
              ext x
              simp only [Finset.mem_union, Finset.mem_insert]
              tauto

theorem scalar_replace_returns (env : CodegenEnv) (rank : Nat) : ∀ (sweeps : List InstrPtr)
    (db : BaseDB), (∀ s ∈ sweeps, env.ops.bh_noperands s.opcode = 3) →
    ∃ r, scalar_replace env rank sweeps db = .ok r := by
  intro sweeps
  induction sweeps with
  | nil => intro db _; exact ⟨_, rfl⟩
  | cons s rest ih =>
    intro db h
    have hrest : ∀ s ∈ rest, env.ops.bh_noperands s.opcode = 3 :=
      fun x hx => h x (List.mem_cons_of_mem _ hx)
    obtain ⟨b, hb⟩ := sweep_cond_returns env s (h s (List.mem_cons_self _ _))
    unfold scalar_replace
    rw [hb]
    cases b with
    | false => exact ih db hrest
    | true =>
      simp only []
      by_cases ht : db.isTmp s.operand0.base = true
      · rw [if_pos ht]
        exact ih db hrest
      · rw [if_neg ht]
        obtain ⟨r, hr⟩ := ih (db.insertScalarReplacement s.operand0.base) hrest
        rw [hr]
        exact ⟨_, rfl⟩

theorem store_back_spec (rank : Nat) : ∀ (srs : List bh_view) (db : BaseDB),
    store_back rank srs db =
      (⟨db._vec, db._tmps, db._scalar_replacements \ (srs.map (fun v => v.base)).toFinset,
        db._omp_atomic, db._omp_critical⟩,
       srs.flatMap (fun v => [Tok.spaces (4 + rank * 4), Tok.store_back (db.id v.base) v])) := by
  intro srs
  induction srs with
  | nil =>
    intro db
    simp [store_back]
  | cons v rest ih =>
    intro db
    unfold store_back
    simp only []
    rw [ih]
    simp only [BaseDB.eraseScalarReplacement, List.map_cons, List.toFinset_cons,
      List.flatMap_cons, Prod.mk.injEq, BaseDB.mk.injEq, true_and, and_true]
    constructor
    · ext x
      simp only [Finset.mem_sdiff, Finset.mem_erase, Finset.mem_insert]
      tauto
    · rfl

/-! ## The code generator: the OpenMP header -/

theorem class_marked (env : CodegenEnv) (db : BaseDB) (a c : List BasePtr) :
    reduction_class env (db.marked a c) = reduction_class env db := rfl

theorem marked_nil (db : BaseDB) : db.marked [] [] = db := by
  cases db
  simp [BaseDB.marked]

theorem protect_sweeps_eq (env : CodegenEnv) : ∀ (sweeps : List InstrPtr) (db : BaseDB)
    (reds : List InstrPtr), (∀ s ∈ sweeps, env.ops.bh_noperands s.opcode = 3) →
    protect_sweeps env sweeps db reds = .ok
      (db.marked ((sweeps.filter (atomic_class env db)).map (fun s => s.operand0.base))
          ((sweeps.filter (critical_class env db)).map (fun s => s.operand0.base)),
        reds ++ sweeps.filter (reduction_class env db)) := by
  intro sweeps
  induction sweeps with
  | nil =>
    intro db reds _
    simp [protect_sweeps, marked_nil]
  | cons s rest ih =>
    intro db reds h
    have hrest : ∀ s ∈ rest, env.ops.bh_noperands s.opcode = 3 :=
      fun x hx => h x (List.mem_cons_of_mem _ hx)
    have h3 := h s (List.mem_cons_self _ _)
    unfold protect_sweeps
    rw [if_neg (by simp [h3])]
    simp only []
    by_cases hc : reduction_class env db s = true
    · have hc2 : (openmp_reduce_compatible env s.opcode
          && (db.isScalarReplaced s.operand0.base || db.isTmp s.operand0.base)) = true := hc
      rw [if_pos hc2, ih db _ hrest]
      have ha : atomic_class env db s = false := by simp [atomic_class, hc]
      have hk : critical_class env db s = false := by simp [critical_class, hc]
      rw [List.filter_cons_of_pos hc,
        List.filter_cons_of_neg (show ¬ atomic_class env db s = true by simp [ha]),
        List.filter_cons_of_neg (show ¬ critical_class env db s = true by simp [hk])]
      simp
    · have hc2 : ¬ (openmp_reduce_compatible env s.opcode
          && (db.isScalarReplaced s.operand0.base || db.isTmp s.operand0.base)) = true := hc
      have hcf : reduction_class env db s = false := by simpa using hc
      rw [if_neg hc2]
      by_cases hat : openmp_atomic_compatible env s.opcode = true
      · rw [if_pos hat, ih _ _ hrest]
        have ha : atomic_class env db s = true := by simp [atomic_class, hcf, hat]
        have hk : critical_class env db s = false := by simp [critical_class, hat]
        have e1 : reduction_class env (db.insertOpenmpAtomic s.operand0.base)
            = reduction_class env db := rfl
        have e2 : atomic_class env (db.insertOpenmpAtomic s.operand0.base)
            = atomic_class env db := rfl
        have e3 : critical_class env (db.insertOpenmpAtomic s.operand0.base)
            = critical_class env db := rfl
        rw [e1, e2, e3]
        rw [List.filter_cons_of_neg (show ¬ reduction_class env db s = true by simp [hcf]),
          List.filter_cons_of_pos ha,
          List.filter_cons_of_neg (show ¬ critical_class env db s = true by simp [hk])]
        simp only [BaseDB.marked, BaseDB.insertOpenmpAtomic, List.map_cons, List.toFinset_cons,
          Except.ok.injEq, Prod.mk.injEq, BaseDB.mk.injEq, true_and, and_true]
        ext x
        simp only [Finset.mem_union, Finset.mem_insert]
        tauto
      · rw [if_neg hat, ih _ _ hrest]
        have hatf : openmp_atomic_compatible env s.opcode = false := by simpa using hat
        have ha : atomic_class env db s = false := by simp [atomic_class, hatf]
        have hk : critical_class env db s = true := by simp [critical_class, hcf, hatf]
        have e1 : reduction_class env (db.insertOpenmpCritical s.operand0.base)
            = reduction_class env db := rfl
        have e2 : atomic_class env (db.insertOpenmpCritical s.operand0.base)
            = atomic_class env db := rfl
        have e3 : critical_class env (db.insertOpenmpCritical s.operand0.base)
            = critical_class env db := rfl
        rw [e1, e2, e3]
        rw [List.filter_cons_of_neg (show ¬ reduction_class env db s = true by simp [hcf]),
          List.filter_cons_of_neg (show ¬ atomic_class env db s = true by simp [ha]),
          List.filter_cons_of_pos hk]
        simp only [BaseDB.marked, BaseDB.insertOpenmpCritical, List.map_cons,
          List.toFinset_cons, Except.ok.injEq, Prod.mk.injEq, BaseDB.mk.injEq, true_and,
          and_true]
        ext x
        simp only [Finset.mem_union, Finset.mem_insert]
        tauto

theorem protect_sweeps_ok (env : CodegenEnv) : ∀ (sweeps : List InstrPtr) (db : BaseDB)
    (reds : List InstrPtr) (r : BaseDB × List InstrPtr),
    protect_sweeps env sweeps db reds = .ok r →
    ∀ s ∈ sweeps, env.ops.bh_noperands s.opcode = 3 := by
  intro sweeps
  induction sweeps with
  | nil => intro _ _ _ _ s hs; exact absurd hs (List.not_mem_nil s)
  | cons s rest ih =>
    intro db reds r h x hx
    unfold protect_sweeps at h
    by_cases h3 : env.ops.bh_noperands s.opcode ≠ 3
    · rw [if_pos h3] at h
      cases h
    · rw [if_neg h3] at h
      simp only [] at h
      have h3e : env.ops.bh_noperands s.opcode = 3 := by simpa using h3
      rcases List.mem_cons.mp hx with rfl | hx
      · exact h3e
      · split at h
        · exact ih _ _ _ h x hx
        · split at h
          · exact ih _ _ _ h x hx
          · exact ih _ _ _ h x hx

theorem write_reductions_eq (env : CodegenEnv) (db : BaseDB) : ∀ (reds : List InstrPtr),
    (∀ s ∈ reds, env.ops.bh_noperands s.opcode = 3) →
    write_reductions env db reds = .ok (reds.map (reduction_clause env db)) := by
  intro reds
  induction reds with
  | nil => intro _; rfl
  | cons s rest ih =>
    intro h
    unfold write_reductions
    rw [if_neg (by simp [h s (List.mem_cons_self _ _)]),
      ih (fun x hx => h x (List.mem_cons_of_mem _ hx))]
    rfl

theorem write_reductions_ok (env : CodegenEnv) (db : BaseDB) : ∀ (reds : List InstrPtr)
    (clauses : List Clause), write_reductions env db reds = .ok clauses →
    ∀ s ∈ reds, env.ops.bh_noperands s.opcode = 3 := by
  intro reds
  induction reds with
  | nil => intro _ _ s hs; exact absurd hs (List.not_mem_nil s)
  | cons s rest ih =>
    intro clauses h x hx
    unfold write_reductions at h
    by_cases h3 : env.ops.bh_noperands s.opcode ≠ 3
    · rw [if_pos h3] at h
      cases h
    · rw [if_neg h3] at h
      have h3e : env.ops.bh_noperands s.opcode = 3 := by simpa using h3
      rcases List.mem_cons.mp hx with rfl | hx
      · exact h3e
      · cases hr : write_reductions env db rest with
        | error e =>
          rw [hr] at h
          cases h
        | ok c => exact ih c hr x hx

/-- The state of `base_ids` after the `parallel for` part. -/
theorem parallel_part_ok (env : CodegenEnv) (block : LoopB) (db db1 : BaseDB)
    (ss : List Clause) (reds : List InstrPtr)
    (h : parallel_part env block db = .ok (db1, ss, reds)) :
    (block.rank = 0 ∧ openmp_compatible env block = true →
      db1 = db.marked
          ((block._sweeps.filter (atomic_class env db)).map (fun s => s.operand0.base))
          ((block._sweeps.filter (critical_class env db)).map (fun s => s.operand0.base)) ∧
      ss = [Clause.parallel_for] ∧ reds = block._sweeps.filter (reduction_class env db)) ∧
    (¬ (block.rank = 0 ∧ openmp_compatible env block = true) →
      db1 = db ∧ ss = [] ∧ reds = []) := by
  unfold parallel_part at h
  by_cases hp : block.rank = 0 ∧ openmp_compatible env block = true
  · rw [if_pos hp] at h
    refine ⟨fun _ => ?_, fun hn => absurd hp hn⟩
    cases hr : protect_sweeps env block._sweeps db [] with
    | error e =>
      rw [hr] at h
      cases h
    | ok r =>
      have h3 := protect_sweeps_ok env _ _ _ _ hr
      rw [protect_sweeps_eq env _ _ _ h3] at hr h
      simp only [List.nil_append, Except.ok.injEq, Prod.mk.injEq] at h
      obtain ⟨rfl, rfl, rfl⟩ := h
      exact ⟨rfl, rfl, rfl⟩
  · rw [if_neg hp] at h
    simp only [Except.ok.injEq, Prod.mk.injEq] at h
    obtain ⟨rfl, rfl, rfl⟩ := h
    exact ⟨fun h => absurd h hp, fun _ => ⟨rfl, rfl, rfl⟩⟩

theorem parallel_part_returns (env : CodegenEnv) (block : LoopB) (db : BaseDB)
    (h3 : ∀ s ∈ block._sweeps, env.ops.bh_noperands s.opcode = 3) :
    ∃ r, parallel_part env block db = .ok r := by
  unfold parallel_part
  by_cases hp : block.rank = 0 ∧ openmp_compatible env block = true
  · rw [if_pos hp, protect_sweeps_eq env _ _ _ h3]
    exact ⟨_, rfl⟩
  · rw [if_neg hp]
    exact ⟨_, rfl⟩

theorem parallel_part_frame (env : CodegenEnv) (block : LoopB) (db db1 : BaseDB)
    (ss : List Clause) (reds : List InstrPtr)
    (h : parallel_part env block db = .ok (db1, ss, reds)) :
    db1._vec = db._vec ∧ db1._tmps = db._tmps ∧
    db1._scalar_replacements = db._scalar_replacements ∧
    (∀ s ∈ reds, s ∈ block._sweeps) := by
  obtain ⟨h1, h2⟩ := parallel_part_ok env block db db1 ss reds h
  by_cases hp : block.rank = 0 ∧ openmp_compatible env block = true
  · obtain ⟨rfl, _, rfl⟩ := h1 hp
    exact ⟨rfl, rfl, rfl, fun s hs => (List.mem_filter.mp hs).1⟩
  · obtain ⟨rfl, _, rfl⟩ := h2 hp
    exact ⟨rfl, rfl, rfl, fun s hs => absurd hs (List.not_mem_nil s)⟩

theorem simd_part_reds (env : CodegenEnv) (block : LoopB) (db : BaseDB) (enable_simd : Bool)
    (ss : List Clause) (reds : List InstrPtr) (hreds : ∀ s ∈ reds, s ∈ block._sweeps) :
    ∀ s ∈ (simd_part env block db enable_simd ss reds).2, s ∈ block._sweeps := by
  unfold simd_part
  intro s hs
  split at hs
  · split at hs
    · rcases List.mem_append.mp hs with h | h
      · exact hreds s h
      · exact h
    · exact hreds s hs
  · exact hreds s hs

theorem write_openmp_header_returns (env : CodegenEnv) (block : LoopB) (db : BaseDB)
    (config : ConfigParser) (h3 : ∀ s ∈ block._sweeps, env.ops.bh_noperands s.opcode = 3) :
    ∃ r, write_openmp_header env block db config = .ok r := by
  unfold write_openmp_header
  by_cases hc : config.compiler_openmp = false
  · rw [if_pos hc]
    exact ⟨_, rfl⟩
  · rw [if_neg hc]
    obtain ⟨⟨db1, ss, reds⟩, hp⟩ := parallel_part_returns env block db h3
    rw [hp]
    simp only []
    have hr := simd_part_reds env block db1 config.compiler_openmp_simd ss reds
      (parallel_part_frame env block db db1 ss reds hp).2.2.2
    rw [write_reductions_eq env db1 _ (fun s hs => h3 s (hr s hs))]
    simp only []
    split
    · exact ⟨_, rfl⟩
    · exact ⟨_, rfl⟩

theorem write_openmp_header_frame (env : CodegenEnv) (block : LoopB) (db : BaseDB)
    (config : ConfigParser) (r : BaseDB × List Tok)
    (h : write_openmp_header env block db config = .ok r) :
    r.1._vec = db._vec ∧ r.1._tmps = db._tmps ∧
    r.1._scalar_replacements = db._scalar_replacements := by
  unfold write_openmp_header at h
  by_cases hc : config.compiler_openmp = false
  · rw [if_pos hc] at h
    cases h
    exact ⟨rfl, rfl, rfl⟩
  · rw [if_neg hc] at h
    cases hp : parallel_part env block db with
    | error e =>
      rw [hp] at h
      cases h
    | ok p =>
      obtain ⟨db1, ss, reds⟩ := p
      rw [hp] at h
      simp only [] at h
      obtain ⟨f1, f2, f3, _⟩ := parallel_part_frame env block db db1 ss reds hp
      cases hw : write_reductions env db1
          (simd_part env block db1 config.compiler_openmp_simd ss reds).2 with
      | error e =>
        rw [hw] at h
        cases h
      | ok clauses =>
        rw [hw] at h
        simp only [] at h
        split at h
        · cases h
          exact ⟨f1, f2, f3⟩
        · cases h
          exact ⟨f1, f2, f3⟩

/-! ## The code generator: the nesting of the loops -/

theorem write_peeled_list_rel (P : BaseDB → BaseDB → Prop) (hrefl : ∀ db, P db db)
    (htrans : ∀ a b c, P a b → P b c → P a c)
    (write : BaseDB → LoopB → Except Failure (BaseDB × List Tok)) :
    ∀ (bs : List Block) (db : BaseDB) (r : BaseDB × List Tok),
      (∀ l, Block.loop l ∈ bs → ∀ db r, write db l = .ok r → P db r.1) →
      write_peeled_list write bs db = .ok r → P db r.1 := by
  intro bs
  induction bs with
  | nil =>
    intro db r _ h
    cases h
    exact hrefl db
  | cons b bs ih =>
    intro db r hw h
    have hw2 : ∀ l, Block.loop l ∈ bs → ∀ db r, write db l = .ok r → P db r.1 :=
      fun l hl => hw l (List.mem_cons_of_mem _ hl)
    cases b with
    | instr rank i =>
      unfold write_peeled_list at h
      cases hr : write_peeled_list write bs db with
      | error e =>
        rw [hr] at h
        cases h
      | ok r1 =>
        rw [hr] at h
        cases h
        exact ih db r1 hw2 hr
    | loop l =>
      unfold write_peeled_list at h
      cases hl : write db l with
      | error e =>
        rw [hl] at h
        cases h
      | ok r1 =>
        rw [hl] at h
        simp only [] at h
        cases hr : write_peeled_list write bs r1.1 with
        | error e =>
          rw [hr] at h
          cases h
        | ok r2 =>
          rw [hr] at h
          cases h
          exact htrans _ _ _ (hw l (List.mem_cons_self _ _) db r1 hl) (ih r1.1 r2 hw2 hr)

theorem write_body_list_rel (P : BaseDB → BaseDB → Prop) (hrefl : ∀ db, P db db)
    (htrans : ∀ a b c, P a b → P b c → P a c) (env : CodegenEnv)
    (write : BaseDB → LoopB → Except Failure (BaseDB × List Tok)) :
    ∀ (bs : List Block) (db : BaseDB) (r : BaseDB × List Tok),
      (∀ l, Block.loop l ∈ bs → ∀ db r, write db l = .ok r → P db r.1) →
      write_body_list env write bs db = .ok r → P db r.1 := by
  intro bs
  induction bs with
  | nil =>
    intro db r _ h
    cases h
    exact hrefl db
  | cons b bs ih =>
    intro db r hw h
    have hw2 : ∀ l, Block.loop l ∈ bs → ∀ db r, write db l = .ok r → P db r.1 :=
      fun l hl => hw l (List.mem_cons_of_mem _ hl)
    cases b with
    | instr rank i =>
      unfold write_body_list at h
      cases hr : write_body_list env write bs db with
      | error e =>
        rw [hr] at h
        cases h
      | ok r1 =>
        rw [hr] at h
        cases h
        exact ih db r1 hw2 hr
    | loop l =>
      unfold write_body_list at h
      cases hl : write db l with
      | error e =>
        rw [hl] at h
        cases h
      | ok r1 =>
        rw [hl] at h
        simp only [] at h
        cases hr : write_body_list env write bs r1.1 with
        | error e =>
          rw [hr] at h
          cases h
        | ok r2 =>
          rw [hr] at h
          cases h
          exact htrans _ _ _ (hw l (List.mem_cons_self _ _) db r1 hl) (ih r1.1 r2 hw2 hr)

theorem write_peeled_list_returns
    (write : BaseDB → LoopB → Except Failure (BaseDB × List Tok)) :
    ∀ (bs : List Block) (db : BaseDB),
      (∀ l, Block.loop l ∈ bs → ∀ db, ∃ r, write db l = .ok r) →
      ∃ r, write_peeled_list write bs db = .ok r := by
  intro bs
  induction bs with
  | nil => intro db _; exact ⟨_, rfl⟩
  | cons b bs ih =>
    intro db hw
    have hw2 : ∀ l, Block.loop l ∈ bs → ∀ db, ∃ r, write db l = .ok r :=
      fun l hl => hw l (List.mem_cons_of_mem _ hl)
    cases b with
    | instr rank i =>
      obtain ⟨r, hr⟩ := ih db hw2
      unfold write_peeled_list
      rw [hr]
      exact ⟨_, rfl⟩
    | loop l =>
      obtain ⟨r1, h1⟩ := hw l (List.mem_cons_self _ _) db
      obtain ⟨r2, h2⟩ := ih r1.1 hw2
      unfold write_peeled_list
      rw [h1]
      simp only []
      rw [h2]
      exact ⟨_, rfl⟩

theorem write_body_list_returns (env : CodegenEnv)
    (write : BaseDB → LoopB → Except Failure (BaseDB × List Tok)) :
    ∀ (bs : List Block) (db : BaseDB),
      (∀ l, Block.loop l ∈ bs → ∀ db, ∃ r, write db l = .ok r) →
      ∃ r, write_body_list env write bs db = .ok r := by
  intro bs
  induction bs with
  | nil => intro db _; exact ⟨_, rfl⟩
  | cons b bs ih =>
    intro db hw
    have hw2 : ∀ l, Block.loop l ∈ bs → ∀ db, ∃ r, write db l = .ok r :=
      fun l hl => hw l (List.mem_cons_of_mem _ hl)
    cases b with
    | instr rank i =>
      obtain ⟨r, hr⟩ := ih db hw2
      unfold write_body_list
      rw [hr]
      exact ⟨_, rfl⟩
    | loop l =>
      obtain ⟨r1, h1⟩ := hw l (List.mem_cons_self _ _) db
      obtain ⟨r2, h2⟩ := ih r1.1 hw2
      unfold write_body_list
      rw [h1]
      simp only []
      rw [h2]
      exact ⟨_, rfl⟩

theorem sweeps_ternary_list_mem (env : CodegenEnv) : ∀ (bs : List Block) (l : LoopB),
    sweeps_ternary_list env bs = true → Block.loop l ∈ bs → l.sweeps_ternary env = true := by
  intro bs
  induction bs with
  | nil => intro l _ h; exact absurd h (List.not_mem_nil _)
  | cons b bs ih =>
    intro l h hm
    simp only [sweeps_ternary_list, Bool.and_eq_true] at h
    rcases List.mem_cons.mp hm with rfl | hm
    · simpa only [Block.sweeps_ternary] using h.1
    · exact ih l h.2 hm

theorem depthList_mem : ∀ (bs : List Block) (l : LoopB),
    Block.loop l ∈ bs → l.depth ≤ depthList bs := by
  intro bs
  induction bs with
  | nil => intro l h; exact absurd h (List.not_mem_nil _)
  | cons b bs ih =>
    intro l hm
    simp only [depthList]
    rcases List.mem_cons.mp hm with rfl | hm
    · simp only [Block.depth]
      exact Nat.le_max_left _ _
    · exact Nat.le_trans (ih l hm) (Nat.le_max_right _ _)

theorem LoopB.sweeps_ternary_iff (env : CodegenEnv) (block : LoopB) :
    block.sweeps_ternary env = true ↔
      (∀ s ∈ block._sweeps, env.ops.bh_noperands s.opcode = 3) ∧
      sweeps_ternary_list env block._block_list = true := by
  cases block
  simp only [LoopB.sweeps_ternary, LoopB._sweeps, LoopB._block_list, Bool.and_eq_true,
    List.all_eq_true, decide_eq_true_eq]

theorem LoopB.depth_eq (block : LoopB) : block.depth = depthList block._block_list + 1 := by
  cases block
  rfl

/-- The stages of one call, read off a call that returned. -/
theorem write_loop_parts_ok (env : CodegenEnv) (config : ConfigParser)
    (write : BaseDB → LoopB → Except Failure (BaseDB × List Tok))
    (db : BaseDB) (block : LoopB) (dbf : BaseDB) (t : LoopText)
    (h : write_loop_parts env config write db block = .ok (dbf, t)) :
    ∃ db1 srs db2 db3 db4,
      scalar_replace env block.rank block._sweeps db = .ok (db1, t.decls, srs) ∧
      (if (decide (block._sweeps.length > 0) && need_to_peel env db1 block._sweeps) = true
        then write_peeled env write block db1 else .ok (db1, [])) = .ok (db2, t.peeled) ∧
      (if (if (decide (block._sweeps.length > 0) && need_to_peel env db1 block._sweeps) = true
            then block.size - 1 else block.size) > 1
        then write_openmp_header env block db2 config else .ok (db2, []))
          = .ok (db3, t.header) ∧
      write_body_list env write block._block_list db3 = .ok (db4, t.body) ∧
      dbf = (store_back block.rank srs db4).1 ∧
      t.store = (store_back block.rank srs db4).2 ∧
      t.seeds = (if need_to_peel env db1 block._sweeps = false
        then write_seeds db1 block.rank block._sweeps else []) ∧
      t.start = (if (decide (block._sweeps.length > 0)
        && need_to_peel env db1 block._sweeps) = true then 1 else 0) ∧
      t.tmp_decls = write_tmp_decls db3 (env.getLocalTemps block) block.rank := by
  unfold write_loop_parts at h
  simp only [] at h
  cases h1 : scalar_replace env block.rank block._sweeps db with
  | error e =>
    rw [h1] at h
    cases h
  | ok r1 =>
    obtain ⟨db1, decls, srs⟩ := r1
    rw [h1] at h
    simp only [] at h
    cases h2 : (if (decide (block._sweeps.length > 0)
        && need_to_peel env db1 block._sweeps) = true
        then write_peeled env write block db1 else .ok (db1, [])) with
    | error e =>
      rw [h2] at h
      cases h
    | ok r2 =>
      obtain ⟨db2, peeled⟩ := r2
      rw [h2] at h
      simp only [] at h
      cases h3 : (if (if (decide (block._sweeps.length > 0)
            && need_to_peel env db1 block._sweeps) = true
            then block.size - 1 else block.size) > 1
          then write_openmp_header env block db2 config else .ok (db2, [])) with
      | error e =>
        rw [h3] at h
        cases h
      | ok r3 =>
        obtain ⟨db3, header⟩ := r3
        rw [h3] at h
        simp only [] at h
        cases h4 : write_body_list env write block._block_list db3 with
        | error e =>
          rw [h4] at h
          cases h
        | ok r4 =>
          obtain ⟨db4, body⟩ := r4
          rw [h4] at h
          simp only [Except.ok.injEq, Prod.mk.injEq] at h
          obtain ⟨rfl, rfl⟩ := h
          exact ⟨db1, srs, db2, db3, db4, rfl, h2, h3, h4, rfl, rfl, rfl, rfl, rfl⟩

theorem write_loop_parts_returns (env : CodegenEnv) (config : ConfigParser)
    (write : BaseDB → LoopB → Except Failure (BaseDB × List Tok))
    (db : BaseDB) (block : LoopB)
    (h3 : ∀ s ∈ block._sweeps, env.ops.bh_noperands s.opcode = 3)
    (hp : ∀ db, ∃ r, write_peeled_list write (peeled_block env block)._block_list db = .ok r)
    (hb : ∀ db, ∃ r, write_body_list env write block._block_list db = .ok r) :
    ∃ r, write_loop_parts env config write db block = .ok r := by
  unfold write_loop_parts
  simp only []
  obtain ⟨⟨db1, decls, srs⟩, h1⟩ := scalar_replace_returns env block.rank block._sweeps db h3
  rw [h1]
  simp only []
  have h2 : ∃ r2, (if (decide (block._sweeps.length > 0)
        && need_to_peel env db1 block._sweeps) = true
        then write_peeled env write block db1 else .ok (db1, [])) = .ok r2 := by
    split
    · unfold write_peeled
      obtain ⟨r, hr⟩ := hp db1
      rw [hr]
      exact ⟨_, rfl⟩
    · exact ⟨_, rfl⟩
  obtain ⟨⟨db2, peeled⟩, h2⟩ := h2
  rw [h2]
  simp only []
  have h4 : ∃ r3, (if (if (decide (block._sweeps.length > 0)
            && need_to_peel env db1 block._sweeps) = true
            then block.size - 1 else block.size) > 1
          then write_openmp_header env block db2 config else .ok (db2, [])) = .ok r3 := by
    by_cases hc : (if (decide (block._sweeps.length > 0)
            && need_to_peel env db1 block._sweeps) = true
            then block.size - 1 else block.size) > 1
    · rw [if_pos hc]
      exact write_openmp_header_returns env block db2 config h3
    · rw [if_neg hc]
      exact ⟨_, rfl⟩
  obtain ⟨⟨db3, header⟩, h4⟩ := h4
  rw [h4]
  simp only []
  obtain ⟨⟨db4, body⟩, h5⟩ := hb db3
  rw [h5]
  exact ⟨_, rfl⟩

/-- A call of `write_loop_block` returns when the sweeps have three operands and the fuel
covers the nesting of the block. -/
theorem write_loop_block_returns (env : CodegenEnv) (config : ConfigParser) :
    ∀ (fuel : Nat) (db : BaseDB) (block : LoopB),
      block.sweeps_ternary env = true → block.depth ≤ fuel →
      ∃ r, write_loop_block env config fuel db block = .ok r := by
  intro fuel
  induction fuel with
  | zero =>
    intro db block _ hd
    rw [LoopB.depth_eq] at hd
    omega
  | succ fuel ih =>
    intro db block ht hd
    obtain ⟨h3, hl⟩ := (LoopB.sweeps_ternary_iff env block).mp ht
    rw [LoopB.depth_eq] at hd
    have hrec : ∀ (bs : List Block), sweeps_ternary_list env bs = true → depthList bs ≤ fuel →
        ∀ l, Block.loop l ∈ bs → ∀ db, ∃ r, write_loop_block env config fuel db l = .ok r :=
      fun bs h1 h2 l hm db => ih db l (sweeps_ternary_list_mem env bs l h1 hm)
        (Nat.le_trans (depthList_mem bs l hm) h2)
    have hp : ∀ db, ∃ r, write_peeled_list (write_loop_block env config fuel)
        (peeled_block env block)._block_list db = .ok r := by
      intro db
      apply write_peeled_list_returns
      rw [peeled_block_eq, (LoopB.mapInstr_fields _ block).2.2.2]
      apply hrec
      · rw [sweeps_ternary_list_mapInstr]
        exact hl
      · rw [depthList_mapInstr]
        omega
    have hb : ∀ db, ∃ r, write_body_list env (write_loop_block env config fuel)
        block._block_list db = .ok r := by
      intro db
      apply write_body_list_returns
      exact hrec _ hl (by omega)
    obtain ⟨⟨dbf, t⟩, hr⟩ := write_loop_parts_returns env config
      (write_loop_block env config fuel) db block h3 hp hb
    unfold write_loop_block
    rw [hr]
    exact ⟨_, rfl⟩

/-- A call of `write_loop_block` leaves the numbering and the temporary arrays of
`base_ids` alone and scalar replaces no base beyond its return. -/
theorem write_loop_block_frame (env : CodegenEnv) (config : ConfigParser) :
    ∀ (fuel : Nat) (db : BaseDB) (block : LoopB) (r : BaseDB × List Tok),
      write_loop_block env config fuel db block = .ok r → Frame db r.1 := by
  intro fuel
  induction fuel with
  | zero =>
    intro db block r h
    cases h
  | succ fuel ih =>
    intro db block r h
    unfold write_loop_block at h
    cases hp : write_loop_parts env config (write_loop_block env config fuel) db block with
    | error e =>
      rw [hp] at h
      cases h
    | ok p =>
      obtain ⟨dbf, t⟩ := p
      rw [hp] at h
      cases h
      obtain ⟨db1, srs, db2, db3, db4, h1, h2, h3, h4, h5, _⟩ :=
        write_loop_parts_ok env config _ db block dbf t hp
      obtain ⟨_, _, e1⟩ := scalar_replace_ok env block.rank _ _ _ _ _ h1
      have f12 : Frame db1 db2 := by
        split at h2
        · unfold write_peeled at h2
          cases hq : write_peeled_list (write_loop_block env config fuel)
              (peeled_block env block)._block_list db1 with
          | error e =>
            rw [hq] at h2
            cases h2
          | ok q =>
            rw [hq] at h2
            have e := (Prod.mk.inj (Except.ok.inj h2)).1
            rw [← e]
            exact write_peeled_list_rel Frame Frame.refl (fun _ _ _ => Frame.trans) _ _ _ _
              (fun l _ db r => ih db l r) hq
        · have e := (Prod.mk.inj (Except.ok.inj h2)).1
          rw [← e]
          exact Frame.refl db1
      have f23 : Frame db2 db3 := by
        by_cases hc : (if (decide (block._sweeps.length > 0)
            && need_to_peel env db1 block._sweeps) = true
            then block.size - 1 else block.size) > 1
        · rw [if_pos hc] at h3
          obtain ⟨a, b, c⟩ := write_openmp_header_frame env block db2 config _ h3
          exact ⟨a, b, by rw [c]⟩
        · rw [if_neg hc] at h3
          have e := (Prod.mk.inj (Except.ok.inj h3)).1
          rw [← e]
          exact Frame.refl db2
      have f34 : Frame db3 db4 :=
        write_body_list_rel Frame Frame.refl (fun _ _ _ => Frame.trans) env _ _ _ _
          (fun l _ db r => ih db l r) h4
      have f14 := Frame.trans (Frame.trans f12 f23) f34
      rw [store_back_spec] at h5
      subst h5
      refine ⟨?_, ?_, ?_⟩
      · show db4._vec = db._vec
        rw [f14.vec, e1]
      · show db4._tmps = db._tmps
        rw [f14.tmps, e1]
      · show db4._scalar_replacements \ (srs.map (fun v => v.base)).toFinset
          ⊆ db._scalar_replacements
        intro x hx
        rw [Finset.mem_sdiff] at hx
        have hx1 := f14.scalar hx.1
        rw [e1] at hx1
        simp only [Finset.mem_union] at hx1
        rcases hx1 with hx1 | hx1
        · exact hx1
        · exact absurd hx1 hx.2

/-! ## Seeding and peeling -/

theorem need_to_peel_false_iff (env : CodegenEnv) (db : BaseDB) (sweeps : List InstrPtr) :
    need_to_peel env db sweeps = false ↔
      ∀ s ∈ sweeps, env.has_reduce_identity s.opcode = true ∧
        (db.isScalarReplaced s.operand0.base = true ∨ db.isTmp s.operand0.base = true) := by
  unfold need_to_peel
  rw [List.any_eq_false]
  constructor
  · intro h s hs
    have := h s hs
    cases h1 : env.has_reduce_identity s.opcode <;>
      cases h2 : db.isScalarReplaced s.operand0.base <;>
      cases h3 : db.isTmp s.operand0.base <;> simp [h1, h2, h3] at this ⊢
  · intro h s hs
    have := h s hs
    cases h1 : env.has_reduce_identity s.opcode <;>
      cases h2 : db.isScalarReplaced s.operand0.base <;>
      cases h3 : db.isTmp s.operand0.base <;> simp [h1, h2, h3] at this ⊢

theorem need_to_peel_nonempty (env : CodegenEnv) (db : BaseDB) (sweeps : List InstrPtr)
    (h : need_to_peel env db sweeps = true) : decide (sweeps.length > 0) = true := by
  cases sweeps with
  | nil => simp [need_to_peel] at h
  | cons s rest => simp

/-- The seeded and the peeled form of a call, read off a call that returned. -/
theorem write_loop_parts_seed_or_peel (env : CodegenEnv) (config : ConfigParser)
    (write : BaseDB → LoopB → Except Failure (BaseDB × List Tok))
    (db : BaseDB) (block : LoopB) (dbf : BaseDB) (t : LoopText)
    (h : write_loop_parts env config write db block = .ok (dbf, t)) :
    ∃ db1 srs, scalar_replace env block.rank block._sweeps db = .ok (db1, t.decls, srs) ∧
      (need_to_peel env db1 block._sweeps = false →
        t.seeds = write_seeds db1 block.rank block._sweeps ∧ t.peeled = [] ∧ t.start = 0) ∧
      (need_to_peel env db1 block._sweeps = true →
        block._sweeps ≠ [] ∧ t.seeds = [] ∧ t.start = 1 ∧
        ∃ db2 first,
          write_peeled_list write (peeled_block env block)._block_list db1 = .ok (db2, first) ∧
          t.peeled = [Tok.peel_open, Tok.spaces (8 + block.rank * 4), Tok.iter_decl block.rank]
            ++ write_tmp_decls db1 (env.getLocalTemps block) block.rank
            ++ [Tok.endl] ++ first
            ++ [Tok.spaces (4 + block.rank * 4), Tok.close, Tok.spaces (4 + block.rank * 4)]) := by
  obtain ⟨db1, srs, db2, db3, db4, h1, h2, _, _, _, _, h7, h8, _⟩ :=
    write_loop_parts_ok env config write db block dbf t h
  refine ⟨db1, srs, h1, ?_, ?_⟩
  · intro hn
    rw [hn] at h2 h8
    simp only [Bool.and_false, Bool.false_eq_true, if_false] at h2 h8
    rw [hn] at h7
    simp only [if_true] at h7
    exact ⟨h7, ((Prod.mk.inj (Except.ok.inj h2)).2).symm, h8⟩
  · intro hp
    have hl := need_to_peel_nonempty env db1 block._sweeps hp
    rw [hp, hl] at h2 h8
    simp only [Bool.and_self, if_true] at h2 h8
    rw [hp] at h7
    simp only [Bool.true_eq_false, if_false] at h7
    refine ⟨?_, h7, h8, ?_⟩
    · intro he
      rw [he] at hl
      simp at hl
    · unfold write_peeled at h2
      cases hq : write_peeled_list write (peeled_block env block)._block_list db1 with
      | error e =>
        rw [hq] at h2
        cases h2
      | ok q =>
        obtain ⟨dbq, first⟩ := q
        rw [hq] at h2
        exact ⟨dbq, first, rfl, ((Prod.mk.inj (Except.ok.inj h2)).2).symm⟩

theorem write_loop_block_parts (env : CodegenEnv) (config : ConfigParser) (fuel : Nat)
    (db : BaseDB) (block : LoopB) (ht : block.sweeps_ternary env = true)
    (hd : block.depth ≤ fuel + 1) :
    ∃ dbf t,
      write_loop_parts env config (write_loop_block env config fuel) db block = .ok (dbf, t) ∧
      write_loop_block env config (fuel + 1) db block
        = .ok (dbf, t.out block.rank block.size) := by
  obtain ⟨r, hr⟩ := write_loop_block_returns env config (fuel + 1) db block ht hd
  unfold write_loop_block at hr
  cases hp : write_loop_parts env config (write_loop_block env config fuel) db block with
  | error e =>
    rw [hp] at hr
    cases hr
  | ok p =>
    refine ⟨p.1, p.2, rfl, ?_⟩
    unfold write_loop_block
    rw [hp]

/-- Claim C21: a call of `write_loop_block` on a block whose sweeps have three operands
returns, and with `db1` the state of `base_ids` after the scalar replacements of the block:
when every sweep has an identity element and writes to a base that is scalar replaced or
a temporary array, the line `<var> = identity;` is written for every sweep, nothing is
peeled and the for-loop starts at 0; otherwise the block has a sweep, no initial value is
written, the first iteration is written apart between `{` and `}` and the for-loop starts
at 1.  A sweep without identity element forces the start 1, a block without sweeps starts
at 0. -/
theorem write_loop_block_seed_or_peel (env : CodegenEnv) (config : ConfigParser) (fuel : Nat)
    (db : BaseDB) (block : LoopB) (ht : block.sweeps_ternary env = true)
    (hd : block.depth ≤ fuel + 1) :
    ∃ db1 srs dbf t,
      scalar_replace env block.rank block._sweeps db = .ok (db1, t.decls, srs) ∧
      db1._tmps = db._tmps ∧
      db1._scalar_replacements = db._scalar_replacements ∪
        ((block._sweeps.filter (scalar_replaced env db)).map
          (fun s => s.operand0.base)).toFinset ∧
      write_loop_parts env config (write_loop_block env config fuel) db block = .ok (dbf, t) ∧
      write_loop_block env config (fuel + 1) db block
        = .ok (dbf, t.out block.rank block.size) ∧
      ((∀ s ∈ block._sweeps, env.has_reduce_identity s.opcode = true ∧
          (db1.isScalarReplaced s.operand0.base = true ∨ db1.isTmp s.operand0.base = true)) →
        t.seeds = block._sweeps.flatMap (fun s =>
            [Tok.seed (db1.isTmp s.operand0.base) (db1.id s.operand0.base) s.opcode
              s.operand0.base, Tok.spaces (4 + block.rank * 4)]) ∧
        t.peeled = [] ∧ t.start = 0) ∧
      (¬ (∀ s ∈ block._sweeps, env.has_reduce_identity s.opcode = true ∧
          (db1.isScalarReplaced s.operand0.base = true ∨ db1.isTmp s.operand0.base = true)) →
        block._sweeps ≠ [] ∧ t.seeds = [] ∧ t.start = 1 ∧
        ∃ first, t.peeled =
          [Tok.peel_open, Tok.spaces (8 + block.rank * 4), Tok.iter_decl block.rank]
            ++ first
            ++ [Tok.spaces (4 + block.rank * 4), Tok.close, Tok.spaces (4 + block.rank * 4)]) ∧
      ((∃ s ∈ block._sweeps, env.has_reduce_identity s.opcode = false) → t.start = 1) ∧
      (block._sweeps = [] → t.start = 0) := by
  obtain ⟨dbf, t, hp, hw⟩ := write_loop_block_parts env config fuel db block ht hd
  obtain ⟨db1, srs, h1, hseed, hpeel⟩ :=
    write_loop_parts_seed_or_peel env config _ db block dbf t hp
  obtain ⟨e1, _, e3⟩ := scalar_replace_ok env block.rank _ _ _ _ _ h1
  refine ⟨db1, srs, dbf, t, h1, ?_, ?_, hp, hw, ?_, ?_, ?_, ?_⟩
  · rw [e3]
  · rw [e3, e1, List.map_map]
    rfl
  · intro hall
    exact hseed ((need_to_peel_false_iff env db1 block._sweeps).mpr hall)
  · intro hall
    have hn : need_to_peel env db1 block._sweeps = true := by
      cases hc : need_to_peel env db1 block._sweeps with
      | true => rfl
      | false => exact absurd ((need_to_peel_false_iff env db1 block._sweeps).mp hc) hall
    obtain ⟨a, b, c, db2, first, _, e⟩ := hpeel hn
    refine ⟨a, b, c, write_tmp_decls db1 (env.getLocalTemps block) block.rank
      ++ [Tok.endl] ++ first, ?_⟩
    rw [e]
    simp only [List.append_assoc]
  · rintro ⟨s, hs, hid⟩
    have hn : need_to_peel env db1 block._sweeps = true := by
      cases hc : need_to_peel env db1 block._sweeps with
      | true => rfl
      | false =>
        have := ((need_to_peel_false_iff env db1 block._sweeps).mp hc s hs).1
        rw [hid] at this
        cases this
    exact (hpeel hn).2.2.1
  · intro he
    apply (hseed _).2.2
    rw [he]
    rfl

theorem write_loop_block_seed_or_peel_witness :
    (ex_reduce_block 10 10).sweeps_ternary ex_codegen = true ∧
    (ex_reduce_block 10 10).depth ≤ 0 + 1 ∧
    (write_loop_block ex_codegen ⟨false, false⟩ 1 ex_base_ids
        (ex_reduce_block 10 10)).toOption.map (fun r => render ex_writers r.2)
      = some ("    double s1;\n    s1 = 0;\n    for(uint64_t i0=0; i0 < 10; ++i0) \x7b\n"
        ++ "        ...;\n    \x7d\n    a1[0] = s1;\n") ∧
    (write_loop_block ex_codegen ⟨false, false⟩ 1 ex_base_ids
        (ex_reduce_block 15 5)).toOption.map (fun r => render ex_writers r.2)
      = some ("    double s1;\n    \x7b // Peeled loop, 1. sweep iteration \n"
        ++ "        uint64_t i0 = 0;\n\n        ...;\n    \x7d\n"
        ++ "    for(uint64_t i0=1; i0 < 5; ++i0) \x7b\n"
        ++ "        ...;\n    \x7d\n    a1[0] = s1;\n") ∧
    ∃ db1 srs dbf t,
      scalar_replace ex_codegen (ex_reduce_block 10 10).rank (ex_reduce_block 10 10)._sweeps
        ex_base_ids = .ok (db1, t.decls, srs) ∧
      db1._tmps = ex_base_ids._tmps ∧
      db1._scalar_replacements = ex_base_ids._scalar_replacements ∪
        (((ex_reduce_block 10 10)._sweeps.filter (scalar_replaced ex_codegen ex_base_ids)).map
          (fun s => s.operand0.base)).toFinset ∧
      write_loop_parts ex_codegen ex_config (write_loop_block ex_codegen ex_config 0)
        ex_base_ids (ex_reduce_block 10 10) = .ok (dbf, t) ∧
      write_loop_block ex_codegen ex_config (0 + 1) ex_base_ids (ex_reduce_block 10 10)
        = .ok (dbf, t.out (ex_reduce_block 10 10).rank (ex_reduce_block 10 10).size) ∧
      ((∀ s ∈ (ex_reduce_block 10 10)._sweeps, ex_codegen.has_reduce_identity s.opcode = true ∧
          (db1.isScalarReplaced s.operand0.base = true ∨ db1.isTmp s.operand0.base = true)) →
        t.seeds = (ex_reduce_block 10 10)._sweeps.flatMap (fun s =>
            [Tok.seed (db1.isTmp s.operand0.base) (db1.id s.operand0.base) s.opcode
              s.operand0.base, Tok.spaces (4 + (ex_reduce_block 10 10).rank * 4)]) ∧
        t.peeled = [] ∧ t.start = 0) ∧
      (¬ (∀ s ∈ (ex_reduce_block 10 10)._sweeps,
          ex_codegen.has_reduce_identity s.opcode = true ∧
          (db1.isScalarReplaced s.operand0.base = true ∨ db1.isTmp s.operand0.base = true)) →
        (ex_reduce_block 10 10)._sweeps ≠ [] ∧ t.seeds = [] ∧ t.start = 1 ∧
        ∃ first, t.peeled =
          [Tok.peel_open, Tok.spaces (8 + (ex_reduce_block 10 10).rank * 4),
            Tok.iter_decl (ex_reduce_block 10 10).rank]
            ++ first
            ++ [Tok.spaces (4 + (ex_reduce_block 10 10).rank * 4), Tok.close,
              Tok.spaces (4 + (ex_reduce_block 10 10).rank * 4)]) ∧
      ((∃ s ∈ (ex_reduce_block 10 10)._sweeps, ex_codegen.has_reduce_identity s.opcode = false)
        → t.start = 1) ∧
      ((ex_reduce_block 10 10)._sweeps = [] → t.start = 0) :=
  ⟨by decide, by decide, rfl, rfl,
    write_loop_block_seed_or_peel ex_codegen ex_config 0 ex_base_ids (ex_reduce_block 10 10)
      (by decide) (by decide)⟩

/-- Claim C22, refuted as stated: in the kernel of the sum of a vector of 10 elements the
one sweep has an identity element and writes to a scalar-replaced base, so peeling and
seeding are both legal; the call does not write a peeled iteration with a loop that starts
at 1. -/
theorem write_loop_block_prefers_peeling_counterexample :
    (∀ s ∈ (ex_reduce_block 10 10)._sweeps, ex_codegen.has_reduce_identity s.opcode = true ∧
      ((ex_base_ids.insertScalarReplacement (some 1)).isScalarReplaced s.operand0.base = true ∨
        (ex_base_ids.insertScalarReplacement (some 1)).isTmp s.operand0.base = true)) ∧
    scalar_replace ex_codegen 0 (ex_reduce_block 10 10)._sweeps ex_base_ids
      = .ok (ex_base_ids.insertScalarReplacement (some 1),
          [Tok.scalar_decl (some 1) 1, Tok.spaces 4], [(ex_reduce 10 10).operand0]) ∧
    ¬ ∃ dbf t,
      write_loop_parts ex_codegen ex_config (write_loop_block ex_codegen ex_config 0)
        ex_base_ids (ex_reduce_block 10 10) = .ok (dbf, t) ∧
      t.peeled ≠ [] ∧ t.start = 1 := by
  refine ⟨by decide, rfl, ?_⟩
  rintro ⟨dbf, t, h, _, hs⟩
  have e : write_loop_parts ex_codegen ex_config (write_loop_block ex_codegen ex_config 0)
      ex_base_ids (ex_reduce_block 10 10) = .ok (ex_base_ids,
        ⟨[Tok.scalar_decl (some 1) 1, Tok.spaces 4], [Tok.seed false 1 10 (some 1), Tok.spaces 4],
          [], [Tok.pragma_omp [.parallel_for, .simd, .reduction (some "+") true 1],
            Tok.spaces 4], 0, [],
          [Tok.spaces 8, Tok.instr (ex_base_ids.insertScalarReplacement (some 1))
            (ex_reduce 10 10)],
          [Tok.spaces 4, Tok.store_back 1 (ex_reduce 10 10).operand0]⟩) := rfl
  rw [e] at h
  have h2 := (Prod.mk.inj (Except.ok.inj h)).2
  rw [← h2] at hs
  exact absurd hs (by decide)

/-- Claim C22, amended: when every sweep of the block has an identity element and writes to
a base that is scalar replaced or a temporary array, `write_loop_block` seeds: it writes
the line `<var> = identity;` for every sweep, no peeled iteration, and the for-loop starts
at 0. -/
theorem write_loop_block_prefers_seeding (env : CodegenEnv) (config : ConfigParser)
    (fuel : Nat) (db : BaseDB) (block : LoopB) (ht : block.sweeps_ternary env = true)
    (hd : block.depth ≤ fuel + 1) :
    ∃ db1 srs dbf t,
      scalar_replace env block.rank block._sweeps db = .ok (db1, t.decls, srs) ∧
      write_loop_parts env config (write_loop_block env config fuel) db block = .ok (dbf, t) ∧
      write_loop_block env config (fuel + 1) db block
        = .ok (dbf, t.out block.rank block.size) ∧
      ((∀ s ∈ block._sweeps, env.has_reduce_identity s.opcode = true ∧
          (db1.isScalarReplaced s.operand0.base = true ∨ db1.isTmp s.operand0.base = true)) →
        t.seeds = block._sweeps.flatMap (fun s =>
            [Tok.seed (db1.isTmp s.operand0.base) (db1.id s.operand0.base) s.opcode
              s.operand0.base, Tok.spaces (4 + block.rank * 4)]) ∧
        t.peeled = [] ∧ t.start = 0 ∧
        Tok.for_header block.rank 0 block.size ∈ t.out block.rank block.size ∧
        Tok.peel_open ∉ t.decls ++ t.seeds ++ t.peeled) := by
  obtain ⟨dbf, t, hp, hw⟩ := write_loop_block_parts env config fuel db block ht hd
  obtain ⟨db1, srs, h1, hseed, _⟩ :=
    write_loop_parts_seed_or_peel env config _ db block dbf t hp
  obtain ⟨_, e2, _⟩ := scalar_replace_ok env block.rank _ _ _ _ _ h1
  refine ⟨db1, srs, dbf, t, h1, hp, hw, ?_⟩
  intro hall
  obtain ⟨a, b, c⟩ := hseed ((need_to_peel_false_iff env db1 block._sweeps).mpr hall)
  refine ⟨a, b, c, ?_, ?_⟩
  · unfold LoopText.out
    rw [c]
    simp
  · rw [a, b, e2]
    simp [write_seeds]

theorem write_loop_block_prefers_seeding_witness :
    (ex_reduce_block 10 10).sweeps_ternary ex_codegen = true ∧
    (ex_reduce_block 10 10).depth ≤ 0 + 1 ∧
    ∃ db1 srs dbf t,
      scalar_replace ex_codegen (ex_reduce_block 10 10).rank (ex_reduce_block 10 10)._sweeps
        ex_base_ids = .ok (db1, t.decls, srs) ∧
      write_loop_parts ex_codegen ex_config (write_loop_block ex_codegen ex_config 0)
        ex_base_ids (ex_reduce_block 10 10) = .ok (dbf, t) ∧
      write_loop_block ex_codegen ex_config (0 + 1) ex_base_ids (ex_reduce_block 10 10)
        = .ok (dbf, t.out (ex_reduce_block 10 10).rank (ex_reduce_block 10 10).size) ∧
      ((∀ s ∈ (ex_reduce_block 10 10)._sweeps, ex_codegen.has_reduce_identity s.opcode = true ∧
          (db1.isScalarReplaced s.operand0.base = true ∨ db1.isTmp s.operand0.base = true)) →
        t.seeds = (ex_reduce_block 10 10)._sweeps.flatMap (fun s =>
            [Tok.seed (db1.isTmp s.operand0.base) (db1.id s.operand0.base) s.opcode
              s.operand0.base, Tok.spaces (4 + (ex_reduce_block 10 10).rank * 4)]) ∧
        t.peeled = [] ∧ t.start = 0 ∧
        Tok.for_header (ex_reduce_block 10 10).rank 0 (ex_reduce_block 10 10).size
          ∈ t.out (ex_reduce_block 10 10).rank (ex_reduce_block 10 10).size ∧
        Tok.peel_open ∉ t.decls ++ t.seeds ++ t.peeled) :=
  ⟨by decide, by decide,
    write_loop_block_prefers_seeding ex_codegen ex_config 0 ex_base_ids (ex_reduce_block 10 10)
      (by decide) (by decide)⟩

/-! ## Scalar replacement -/

theorem write_openmp_header_vec (env : CodegenEnv) (block : LoopB) (config : ConfigParser)
    (c : Prop) [Decidable c] (db2 db3 : BaseDB) (out : List Tok)
    (h : (if c then write_openmp_header env block db2 config else .ok (db2, []))
      = .ok (db3, out)) :
    db3._vec = db2._vec ∧ db3._tmps = db2._tmps ∧
    db3._scalar_replacements = db2._scalar_replacements := by
  by_cases hc : c
  · rw [if_pos hc] at h
    exact write_openmp_header_frame env block db2 config _ h
  · rw [if_neg hc] at h
    have e := (Prod.mk.inj (Except.ok.inj h)).1
    rw [← e]
    exact ⟨rfl, rfl, rfl⟩

/-- The states of `base_ids` between the stages of a call of `write_loop_block`: the
numbering and the temporary arrays never change. -/
theorem write_loop_parts_frames (env : CodegenEnv) (config : ConfigParser) (fuel : Nat)
    (db : BaseDB) (block : LoopB) (db1 db2 db3 db4 : BaseDB) (decls peeled header body : List Tok)
    (srs : List bh_view)
    (h1 : scalar_replace env block.rank block._sweeps db = .ok (db1, decls, srs))
    (h2 : (if (decide (block._sweeps.length > 0) && need_to_peel env db1 block._sweeps) = true
        then write_peeled env (write_loop_block env config fuel) block db1
        else .ok (db1, [])) = .ok (db2, peeled))
    (h3 : (if (if (decide (block._sweeps.length > 0)
            && need_to_peel env db1 block._sweeps) = true
            then block.size - 1 else block.size) > 1
        then write_openmp_header env block db2 config else .ok (db2, []))
          = .ok (db3, header))
    (h4 : write_body_list env (write_loop_block env config fuel) block._block_list db3
      = .ok (db4, body)) :
    db1._vec = db._vec ∧ db1._tmps = db._tmps ∧ Frame db1 db2 ∧ Frame db2 db3 ∧
    Frame db3 db4 := by
  obtain ⟨_, _, e1⟩ := scalar_replace_ok env block.rank _ _ _ _ _ h1
  have f12 : Frame db1 db2 := by
    split at h2
    · unfold write_peeled at h2
      cases hq : write_peeled_list (write_loop_block env config fuel)
          (peeled_block env block)._block_list db1 with
      | error e =>
        rw [hq] at h2
        cases h2
      | ok q =>
        rw [hq] at h2
        have e := (Prod.mk.inj (Except.ok.inj h2)).1
        rw [← e]
        exact write_peeled_list_rel Frame Frame.refl (fun _ _ _ => Frame.trans) _ _ _ _
          (fun l _ db r => write_loop_block_frame env config fuel db l r) hq
    · have e := (Prod.mk.inj (Except.ok.inj h2)).1
      rw [← e]
      exact Frame.refl db1
  have f23 : Frame db2 db3 := by
    obtain ⟨a, b, c⟩ := write_openmp_header_vec env block config _ db2 db3 header h3
    exact ⟨a, b, by rw [c]⟩
  have f34 : Frame db3 db4 :=
    write_body_list_rel Frame Frame.refl (fun _ _ _ => Frame.trans) env _ _ _ _
      (fun l _ db r => write_loop_block_frame env config fuel db l r) h4
  refine ⟨?_, ?_, f12, f23, f34⟩
  · rw [e1]
  · rw [e1]

/-- Claim C24: a call of `write_loop_block` on a block whose sweeps have three operands
returns; the declarations `s<id>` written before the loop and the lines
`a<id><subscription> = s<id>;` written after its closing brace are those of the sweeps
that are reductions over the innermost axis of their input with an output base that is not
a temporary array, one of each for every such sweep, with the id of the output base and
the output view; and these output bases are the ones that become scalar replaced. -/
theorem write_loop_block_scalar_replacement (env : CodegenEnv) (config : ConfigParser)
    (fuel : Nat) (db : BaseDB) (block : LoopB) (ht : block.sweeps_ternary env = true)
    (hd : block.depth ≤ fuel + 1) :
    ∃ db1 srs dbf t,
      scalar_replace env block.rank block._sweeps db = .ok (db1, t.decls, srs) ∧
      write_loop_parts env config (write_loop_block env config fuel) db block = .ok (dbf, t) ∧
      write_loop_block env config (fuel + 1) db block = .ok (dbf,
        [Tok.spaces (4 + block.rank * 4)] ++ t.decls ++ t.seeds ++ t.peeled ++ t.header
          ++ [Tok.for_header block.rank t.start block.size] ++ t.tmp_decls ++ t.body
          ++ [Tok.spaces (4 + block.rank * 4), Tok.close] ++ t.store) ∧
      t.decls = (block._sweeps.filter (scalar_replaced env db)).flatMap (fun s =>
        [Tok.scalar_decl s.operand0.base (db.id s.operand0.base),
          Tok.spaces (4 + block.rank * 4)]) ∧
      t.store = (block._sweeps.filter (scalar_replaced env db)).flatMap (fun s =>
        [Tok.spaces (4 + block.rank * 4),
          Tok.store_back (db.id s.operand0.base) s.operand0]) ∧
      db1._scalar_replacements = db._scalar_replacements ∪
        ((block._sweeps.filter (scalar_replaced env db)).map
          (fun s => s.operand0.base)).toFinset ∧
      (∀ s, scalar_replaced env db s = true ↔
        (env.bh_opcode_is_reduction s.opcode = true ∧ env.ops.bh_opcode_is_sweep s.opcode = true
          ∧ sweep_axis env.ops s = (s.operand1.ndim : Int) - 1)
        ∧ db.isTmp s.operand0.base = false) := by
  obtain ⟨dbf, t, hp, hw⟩ := write_loop_block_parts env config fuel db block ht hd
  obtain ⟨db1, srs, db2, db3, db4, h1, h2, h3, h4, h5, h6, _⟩ :=
    write_loop_parts_ok env config _ db block dbf t hp
  obtain ⟨e1, e2, e3⟩ := scalar_replace_ok env block.rank _ _ _ _ _ h1
  obtain ⟨v1, _, f12, f23, f34⟩ :=
    write_loop_parts_frames env config fuel db block db1 db2 db3 db4 _ _ _ _ srs h1 h2 h3 h4
  have hv : db4._vec = db._vec := by
    rw [f34.vec, f23.vec, f12.vec, v1]
  refine ⟨db1, srs, dbf, t, h1, hp, hw, e2, ?_, ?_, ?_⟩
  · rw [h6, store_back_spec, e1]
    simp only [List.flatMap_map]
    have hid : ∀ b, db4.id b = db.id b := by
      intro b
      unfold BaseDB.id
      rw [hv]
    simp only [hid]
  · rw [e3, e1, List.map_map]
    rfl
  · intro s
    unfold scalar_replaced
    simp only [Bool.and_eq_true, decide_eq_true_eq, Bool.not_eq_true', and_assoc]

theorem write_loop_block_scalar_replacement_witness :
    (ex_reduce_block 10 10).sweeps_ternary ex_codegen = true ∧
    (ex_reduce_block 10 10).depth ≤ 0 + 1 ∧
    (ex_reduce_block 10 10)._sweeps.filter (scalar_replaced ex_codegen ex_base_ids)
      = [ex_reduce 10 10] ∧
    ex_column_block._sweeps.filter (scalar_replaced ex_codegen ex_base_ids) = [] ∧
    ∃ db1 srs dbf t,
      scalar_replace ex_codegen (ex_reduce_block 10 10).rank (ex_reduce_block 10 10)._sweeps
        ex_base_ids = .ok (db1, t.decls, srs) ∧
      write_loop_parts ex_codegen ex_config (write_loop_block ex_codegen ex_config 0)
        ex_base_ids (ex_reduce_block 10 10) = .ok (dbf, t) ∧
      write_loop_block ex_codegen ex_config (0 + 1) ex_base_ids (ex_reduce_block 10 10)
        = .ok (dbf,
        [Tok.spaces (4 + (ex_reduce_block 10 10).rank * 4)] ++ t.decls ++ t.seeds ++ t.peeled
          ++ t.header
          ++ [Tok.for_header (ex_reduce_block 10 10).rank t.start (ex_reduce_block 10 10).size]
          ++ t.tmp_decls ++ t.body
          ++ [Tok.spaces (4 + (ex_reduce_block 10 10).rank * 4), Tok.close] ++ t.store) ∧
      t.decls = ((ex_reduce_block 10 10)._sweeps.filter
          (scalar_replaced ex_codegen ex_base_ids)).flatMap (fun s =>
        [Tok.scalar_decl s.operand0.base (ex_base_ids.id s.operand0.base),
          Tok.spaces (4 + (ex_reduce_block 10 10).rank * 4)]) ∧
      t.store = ((ex_reduce_block 10 10)._sweeps.filter
          (scalar_replaced ex_codegen ex_base_ids)).flatMap (fun s =>
        [Tok.spaces (4 + (ex_reduce_block 10 10).rank * 4),
          Tok.store_back (ex_base_ids.id s.operand0.base) s.operand0]) ∧
      db1._scalar_replacements = ex_base_ids._scalar_replacements ∪
        (((ex_reduce_block 10 10)._sweeps.filter (scalar_replaced ex_codegen ex_base_ids)).map
          (fun s => s.operand0.base)).toFinset ∧
      (∀ s, scalar_replaced ex_codegen ex_base_ids s = true ↔
        (ex_codegen.bh_opcode_is_reduction s.opcode = true
          ∧ ex_codegen.ops.bh_opcode_is_sweep s.opcode = true
          ∧ sweep_axis ex_codegen.ops s = (s.operand1.ndim : Int) - 1)
        ∧ ex_base_ids.isTmp s.operand0.base = false) :=
  ⟨by decide, by decide, by decide, by decide,
    write_loop_block_scalar_replacement ex_codegen ex_config 0 ex_base_ids
      (ex_reduce_block 10 10) (by decide) (by decide)⟩

/-- Claim C25: a call of `write_loop_block` that starts with no base scalar replaced
returns, for a block with any nesting of loops (whose sweeps have three operands), with no
base scalar replaced. -/
theorem write_loop_block_no_leak (env : CodegenEnv) (config : ConfigParser)
    (fuel : Nat) (db : BaseDB) (block : LoopB) (ht : block.sweeps_ternary env = true)
    (hd : block.depth ≤ fuel) (h0 : db._scalar_replacements = ∅) :
    ∃ r, write_loop_block env config fuel db block = .ok r ∧
      r.1._scalar_replacements = ∅ ∧ r.1._vec = db._vec ∧ r.1._tmps = db._tmps := by
  obtain ⟨r, hr⟩ := write_loop_block_returns env config fuel db block ht hd
  have hf := write_loop_block_frame env config fuel db block r hr
  refine ⟨r, hr, ?_, hf.vec, hf.tmps⟩
  have := hf.scalar
  rw [h0] at this
  exact Finset.subset_empty.mp this

theorem write_loop_block_no_leak_witness :
    ex_row_block.sweeps_ternary ex_codegen = true ∧ ex_row_block.depth ≤ 2 ∧
    ex_base_ids._scalar_replacements = ∅ ∧
    ∃ r, write_loop_block ex_codegen ex_config 2 ex_base_ids ex_row_block = .ok r ∧
      r.1._scalar_replacements = ∅ ∧ r.1._vec = ex_base_ids._vec ∧
      r.1._tmps = ex_base_ids._tmps :=
  ⟨by decide, by decide, by decide,
    write_loop_block_no_leak ex_codegen ex_config 2 ex_base_ids ex_row_block (by decide)
      (by decide) (by decide)⟩

/-! ## The peeled iteration -/

theorem write_peeled_list_leaves
    (write : BaseDB → LoopB → Except Failure (BaseDB × List Tok)) :
    ∀ (bs : List Block) (db : BaseDB),
      bs.all (fun b => match b with
        | .instr _ _ => true
        | .loop _ => false) = true →
      write_peeled_list write bs db = .ok (db, bs.flatMap (peeled_leaf db)) := by
  intro bs
  induction bs with
  | nil => intro db _; rfl
  | cons b bs ih =>
    intro db h
    simp only [List.all_cons, Bool.and_eq_true] at h
    cases b with
    | instr rank i =>
      unfold write_peeled_list
      rw [ih db h.2]
      rfl
    | loop l =>
      exact absurd h.1 (by simp)

theorem mapInstrList_all_leaves (f : bh_instruction → bh_instruction) : ∀ (bs : List Block),
    (mapInstrList f bs).all (fun b => match b with
        | .instr _ _ => true
        | .loop _ => false)
      = bs.all (fun b => match b with
        | .instr _ _ => true
        | .loop _ => false) := by
  intro bs
  induction bs with
  | nil => rfl
  | cons b bs ih =>
    cases b with
    | instr rank i => simp only [mapInstrList, Block.mapInstr, List.all_cons, ih]
    | loop l => simp only [mapInstrList, Block.mapInstr, List.all_cons, ih]

/-- Claim C23: in a call of `write_loop_block` that peels (on a block whose sweeps have
three operands and are not `BH_IDENTITY` instructions), the first iteration is written
from the children of the block in which every instruction that is a sweep of the block is
replaced by its identity copy and every other instruction is kept, in the same order.  The
identity copy of a sweep has the opcode `BH_IDENTITY`, the input view of the sweep and the
output view of the sweep, with a dimension of size 1 and stride 0 inserted at the sweep
axis when the sweep is a reduction whose input has more than one dimension. -/
theorem write_loop_block_peeled_iteration (env : CodegenEnv) (config : ConfigParser)
    (fuel : Nat) (db : BaseDB) (block : LoopB) (ht : block.sweeps_ternary env = true)
    (hd : block.depth ≤ fuel + 1)
    (hid : ∀ s ∈ block._sweeps, s.opcode ≠ env.BH_IDENTITY) :
    ∃ db1 srs dbf t,
      scalar_replace env block.rank block._sweeps db = .ok (db1, t.decls, srs) ∧
      write_loop_parts env config (write_loop_block env config fuel) db block = .ok (dbf, t) ∧
      (need_to_peel env db1 block._sweeps = true →
        ∃ db2 first,
          write_peeled_list (write_loop_block env config fuel)
            (mapInstrList (fun i => if i ∈ block._sweeps then peel_instr env i else i)
              block._block_list) db1 = .ok (db2, first) ∧
          t.peeled = [Tok.peel_open, Tok.spaces (8 + block.rank * 4), Tok.iter_decl block.rank]
            ++ write_tmp_decls db1 (env.getLocalTemps block) block.rank
            ++ [Tok.endl] ++ first
            ++ [Tok.spaces (4 + block.rank * 4), Tok.close, Tok.spaces (4 + block.rank * 4)] ∧
          (block.isInnermost = true →
            first = block._block_list.flatMap (fun b =>
              peeled_leaf db1
                (b.mapInstr (fun i => if i ∈ block._sweeps then peel_instr env i else i))))) ∧
      getAllInstrList (mapInstrList (fun i => if i ∈ block._sweeps then peel_instr env i else i)
          block._block_list)
        = (getAllInstrList block._block_list).map
          (fun i => if i ∈ block._sweeps then peel_instr env i else i) ∧
      (∀ s : bh_instruction, (peel_instr env s).opcode = env.BH_IDENTITY ∧
        (peel_instr env s).operand1 = s.operand1 ∧
        (peel_instr env s).operand0 =
          if env.bh_opcode_is_reduction s.opcode = true ∧ s.operand1.ndim > 1 then
            ⟨s.operand0.base, s.operand0.start, s.operand0.shape.insertIdx s.constant.toNat 1,
              s.operand0.stride.insertIdx s.constant.toNat 0⟩
          else s.operand0) ∧
      (∀ s : bh_instruction, env.ops.bh_opcode_is_sweep s.opcode = true →
        sweep_axis env.ops s = s.constant) := by
  obtain ⟨dbf, t, hp, _⟩ := write_loop_block_parts env config fuel db block ht hd
  obtain ⟨db1, srs, h1, _, hpeel⟩ :=
    write_loop_parts_seed_or_peel env config _ db block dbf t hp
  refine ⟨db1, srs, dbf, t, h1, hp, ?_, getAllInstrList_mapInstr _ _, ?_, ?_⟩
  · intro hn
    obtain ⟨_, _, _, db2, first, hq, e⟩ := hpeel hn
    have hsub : peel_subst env block._sweeps
        = fun i => if i ∈ block._sweeps then peel_instr env i else i :=
      funext (peel_subst_eq env block._sweeps hid)
    rw [peeled_block_eq, (LoopB.mapInstr_fields _ block).2.2.2, hsub] at hq
    refine ⟨db2, first, hq, e, ?_⟩
    intro hin
    have hall : (mapInstrList (fun i => if i ∈ block._sweeps then peel_instr env i else i)
        block._block_list).all (fun b => match b with
        | .instr _ _ => true
        | .loop _ => false) = true := by
      rw [mapInstrList_all_leaves]
      exact hin
    rw [write_peeled_list_leaves _ _ db1 hall] at hq
    have e2 := (Prod.mk.inj (Except.ok.inj hq)).2
    rw [← e2]
    clear hq e2 hall hin e
    induction block._block_list with
    | nil => rfl
    | cons b bs ih =>
      simp only [mapInstrList, List.flatMap_cons, ih]
  · intro s
    refine ⟨rfl, rfl, ?_⟩
    show (if env.bh_opcode_is_reduction s.opcode = true ∧ s.operand1.ndim > 1 then
      s.operand0.insert_dim s.constant 1 0 else s.operand0) = _
    rfl
  · intro s hs
    unfold sweep_axis
    rw [if_pos hs]

theorem write_loop_block_peeled_iteration_witness :
    (ex_reduce_block 15 5).sweeps_ternary ex_codegen = true ∧
    (ex_reduce_block 15 5).depth ≤ 0 + 1 ∧
    (∀ s ∈ (ex_reduce_block 15 5)._sweeps, s.opcode ≠ ex_codegen.BH_IDENTITY) ∧
    peel_instr ex_codegen ex_column_sum
      = ⟨4, [⟨some 1, 0, [1, 5], [0, 1]⟩, ⟨some 0, 0, [4, 5], [5, 1]⟩, bh_view.unset], 0⟩ ∧
    ∃ db1 srs dbf t,
      scalar_replace ex_codegen (ex_reduce_block 15 5).rank (ex_reduce_block 15 5)._sweeps
        ex_base_ids = .ok (db1, t.decls, srs) ∧
      write_loop_parts ex_codegen ex_config (write_loop_block ex_codegen ex_config 0)
        ex_base_ids (ex_reduce_block 15 5) = .ok (dbf, t) ∧
      (need_to_peel ex_codegen db1 (ex_reduce_block 15 5)._sweeps = true →
        ∃ db2 first,
          write_peeled_list (write_loop_block ex_codegen ex_config 0)
            (mapInstrList (fun i => if i ∈ (ex_reduce_block 15 5)._sweeps
                then peel_instr ex_codegen i else i)
              (ex_reduce_block 15 5)._block_list) db1 = .ok (db2, first) ∧
          t.peeled = [Tok.peel_open, Tok.spaces (8 + (ex_reduce_block 15 5).rank * 4),
              Tok.iter_decl (ex_reduce_block 15 5).rank]
            ++ write_tmp_decls db1 (ex_codegen.getLocalTemps (ex_reduce_block 15 5))
              (ex_reduce_block 15 5).rank
            ++ [Tok.endl] ++ first
            ++ [Tok.spaces (4 + (ex_reduce_block 15 5).rank * 4), Tok.close,
              Tok.spaces (4 + (ex_reduce_block 15 5).rank * 4)] ∧
          ((ex_reduce_block 15 5).isInnermost = true →
            first = (ex_reduce_block 15 5)._block_list.flatMap (fun b =>
              peeled_leaf db1
                (b.mapInstr (fun i => if i ∈ (ex_reduce_block 15 5)._sweeps
                  then peel_instr ex_codegen i else i))))) ∧
      getAllInstrList (mapInstrList (fun i => if i ∈ (ex_reduce_block 15 5)._sweeps
            then peel_instr ex_codegen i else i)
          (ex_reduce_block 15 5)._block_list)
        = (getAllInstrList (ex_reduce_block 15 5)._block_list).map
          (fun i => if i ∈ (ex_reduce_block 15 5)._sweeps
            then peel_instr ex_codegen i else i) ∧
      (∀ s : bh_instruction, (peel_instr ex_codegen s).opcode = ex_codegen.BH_IDENTITY ∧
        (peel_instr ex_codegen s).operand1 = s.operand1 ∧
        (peel_instr ex_codegen s).operand0 =
          if ex_codegen.bh_opcode_is_reduction s.opcode = true ∧ s.operand1.ndim > 1 then
            ⟨s.operand0.base, s.operand0.start, s.operand0.shape.insertIdx s.constant.toNat 1,
              s.operand0.stride.insertIdx s.constant.toNat 0⟩
          else s.operand0) ∧
      (∀ s : bh_instruction, ex_codegen.ops.bh_opcode_is_sweep s.opcode = true →
        sweep_axis ex_codegen.ops s = s.constant) :=
  ⟨by decide, by decide, by decide, by decide,
    write_loop_block_peeled_iteration ex_codegen ex_config 0 ex_base_ids (ex_reduce_block 15 5)
      (by decide) (by decide) (by decide)⟩

/-! ## The `parallel for` and `simd` clauses -/

/-- The result of `write_openmp_header` with `compiler_openmp` switched on, read off a call
that returned. -/
theorem write_openmp_header_ok (env : CodegenEnv) (block : LoopB) (db : BaseDB)
    (config : ConfigParser) (db1 : BaseDB) (out : List Tok)
    (hc : config.compiler_openmp = true)
    (h : write_openmp_header env block db config = .ok (db1, out)) :
    ∃ ss0 reds, parallel_part env block db = .ok (db1, ss0, reds) ∧
      (∀ s ∈ (simd_part env block db1 config.compiler_openmp_simd ss0 reds).2,
        env.ops.bh_noperands s.opcode = 3) ∧
      out = (if (simd_part env block db1 config.compiler_openmp_simd ss0 reds).1
            ++ (simd_part env block db1 config.compiler_openmp_simd ss0 reds).2.map
              (reduction_clause env db1) ≠ []
        then [Tok.pragma_omp ((simd_part env block db1 config.compiler_openmp_simd ss0 reds).1
            ++ (simd_part env block db1 config.compiler_openmp_simd ss0 reds).2.map
              (reduction_clause env db1)), Tok.spaces (4 + block.rank * 4)]
        else []) := by
  unfold write_openmp_header at h
  rw [if_neg (by simp [hc])] at h
  cases hp : parallel_part env block db with
  | error e =>
    rw [hp] at h
    cases h
  | ok p =>
    obtain ⟨dbp, ss0, reds⟩ := p
    rw [hp] at h
    simp only [] at h
    cases hw : write_reductions env dbp
        (simd_part env block dbp config.compiler_openmp_simd ss0 reds).2 with
    | error e =>
      rw [hw] at h
      cases h
    | ok clauses =>
      have h3 := write_reductions_ok env dbp _ _ hw
      rw [hw] at h
      rw [write_reductions_eq env dbp _ h3] at hw
      have hcl := Except.ok.inj hw
      rw [← hcl] at h
      simp only [] at h
      have hdb : dbp = db1 := by
        split at h
        · exact (Prod.mk.inj (Except.ok.inj h)).1
        · exact (Prod.mk.inj (Except.ok.inj h)).1
      subst hdb
      refine ⟨ss0, reds, rfl, h3, ?_⟩
      split at h
      · rename_i hne
        rw [if_pos hne]
        exact ((Prod.mk.inj (Except.ok.inj h)).2).symm
      · rename_i hne
        rw [if_neg hne]
        exact ((Prod.mk.inj (Except.ok.inj h)).2).symm

theorem openmp_compatible_iff (env : CodegenEnv) (block : LoopB) :
    openmp_compatible env block = true ↔
      ∀ s ∈ block._sweeps, env.bh_opcode_is_reduction s.opcode = true := by
  unfold openmp_compatible
  rw [List.all_eq_true]

theorem simd_part_fst (env : CodegenEnv) (block : LoopB) (db : BaseDB) (enable_simd : Bool)
    (ss : List Clause) (reds : List InstrPtr) :
    ((enable_simd = true ∧ block.isInnermost = true ∧ simd_compatible env block db = true) →
      (simd_part env block db enable_simd ss reds).1 = ss ++ [Clause.simd] ∧
      (simd_part env block db enable_simd ss reds).2
        = (if block.rank > 0 then reds ++ block._sweeps else reds)) ∧
    (¬ (enable_simd = true ∧ block.isInnermost = true ∧ simd_compatible env block db = true) →
      (simd_part env block db enable_simd ss reds).1 = ss ∧
      (simd_part env block db enable_simd ss reds).2 = reds) := by
  unfold simd_part
  constructor
  · intro h
    rw [if_pos h]
    exact ⟨rfl, rfl⟩
  · intro h
    rw [if_neg h]
    exact ⟨rfl, rfl⟩

theorem reduction_clause_ne (env : CodegenEnv) (db : BaseDB) (reds : List InstrPtr) :
    Clause.parallel_for ∉ reds.map (reduction_clause env db) ∧
    Clause.simd ∉ reds.map (reduction_clause env db) := by
  constructor
  · intro h
    obtain ⟨s, _, hs⟩ := List.mem_map.mp h
    cases hs
  · intro h
    obtain ⟨s, _, hs⟩ := List.mem_map.mp h
    cases hs

theorem filter_reduction_clauses (env : CodegenEnv) (db : BaseDB) (reds : List InstrPtr) :
    (reds.map (reduction_clause env db)).filter Clause.isReduction
      = reds.map (reduction_clause env db) := by
  rw [List.filter_eq_self]
  intro c hc
  obtain ⟨s, _, hs⟩ := List.mem_map.mp hc
  rw [← hs]
  rfl

/-- The clauses of the pragma that `write_openmp_header` writes. -/
theorem write_openmp_header_clauses (env : CodegenEnv) (block : LoopB) (db : BaseDB)
    (config : ConfigParser) (db1 : BaseDB) (out : List Tok) (cl : List Clause)
    (h : write_openmp_header env block db config = .ok (db1, out))
    (hcl : Tok.pragma_omp cl ∈ out) :
    config.compiler_openmp = true ∧
    out = [Tok.pragma_omp cl, Tok.spaces (4 + block.rank * 4)] ∧
    ∃ ss0 reds, parallel_part env block db = .ok (db1, ss0, reds) ∧
      (∀ s ∈ (simd_part env block db1 config.compiler_openmp_simd ss0 reds).2,
        env.ops.bh_noperands s.opcode = 3) ∧
      cl = (simd_part env block db1 config.compiler_openmp_simd ss0 reds).1
        ++ (simd_part env block db1 config.compiler_openmp_simd ss0 reds).2.map
          (reduction_clause env db1) := by
  have hc : config.compiler_openmp = true := by
    cases hcc : config.compiler_openmp with
    | true => rfl
    | false =>
      unfold write_openmp_header at h
      rw [if_pos hcc] at h
      have e := (Prod.mk.inj (Except.ok.inj h)).2
      rw [← e] at hcl
      exact absurd hcl (List.not_mem_nil _)
  obtain ⟨ss0, reds, hp, h3, hout⟩ := write_openmp_header_ok env block db config db1 out hc h
  refine ⟨hc, ?_, ss0, reds, hp, h3, ?_⟩
  · rw [hout] at hcl ⊢
    split at hcl
    · rename_i hne
      rw [if_pos hne]
      rcases List.mem_cons.mp hcl with e | e
      · rw [← (Tok.pragma_omp.inj e)]
      · simp at e
    · exact absurd hcl (List.not_mem_nil _)
  · rw [hout] at hcl
    split at hcl
    · rcases List.mem_cons.mp hcl with e | e
      · exact Tok.pragma_omp.inj e
      · simp at e
    · exact absurd hcl (List.not_mem_nil _)

/-- Claim C26: with `compiler_openmp` switched on, `write_openmp_header` (on a block whose
sweeps have three operands) returns, and the text it writes holds `parallel for` exactly
when the block has rank 0 and every sweep of it is a reduction; with `compiler_openmp`
switched off it writes nothing and returns `base_ids` as it was. -/
theorem write_openmp_header_parallel_for (env : CodegenEnv) (block : LoopB) (db : BaseDB)
    (config : ConfigParser) (h3 : ∀ s ∈ block._sweeps, env.ops.bh_noperands s.opcode = 3) :
    (config.compiler_openmp = true →
      ∃ db1 out, write_openmp_header env block db config = .ok (db1, out) ∧
        ((∃ cl, Tok.pragma_omp cl ∈ out ∧ Clause.parallel_for ∈ cl) ↔
          (block.rank = 0 ∧ ∀ s ∈ block._sweeps, env.bh_opcode_is_reduction s.opcode = true))) ∧
    (config.compiler_openmp = false →
      write_openmp_header env block db config = .ok (db, [])) := by
  constructor
  · intro hc
    obtain ⟨⟨db1, out⟩, h⟩ := write_openmp_header_returns env block db config h3
    refine ⟨db1, out, h, ?_⟩
    obtain ⟨ss0, reds, hp, _, hout⟩ := write_openmp_header_ok env block db config db1 out hc h
    obtain ⟨p1, p2⟩ := parallel_part_ok env block db db1 ss0 reds hp
    rw [← openmp_compatible_iff]
    constructor
    · rintro ⟨cl, hcl, hpar⟩
      obtain ⟨_, _, ss0b, redsb, hpb, _, ecl⟩ :=
        write_openmp_header_clauses env block db config db1 out cl h hcl
      rw [hp] at hpb
      have e23 := Prod.mk.inj (Prod.mk.inj (Except.ok.inj hpb)).2
      rw [← e23.1, ← e23.2] at ecl
      by_contra hn
      obtain ⟨_, hs0, _⟩ := p2 hn
      rw [hs0] at ecl
      rw [ecl] at hpar
      rcases List.mem_append.mp hpar with hm | hm
      · by_cases hsimd : (config.compiler_openmp_simd = true ∧ block.isInnermost = true ∧
            simd_compatible env block db1 = true)
        · rw [((simd_part_fst env block db1 _ [] reds).1 hsimd).1] at hm
          simp at hm
        · rw [((simd_part_fst env block db1 _ [] reds).2 hsimd).1] at hm
          simp at hm
      · exact (reduction_clause_ne env db1 _).1 hm
    · intro hpar
      obtain ⟨_, hs0, _⟩ := p1 hpar
      have hmem : Clause.parallel_for ∈
          (simd_part env block db1 config.compiler_openmp_simd ss0 reds).1 := by
        by_cases hsimd : (config.compiler_openmp_simd = true ∧ block.isInnermost = true ∧
            simd_compatible env block db1 = true)
        · rw [((simd_part_fst env block db1 _ ss0 reds).1 hsimd).1, hs0]
          simp
        · rw [((simd_part_fst env block db1 _ ss0 reds).2 hsimd).1, hs0]
          simp
      have hne : (simd_part env block db1 config.compiler_openmp_simd ss0 reds).1
            ++ (simd_part env block db1 config.compiler_openmp_simd ss0 reds).2.map
              (reduction_clause env db1) ≠ [] := by
        intro he
        have := List.mem_append_left
          ((simd_part env block db1 config.compiler_openmp_simd ss0 reds).2.map
              (reduction_clause env db1)) hmem
        rw [he] at this
        exact absurd this (List.not_mem_nil _)
      rw [if_pos hne] at hout
      refine ⟨(simd_part env block db1 config.compiler_openmp_simd ss0 reds).1
            ++ (simd_part env block db1 config.compiler_openmp_simd ss0 reds).2.map
              (reduction_clause env db1), ?_, List.mem_append_left _ hmem⟩
      rw [hout]
      exact List.mem_cons_self _ _
  · intro hc
    unfold write_openmp_header
    rw [if_pos hc]

theorem write_openmp_header_parallel_for_witness :
    (∀ s ∈ (ex_reduce_block 10 10)._sweeps, ex_codegen.ops.bh_noperands s.opcode = 3) ∧
    write_openmp_header ex_codegen (ex_reduce_block 10 10)
        (ex_base_ids.insertScalarReplacement (some 1)) ex_config
      = .ok (ex_base_ids.insertScalarReplacement (some 1),
        [Tok.pragma_omp [.parallel_for, .simd, .reduction (some "+") true 1], Tok.spaces 4]) ∧
    write_openmp_header ex_codegen (.mk 1 5 [.instr 2 ex_row_sum] [ex_row_sum])
        (ex_base_ids.insertScalarReplacement (some 1)) ex_config
      = .ok (ex_base_ids.insertScalarReplacement (some 1),
        [Tok.pragma_omp [.simd, .reduction (some "+") true 1], Tok.spaces 8]) ∧
    ((ex_config.compiler_openmp = true →
      ∃ db1 out, write_openmp_header ex_codegen (ex_reduce_block 10 10) ex_base_ids ex_config
          = .ok (db1, out) ∧
        ((∃ cl, Tok.pragma_omp cl ∈ out ∧ Clause.parallel_for ∈ cl) ↔
          ((ex_reduce_block 10 10).rank = 0 ∧ ∀ s ∈ (ex_reduce_block 10 10)._sweeps,
            ex_codegen.bh_opcode_is_reduction s.opcode = true))) ∧
    (ex_config.compiler_openmp = false →
      write_openmp_header ex_codegen (ex_reduce_block 10 10) ex_base_ids ex_config
        = .ok (ex_base_ids, []))) :=
  ⟨by decide, rfl, rfl,
    write_openmp_header_parallel_for ex_codegen (ex_reduce_block 10 10) ex_base_ids ex_config
      (by decide)⟩

theorem simd_part_fst_cases (env : CodegenEnv) (block : LoopB) (db : BaseDB)
    (enable_simd : Bool) (ss : List Clause) (reds : List InstrPtr) :
    (simd_part env block db enable_simd ss reds).1 = ss ∨
    (simd_part env block db enable_simd ss reds).1 = ss ++ [Clause.simd] := by
  by_cases hsimd : (enable_simd = true ∧ block.isInnermost = true ∧
      simd_compatible env block db = true)
  · exact Or.inr ((simd_part_fst env block db _ ss reds).1 hsimd).1
  · exact Or.inl ((simd_part_fst env block db _ ss reds).2 hsimd).1

/-- The clause `parallel for` stands in the pragma exactly when the `parallel for` part
ran. -/
theorem header_parallel_iff (env : CodegenEnv) (block : LoopB) (db db1 : BaseDB)
    (enable_simd : Bool) (ss0 : List Clause) (reds : List InstrPtr)
    (hp : parallel_part env block db = .ok (db1, ss0, reds)) :
    Clause.parallel_for ∈ (simd_part env block db1 enable_simd ss0 reds).1
        ++ (simd_part env block db1 enable_simd ss0 reds).2.map (reduction_clause env db1)
      ↔ (block.rank = 0 ∧ openmp_compatible env block = true) := by
  obtain ⟨p1, p2⟩ := parallel_part_ok env block db db1 ss0 reds hp
  constructor
  · intro hm
    by_contra hn
    obtain ⟨_, hs0, _⟩ := p2 hn
    rcases List.mem_append.mp hm with hm | hm
    · rcases simd_part_fst_cases env block db1 enable_simd ss0 reds with e | e
      · rw [e, hs0] at hm
        simp at hm
      · rw [e, hs0] at hm
        simp at hm
    · exact (reduction_clause_ne env db1 _).1 hm
  · intro hpar
    obtain ⟨_, hs0, _⟩ := p1 hpar
    apply List.mem_append_left
    rcases simd_part_fst_cases env block db1 enable_simd ss0 reds with e | e
    · rw [e, hs0]
      simp
    · rw [e, hs0]
      simp

/-- The clause `simd` stands in the pragma exactly when the `simd` part ran. -/
theorem header_simd_iff (env : CodegenEnv) (block : LoopB) (db db1 : BaseDB)
    (enable_simd : Bool) (ss0 : List Clause) (reds : List InstrPtr)
    (hp : parallel_part env block db = .ok (db1, ss0, reds)) :
    Clause.simd ∈ (simd_part env block db1 enable_simd ss0 reds).1
        ++ (simd_part env block db1 enable_simd ss0 reds).2.map (reduction_clause env db1)
      ↔ (enable_simd = true ∧ block.isInnermost = true ∧
          simd_compatible env block db1 = true) := by
  obtain ⟨p1, p2⟩ := parallel_part_ok env block db db1 ss0 reds hp
  have hss : Clause.simd ∉ ss0 := by
    by_cases hpar : block.rank = 0 ∧ openmp_compatible env block = true
    · rw [(p1 hpar).2.1]
      simp
    · rw [(p2 hpar).2.1]
      simp
  constructor
  · intro hm
    by_contra hn
    rcases List.mem_append.mp hm with hm | hm
    · rw [((simd_part_fst env block db1 _ ss0 reds).2 hn).1] at hm
      exact hss hm
    · exact (reduction_clause_ne env db1 _).2 hm
  · intro hs
    apply List.mem_append_left
    rw [((simd_part_fst env block db1 _ ss0 reds).1 hs).1]
    simp

theorem classes_exclusive (env : CodegenEnv) (db : BaseDB) (s : bh_instruction) :
    (reduction_class env db s = true ∧ atomic_class env db s = false ∧
      critical_class env db s = false) ∨
    (reduction_class env db s = false ∧ atomic_class env db s = true ∧
      critical_class env db s = false) ∨
    (reduction_class env db s = false ∧ atomic_class env db s = false ∧
      critical_class env db s = true) := by
  unfold atomic_class critical_class
  cases reduction_class env db s <;> cases openmp_atomic_compatible env s.opcode <;> simp

theorem openmp_reduce_compatible_iff (env : CodegenEnv) (opcode : Nat) :
    openmp_reduce_compatible env opcode = true ↔
      opcode ∈ [env.BH_ADD_REDUCE, env.BH_MULTIPLY_REDUCE, env.BH_BITWISE_AND_REDUCE,
        env.BH_BITWISE_OR_REDUCE, env.BH_BITWISE_XOR_REDUCE, env.BH_MAXIMUM_REDUCE,
        env.BH_MINIMUM_REDUCE] := by
  unfold openmp_reduce_compatible openmp_reduce_symbol
  simp only [List.mem_cons, List.mem_singleton, List.not_mem_nil, or_false]
  by_cases h1 : opcode = env.BH_ADD_REDUCE
  · rw [if_pos h1]
    simp [h1]
  rw [if_neg h1]
  by_cases h2 : opcode = env.BH_MULTIPLY_REDUCE
  · rw [if_pos h2]
    simp [h2]
  rw [if_neg h2]
  by_cases h3 : opcode = env.BH_BITWISE_AND_REDUCE
  · rw [if_pos h3]
    simp [h3]
  rw [if_neg h3]
  by_cases h4 : opcode = env.BH_BITWISE_OR_REDUCE
  · rw [if_pos h4]
    simp [h4]
  rw [if_neg h4]
  by_cases h5 : opcode = env.BH_BITWISE_XOR_REDUCE
  · rw [if_pos h5]
    simp [h5]
  rw [if_neg h5]
  by_cases h6 : opcode = env.BH_MAXIMUM_REDUCE
  · rw [if_pos h6]
    simp [h6]
  rw [if_neg h6]
  by_cases h7 : opcode = env.BH_MINIMUM_REDUCE
  · rw [if_pos h7]
    simp [h7]
  rw [if_neg h7]
  simp [h1, h2, h3, h4, h5, h6, h7]

theorem openmp_atomic_compatible_iff (env : CodegenEnv) (opcode : Nat) :
    openmp_atomic_compatible env opcode = true ↔
      opcode ∈ [env.BH_ADD_REDUCE, env.BH_MULTIPLY_REDUCE, env.BH_BITWISE_AND_REDUCE,
        env.BH_BITWISE_OR_REDUCE, env.BH_BITWISE_XOR_REDUCE] := by
  unfold openmp_atomic_compatible
  simp only [Bool.or_eq_true, decide_eq_true_eq, List.mem_cons, List.mem_singleton,
    List.not_mem_nil, or_false, or_assoc]

theorem marked_flags (db : BaseDB) (a c : List BasePtr) (b : BasePtr) :
    (b ∈ a → (db.marked a c).isOpenmpAtomic b = true) ∧
    (b ∈ c → (db.marked a c).isOpenmpCritical b = true) := by
  unfold BaseDB.marked BaseDB.isOpenmpAtomic BaseDB.isOpenmpCritical
  simp only [decide_eq_true_eq, Finset.mem_union, List.mem_toFinset]
  exact ⟨Or.inr, Or.inr⟩

/-- Claim C27: when the text written by `write_openmp_header` holds `parallel for`, the
reduction clauses of the pragma are those of the sweeps whose opcode has an OpenMP
reduction symbol (`+ * & | ^ max min`) and whose output base is scalar replaced or a
temporary array; among the other sweeps, the output bases of those with one of the opcodes
`+ * & | ^` are marked atomic and the output bases of the rest are marked critical, and
nothing else is marked.  Every sweep is in exactly one of the three classes, and has its
clause or its mark. -/
theorem write_openmp_header_protects (env : CodegenEnv) (block : LoopB) (db : BaseDB)
    (config : ConfigParser) (db1 : BaseDB) (out : List Tok) (cl : List Clause)
    (h : write_openmp_header env block db config = .ok (db1, out))
    (hcl : Tok.pragma_omp cl ∈ out) (hpar : Clause.parallel_for ∈ cl) :
    out = [Tok.pragma_omp cl, Tok.spaces (4 + block.rank * 4)] ∧
    cl.filter Clause.isReduction
      = (block._sweeps.filter (reduction_class env db)).map (reduction_clause env db) ∧
    db1 = db.marked
      ((block._sweeps.filter (atomic_class env db)).map (fun s => s.operand0.base))
      ((block._sweeps.filter (critical_class env db)).map (fun s => s.operand0.base)) ∧
    (∀ s ∈ block._sweeps,
      (reduction_class env db s = true ∧ atomic_class env db s = false ∧
        critical_class env db s = false ∧ reduction_clause env db s ∈ cl) ∨
      (reduction_class env db s = false ∧ atomic_class env db s = true ∧
        critical_class env db s = false ∧ db1.isOpenmpAtomic s.operand0.base = true) ∨
      (reduction_class env db s = false ∧ atomic_class env db s = false ∧
        critical_class env db s = true ∧ db1.isOpenmpCritical s.operand0.base = true)) ∧
    (∀ s : bh_instruction, reduction_class env db s = true ↔
      s.opcode ∈ [env.BH_ADD_REDUCE, env.BH_MULTIPLY_REDUCE, env.BH_BITWISE_AND_REDUCE,
        env.BH_BITWISE_OR_REDUCE, env.BH_BITWISE_XOR_REDUCE, env.BH_MAXIMUM_REDUCE,
        env.BH_MINIMUM_REDUCE] ∧
      (db.isScalarReplaced s.operand0.base = true ∨ db.isTmp s.operand0.base = true)) ∧
    (∀ s : bh_instruction, atomic_class env db s = true ↔
      reduction_class env db s = false ∧
      s.opcode ∈ [env.BH_ADD_REDUCE, env.BH_MULTIPLY_REDUCE, env.BH_BITWISE_AND_REDUCE,
        env.BH_BITWISE_OR_REDUCE, env.BH_BITWISE_XOR_REDUCE]) := by
  obtain ⟨_, hout, ss0, reds, hp, _, ecl⟩ :=
    write_openmp_header_clauses env block db config db1 out cl h hcl
  rw [ecl] at hpar
  have hp0 := (header_parallel_iff env block db db1 _ ss0 reds hp).mp hpar
  obtain ⟨edb, hs0, hreds⟩ := (parallel_part_ok env block db db1 ss0 reds hp).1 hp0
  have hr2 : (simd_part env block db1 config.compiler_openmp_simd ss0 reds).2 = reds := by
    by_cases hsimd : (config.compiler_openmp_simd = true ∧ block.isInnermost = true ∧
        simd_compatible env block db1 = true)
    · rw [((simd_part_fst env block db1 _ ss0 reds).1 hsimd).2, if_neg (by omega)]
    · exact ((simd_part_fst env block db1 _ ss0 reds).2 hsimd).2
  have hclause : reduction_clause env db1 = reduction_clause env db := by
    rw [edb]
    rfl
  rw [hr2, hclause] at ecl
  have hfilter : cl.filter Clause.isReduction = reds.map (reduction_clause env db) := by
    rw [ecl, List.filter_append, filter_reduction_clauses]
    rcases simd_part_fst_cases env block db1 config.compiler_openmp_simd ss0 reds with e | e
    · rw [e, hs0]
      rfl
    · rw [e, hs0]
      rfl
  rw [hreds] at hfilter
  refine ⟨hout, hfilter, edb, ?_, ?_, ?_⟩
  · intro s hs
    rcases classes_exclusive env db s with ⟨a, b, c⟩ | ⟨a, b, c⟩ | ⟨a, b, c⟩
    · refine Or.inl ⟨a, b, c, ?_⟩
      rw [ecl]
      apply List.mem_append_right
      rw [hreds]
      exact List.mem_map.mpr ⟨s, List.mem_filter.mpr ⟨hs, a⟩, rfl⟩
    · refine Or.inr (Or.inl ⟨a, b, c, ?_⟩)
      rw [edb]
      apply (marked_flags db _ _ _).1
      exact List.mem_map.mpr ⟨s, List.mem_filter.mpr ⟨hs, b⟩, rfl⟩
    · refine Or.inr (Or.inr ⟨a, b, c, ?_⟩)
      rw [edb]
      apply (marked_flags db _ _ _).2
      exact List.mem_map.mpr ⟨s, List.mem_filter.mpr ⟨hs, c⟩, rfl⟩
  · intro s
    unfold reduction_class
    rw [Bool.and_eq_true, Bool.or_eq_true, openmp_reduce_compatible_iff]
  · intro s
    unfold atomic_class
    rw [Bool.and_eq_true, openmp_atomic_compatible_iff]
    simp only [Bool.not_eq_true']

theorem write_openmp_header_protects_witness :
    write_openmp_header ex_codegen ex_mixed_block ex_base_ids_scalar ex_config
      = .ok (ex_base_ids_scalar.marked [some 2] [some 0],
        [Tok.pragma_omp [.parallel_for, .reduction (some "+") true 1], Tok.spaces 4]) ∧
    Tok.pragma_omp [.parallel_for, .reduction (some "+") true 1]
      ∈ [Tok.pragma_omp [.parallel_for, .reduction (some "+") true 1], Tok.spaces 4] ∧
    Clause.parallel_for ∈ [Clause.parallel_for, Clause.reduction (some "+") true 1] ∧
    ex_mixed_sweeps.map (fun s => (reduction_class ex_codegen ex_base_ids_scalar s,
        atomic_class ex_codegen ex_base_ids_scalar s,
        critical_class ex_codegen ex_base_ids_scalar s))
      = [(true, false, false), (false, true, false), (false, false, true)] ∧
    [Clause.parallel_for, Clause.reduction (some "+") true 1].filter Clause.isReduction
      = (ex_mixed_block._sweeps.filter (reduction_class ex_codegen ex_base_ids_scalar)).map
        (reduction_clause ex_codegen ex_base_ids_scalar) ∧
    ex_base_ids_scalar.marked [some 2] [some 0] = ex_base_ids_scalar.marked
      ((ex_mixed_block._sweeps.filter (atomic_class ex_codegen ex_base_ids_scalar)).map
        (fun s => s.operand0.base))
      ((ex_mixed_block._sweeps.filter (critical_class ex_codegen ex_base_ids_scalar)).map
        (fun s => s.operand0.base)) :=
  ⟨rfl, by decide, by decide, by decide,
    (write_openmp_header_protects ex_codegen ex_mixed_block ex_base_ids_scalar ex_config
      (ex_base_ids_scalar.marked [some 2] [some 0])
      [Tok.pragma_omp [.parallel_for, .reduction (some "+") true 1], Tok.spaces 4]
      [.parallel_for, .reduction (some "+") true 1] rfl (by decide) (by decide)).2.1,
    (write_openmp_header_protects ex_codegen ex_mixed_block ex_base_ids_scalar ex_config
      (ex_base_ids_scalar.marked [some 2] [some 0])
      [Tok.pragma_omp [.parallel_for, .reduction (some "+") true 1], Tok.spaces 4]
      [.parallel_for, .reduction (some "+") true 1] rfl (by decide) (by decide)).2.2.1⟩

theorem simd_compatible_iff (env : CodegenEnv) (block : LoopB) (db : BaseDB) :
    simd_compatible env block db = true ↔
      (∀ s ∈ block._sweeps, openmp_reduce_compatible env s.opcode = true) ∧
      (∀ b ∈ block.getAllBases, db.isOpenmpAtomic b = false ∧ db.isOpenmpCritical b = false) := by
  unfold simd_compatible
  rw [Bool.and_eq_true, List.all_eq_true, List.all_eq_true]
  constructor
  · rintro ⟨h1, h2⟩
    refine ⟨h1, fun b hb => ?_⟩
    have := h2 b hb
    cases ha : db.isOpenmpAtomic b <;> cases hc : db.isOpenmpCritical b <;>
      simp [ha, hc] at this ⊢
  · rintro ⟨h1, h2⟩
    refine ⟨h1, fun b hb => ?_⟩
    obtain ⟨ha, hc⟩ := h2 b hb
    simp [ha, hc]

/-- Claim C30: when the text written by `write_openmp_header` holds `simd`, the block is
innermost, no base of the block is marked atomic or critical, every sweep of the block
has an OpenMP reduction symbol, and the reduction clauses of the pragma are one clause for
each sweep of the block: at rank 0 they follow `parallel for simd` and come from the
`parallel for` part, at a rank above 0 they follow `simd` and there is no `parallel for`.
This is proved for opcode tables in which an opcode with a reduction symbol is a
reduction, and for blocks whose bases include the output bases of their sweeps. -/
theorem write_openmp_header_simd (env : CodegenEnv) (block : LoopB) (db : BaseDB)
    (config : ConfigParser) (db1 : BaseDB) (out : List Tok) (cl : List Clause)
    (h : write_openmp_header env block db config = .ok (db1, out))
    (hcl : Tok.pragma_omp cl ∈ out) (hsimd : Clause.simd ∈ cl)
    (htab : ∀ s ∈ block._sweeps, openmp_reduce_compatible env s.opcode = true →
      env.bh_opcode_is_reduction s.opcode = true)
    (hbase : ∀ s ∈ block._sweeps, s.operand0.base ∈ block.getAllBases) :
    block.isInnermost = true ∧
    (∀ b ∈ block.getAllBases,
      db1.isOpenmpAtomic b = false ∧ db1.isOpenmpCritical b = false) ∧
    (∀ s ∈ block._sweeps, ∃ symbol, openmp_reduce_symbol env s.opcode = some symbol) ∧
    cl.filter Clause.isReduction = block._sweeps.map (reduction_clause env db1) ∧
    (block.rank = 0 →
      cl = [Clause.parallel_for, Clause.simd] ++ block._sweeps.map (reduction_clause env db1) ∧
      (∀ s ∈ block._sweeps, reduction_class env db s = true)) ∧
    (block.rank > 0 → cl = [Clause.simd] ++ block._sweeps.map (reduction_clause env db1)) := by
  obtain ⟨_, _, ss0, reds, hp, _, ecl⟩ :=
    write_openmp_header_clauses env block db config db1 out cl h hcl
  rw [ecl] at hsimd
  have hc := (header_simd_iff env block db db1 _ ss0 reds hp).mp hsimd
  obtain ⟨hsym, hflags⟩ := (simd_compatible_iff env block db1).mp hc.2.2
  obtain ⟨e1, e2⟩ := (simd_part_fst env block db1 _ ss0 reds).1 hc
  rw [e1, e2] at ecl
  obtain ⟨p1, p2⟩ := parallel_part_ok env block db db1 ss0 reds hp
  have hcompat : openmp_compatible env block = true :=
    (openmp_compatible_iff env block).mpr (fun s hs => htab s hs (hsym s hs))
  have hcases : (block.rank = 0 →
      cl = [Clause.parallel_for, Clause.simd] ++ block._sweeps.map (reduction_clause env db1) ∧
      (∀ s ∈ block._sweeps, reduction_class env db s = true)) ∧
    (block.rank > 0 → cl = [Clause.simd] ++ block._sweeps.map (reduction_clause env db1)) := by
    constructor
    · intro hr
      obtain ⟨edb, hs0, hreds⟩ := p1 ⟨hr, hcompat⟩
      have hall : ∀ s ∈ block._sweeps, reduction_class env db s = true := by
        intro s hs
        rcases classes_exclusive env db s with ⟨a, _, _⟩ | ⟨_, b, _⟩ | ⟨_, _, c⟩
        · exact a
        · have hm := (marked_flags db
            ((block._sweeps.filter (atomic_class env db)).map (fun s => s.operand0.base))
            ((block._sweeps.filter (critical_class env db)).map (fun s => s.operand0.base))
            s.operand0.base).1
            (List.mem_map.mpr ⟨s, List.mem_filter.mpr ⟨hs, b⟩, rfl⟩)
          rw [← edb, (hflags _ (hbase s hs)).1] at hm
          cases hm
        · have hm := (marked_flags db
            ((block._sweeps.filter (atomic_class env db)).map (fun s => s.operand0.base))
            ((block._sweeps.filter (critical_class env db)).map (fun s => s.operand0.base))
            s.operand0.base).2
            (List.mem_map.mpr ⟨s, List.mem_filter.mpr ⟨hs, c⟩, rfl⟩)
          rw [← edb, (hflags _ (hbase s hs)).2] at hm
          cases hm
      refine ⟨?_, hall⟩
      rw [ecl, hs0, if_neg (by omega), hreds, List.filter_eq_self.mpr hall]
      rfl
    · intro hr
      obtain ⟨_, hs0, hreds⟩ := p2 (fun hh => by omega)
      rw [ecl, hs0, if_pos hr, hreds]
      rfl
  refine ⟨hc.2.1, hflags, ?_, ?_, hcases⟩
  · intro s hs
    have := hsym s hs
    unfold openmp_reduce_compatible at this
    exact Option.isSome_iff_exists.mp this
  · rcases Nat.eq_zero_or_pos block.rank with hr | hr
    · rw [(hcases.1 hr).1, List.filter_append, filter_reduction_clauses]
      rfl
    · rw [hcases.2 hr, List.filter_append, filter_reduction_clauses]
      rfl

theorem write_openmp_header_simd_witness :
    write_openmp_header ex_codegen (ex_reduce_block 10 10) ex_base_ids_scalar ex_config
      = .ok (ex_base_ids_scalar,
        [Tok.pragma_omp [.parallel_for, .simd, .reduction (some "+") true 1], Tok.spaces 4]) ∧
    Tok.pragma_omp [.parallel_for, .simd, .reduction (some "+") true 1]
      ∈ [Tok.pragma_omp [.parallel_for, .simd, .reduction (some "+") true 1], Tok.spaces 4] ∧
    Clause.simd ∈ [Clause.parallel_for, Clause.simd, Clause.reduction (some "+") true 1] ∧
    (∀ s ∈ (ex_reduce_block 10 10)._sweeps,
      openmp_reduce_compatible ex_codegen s.opcode = true →
      ex_codegen.bh_opcode_is_reduction s.opcode = true) ∧
    (∀ s ∈ (ex_reduce_block 10 10)._sweeps,
      s.operand0.base ∈ (ex_reduce_block 10 10).getAllBases) ∧
    ((ex_reduce_block 10 10).isInnermost = true ∧
    (∀ b ∈ (ex_reduce_block 10 10).getAllBases,
      ex_base_ids_scalar.isOpenmpAtomic b = false ∧
      ex_base_ids_scalar.isOpenmpCritical b = false) ∧
    (∀ s ∈ (ex_reduce_block 10 10)._sweeps,
      ∃ symbol, openmp_reduce_symbol ex_codegen s.opcode = some symbol) ∧
    [Clause.parallel_for, Clause.simd, Clause.reduction (some "+") true 1].filter
        Clause.isReduction
      = (ex_reduce_block 10 10)._sweeps.map (reduction_clause ex_codegen ex_base_ids_scalar) ∧
    ((ex_reduce_block 10 10).rank = 0 →
      [Clause.parallel_for, Clause.simd, Clause.reduction (some "+") true 1]
        = [Clause.parallel_for, Clause.simd]
          ++ (ex_reduce_block 10 10)._sweeps.map
            (reduction_clause ex_codegen ex_base_ids_scalar) ∧
      (∀ s ∈ (ex_reduce_block 10 10)._sweeps,
        reduction_class ex_codegen ex_base_ids_scalar s = true)) ∧
    ((ex_reduce_block 10 10).rank > 0 →
      [Clause.parallel_for, Clause.simd, Clause.reduction (some "+") true 1]
        = [Clause.simd] ++ (ex_reduce_block 10 10)._sweeps.map
          (reduction_clause ex_codegen ex_base_ids_scalar))) :=
  ⟨rfl, by decide, by decide, by decide, by decide,
    write_openmp_header_simd ex_codegen (ex_reduce_block 10 10) ex_base_ids_scalar ex_config
      ex_base_ids_scalar
      [Tok.pragma_omp [.parallel_for, .simd, .reduction (some "+") true 1], Tok.spaces 4]
      [.parallel_for, .simd, .reduction (some "+") true 1] rfl (by decide) (by decide)
      (by decide) (by decide)⟩

/-! ## Guards and marks across the nesting -/

mutual
theorem block_sweep_bases_mapInstr (f : bh_instruction → bh_instruction) : ∀ (b : Block),
    (b.mapInstr f).sweep_bases = b.sweep_bases
  | .instr k i => by simp only [Block.mapInstr, Block.sweep_bases]
  | .loop l => by
    simp only [Block.mapInstr, Block.sweep_bases]
    exact loop_sweep_bases_mapInstr f l
theorem loop_sweep_bases_mapInstr (f : bh_instruction → bh_instruction) : ∀ (l : LoopB),
    (l.mapInstr f).sweep_bases = l.sweep_bases
  | .mk a b l c => by
    simp only [LoopB.mapInstr, LoopB.sweep_bases]
    rw [sweep_bases_list_mapInstr f l]
theorem sweep_bases_list_mapInstr (f : bh_instruction → bh_instruction) :
    ∀ (l : List Block), sweep_bases_list (mapInstrList f l) = sweep_bases_list l
  | [] => rfl
  | b :: bs => by
    simp only [mapInstrList, sweep_bases_list]
    rw [block_sweep_bases_mapInstr f b, sweep_bases_list_mapInstr f bs]
end

mutual
theorem block_ranks_pos_mapInstr (f : bh_instruction → bh_instruction) : ∀ (b : Block),
    (b.mapInstr f).ranks_pos = b.ranks_pos
  | .instr k i => by simp only [Block.mapInstr, Block.ranks_pos]
  | .loop l => by
    simp only [Block.mapInstr, Block.ranks_pos]
    exact loop_ranks_pos_mapInstr f l
theorem loop_ranks_pos_mapInstr (f : bh_instruction → bh_instruction) : ∀ (l : LoopB),
    (l.mapInstr f).ranks_pos = l.ranks_pos
  | .mk a b l c => by
    simp only [LoopB.mapInstr, LoopB.ranks_pos]
    rw [ranks_pos_list_mapInstr f l]
theorem ranks_pos_list_mapInstr (f : bh_instruction → bh_instruction) :
    ∀ (l : List Block), ranks_pos_list (mapInstrList f l) = ranks_pos_list l
  | [] => rfl
  | b :: bs => by
    simp only [mapInstrList, ranks_pos_list]
    rw [block_ranks_pos_mapInstr f b, ranks_pos_list_mapInstr f bs]
end

theorem sweep_bases_list_mem : ∀ (bs : List Block) (l : LoopB) (x : BasePtr),
    Block.loop l ∈ bs → x ∈ l.sweep_bases → x ∈ sweep_bases_list bs := by
  intro bs
  induction bs with
  | nil => intro l x h; exact absurd h (List.not_mem_nil _)
  | cons b bs ih =>
    intro l x hm hx
    simp only [sweep_bases_list, List.mem_append]
    rcases List.mem_cons.mp hm with rfl | hm
    · exact Or.inl (by simpa only [Block.sweep_bases] using hx)
    · exact Or.inr (ih l x hm hx)

theorem ranks_pos_list_mem : ∀ (bs : List Block) (l : LoopB),
    ranks_pos_list bs = true → Block.loop l ∈ bs → l.ranks_pos = true := by
  intro bs
  induction bs with
  | nil => intro l _ h; exact absurd h (List.not_mem_nil _)
  | cons b bs ih =>
    intro l h hm
    simp only [ranks_pos_list, Bool.and_eq_true] at h
    rcases List.mem_cons.mp hm with rfl | hm
    · simpa only [Block.ranks_pos] using h.1
    · exact ih l h.2 hm

theorem LoopB.sweep_bases_eq (block : LoopB) :
    block.sweep_bases = block._sweeps.map (fun s => s.operand0.base)
      ++ sweep_bases_list block._block_list := by
  cases block
  rfl

theorem LoopB.ranks_pos_iff (block : LoopB) :
    block.ranks_pos = true ↔ block.rank > 0 ∧ ranks_pos_list block._block_list = true := by
  cases block
  simp only [LoopB.ranks_pos, LoopB.rank, LoopB._block_list, Bool.and_eq_true,
    decide_eq_true_eq]

/-- The loops of the peeled block are the loops of the block, as far as sweeps, ranks and
nesting go. -/
theorem peeled_block_list (env : CodegenEnv) (block : LoopB) :
    (peeled_block env block)._block_list
      = mapInstrList (peel_subst env block._sweeps) block._block_list := by
  rw [peeled_block_eq, (LoopB.mapInstr_fields _ block).2.2.2]

/-- A base that is scalar replaced when `write_loop_block` is called, and that is not the
output base of a sweep of the block or of a loop nested in it, is scalar replaced when the
call returns. -/
theorem write_loop_block_keeps (env : CodegenEnv) (config : ConfigParser) (b : BasePtr) :
    ∀ (fuel : Nat) (db : BaseDB) (block : LoopB) (r : BaseDB × List Tok),
      write_loop_block env config fuel db block = .ok r →
      b ∉ block.sweep_bases → b ∈ db._scalar_replacements →
      b ∈ r.1._scalar_replacements := by
  intro fuel
  induction fuel with
  | zero =>
    intro db block r h
    cases h
  | succ fuel ih =>
    intro db block r h hnb hb
    unfold write_loop_block at h
    cases hp : write_loop_parts env config (write_loop_block env config fuel) db block with
    | error e =>
      rw [hp] at h
      cases h
    | ok p =>
      obtain ⟨dbf, t⟩ := p
      rw [hp] at h
      cases h
      obtain ⟨db1, srs, db2, db3, db4, h1, h2, h3, h4, h5, _⟩ :=
        write_loop_parts_ok env config _ db block dbf t hp
      obtain ⟨e1, _, e3⟩ := scalar_replace_ok env block.rank _ _ _ _ _ h1
      rw [LoopB.sweep_bases_eq, List.mem_append, not_or] at hnb
      have hlist : ∀ (bs : List Block), sweep_bases_list bs = sweep_bases_list block._block_list →
          ∀ l, Block.loop l ∈ bs → ∀ (db : BaseDB) (r : BaseDB × List Tok),
            write_loop_block env config fuel db l = .ok r →
            (b ∈ db._scalar_replacements → b ∈ r.1._scalar_replacements) := by
        intro bs hbs l hl db r hr
        apply ih db l r hr
        intro hx
        apply hnb.2
        rw [← hbs]
        exact sweep_bases_list_mem bs l b hl hx
      have b1 : b ∈ db1._scalar_replacements := by
        rw [e3]
        exact Finset.mem_union_left _ hb
      have b2 : b ∈ db2._scalar_replacements := by
        split at h2
        · unfold write_peeled at h2
          cases hq : write_peeled_list (write_loop_block env config fuel)
              (peeled_block env block)._block_list db1 with
          | error e =>
            rw [hq] at h2
            cases h2
          | ok q =>
            rw [hq] at h2
            have e := (Prod.mk.inj (Except.ok.inj h2)).1
            rw [← e]
            exact write_peeled_list_rel
              (fun x y => b ∈ x._scalar_replacements → b ∈ y._scalar_replacements)
              (fun _ hx => hx) (fun _ _ _ f g hx => g (f hx)) _ _ _ _
              (hlist _ (by rw [peeled_block_list, sweep_bases_list_mapInstr])) hq b1
        · have e := (Prod.mk.inj (Except.ok.inj h2)).1
          rw [← e]
          exact b1
      have b3 : b ∈ db3._scalar_replacements := by
        rw [(write_openmp_header_vec env block config _ db2 db3 _ h3).2.2]
        exact b2
      have b4 : b ∈ db4._scalar_replacements :=
        write_body_list_rel
          (fun x y => b ∈ x._scalar_replacements → b ∈ y._scalar_replacements)
          (fun _ hx => hx) (fun _ _ _ f g hx => g (f hx)) env _ _ _ _
          (hlist _ rfl) h4 b3
      rw [store_back_spec] at h5
      subst h5
      show b ∈ db4._scalar_replacements \ (srs.map (fun v => v.base)).toFinset
      rw [Finset.mem_sdiff]
      refine ⟨b4, ?_⟩
      intro hm
      apply hnb.1
      rw [e1, List.map_map, List.mem_toFinset] at hm
      obtain ⟨s, hs, hsb⟩ := List.mem_map.mp hm
      exact List.mem_map.mpr ⟨s, (List.mem_filter.mp hs).1, hsb⟩

theorem unguarded_append (a b : List Tok) (ha : unguarded a) (hb : unguarded b) :
    unguarded (a ++ b) := by
  unfold unguarded at *
  simp only [List.mem_append, not_or]
  exact ⟨⟨ha.1, hb.1⟩, ⟨ha.2, hb.2⟩⟩

theorem unguarded_nil : unguarded [] := by
  unfold unguarded
  simp

theorem unguarded_flatMap {α : Type} (l : List α) (f : α → List Tok)
    (h : ∀ a ∈ l, unguarded (f a)) : unguarded (l.flatMap f) := by
  unfold unguarded at *
  simp only [List.mem_flatMap, not_exists, not_and]
  exact ⟨fun a ha => (h a ha).1, fun a ha => (h a ha).2⟩

theorem write_leaf_unguarded (env : CodegenEnv) (db : BaseDB) (rank : Nat)
    (i : bh_instruction) (hq : db.unmarked) : unguarded (write_leaf env db rank i) := by
  have ha : db.isOpenmpAtomic i.operand0.base = false := by
    unfold BaseDB.isOpenmpAtomic
    rw [hq.1]
    simp
  have hc : db.isOpenmpCritical i.operand0.base = false := by
    unfold BaseDB.isOpenmpCritical
    rw [hq.2]
    simp
  unfold write_leaf unguarded
  rw [ha, hc]
  simp

theorem write_body_list_unguarded (env : CodegenEnv)
    (write : BaseDB → LoopB → Except Failure (BaseDB × List Tok)) :
    ∀ (bs : List Block) (db : BaseDB) (r : BaseDB × List Tok),
      (∀ l, Block.loop l ∈ bs → ∀ db r, db.unmarked → write db l = .ok r →
        r.1.unmarked ∧ unguarded r.2) →
      db.unmarked → write_body_list env write bs db = .ok r →
      r.1.unmarked ∧ unguarded r.2 := by
  intro bs
  induction bs with
  | nil =>
    intro db r _ hq h
    cases h
    exact ⟨hq, unguarded_nil⟩
  | cons b bs ih =>
    intro db r hw hq h
    have hw2 : ∀ l, Block.loop l ∈ bs → ∀ db r, db.unmarked → write db l = .ok r →
        r.1.unmarked ∧ unguarded r.2 := fun l hl => hw l (List.mem_cons_of_mem _ hl)
    cases b with
    | instr rank i =>
      unfold write_body_list at h
      cases hr : write_body_list env write bs db with
      | error e =>
        rw [hr] at h
        cases h
      | ok r1 =>
        rw [hr] at h
        cases h
        obtain ⟨q1, g1⟩ := ih db r1 hw2 hq hr
        exact ⟨q1, unguarded_append _ _ (write_leaf_unguarded env db rank i hq) g1⟩
    | loop l =>
      unfold write_body_list at h
      cases hl : write db l with
      | error e =>
        rw [hl] at h
        cases h
      | ok r1 =>
        rw [hl] at h
        simp only [] at h
        cases hr : write_body_list env write bs r1.1 with
        | error e =>
          rw [hr] at h
          cases h
        | ok r2 =>
          rw [hr] at h
          cases h
          obtain ⟨q1, g1⟩ := hw l (List.mem_cons_self _ _) db r1 hq hl
          obtain ⟨q2, g2⟩ := ih r1.1 r2 hw2 q1 hr
          exact ⟨q2, unguarded_append _ _ g1 g2⟩

theorem write_peeled_list_unguarded
    (write : BaseDB → LoopB → Except Failure (BaseDB × List Tok)) :
    ∀ (bs : List Block) (db : BaseDB) (r : BaseDB × List Tok),
      (∀ l, Block.loop l ∈ bs → ∀ db r, db.unmarked → write db l = .ok r →
        r.1.unmarked ∧ unguarded r.2) →
      db.unmarked → write_peeled_list write bs db = .ok r →
      r.1.unmarked ∧ unguarded r.2 := by
  intro bs
  induction bs with
  | nil =>
    intro db r _ hq h
    cases h
    exact ⟨hq, unguarded_nil⟩
  | cons b bs ih =>
    intro db r hw hq h
    have hw2 : ∀ l, Block.loop l ∈ bs → ∀ db r, db.unmarked → write db l = .ok r →
        r.1.unmarked ∧ unguarded r.2 := fun l hl => hw l (List.mem_cons_of_mem _ hl)
    cases b with
    | instr rank i =>
      unfold write_peeled_list at h
      cases hr : write_peeled_list write bs db with
      | error e =>
        rw [hr] at h
        cases h
      | ok r1 =>
        rw [hr] at h
        cases h
        obtain ⟨q1, g1⟩ := ih db r1 hw2 hq hr
        refine ⟨q1, unguarded_append _ _ ?_ g1⟩
        unfold unguarded
        simp
    | loop l =>
      unfold write_peeled_list at h
      cases hl : write db l with
      | error e =>
        rw [hl] at h
        cases h
      | ok r1 =>
        rw [hl] at h
        simp only [] at h
        cases hr : write_peeled_list write bs r1.1 with
        | error e =>
          rw [hr] at h
          cases h
        | ok r2 =>
          rw [hr] at h
          cases h
          obtain ⟨q1, g1⟩ := hw l (List.mem_cons_self _ _) db r1 hq hl
          obtain ⟨q2, g2⟩ := ih r1.1 r2 hw2 q1 hr
          exact ⟨q2, unguarded_append _ _ g1 g2⟩

theorem write_tmp_decls_unguarded (db : BaseDB) (tmps : Finset BasePtr) (rank : Nat) :
    unguarded (write_tmp_decls db tmps rank) := by
  unfold write_tmp_decls
  apply unguarded_flatMap
  intro a _
  unfold unguarded
  split <;> simp

theorem write_openmp_header_unguarded (env : CodegenEnv) (block : LoopB) (db : BaseDB)
    (config : ConfigParser) (r : BaseDB × List Tok)
    (h : write_openmp_header env block db config = .ok r) : unguarded r.2 := by
  obtain ⟨db1, out⟩ := r
  cases hc : config.compiler_openmp with
  | false =>
    unfold write_openmp_header at h
    rw [if_pos hc] at h
    cases h
    exact unguarded_nil
  | true =>
    obtain ⟨ss0, reds, _, _, hout⟩ := write_openmp_header_ok env block db config db1 out hc h
    show unguarded out
    rw [hout]
    unfold unguarded
    split <;> simp

/-- The text and the marks of one call, when the calls for the nested loops and the header
write no guard and set no mark. -/
theorem write_loop_parts_unguarded (env : CodegenEnv) (config : ConfigParser)
    (write : BaseDB → LoopB → Except Failure (BaseDB × List Tok))
    (db : BaseDB) (block : LoopB) (dbf : BaseDB) (t : LoopText)
    (h : write_loop_parts env config write db block = .ok (dbf, t))
    (hq : db.unmarked)
    (hw : ∀ l, (Block.loop l ∈ block._block_list ∨
        Block.loop l ∈ (peeled_block env block)._block_list) →
      ∀ db r, db.unmarked → write db l = .ok r → r.1.unmarked ∧ unguarded r.2)
    (hh : ∀ db1 decls srs db2 peeled db3 out,
      scalar_replace env block.rank block._sweeps db = .ok (db1, decls, srs) →
      (if (decide (block._sweeps.length > 0) && need_to_peel env db1 block._sweeps) = true
        then write_peeled env write block db1 else .ok (db1, [])) = .ok (db2, peeled) →
      db2.unmarked → write_openmp_header env block db2 config = .ok (db3, out) →
      db3.unmarked) :
    dbf.unmarked ∧ unguarded (t.out block.rank block.size) := by
  obtain ⟨db1, srs, db2, db3, db4, h1, h2, h3, h4, h5, h6, h7, _, h9⟩ :=
    write_loop_parts_ok env config write db block dbf t h
  obtain ⟨_, e2, e3⟩ := scalar_replace_ok env block.rank _ _ _ _ _ h1
  have q1 : db1.unmarked := by
    rw [e3]
    exact hq
  have g_decls : unguarded t.decls := by
    rw [e2]
    apply unguarded_flatMap
    intro a _
    unfold unguarded
    simp
  have g_seeds : unguarded t.seeds := by
    rw [h7]
    split
    · unfold write_seeds
      apply unguarded_flatMap
      intro a _
      unfold unguarded
      simp
    · exact unguarded_nil
  have s2 : db2.unmarked ∧ unguarded t.peeled := by
    split at h2
    · unfold write_peeled at h2
      cases hq2 : write_peeled_list write (peeled_block env block)._block_list db1 with
      | error e =>
        rw [hq2] at h2
        cases h2
      | ok q =>
        rw [hq2] at h2
        obtain ⟨ea, eb⟩ := Prod.mk.inj (Except.ok.inj h2)
        obtain ⟨qq, gq⟩ := write_peeled_list_unguarded write _ db1 q
          (fun l hl => hw l (Or.inr hl)) q1 hq2
        rw [← ea, ← eb]
        refine ⟨qq, ?_⟩
        refine unguarded_append _ _ (unguarded_append _ _ (unguarded_append _ _
          (unguarded_append _ _ ?_ (write_tmp_decls_unguarded _ _ _)) ?_) gq) ?_
        · unfold unguarded
          simp
        · unfold unguarded
          simp
        · unfold unguarded
          simp
    · obtain ⟨ea, eb⟩ := Prod.mk.inj (Except.ok.inj h2)
      rw [← ea, ← eb]
      exact ⟨q1, unguarded_nil⟩
  have s3 : db3.unmarked ∧ unguarded t.header := by
    by_cases hc : (if (decide (block._sweeps.length > 0)
        && need_to_peel env db1 block._sweeps) = true
        then block.size - 1 else block.size) > 1
    · rw [if_pos hc] at h3
      exact ⟨hh db1 _ srs db2 _ db3 _ h1 h2 s2.1 h3,
        write_openmp_header_unguarded env block db2 config _ h3⟩
    · rw [if_neg hc] at h3
      obtain ⟨ea, eb⟩ := Prod.mk.inj (Except.ok.inj h3)
      rw [← ea, ← eb]
      exact ⟨s2.1, unguarded_nil⟩
  obtain ⟨q4, g4⟩ := write_body_list_unguarded env write _ db3 _
    (fun l hl => hw l (Or.inl hl)) s3.1 h4
  have g_store : unguarded t.store := by
    rw [h6, store_back_spec]
    apply unguarded_flatMap
    intro a _
    unfold unguarded
    simp
  constructor
  · rw [h5, store_back_spec]
    exact q4
  · unfold LoopText.out
    refine unguarded_append _ _ (unguarded_append _ _ (unguarded_append _ _
      (unguarded_append _ _ (unguarded_append _ _ (unguarded_append _ _
      (unguarded_append _ _ (unguarded_append _ _ (unguarded_append _ _ ?_ g_decls)
        g_seeds) s2.2) s3.2) ?_) ?_) g4) ?_) g_store
    · unfold unguarded
      simp
    · unfold unguarded
      simp
    · rw [h9]
      exact write_tmp_decls_unguarded _ _ _
    · unfold unguarded
      simp

theorem write_openmp_header_inner (env : CodegenEnv) (block : LoopB) (db2 db3 : BaseDB)
    (config : ConfigParser) (out : List Tok) (hr : block.rank > 0)
    (h : write_openmp_header env block db2 config = .ok (db3, out)) : db3 = db2 := by
  cases hc : config.compiler_openmp with
  | false =>
    unfold write_openmp_header at h
    rw [if_pos hc] at h
    exact ((Prod.mk.inj (Except.ok.inj h)).1).symm
  | true =>
    obtain ⟨ss0, reds, hp, _, _⟩ := write_openmp_header_ok env block db2 config db3 out hc h
    exact ((parallel_part_ok env block db2 db3 ss0 reds hp).2 (fun hh => by omega)).1

/-- A loop of a rank above 0, with loops of ranks above 0 nested in it, is written without
guard and sets no mark when no base is marked at the call. -/
theorem write_loop_block_unguarded (env : CodegenEnv) (config : ConfigParser) :
    ∀ (fuel : Nat) (db : BaseDB) (block : LoopB) (r : BaseDB × List Tok),
      block.ranks_pos = true → db.unmarked →
      write_loop_block env config fuel db block = .ok r →
      r.1.unmarked ∧ unguarded r.2 := by
  intro fuel
  induction fuel with
  | zero =>
    intro db block r _ _ h
    cases h
  | succ fuel ih =>
    intro db block r hpos hq h
    unfold write_loop_block at h
    cases hp : write_loop_parts env config (write_loop_block env config fuel) db block with
    | error e =>
      rw [hp] at h
      cases h
    | ok p =>
      obtain ⟨dbf, t⟩ := p
      rw [hp] at h
      cases h
      obtain ⟨hr, hl⟩ := (LoopB.ranks_pos_iff block).mp hpos
      apply write_loop_parts_unguarded env config _ db block dbf t hp hq
      · intro l hl2 db r hq2 hw
        apply ih db l r _ hq2 hw
        rcases hl2 with hl2 | hl2
        · exact ranks_pos_list_mem _ l hl hl2
        · rw [peeled_block_list] at hl2
          exact ranks_pos_list_mem _ l (by rw [ranks_pos_list_mapInstr]; exact hl) hl2
      · intro _ _ _ db2 _ db3 out _ _ hq2 hh
        rw [write_openmp_header_inner env block db2 db3 config out hr hh]
        exact hq2

/-! ## The guards of the instructions -/

/-- The marks that the `parallel for` part sets. -/
theorem write_openmp_header_marks (env : CodegenEnv) (block : LoopB) (db : BaseDB)
    (config : ConfigParser) (db1 : BaseDB) (out : List Tok) (cl : List Clause)
    (h : write_openmp_header env block db config = .ok (db1, out))
    (hcl : Tok.pragma_omp cl ∈ out) (hpar : Clause.parallel_for ∈ cl) :
    db1 = db.marked
      ((block._sweeps.filter (atomic_class env db)).map (fun s => s.operand0.base))
      ((block._sweeps.filter (critical_class env db)).map (fun s => s.operand0.base)) := by
  obtain ⟨_, _, ss0, reds, hp, _, ecl⟩ :=
    write_openmp_header_clauses env block db config db1 out cl h hcl
  rw [ecl] at hpar
  have hp0 := (header_parallel_iff env block db db1 _ ss0 reds hp).mp hpar
  exact ((parallel_part_ok env block db db1 ss0 reds hp).1 hp0).1

theorem write_leaf_eq (env : CodegenEnv) (db : BaseDB) (rank : Nat) (i : bh_instruction) :
    write_leaf env db rank i =
      if (env.ops.bh_noperands i.opcode > 0 ∧ env.ops.bh_opcode_is_system i.opcode = false)
          ∧ db.isOpenmpAtomic i.operand0.base = true then
        [Tok.spaces (4 + rank * 4), Tok.omp_atomic, Tok.spaces (4 + rank * 4), Tok.instr db i]
      else if (env.ops.bh_noperands i.opcode > 0 ∧ env.ops.bh_opcode_is_system i.opcode = false)
          ∧ db.isOpenmpCritical i.operand0.base = true then
        [Tok.spaces (4 + rank * 4), Tok.omp_critical, Tok.spaces (4 + rank * 4),
          Tok.instr db i]
      else [Tok.spaces (4 + rank * 4), Tok.instr db i] := by
  unfold write_leaf
  by_cases hg : env.ops.bh_noperands i.opcode > 0 ∧ env.ops.bh_opcode_is_system i.opcode = false
  · by_cases ha : db.isOpenmpAtomic i.operand0.base = true
    · simp [hg, ha]
    · by_cases hc : db.isOpenmpCritical i.operand0.base = true
      · simp [hg, ha, hc]
      · simp [hg, ha, hc]
  · simp [hg]

/-- The guard test of the loop that writes the body of the for-loop, for an instruction
leaf that is a child of the block: the leaf is written after `#pragma omp atomic` exactly
when its opcode has operands, is not a system opcode and its output base is marked atomic;
after `#pragma omp critical` exactly when its opcode has operands, is not a system opcode
and its output base is marked critical and not atomic; and after no pragma otherwise; never
after both.  With the marks that `write_openmp_header` sets when it writes `parallel for`,
such a leaf of a sweep with the opcode `BH_ADD_REDUCE` whose output base is neither scalar
replaced nor a temporary array is written after `#pragma omp atomic`, and one of a sweep
without reduction clause whose opcode has no atomic support after `#pragma omp critical`
(unless another sweep has marked its output base atomic).  The loop that writes the peeled
iteration makes no such test. -/
theorem write_leaf_guard (env : CodegenEnv) (block : LoopB) (db0 : BaseDB)
    (config : ConfigParser) (db1 : BaseDB) (out : List Tok) (cl : List Clause)
    (h : write_openmp_header env block db0 config = .ok (db1, out))
    (hcl : Tok.pragma_omp cl ∈ out) (hpar : Clause.parallel_for ∈ cl) :
    (∀ (db : BaseDB) (rank : Nat) (i : bh_instruction),
      (Tok.omp_atomic ∈ write_leaf env db rank i ↔
        (env.ops.bh_noperands i.opcode > 0 ∧ env.ops.bh_opcode_is_system i.opcode = false)
          ∧ db.isOpenmpAtomic i.operand0.base = true) ∧
      (Tok.omp_critical ∈ write_leaf env db rank i ↔
        (env.ops.bh_noperands i.opcode > 0 ∧ env.ops.bh_opcode_is_system i.opcode = false)
          ∧ db.isOpenmpCritical i.operand0.base = true
          ∧ db.isOpenmpAtomic i.operand0.base = false) ∧
      ¬ (Tok.omp_atomic ∈ write_leaf env db rank i ∧
        Tok.omp_critical ∈ write_leaf env db rank i) ∧
      (Tok.omp_atomic ∈ write_leaf env db rank i →
        write_leaf env db rank i = [Tok.spaces (4 + rank * 4), Tok.omp_atomic,
          Tok.spaces (4 + rank * 4), Tok.instr db i]) ∧
      (Tok.omp_critical ∈ write_leaf env db rank i →
        write_leaf env db rank i = [Tok.spaces (4 + rank * 4), Tok.omp_critical,
          Tok.spaces (4 + rank * 4), Tok.instr db i]) ∧
      (Tok.omp_atomic ∉ write_leaf env db rank i → Tok.omp_critical ∉ write_leaf env db rank i →
        write_leaf env db rank i = [Tok.spaces (4 + rank * 4), Tok.instr db i]) ∧
      (∀ (write : BaseDB → LoopB → Except Failure (BaseDB × List Tok)) (bs : List Block)
        (r : BaseDB × List Tok),
        write_body_list env write (Block.instr rank i :: bs) db = .ok r →
        ∃ r2, write_body_list env write bs db = .ok r2 ∧
          r = (r2.1, write_leaf env db rank i ++ r2.2))) ∧
    (∀ s ∈ block._sweeps, ∀ (rank : Nat),
      env.ops.bh_noperands s.opcode > 0 → env.ops.bh_opcode_is_system s.opcode = false →
      (s.opcode = env.BH_ADD_REDUCE → db0.isScalarReplaced s.operand0.base = false →
        db0.isTmp s.operand0.base = false →
        write_leaf env db1 rank s = [Tok.spaces (4 + rank * 4), Tok.omp_atomic,
          Tok.spaces (4 + rank * 4), Tok.instr db1 s]) ∧
      (openmp_atomic_compatible env s.opcode = false → reduction_class env db0 s = false →
        db1.isOpenmpAtomic s.operand0.base = false →
        write_leaf env db1 rank s = [Tok.spaces (4 + rank * 4), Tok.omp_critical,
          Tok.spaces (4 + rank * 4), Tok.instr db1 s])) := by
  constructor
  · intro db rank i
    have hw := write_leaf_eq env db rank i
    refine ⟨?_, ?_, ?_, ?_, ?_, ?_, ?_⟩
    · rw [hw]
      by_cases hg : env.ops.bh_noperands i.opcode > 0
          ∧ env.ops.bh_opcode_is_system i.opcode = false
      · cases ha : db.isOpenmpAtomic i.operand0.base <;>
          cases hc : db.isOpenmpCritical i.operand0.base <;> simp [hg]
      · simp [hg]
    · rw [hw]
      by_cases hg : env.ops.bh_noperands i.opcode > 0
          ∧ env.ops.bh_opcode_is_system i.opcode = false
      · cases ha : db.isOpenmpAtomic i.operand0.base <;>
          cases hc : db.isOpenmpCritical i.operand0.base <;> simp [hg]
      · simp [hg]
    · rw [hw]
      by_cases hg : env.ops.bh_noperands i.opcode > 0
          ∧ env.ops.bh_opcode_is_system i.opcode = false
      · cases ha : db.isOpenmpAtomic i.operand0.base <;>
          cases hc : db.isOpenmpCritical i.operand0.base <;> simp [hg]
      · simp [hg]
    · rw [hw]
      by_cases hg : env.ops.bh_noperands i.opcode > 0
          ∧ env.ops.bh_opcode_is_system i.opcode = false
      · cases ha : db.isOpenmpAtomic i.operand0.base <;>
          cases hc : db.isOpenmpCritical i.operand0.base <;> simp [hg]
      · simp [hg]
    · rw [hw]
      by_cases hg : env.ops.bh_noperands i.opcode > 0
          ∧ env.ops.bh_opcode_is_system i.opcode = false
      · cases ha : db.isOpenmpAtomic i.operand0.base <;>
          cases hc : db.isOpenmpCritical i.operand0.base <;> simp [hg]
      · simp [hg]
    · rw [hw]
      by_cases hg : env.ops.bh_noperands i.opcode > 0
          ∧ env.ops.bh_opcode_is_system i.opcode = false
      · cases ha : db.isOpenmpAtomic i.operand0.base <;>
          cases hc : db.isOpenmpCritical i.operand0.base <;> simp [hg]
      · simp [hg]
    · intro write bs r hr
      unfold write_body_list at hr
      cases hb : write_body_list env write bs db with
      | error e =>
        rw [hb] at hr
        cases hr
      | ok r2 =>
        rw [hb] at hr
        cases hr
        exact ⟨r2, rfl, rfl⟩
  · intro s hs rank hn hsys
    have edb := write_openmp_header_marks env block db0 config db1 out cl h hcl hpar
    have hw := write_leaf_eq env db1 rank s
    constructor
    · intro hop hsr htmp
      have hred : reduction_class env db0 s = false := by
        unfold reduction_class
        rw [hsr, htmp]
        simp
      have hat : atomic_class env db0 s = true := by
        unfold atomic_class
        rw [hred, (openmp_atomic_compatible_iff env s.opcode).mpr (by rw [hop]; simp)]
        rfl
      have hflag : db1.isOpenmpAtomic s.operand0.base = true := by
        rw [edb]
        exact (marked_flags db0 _ _ _).1
          (List.mem_map.mpr ⟨s, List.mem_filter.mpr ⟨hs, hat⟩, rfl⟩)
      rw [if_pos ⟨⟨hn, hsys⟩, hflag⟩] at hw
      exact hw
    · intro hna hred hnf
      have hcr : critical_class env db0 s = true := by
        unfold critical_class
        rw [hred, hna]
        rfl
      have hflag : db1.isOpenmpCritical s.operand0.base = true := by
        rw [edb]
        exact (marked_flags db0 _ _ _).2
          (List.mem_map.mpr ⟨s, List.mem_filter.mpr ⟨hs, hcr⟩, rfl⟩)
      rw [if_neg (fun hh => by rw [hnf] at hh; cases hh.2), if_pos ⟨⟨hn, hsys⟩, hflag⟩] at hw
      exact hw

set_option maxRecDepth 100000 in
theorem write_leaf_guard_witness :
    write_openmp_header ex_codegen ex_column_block ex_base_ids ex_config
      = .ok (ex_base_ids.marked [some 1] [],
        [Tok.pragma_omp [.parallel_for], Tok.spaces 4]) ∧
    Tok.pragma_omp [.parallel_for] ∈ [Tok.pragma_omp [.parallel_for], Tok.spaces 4] ∧
    Clause.parallel_for ∈ [Clause.parallel_for] ∧
    (Tok.omp_atomic ∈ write_leaf ex_codegen (ex_base_ids.marked [some 1] []) 2 ex_column_sum ↔
      (ex_codegen.ops.bh_noperands ex_column_sum.opcode > 0
        ∧ ex_codegen.ops.bh_opcode_is_system ex_column_sum.opcode = false)
      ∧ (ex_base_ids.marked [some 1] []).isOpenmpAtomic ex_column_sum.operand0.base = true) ∧
    write_leaf ex_codegen (ex_base_ids.marked [some 1] []) 2 ex_column_sum
      = [Tok.spaces (4 + 2 * 4), Tok.omp_atomic, Tok.spaces (4 + 2 * 4),
        Tok.instr (ex_base_ids.marked [some 1] []) ex_column_sum] ∧
    (write_loop_block ex_codegen ex_config 2 ex_base_ids ex_column_block).toOption.map
        (fun r => render ex_writers r.2)
      = some ("    \x7b // Peeled loop, 1. sweep iteration \n        uint64_t i0 = 0;\n\n"
        ++ "        #pragma omp simd\n        for(uint64_t i1=0; i1 < 5; ++i1) \x7b\n"
        ++ "            ...;\n        \x7d\n    \x7d\n"
        ++ "    #pragma omp parallel for\n    for(uint64_t i0=1; i0 < 4; ++i0) \x7b\n"
        ++ "        for(uint64_t i1=0; i1 < 5; ++i1) \x7b\n"
        ++ "            #pragma omp atomic\n            ...;\n        \x7d\n    \x7d\n") ∧
    (write_loop_block ex_codegen ex_config 1 ex_base_ids (ex_reduce_block 17 5)).toOption.map
        (fun r => render ex_writers r.2)
      = some ("    double s1;\n    \x7b // Peeled loop, 1. sweep iteration \n"
        ++ "        uint64_t i0 = 0;\n\n        ...;\n    \x7d\n"
        ++ "    #pragma omp parallel for\n    for(uint64_t i0=1; i0 < 5; ++i0) \x7b\n"
        ++ "        #pragma omp critical\n        ...;\n    \x7d\n    a1[0] = s1;\n") :=
  ⟨rfl, by decide, by decide,
    ((write_leaf_guard ex_codegen ex_column_block ex_base_ids ex_config
      (ex_base_ids.marked [some 1] []) [Tok.pragma_omp [.parallel_for], Tok.spaces 4]
      [.parallel_for] rfl (by decide) (by decide)).1
        (ex_base_ids.marked [some 1] []) 2 ex_column_sum).1,
    ((write_leaf_guard ex_codegen ex_column_block ex_base_ids ex_config
      (ex_base_ids.marked [some 1] []) [Tok.pragma_omp [.parallel_for], Tok.spaces 4]
      [.parallel_for] rfl (by decide) (by decide)).2
        ex_column_sum (by decide) 2 (by decide) (by decide)).1 rfl (by decide) (by decide),
    rfl, rfl⟩

set_option maxRecDepth 100000
set_option maxHeartbeats 4000000

/-- Claim C29 on the code, at a kernel in which a nested loop is peeled.  The loop of rank 0
sweeps for a sum along axis 0 whose output, base 1, is neither scalar replaced nor a
temporary array: `write_loop_block` writes `parallel for` and marks base 1 atomic.  The loop
of rank 1 in its body holds the instruction of the sum and is peeled for a sweep of its
own.  In the `for` loop of rank 1 the instruction is written after `#pragma omp atomic`;
in the peeled iteration of that loop, which stands inside the parallel loop as well, the
same instruction, not a system instruction, with operands and with its output base marked
atomic at that point, is written with no guard: the lines before it are the declaration
of the iteration index and an empty line.  The same happens with `#pragma omp critical`
for a maximum along axis 0, whose output base is marked critical and not atomic. -/
theorem write_loop_block_nested_peel :
    (0 < ex_codegen_identities.ops.bh_noperands ex_column_sum.opcode ∧
      ex_codegen_identities.ops.bh_opcode_is_system ex_column_sum.opcode = false ∧
      ex_base_ids_atomic.isOpenmpAtomic ex_column_sum.operand0.base = true ∧
      ex_base_ids_atomic.isOpenmpCritical ex_column_sum.operand0.base = false) ∧
    write_loop_block ex_codegen_identities ex_config 3 ex_base_ids_four
        (ex_nested_peel_block ex_column_sum)
      = .ok (ex_base_ids_atomic,
        [Tok.spaces 4, Tok.peel_open, Tok.spaces 8, Tok.iter_decl 0, Tok.endl, Tok.spaces 8,
         Tok.peel_open, Tok.spaces 12, Tok.iter_decl 1, Tok.endl, Tok.spaces 12,
         Tok.instr ex_base_ids_four (peel_instr ex_codegen_identities ex_column_sum),
         Tok.spaces 12, Tok.pragma_omp [Clause.simd], Tok.spaces 12, Tok.for_header 2 0 6,
         Tok.spaces 16,
         Tok.instr ex_base_ids_four (peel_instr ex_codegen_identities ex_plane_product),
         Tok.spaces 12, Tok.close, Tok.spaces 8, Tok.close, Tok.spaces 8, Tok.for_header 1 1 5,
         Tok.spaces 12,
         Tok.instr ex_base_ids_four (peel_instr ex_codegen_identities ex_column_sum),
         Tok.spaces 12, Tok.pragma_omp [Clause.simd], Tok.spaces 12, Tok.for_header 2 0 6,
         Tok.spaces 16, Tok.instr ex_base_ids_four ex_plane_product, Tok.spaces 12, Tok.close,
         Tok.spaces 8, Tok.close, Tok.spaces 4, Tok.close, Tok.spaces 4,
         Tok.pragma_omp [Clause.parallel_for], Tok.spaces 4, Tok.for_header 0 1 4, Tok.spaces 8,
         Tok.peel_open, Tok.spaces 12, Tok.iter_decl 1, Tok.endl, Tok.spaces 12,
         Tok.instr ex_base_ids_atomic ex_column_sum, Tok.spaces 12,
         Tok.pragma_omp [Clause.simd], Tok.spaces 12, Tok.for_header 2 0 6, Tok.spaces 16,
         Tok.instr ex_base_ids_atomic (peel_instr ex_codegen_identities ex_plane_product),
         Tok.spaces 12, Tok.close, Tok.spaces 8, Tok.close, Tok.spaces 8, Tok.for_header 1 1 5,
         Tok.spaces 12, Tok.omp_atomic, Tok.spaces 12,
         Tok.instr ex_base_ids_atomic ex_column_sum, Tok.spaces 12,
         Tok.pragma_omp [Clause.simd], Tok.spaces 12, Tok.for_header 2 0 6, Tok.spaces 16,
         Tok.instr ex_base_ids_atomic ex_plane_product, Tok.spaces 12, Tok.close, Tok.spaces 8,
         Tok.close, Tok.spaces 4, Tok.close]) ∧
    (write_loop_block ex_codegen_identities ex_config 3 ex_base_ids_four
        (ex_nested_peel_block ex_column_sum)).toOption.map (fun r => render ex_writers_opcode r.2)
      = some (
        "    \x7b // Peeled loop, 1. sweep iteration \n"
        ++ "        uint64_t i0 = 0;\n\n"
        ++ "        \x7b // Peeled loop, 1. sweep iteration \n"
        ++ "            uint64_t i1 = 0;\n\n"
        ++ "            op4(a1);\n"
        ++ "            #pragma omp simd\n"
        ++ "            for(uint64_t i2=0; i2 < 6; ++i2) \x7b\n"
        ++ "                op4(a3);\n"
        ++ "            \x7d\n"
        ++ "        \x7d\n"
        ++ "        for(uint64_t i1=1; i1 < 5; ++i1) \x7b\n"
        ++ "            op4(a1);\n"
        ++ "            #pragma omp simd\n"
        ++ "            for(uint64_t i2=0; i2 < 6; ++i2) \x7b\n"
        ++ "                op11(a3);\n"
        ++ "            \x7d\n"
        ++ "        \x7d\n"
        ++ "    \x7d\n"
        ++ "    #pragma omp parallel for\n"
        ++ "    for(uint64_t i0=1; i0 < 4; ++i0) \x7b\n"
        ++ "        \x7b // Peeled loop, 1. sweep iteration \n"
        ++ "            uint64_t i1 = 0;\n\n"
        ++ "            op10(a1);\n"
        ++ "            #pragma omp simd\n"
        ++ "            for(uint64_t i2=0; i2 < 6; ++i2) \x7b\n"
        ++ "                op4(a3);\n"
        ++ "            \x7d\n"
        ++ "        \x7d\n"
        ++ "        for(uint64_t i1=1; i1 < 5; ++i1) \x7b\n"
        ++ "            #pragma omp atomic\n"
        ++ "            op10(a1);\n"
        ++ "            #pragma omp simd\n"
        ++ "            for(uint64_t i2=0; i2 < 6; ++i2) \x7b\n"
        ++ "                op11(a3);\n"
        ++ "            \x7d\n"
        ++ "        \x7d\n"
        ++ "    \x7d\n") ∧
    (0 < ex_codegen_identities.ops.bh_noperands ex_column_max.opcode ∧
      ex_codegen_identities.ops.bh_opcode_is_system ex_column_max.opcode = false ∧
      ex_base_ids_critical.isOpenmpCritical ex_column_max.operand0.base = true ∧
      ex_base_ids_critical.isOpenmpAtomic ex_column_max.operand0.base = false) ∧
    write_loop_block ex_codegen_identities ex_config 3 ex_base_ids_four
        (ex_nested_peel_block ex_column_max)
      = .ok (ex_base_ids_critical,
        [Tok.spaces 4, Tok.peel_open, Tok.spaces 8, Tok.iter_decl 0, Tok.endl, Tok.spaces 8,
         Tok.peel_open, Tok.spaces 12, Tok.iter_decl 1, Tok.endl, Tok.spaces 12,
         Tok.instr ex_base_ids_four (peel_instr ex_codegen_identities ex_column_max),
         Tok.spaces 12, Tok.pragma_omp [Clause.simd], Tok.spaces 12, Tok.for_header 2 0 6,
         Tok.spaces 16,
         Tok.instr ex_base_ids_four (peel_instr ex_codegen_identities ex_plane_product),
         Tok.spaces 12, Tok.close, Tok.spaces 8, Tok.close, Tok.spaces 8, Tok.for_header 1 1 5,
         Tok.spaces 12,
         Tok.instr ex_base_ids_four (peel_instr ex_codegen_identities ex_column_max),
         Tok.spaces 12, Tok.pragma_omp [Clause.simd], Tok.spaces 12, Tok.for_header 2 0 6,
         Tok.spaces 16, Tok.instr ex_base_ids_four ex_plane_product, Tok.spaces 12, Tok.close,
         Tok.spaces 8, Tok.close, Tok.spaces 4, Tok.close, Tok.spaces 4,
         Tok.pragma_omp [Clause.parallel_for], Tok.spaces 4, Tok.for_header 0 1 4, Tok.spaces 8,
         Tok.peel_open, Tok.spaces 12, Tok.iter_decl 1, Tok.endl, Tok.spaces 12,
         Tok.instr ex_base_ids_critical ex_column_max, Tok.spaces 12,
         Tok.pragma_omp [Clause.simd], Tok.spaces 12, Tok.for_header 2 0 6, Tok.spaces 16,
         Tok.instr ex_base_ids_critical (peel_instr ex_codegen_identities ex_plane_product),
         Tok.spaces 12, Tok.close, Tok.spaces 8, Tok.close, Tok.spaces 8, Tok.for_header 1 1 5,
         Tok.spaces 12, Tok.omp_critical, Tok.spaces 12,
         Tok.instr ex_base_ids_critical ex_column_max, Tok.spaces 12,
         Tok.pragma_omp [Clause.simd], Tok.spaces 12, Tok.for_header 2 0 6, Tok.spaces 16,
         Tok.instr ex_base_ids_critical ex_plane_product, Tok.spaces 12, Tok.close,
         Tok.spaces 8, Tok.close, Tok.spaces 4, Tok.close]) ∧
    (write_loop_block ex_codegen_identities ex_config 3 ex_base_ids_four
        (ex_nested_peel_block ex_column_max)).toOption.map (fun r => render ex_writers_opcode r.2)
      = some (
        "    \x7b // Peeled loop, 1. sweep iteration \n"
        ++ "        uint64_t i0 = 0;\n\n"
        ++ "        \x7b // Peeled loop, 1. sweep iteration \n"
        ++ "            uint64_t i1 = 0;\n\n"
        ++ "            op4(a1);\n"
        ++ "            #pragma omp simd\n"
        ++ "            for(uint64_t i2=0; i2 < 6; ++i2) \x7b\n"
        ++ "                op4(a3);\n"
        ++ "            \x7d\n"
        ++ "        \x7d\n"
        ++ "        for(uint64_t i1=1; i1 < 5; ++i1) \x7b\n"
        ++ "            op4(a1);\n"
        ++ "            #pragma omp simd\n"
        ++ "            for(uint64_t i2=0; i2 < 6; ++i2) \x7b\n"
        ++ "                op11(a3);\n"
        ++ "            \x7d\n"
        ++ "        \x7d\n"
        ++ "    \x7d\n"
        ++ "    #pragma omp parallel for\n"
        ++ "    for(uint64_t i0=1; i0 < 4; ++i0) \x7b\n"
        ++ "        \x7b // Peeled loop, 1. sweep iteration \n"
        ++ "            uint64_t i1 = 0;\n\n"
        ++ "            op15(a1);\n"
        ++ "            #pragma omp simd\n"
        ++ "            for(uint64_t i2=0; i2 < 6; ++i2) \x7b\n"
        ++ "                op4(a3);\n"
        ++ "            \x7d\n"
        ++ "        \x7d\n"
        ++ "        for(uint64_t i1=1; i1 < 5; ++i1) \x7b\n"
        ++ "            #pragma omp critical\n"
        ++ "            op15(a1);\n"
        ++ "            #pragma omp simd\n"
        ++ "            for(uint64_t i2=0; i2 < 6; ++i2) \x7b\n"
        ++ "                op11(a3);\n"
        ++ "            \x7d\n"
        ++ "        \x7d\n"
        ++ "    \x7d\n") :=
  ⟨⟨by decide, by decide, by decide, by decide⟩, rfl, rfl,
    ⟨by decide, by decide, by decide, by decide⟩, rfl, rfl⟩

set_option maxRecDepth 512
set_option maxHeartbeats 200000

end jitk

/-! ## More about `merge`: the temps and the choice of the base block -/

/-- Claim C35: for loop blocks `a` and `b`, the temps of the block `merge` returns are the
temps of the block the result is based on (`b` if `based_on_block_b`, else `a`) together
with the intersection of the news and the frees of the result.  Hence, when the temps of
`a` and of `b` lie within their news ∩ frees, the temps of the result are the intersection
of its news and its frees; and a temp of the base block, stale or not, is always a temp of
the result. -/
theorem merge_temps_conditional (a b : Block) (based_on_block_b : Bool)
    (ha : a.isInstr = false) (hb : b.isInstr = false) :
    ∃ r, merge a b based_on_block_b = .ok r ∧
      r._temps = (if based_on_block_b then b else a)._temps ∪ (r._news ∩ r._frees) ∧
      (a._temps ⊆ a._news ∩ a._frees → b._temps ⊆ b._news ∩ b._frees →
        r._temps = r._news ∩ r._frees) ∧
      (if based_on_block_b then b else a)._temps ⊆ r._temps := by
  refine ⟨_, merge_loop_blocks a b based_on_block_b ha hb, rfl, ?_, ?_⟩
  · intro hsa hsb
    simp only [Block._temps, Block._news, Block._frees]
    apply Finset.union_eq_right.mpr
    intro x hx
    cases based_on_block_b with
    | false =>
      have := hsa hx
      simp only [Finset.mem_inter, Finset.mem_union] at this ⊢
      exact ⟨Or.inl this.1, Or.inl this.2⟩
    | true =>
      have := hsb hx
      simp only [Finset.mem_inter, Finset.mem_union] at this ⊢
      exact ⟨Or.inl this.1, Or.inl this.2⟩
  · simp only [Block._temps]
    exact Finset.subset_union_left

theorem merge_temps_conditional_witness :
    (ex_blockStale.isInstr = false ∧ ex_blockB.isInstr = false) ∧
    (∃ r, merge ex_blockStale ex_blockB false = .ok r ∧ r._temps = {7} ∧
      r._news ∩ r._frees = ∅) ∧
    ∃ r, merge ex_blockStale ex_blockB false = .ok r ∧
      r._temps = (if false then ex_blockB else ex_blockStale)._temps ∪ (r._news ∩ r._frees) ∧
      (ex_blockStale._temps ⊆ ex_blockStale._news ∩ ex_blockStale._frees →
        ex_blockB._temps ⊆ ex_blockB._news ∩ ex_blockB._frees →
        r._temps = r._news ∩ r._frees) ∧
      (if false then ex_blockB else ex_blockStale)._temps ⊆ r._temps :=
  ⟨by decide,
    ⟨_, merge_loop_blocks _ _ false (by decide) (by decide), by decide, by decide⟩,
    merge_temps_conditional ex_blockStale ex_blockB false (by decide) (by decide)⟩

/-- Claim C36: for loop blocks `a` and `b`, `merge(a, b, true)` and `merge(a, b, false)`
return blocks with the same children, sweeps, news, frees and reshapable flag.  The rank and
the size of the first are those of `b` and of the second those of `a`; the temps of either
are the temps of its base block together with the common intersection of news and frees;
and the instruction pointer of either is that of its base block, which is null in a loop
block, so that the two blocks differ in nothing else. -/
theorem merge_based_on (a b : Block) (ha : a.isInstr = false) (hb : b.isInstr = false) :
    ∃ rb ra, merge a b true = .ok rb ∧ merge a b false = .ok ra ∧
      rb._block_list = ra._block_list ∧ rb._sweeps = ra._sweeps ∧ rb._news = ra._news ∧
      rb._frees = ra._frees ∧ rb._reshapable = ra._reshapable ∧
      rb.rank = b.rank ∧ rb.size = b.size ∧ ra.rank = a.rank ∧ ra.size = a.size ∧
      rb._temps = b._temps ∪ (ra._news ∩ ra._frees) ∧
      ra._temps = a._temps ∪ (ra._news ∩ ra._frees) ∧
      rb._instr = b._instr ∧ ra._instr = a._instr ∧
      (a._instr = none → b._instr = none →
        rb = Block.mk ra._block_list ra._instr b.rank b.size ra._sweeps ra._news ra._frees
          (b._temps ∪ (ra._news ∩ ra._frees)) ra._reshapable) := by
  refine ⟨_, _, merge_loop_blocks a b true ha hb, merge_loop_blocks a b false ha hb, ?_⟩
  have e1 : b._sweeps ∪ a._sweeps = a._sweeps ∪ b._sweeps := Finset.union_comm _ _
  have e2 : b._news ∪ a._news = a._news ∪ b._news := Finset.union_comm _ _
  have e3 : b._frees ∪ a._frees = a._frees ∪ b._frees := Finset.union_comm _ _
  simp only [if_true, Bool.false_eq_true, if_false, e1, e2, e3]
  refine ⟨rfl, rfl, rfl, rfl, rfl, rfl, rfl, rfl, rfl, rfl, rfl, rfl, rfl, ?_⟩
  intro hia hib
  show Block.mk _ b._instr _ _ _ _ _ _ _ = Block.mk _ a._instr _ _ _ _ _ _ _
  rw [hia, hib]
  rfl

theorem merge_based_on_witness :
    (ex_blockA.isInstr = false ∧ ex_blockB.isInstr = false) ∧
    ∃ rb ra, merge ex_blockA ex_blockB true = .ok rb ∧ merge ex_blockA ex_blockB false = .ok ra ∧
      rb._block_list = ra._block_list ∧ rb._sweeps = ra._sweeps ∧ rb._news = ra._news ∧
      rb._frees = ra._frees ∧ rb._reshapable = ra._reshapable ∧
      rb.rank = ex_blockB.rank ∧ rb.size = ex_blockB.size ∧ ra.rank = ex_blockA.rank ∧
      ra.size = ex_blockA.size ∧
      rb._temps = ex_blockB._temps ∪ (ra._news ∩ ra._frees) ∧
      ra._temps = ex_blockA._temps ∪ (ra._news ∩ ra._frees) ∧
      rb._instr = ex_blockB._instr ∧ ra._instr = ex_blockA._instr ∧
      (ex_blockA._instr = none → ex_blockB._instr = none →
        rb = Block.mk ra._block_list ra._instr ex_blockB.rank ex_blockB.size ra._sweeps
          ra._news ra._frees (ex_blockB._temps ∪ (ra._news ∩ ra._frees)) ra._reshapable) :=
  ⟨by decide, merge_based_on ex_blockA ex_blockB (by decide) (by decide)⟩

/-! ## The graph of a block list has no cycle -/

/-- Claim C37: for a list of blocks that pass `validation`, `from_block_list` returns a
graph in which vertex `i` carries the `i`-th block of the list and every edge `(u, v)` has
`u < v`, both within the list, with a base of the block at `u` that is also a base of the
block at `v`.  Therefore no edge leads from a vertex to itself and no path of one or more
edges leads from a vertex back to it. -/
theorem from_block_list_acyclic {β : Type} (ops : BlockOps β) (block_list : List β)
    (hval : ∀ b ∈ block_list, ops.validation b = true) :
    ∃ g, from_block_list ops block_list = .ok g ∧
      (∀ i : Nat, g.vertices[i]? = block_list[i]?) ∧
      (∀ u v, g.edge u v → u < v ∧ ∃ A B, block_list[u]? = some A ∧ block_list[v]? = some B ∧
        ∃ base, base ∈ ops.getAllBases A ∧ base ∈ ops.getAllBases B) ∧
      (∀ v, ¬ g.edge v v) ∧ g.acyclic := by
  obtain ⟨g, h1, h2, h3⟩ := from_block_list_spec ops block_list hval
  have hlt : ∀ e ∈ g.edges, e.1 < e.2 := by
    intro e he
    have : g.edge e.1 e.2 := he
    exact ((h3 e.1 e.2).mp this).1
  refine ⟨g, h1, ?_, ?_, ?_, acyclic_of_increasing g hlt⟩
  · intro i
    rw [h2]
  · intro u v huv
    obtain ⟨hl, A, B, hA, hB, hs, _⟩ := (h3 u v).mp huv
    exact ⟨hl, A, B, hA, hB, hs⟩
  · intro v hv
    exact absurd ((h3 v v).mp hv).1 (Nat.lt_irrefl v)

theorem from_block_list_acyclic_witness :
    (∀ b ∈ ex_block_list, (block_ops (fun _ => true) ex_heap).validation b = true) ∧
    from_block_list (block_ops (fun _ => true) ex_heap) ex_block_list
      = .ok ⟨ex_block_list, [(0, 1)]⟩ ∧
    ∃ g, from_block_list (block_ops (fun _ => true) ex_heap) ex_block_list = .ok g ∧
      (∀ i : Nat, g.vertices[i]? = ex_block_list[i]?) ∧
      (∀ u v, g.edge u v → u < v ∧ ∃ A B, ex_block_list[u]? = some A ∧
        ex_block_list[v]? = some B ∧
        ∃ base, base ∈ (block_ops (fun _ => true) ex_heap).getAllBases A ∧
          base ∈ (block_ops (fun _ => true) ex_heap).getAllBases B) ∧
      (∀ v, ¬ g.edge v v) ∧ g.acyclic :=
  ⟨fun _ _ => rfl, rfl,
    from_block_list_acyclic (block_ops (fun _ => true) ex_heap) ex_block_list (fun _ _ => rfl)⟩

/-! ## The constructor flags -/

theorem flag_operand_later (mem : BaseMem) (instr : bh_instruction) (st : Finset Nat × Bool)
    (o : Nat) (ho : o ≠ 0) : flag_operand mem instr st o = .ok st := by
  unfold flag_operand
  simp only []
  by_cases hc : bh_is_constant (instr.operand.getD o bh_view.unset) = false
  · rw [if_pos hc]
    cases hb : (instr.operand.getD o bh_view.unset).base with
    | none =>
      unfold bh_is_constant at hc
      rw [hb] at hc
      exact absurd hc (by decide)
    | some base =>
      simp only []
      by_cases hd : (mem base).data = none ∧ base ∉ st.1
      · rw [if_pos hd, if_neg ho]
      · rw [if_neg hd]
  · rw [if_neg hc]

theorem flag_operands_later (mem : BaseMem) (instr : bh_instruction) (st : Finset Nat × Bool) :
    ∀ (os : List Nat), (∀ o ∈ os, o ≠ 0) → os.foldlM (flag_operand mem instr) st = .ok st := by
  intro os
  induction os with
  | nil => intro _; rfl
  | cons o os ih =>
    intro h
    rw [List.foldlM_cons, flag_operand_later mem instr st o (h o (List.mem_cons_self _ _))]
    exact ih (fun o2 h2 => h o2 (List.mem_cons_of_mem _ h2))

theorem flag_operand_first (mem : BaseMem) (instr : bh_instruction) (initiated : Finset Nat) :
    flag_operand mem instr (initiated, false) 0
      = .ok (match instr.operand0.base with
          | some base =>
            if (mem base).data = none ∧ base ∉ initiated then (insert base initiated, true)
            else (initiated, false)
          | none => (initiated, false)) := by
  unfold flag_operand bh_instruction.operand0
  simp only []
  cases hb : (instr.operand.getD 0 bh_view.unset).base with
  | none =>
    have hc : ¬ bh_is_constant (instr.operand.getD 0 bh_view.unset) = false := by
      unfold bh_is_constant
      rw [hb]
      decide
    rw [if_neg hc]
  | some base =>
    have hc : bh_is_constant (instr.operand.getD 0 bh_view.unset) = false := by
      unfold bh_is_constant
      rw [hb]
      rfl
    rw [if_pos hc]
    simp only []
    by_cases hd : (mem base).data = none ∧ base ∉ initiated
    · rw [if_pos hd, if_pos hd]
      rfl
    · rw [if_neg hd, if_neg hd]

/-- The loop over the operands of one instruction: what it returns. -/
theorem flag_operands_eq (env : OpcodeInfo) (mem : BaseMem) (instr : bh_instruction)
    (initiated : Finset Nat) :
    (List.range (env.bh_noperands instr.opcode)).foldlM (flag_operand mem instr)
        (initiated, false)
      = .ok (match instr.operand0.base with
          | some base =>
            if writes_unallocated env mem instr = true ∧ base ∉ initiated then
              (insert base initiated, true)
            else (initiated, false)
          | none => (initiated, false)) := by
  cases hn : env.bh_noperands instr.opcode with
  | zero =>
    cases hb : instr.operand0.base with
    | none => rfl
    | some base =>
      simp only [writes_unallocated, hn, Nat.lt_irrefl, decide_False, Bool.false_and,
        Bool.false_eq_true, false_and, if_false]
      rfl
  | succ n =>
    rw [List.range_succ_eq_map, List.foldlM_cons, flag_operand_first]
    have hl : ∀ o ∈ (List.range n).map Nat.succ, o ≠ 0 := by
      intro o ho
      rw [List.mem_map] at ho
      obtain ⟨x, _, rfl⟩ := ho
      exact Nat.succ_ne_zero x
    show (List.map Nat.succ (List.range n)).foldlM (flag_operand mem instr) _ = _
    rw [flag_operands_later mem instr _ _ hl]
    cases hb : instr.operand0.base with
    | none => rfl
    | some base =>
      simp only [writes_unallocated, hn, hb, Nat.zero_lt_succ, decide_True, Bool.true_and,
        Option.isNone_iff_eq_none]

/-- One run of the loop over the instructions: what it returns. -/
theorem set_constructor_flag_step_eq (env : OpcodeInfo) (mem : BaseMem)
    (st : Finset Nat × List flagged_instruction) (instr : flagged_instruction) :
    set_constructor_flag_step env mem st instr
      = .ok (match instr.operand0.base with
          | some base =>
            if writes_unallocated env mem instr.tobh_instruction = true ∧ base ∉ st.1 then
              (insert base st.1, st.2 ++ [⟨instr.tobh_instruction, true⟩])
            else (st.1, st.2 ++ [⟨instr.tobh_instruction, false⟩])
          | none => (st.1, st.2 ++ [⟨instr.tobh_instruction, false⟩])) := by
  unfold set_constructor_flag_step
  rw [flag_operands_eq]
  cases hb : instr.operand0.base with
  | none => rfl
  | some base =>
    simp only []
    by_cases hd : writes_unallocated env mem instr.tobh_instruction = true ∧ base ∉ st.1
    · rw [if_pos hd, if_pos hd]
    · rw [if_neg hd, if_neg hd]

theorem writes_unallocated_base (env : OpcodeInfo) (mem : BaseMem) (instr : bh_instruction)
    (h : writes_unallocated env mem instr = true) :
    ∃ base, instr.operand0.base = some base ∧ (mem base).data = none ∧
      0 < env.bh_noperands instr.opcode := by
  unfold writes_unallocated at h
  cases hb : instr.operand0.base with
  | none =>
    rw [hb] at h
    simp at h
  | some base =>
    rw [hb] at h
    simp only [Bool.and_eq_true, decide_eq_true_eq, Option.isNone_iff_eq_none] at h
    exact ⟨base, rfl, h.2, h.1⟩

theorem set_constructor_flag_step_inv (env : OpcodeInfo) (mem : BaseMem)
    (pre : List flagged_instruction) (st : Finset Nat × List flagged_instruction)
    (instr : flagged_instruction) (hinv : FlagInv env mem pre st) :
    ∃ st2, set_constructor_flag_step env mem st instr = .ok st2 ∧
      FlagInv env mem (pre ++ [instr]) st2 := by
  refine ⟨_, set_constructor_flag_step_eq env mem st instr, ?_⟩
  -- the flag given to the instruction and the new set
  obtain ⟨f, S2, hst, hf, hS⟩ : ∃ (f : Bool) (S2 : Finset Nat),
      (match instr.operand0.base with
          | some base =>
            if writes_unallocated env mem instr.tobh_instruction = true ∧ base ∉ st.1 then
              (insert base st.1, st.2 ++ [(⟨instr.tobh_instruction, true⟩ : flagged_instruction)])
            else (st.1, st.2 ++ [⟨instr.tobh_instruction, false⟩])
          | none => (st.1, st.2 ++ [⟨instr.tobh_instruction, false⟩]))
        = (S2, st.2 ++ [⟨instr.tobh_instruction, f⟩]) ∧
      (f = true ↔ writes_unallocated env mem instr.tobh_instruction = true ∧
        ∀ base, instr.operand0.base = some base → base ∉ st.1) ∧
      (∀ base, base ∈ S2 ↔ base ∈ st.1 ∨ (f = true ∧ instr.operand0.base = some base)) := by
    cases hb : instr.operand0.base with
    | none =>
      refine ⟨false, st.1, rfl, ?_, ?_⟩
      · constructor
        · intro h
          exact absurd h (by decide)
        · rintro ⟨h, _⟩
          obtain ⟨base, h1, _⟩ := writes_unallocated_base env mem _ h
          rw [hb] at h1
          exact absurd h1 (by simp)
      · intro base
        simp
    | some b =>
      simp only []
      by_cases hd : writes_unallocated env mem instr.tobh_instruction = true ∧ b ∉ st.1
      · rw [if_pos hd]
        refine ⟨true, insert b st.1, rfl, ?_, ?_⟩
        · constructor
          · intro _
            refine ⟨hd.1, ?_⟩
            intro base hbase
            cases hbase
            exact hd.2
          · intro _
            rfl
        · intro base
          rw [Finset.mem_insert]
          constructor
          · rintro (h | h)
            · exact Or.inr ⟨rfl, by rw [h]⟩
            · exact Or.inl h
          · rintro (h | ⟨_, h⟩)
            · exact Or.inr h
            · cases h
              exact Or.inl rfl
      · rw [if_neg hd]
        refine ⟨false, st.1, rfl, ?_, ?_⟩
        · constructor
          · intro h
            exact absurd h (by decide)
          · rintro ⟨h1, h2⟩
            exact absurd ⟨h1, h2 b rfl⟩ hd
        · intro base
          simp
  rw [hst]
  refine ⟨?_, ?_, ?_⟩
  · show List.map _ (st.2 ++ [_]) = List.map _ (pre ++ [instr])
    rw [List.map_append, List.map_append, hinv.instrs]
    rfl
  · intro k i hk
    show i.constructor = true ↔ _
    have hk2 : (st.2 ++ [(⟨instr.tobh_instruction, f⟩ : flagged_instruction)])[k]? = some i := hk
    rw [getElem?_snoc] at hk2
    rcases hk2 with hk2 | ⟨hk2, hi⟩
    · -- an instruction visited before
      rw [hinv.flags k i hk2]
      have hlt := getElem?_lt _ _ _ hk2
      constructor
      · rintro ⟨h1, h2⟩
        refine ⟨h1, ?_⟩
        intro j i2 hj hj2 hc
        have hj3 : (st.2 ++ [(⟨instr.tobh_instruction, f⟩ : flagged_instruction)])[j]?
            = some i2 := hj2
        rw [List.getElem?_append_left (by omega)] at hj3
        exact h2 j i2 hj hj3 hc
      · rintro ⟨h1, h2⟩
        refine ⟨h1, ?_⟩
        intro j i2 hj hj2 hc
        refine h2 j i2 hj ?_ hc
        show (st.2 ++ [(⟨instr.tobh_instruction, f⟩ : flagged_instruction)])[j]? = some i2
        rw [List.getElem?_append_left (by omega)]
        exact hj2
    · -- the instruction visited now
      subst hi
      show f = true ↔ _
      rw [hf]
      constructor
      · rintro ⟨h1, h2⟩
        refine ⟨h1, ?_⟩
        intro j i2 hj hj2 hc heq
        have hj3 : (st.2 ++ [(⟨instr.tobh_instruction, f⟩ : flagged_instruction)])[j]?
            = some i2 := hj2
        rw [List.getElem?_append_left (by omega)] at hj3
        obtain ⟨base, hbase, _⟩ := writes_unallocated_base env mem _ h1
        have hb2 : i2.operand0.base = some base := by
          rw [heq]
          exact hbase
        exact h2 base hbase ((hinv.initiated base).mpr ⟨j, i2, hj3, hc, hb2⟩)
      · rintro ⟨h1, h2⟩
        refine ⟨h1, ?_⟩
        intro base hbase hmem
        obtain ⟨j, i2, hj, hc, hb2⟩ := (hinv.initiated base).mp hmem
        have hlt := getElem?_lt _ _ _ hj
        refine h2 j i2 (by omega) ?_ hc ?_
        · show (st.2 ++ [(⟨instr.tobh_instruction, f⟩ : flagged_instruction)])[j]? = some i2
          rw [List.getElem?_append_left hlt]
          exact hj
        · rw [hb2]
          exact hbase.symm
  · intro base
    show base ∈ S2 ↔ _
    rw [hS base, hinv.initiated base]
    constructor
    · rintro (⟨k, i, hk, hc, hb⟩ | ⟨hf2, hb⟩)
      · refine ⟨k, i, ?_, hc, hb⟩
        show (st.2 ++ [(⟨instr.tobh_instruction, f⟩ : flagged_instruction)])[k]? = some i
        rw [List.getElem?_append_left (getElem?_lt _ _ _ hk)]
        exact hk
      · refine ⟨st.2.length, ⟨instr.tobh_instruction, f⟩, ?_, hf2, hb⟩
        show (st.2 ++ [(⟨instr.tobh_instruction, f⟩ : flagged_instruction)])[st.2.length]? = _
        rw [getElem?_snoc]
        exact Or.inr ⟨rfl, rfl⟩
    · rintro ⟨k, i, hk, hc, hb⟩
      have hk2 : (st.2 ++ [(⟨instr.tobh_instruction, f⟩ : flagged_instruction)])[k]? = some i := hk
      rw [getElem?_snoc] at hk2
      rcases hk2 with hk2 | ⟨_, hi⟩
      · exact Or.inl ⟨k, i, hk2, hc, hb⟩
      · subst hi
        exact Or.inr ⟨hc, hb⟩

theorem set_constructor_flag_fold_inv (env : OpcodeInfo) (mem : BaseMem) :
    ∀ (rest pre : List flagged_instruction) (st : Finset Nat × List flagged_instruction),
      FlagInv env mem pre st →
      ∃ st2, rest.foldlM (set_constructor_flag_step env mem) st = .ok st2 ∧
        FlagInv env mem (pre ++ rest) st2 := by
  intro rest
  induction rest with
  | nil =>
    intro pre st hinv
    refine ⟨st, rfl, ?_⟩
    rw [List.append_nil]
    exact hinv
  | cons instr rest ih =>
    intro pre st hinv
    obtain ⟨st1, h1, hinv1⟩ := set_constructor_flag_step_inv env mem pre st instr hinv
    obtain ⟨st2, h2, hinv2⟩ := ih (pre ++ [instr]) st1 hinv1
    refine ⟨st2, ?_, ?_⟩
    · rw [List.foldlM_cons, h1]
      exact h2
    · rw [List.append_assoc] at hinv2
      exact hinv2

/-- What `set_constructor_flag` returns: the list holds the same instructions, and the
instruction at place `k` is flagged exactly when it writes an array without data and no
flagged instruction before it has the same output base. -/
theorem set_constructor_flag_spec (env : OpcodeInfo) (mem : BaseMem)
    (instr_list : List flagged_instruction) :
    ∃ out, set_constructor_flag env mem instr_list = .ok out ∧
      out.map (fun i => i.tobh_instruction) = instr_list.map (fun i => i.tobh_instruction) ∧
      ∀ (k : Nat) (i : flagged_instruction), out[k]? = some i →
        (i.constructor = true ↔ writes_unallocated env mem i.tobh_instruction = true ∧
          ∀ (j : Nat) (i2 : flagged_instruction), j < k → out[j]? = some i2 →
            i2.constructor = true → i2.operand0.base ≠ i.operand0.base) := by
  have h0 : FlagInv env mem [] ((∅, []) : Finset Nat × List flagged_instruction) := by
    refine ⟨rfl, ?_, ?_⟩
    · intro k i hk
      simp at hk
    · intro base
      simp
  obtain ⟨st, h1, hinv⟩ := set_constructor_flag_fold_inv env mem instr_list [] _ h0
  refine ⟨st.2, ?_, hinv.instrs, hinv.flags⟩
  unfold set_constructor_flag
  rw [h1]
  rfl

/-- The flags do not depend on the flags the instructions had before the call. -/
theorem set_constructor_flag_fold_congr (env : OpcodeInfo) (mem : BaseMem) :
    ∀ (l1 l2 : List flagged_instruction) (st : Finset Nat × List flagged_instruction),
      l1.map (fun i => i.tobh_instruction) = l2.map (fun i => i.tobh_instruction) →
      l1.foldlM (set_constructor_flag_step env mem) st
        = l2.foldlM (set_constructor_flag_step env mem) st := by
  intro l1
  induction l1 with
  | nil =>
    intro l2 st h
    cases l2 with
    | nil => rfl
    | cons b bs => simp at h
  | cons a as ih =>
    intro l2 st h
    cases l2 with
    | nil => simp at h
    | cons b bs =>
      simp only [List.map_cons, List.cons.injEq] at h
      have hs : set_constructor_flag_step env mem st a = set_constructor_flag_step env mem st b := by
        unfold set_constructor_flag_step
        rw [h.1]
      rw [List.foldlM_cons, List.foldlM_cons, hs]
      cases set_constructor_flag_step env mem st b with
      | error e => rfl
      | ok st1 => exact ih bs st1 h.2

theorem map_getElem?_instr (l1 l2 : List flagged_instruction)
    (h : l1.map (fun i => i.tobh_instruction) = l2.map (fun i => i.tobh_instruction))
    (k : Nat) (i : flagged_instruction) (hk : l1[k]? = some i) :
    ∃ i2, l2[k]? = some i2 ∧ i2.tobh_instruction = i.tobh_instruction := by
  have h1 : (l1.map (fun i => i.tobh_instruction))[k]? = some i.tobh_instruction := by
    rw [List.getElem?_map, hk]
    rfl
  rw [h, List.getElem?_map] at h1
  cases h2 : l2[k]? with
  | none =>
    rw [h2] at h1
    simp at h1
  | some i2 =>
    rw [h2] at h1
    simp only [Option.map_some', Option.some.injEq] at h1
    exact ⟨i2, rfl, h1⟩

/-- In the result of `set_constructor_flag`, for an instruction that writes an array
without data: no flagged instruction before it has its output base exactly when no
instruction with operands before it has its output base. -/
theorem flagged_before_iff (env : OpcodeInfo) (mem : BaseMem) (out : List flagged_instruction)
    (hflags : ∀ (k : Nat) (i : flagged_instruction), out[k]? = some i →
        (i.constructor = true ↔ writes_unallocated env mem i.tobh_instruction = true ∧
          ∀ (j : Nat) (i2 : flagged_instruction), j < k → out[j]? = some i2 →
            i2.constructor = true → i2.operand0.base ≠ i.operand0.base))
    (k : Nat) (i : flagged_instruction)
    (hw : writes_unallocated env mem i.tobh_instruction = true) :
    (∀ (j : Nat) (i2 : flagged_instruction), j < k → out[j]? = some i2 →
        i2.constructor = true → i2.operand0.base ≠ i.operand0.base) ↔
    (∀ (j : Nat) (i2 : flagged_instruction), j < k → out[j]? = some i2 →
        0 < env.bh_noperands i2.opcode → i2.operand0.base ≠ i.operand0.base) := by
  obtain ⟨base, hbase, hdata, _⟩ := writes_unallocated_base env mem _ hw
  constructor
  · intro h j i2 hj hj2 hn heq
    have hw2 : writes_unallocated env mem i2.tobh_instruction = true := by
      unfold writes_unallocated
      have hb2 : i2.operand0.base = some base := by rw [heq]; exact hbase
      rw [hb2]
      simp [hn, hdata]
    by_cases hc : i2.constructor = true
    · exact h j i2 hj hj2 hc heq
    · have := (hflags j i2 hj2).not.mp hc
      rw [not_and] at this
      have h3 := this hw2
      simp only [not_forall] at h3
      obtain ⟨j3, i3, hj3, hj4, hc3, hne⟩ := h3
      exact h j3 i3 (by omega) hj4 hc3 (by rw [← heq]; exact not_not.mp hne)
  · intro h j i2 hj hj2 hc heq
    have hw2 := ((hflags j i2 hj2).mp hc).1
    obtain ⟨_, _, _, hn⟩ := writes_unallocated_base env mem _ hw2
    exact h j i2 hj hj2 hn heq

/-- Claim C33, refuted as stated: the list holds one instruction, an addition into base 1,
which has data.  No instruction comes before it, yet `set_constructor_flag` does not flag
it. -/
theorem set_constructor_flag_first_write_counterexample :
    (ex_base_mem 1).data = some 101 ∧
    set_constructor_flag ex_env ex_base_mem
        [⟨⟨1, [ex_view 1 [10], ex_view 2 [10], ex_view 2 [10]], 0⟩, false⟩]
      = .ok [⟨⟨1, [ex_view 1 [10], ex_view 2 [10], ex_view 2 [10]], 0⟩, false⟩] :=
  ⟨rfl, rfl⟩

/-- Claim C33, amended: for every instruction list, `set_constructor_flag` returns the list
with the same instructions in which the instruction at place `k` is flagged exactly when
its opcode has operands, its output operand is an array whose base has no data, and no
instruction with operands before it in the list has the same base as its output operand. -/
theorem set_constructor_flag_first_write (env : OpcodeInfo) (mem : BaseMem)
    (instr_list : List flagged_instruction) :
    ∃ out, set_constructor_flag env mem instr_list = .ok out ∧
      out.map (fun i => i.tobh_instruction) = instr_list.map (fun i => i.tobh_instruction) ∧
      ∀ (k : Nat) (i : flagged_instruction), out[k]? = some i →
        (i.constructor = true ↔
          (0 < env.bh_noperands i.opcode ∧
            ∃ base, i.operand0.base = some base ∧ (mem base).data = none) ∧
          ∀ (j : Nat) (i2 : flagged_instruction), j < k → instr_list[j]? = some i2 →
            0 < env.bh_noperands i2.opcode → i2.operand0.base ≠ i.operand0.base) := by
  obtain ⟨out, h1, h2, h3⟩ := set_constructor_flag_spec env mem instr_list
  refine ⟨out, h1, h2, ?_⟩
  intro k i hk
  rw [h3 k i hk]
  have hwu : writes_unallocated env mem i.tobh_instruction = true ↔
      (0 < env.bh_noperands i.opcode ∧
        ∃ base, i.operand0.base = some base ∧ (mem base).data = none) := by
    constructor
    · intro h
      obtain ⟨base, hb, hd, hn⟩ := writes_unallocated_base env mem _ h
      exact ⟨hn, base, hb, hd⟩
    · rintro ⟨hn, base, hb, hd⟩
      unfold writes_unallocated
      rw [hb]
      simp [hn, hd]
  constructor
  · rintro ⟨hw, h⟩
    refine ⟨hwu.mp hw, ?_⟩
    intro j i2 hj hj2 hn
    obtain ⟨i3, hj3, he⟩ := map_getElem?_instr instr_list out h2.symm j i2 hj2
    have := (flagged_before_iff env mem out h3 k i hw).mp h j i3 hj hj3
      (by rw [he]; exact hn)
    rw [he] at this
    exact this
  · rintro ⟨hw, h⟩
    refine ⟨hwu.mpr hw, ?_⟩
    apply (flagged_before_iff env mem out h3 k i (hwu.mpr hw)).mpr
    intro j i2 hj hj2 hn
    obtain ⟨i3, hj3, he⟩ := map_getElem?_instr out instr_list h2 j i2 hj2
    have := h j i3 hj hj3 (by rw [he]; exact hn)
    rw [he] at this
    exact this

theorem set_constructor_flag_first_write_witness :
    set_constructor_flag ex_env ex_base_mem ex_instr_list
      = .ok [⟨⟨1, [ex_view 2 [10], ex_view 0 [10], ex_view 1 [10]], 0⟩, true⟩,
          ⟨⟨1, [ex_view 2 [10], ex_view 2 [10], ex_view 3 [10]], 0⟩, false⟩,
          ⟨⟨1, [ex_view 1 [10], ex_view 2 [10], ex_view 2 [10]], 0⟩, false⟩,
          ⟨⟨3, [ex_view 3 [10]], 0⟩, true⟩] ∧
    ∃ out, set_constructor_flag ex_env ex_base_mem ex_instr_list = .ok out ∧
      out.map (fun i => i.tobh_instruction) = ex_instr_list.map (fun i => i.tobh_instruction) ∧
      ∀ (k : Nat) (i : flagged_instruction), out[k]? = some i →
        (i.constructor = true ↔
          (0 < ex_env.bh_noperands i.opcode ∧
            ∃ base, i.operand0.base = some base ∧ (ex_base_mem base).data = none) ∧
          ∀ (j : Nat) (i2 : flagged_instruction), j < k → ex_instr_list[j]? = some i2 →
            0 < ex_env.bh_noperands i2.opcode → i2.operand0.base ≠ i.operand0.base) :=
  ⟨rfl, set_constructor_flag_first_write ex_env ex_base_mem ex_instr_list⟩

/-- Claim C39: `set_constructor_flag` returns for every instruction list, and in the list it
returns two flagged instructions never have the same output base; a flagged instruction
has an output operand that is an array whose base has no data and is not the output base of
a flagged instruction before it, so an instruction whose output base has data is not
flagged, whatever it reads; and two lists that hold the same instructions with other values
of the flag give the same result. -/
theorem set_constructor_flag_unique (env : OpcodeInfo) (mem : BaseMem)
    (instr_list : List flagged_instruction) :
    ∃ out, set_constructor_flag env mem instr_list = .ok out ∧
      (∀ (j k : Nat) (i2 i : flagged_instruction), out[j]? = some i2 → out[k]? = some i →
        i2.constructor = true → i.constructor = true →
        i2.operand0.base = i.operand0.base → j = k) ∧
      (∀ (k : Nat) (i : flagged_instruction), out[k]? = some i → i.constructor = true →
        bh_is_constant i.operand0 = false ∧
        (∃ base, i.operand0.base = some base ∧ (mem base).data = none) ∧
        ∀ (j : Nat) (i2 : flagged_instruction), j < k → out[j]? = some i2 →
          i2.constructor = true → i2.operand0.base ≠ i.operand0.base) ∧
      (∀ (k : Nat) (i : flagged_instruction) (base : Nat), out[k]? = some i →
        i.operand0.base = some base → (mem base).data ≠ none → i.constructor = false) ∧
      (∀ other : List flagged_instruction,
        other.map (fun i => i.tobh_instruction) = instr_list.map (fun i => i.tobh_instruction) →
        set_constructor_flag env mem other = .ok out) := by
  obtain ⟨out, h1, h2, h3⟩ := set_constructor_flag_spec env mem instr_list
  have honly : ∀ (k : Nat) (i : flagged_instruction), out[k]? = some i → i.constructor = true →
      bh_is_constant i.operand0 = false ∧
      (∃ base, i.operand0.base = some base ∧ (mem base).data = none) ∧
      ∀ (j : Nat) (i2 : flagged_instruction), j < k → out[j]? = some i2 →
        i2.constructor = true → i2.operand0.base ≠ i.operand0.base := by
    intro k i hk hc
    obtain ⟨hw, h⟩ := (h3 k i hk).mp hc
    obtain ⟨base, hb, hd, _⟩ := writes_unallocated_base env mem _ hw
    refine ⟨?_, ⟨base, hb, hd⟩, h⟩
    unfold bh_is_constant
    rw [hb]
    rfl
  refine ⟨out, h1, ?_, honly, ?_, ?_⟩
  · intro j k i2 i hj hk hc2 hc heq
    rcases Nat.lt_trichotomy j k with hlt | heq2 | hgt
    · exact absurd heq ((honly k i hk hc).2.2 j i2 hlt hj hc2)
    · exact heq2
    · exact absurd heq.symm ((honly j i2 hj hc2).2.2 k i hgt hk hc)
  · intro k i base hk hb hd
    cases hc : i.constructor with
    | false => rfl
    | true =>
      obtain ⟨_, ⟨b2, hb2, hd2⟩, _⟩ := honly k i hk hc
      rw [hb] at hb2
      cases hb2
      exact absurd hd2 hd
  · intro other ho
    unfold set_constructor_flag at h1 ⊢
    rw [set_constructor_flag_fold_congr env mem other instr_list _ ho]
    exact h1

theorem set_constructor_flag_unique_witness :
    (set_constructor_flag ex_env ex_base_mem ex_instr_list).toOption.map
        (fun out => out.map (fun i => i.constructor)) = some [true, false, false, true] ∧
    ∃ out, set_constructor_flag ex_env ex_base_mem ex_instr_list = .ok out ∧
      (∀ (j k : Nat) (i2 i : flagged_instruction), out[j]? = some i2 → out[k]? = some i →
        i2.constructor = true → i.constructor = true →
        i2.operand0.base = i.operand0.base → j = k) ∧
      (∀ (k : Nat) (i : flagged_instruction), out[k]? = some i → i.constructor = true →
        bh_is_constant i.operand0 = false ∧
        (∃ base, i.operand0.base = some base ∧ (ex_base_mem base).data = none) ∧
        ∀ (j : Nat) (i2 : flagged_instruction), j < k → out[j]? = some i2 →
          i2.constructor = true → i2.operand0.base ≠ i.operand0.base) ∧
      (∀ (k : Nat) (i : flagged_instruction) (base : Nat), out[k]? = some i →
        i.operand0.base = some base → (ex_base_mem base).data ≠ none →
        i.constructor = false) ∧
      (∀ other : List flagged_instruction,
        other.map (fun i => i.tobh_instruction)
          = ex_instr_list.map (fun i => i.tobh_instruction) →
        set_constructor_flag ex_env ex_base_mem other = .ok out) :=
  ⟨rfl, set_constructor_flag_unique ex_env ex_base_mem ex_instr_list⟩

namespace jitk

/-! ## Pruning of the block list -/

mutual
theorem loop_isSystemOnly_remove (env : OpcodeInfo) : ∀ (l : LoopB),
    (remove_empty_loop env l).isSystemOnly env = l.isSystemOnly env
  | .mk r s bs sw => by
    unfold remove_empty_loop LoopB.isSystemOnly
    exact isSystemOnlyList_remove env bs
theorem isSystemOnlyList_remove (env : OpcodeInfo) : ∀ (bs : List Block),
    isSystemOnlyList env (remove_empty_blocks env bs) = isSystemOnlyList env bs
  | [] => rfl
  | .instr r i :: bs => by
    simp only [remove_empty_blocks, isSystemOnlyList]
    rw [isSystemOnlyList_remove env bs]
  | .loop l :: bs => by
    simp only [remove_empty_blocks]
    by_cases h : LoopB.isSystemOnly env l = true
    · rw [if_pos h]
      rw [isSystemOnlyList_remove env bs]
      simp only [isSystemOnlyList, Block.isSystemOnly]
      rw [h, Bool.true_and]
    · rw [if_neg h]
      simp only [isSystemOnlyList, Block.isSystemOnly]
      rw [loop_isSystemOnly_remove env l, isSystemOnlyList_remove env bs]
end

mutual
theorem loop_loops_system_only (env : OpcodeInfo) : ∀ (l : LoopB),
    l.isSystemOnly env = true → ∀ x ∈ l.loops, x.isSystemOnly env = true
  | .mk r s bs sw => by
    intro h x hx
    simp only [LoopB.loops, List.mem_cons] at hx
    rcases hx with rfl | hx
    · exact h
    · simp only [LoopB.isSystemOnly] at h
      exact loops_list_system_only env bs h x hx
theorem loops_list_system_only (env : OpcodeInfo) : ∀ (bs : List Block),
    isSystemOnlyList env bs = true → ∀ x ∈ loops_list bs, x.isSystemOnly env = true
  | [] => by
    intro _ x hx
    simp [loops_list] at hx
  | .instr r i :: bs => by
    intro h x hx
    simp only [isSystemOnlyList, Bool.and_eq_true] at h
    simp only [loops_list, Block.loops, List.nil_append] at hx
    exact loops_list_system_only env bs h.2 x hx
  | .loop l :: bs => by
    intro h x hx
    simp only [isSystemOnlyList, Block.isSystemOnly, Bool.and_eq_true] at h
    simp only [loops_list, Block.loops, List.mem_append] at hx
    rcases hx with hx | hx
    · exact loop_loops_system_only env l h.1 x hx
    · exact loops_list_system_only env bs h.2 x hx
end

mutual
theorem loop_instr_system_only (env : OpcodeInfo) : ∀ (l : LoopB),
    l.isSystemOnly env = true → ∀ i ∈ l.getAllInstr, env.bh_opcode_is_system i.opcode = true
  | .mk r s bs sw => by
    intro h i hi
    simp only [LoopB.getAllInstr] at hi
    simp only [LoopB.isSystemOnly] at h
    exact instr_list_system_only env bs h i hi
theorem instr_list_system_only (env : OpcodeInfo) : ∀ (bs : List Block),
    isSystemOnlyList env bs = true →
    ∀ i ∈ getAllInstrList bs, env.bh_opcode_is_system i.opcode = true
  | [] => by
    intro _ i hi
    simp [getAllInstrList] at hi
  | .instr r j :: bs => by
    intro h i hi
    simp only [isSystemOnlyList, Block.isSystemOnly, Bool.and_eq_true] at h
    simp only [getAllInstrList, Block.getAllInstr, List.singleton_append, List.mem_cons] at hi
    rcases hi with rfl | hi
    · exact h.1
    · exact instr_list_system_only env bs h.2 i hi
  | .loop l :: bs => by
    intro h i hi
    simp only [isSystemOnlyList, Block.isSystemOnly, Bool.and_eq_true] at h
    simp only [getAllInstrList, Block.getAllInstr, List.mem_append] at hi
    rcases hi with hi | hi
    · exact loop_instr_system_only env l h.1 i hi
    · exact instr_list_system_only env bs h.2 i hi
end

mutual
theorem loop_remove_loops (env : OpcodeInfo) : ∀ (l : LoopB),
    (∀ x ∈ loops_list (remove_empty_loop env l)._block_list, x.isSystemOnly env = false) ∧
    (loops_list (remove_empty_loop env l)._block_list).map LoopB.header
      = ((loops_list l._block_list).filter (fun x => !x.isSystemOnly env)).map LoopB.header
  | .mk r s bs sw => by
    simp only [remove_empty_loop, LoopB._block_list]
    exact remove_empty_blocks_loops env bs
theorem remove_empty_blocks_loops (env : OpcodeInfo) : ∀ (bs : List Block),
    (∀ x ∈ loops_list (remove_empty_blocks env bs), x.isSystemOnly env = false) ∧
    (loops_list (remove_empty_blocks env bs)).map LoopB.header
      = ((loops_list bs).filter (fun x => !x.isSystemOnly env)).map LoopB.header
  | [] => by
    simp [remove_empty_blocks, loops_list]
  | .instr r i :: bs => by
    simp only [remove_empty_blocks, loops_list, Block.loops, List.nil_append]
    exact remove_empty_blocks_loops env bs
  | .loop (.mk r s c sw) :: bs => by
    obtain ⟨ih1, ih2⟩ := remove_empty_blocks_loops env bs
    obtain ⟨ic1, ic2⟩ := loop_remove_loops env (.mk r s c sw)
    simp only [remove_empty_loop, LoopB._block_list] at ic1 ic2
    simp only [remove_empty_blocks]
    by_cases h : LoopB.isSystemOnly env (.mk r s c sw) = true
    · rw [if_pos h]
      refine ⟨ih1, ?_⟩
      rw [ih2]
      simp only [loops_list, Block.loops, List.filter_append]
      have hnil : (LoopB.mk r s c sw).loops.filter (fun x => !x.isSystemOnly env) = [] := by
        rw [List.filter_eq_nil_iff]
        intro x hx
        rw [loop_loops_system_only env _ h x hx]
        decide
      rw [hnil, List.nil_append]
    · rw [if_neg h]
      have hf : LoopB.isSystemOnly env (.mk r s c sw) = false := by
        cases hv : LoopB.isSystemOnly env (.mk r s c sw) with
        | false => rfl
        | true => exact absurd hv h
      constructor
      · intro x hx
        simp only [loops_list, Block.loops, remove_empty_loop, LoopB.loops, List.cons_append,
          List.mem_cons, List.mem_append] at hx
        rcases hx with rfl | hx | hx
        · have := loop_isSystemOnly_remove env (.mk r s c sw)
          simp only [remove_empty_loop] at this
          rw [this]
          exact hf
        · exact ic1 x hx
        · exact ih1 x hx
      · simp only [loops_list, Block.loops, remove_empty_loop, LoopB.loops, List.cons_append,
          List.map_cons, List.map_append, List.filter_cons, List.filter_append, hf,
          Bool.not_false, if_true]
        rw [ic2, ih2]
        rfl
end

mutual
theorem loop_remove_instr (env : OpcodeInfo) : ∀ (l : LoopB),
    (getAllInstrList (remove_empty_loop env l)._block_list).Sublist
        (getAllInstrList l._block_list) ∧
    (getAllInstrList (remove_empty_loop env l)._block_list).filter
        (fun i => !env.bh_opcode_is_system i.opcode)
      = (getAllInstrList l._block_list).filter (fun i => !env.bh_opcode_is_system i.opcode)
  | .mk r s bs sw => by
    simp only [remove_empty_loop, LoopB._block_list]
    exact remove_empty_blocks_instr env bs
theorem remove_empty_blocks_instr (env : OpcodeInfo) : ∀ (bs : List Block),
    (getAllInstrList (remove_empty_blocks env bs)).Sublist (getAllInstrList bs) ∧
    (getAllInstrList (remove_empty_blocks env bs)).filter
        (fun i => !env.bh_opcode_is_system i.opcode)
      = (getAllInstrList bs).filter (fun i => !env.bh_opcode_is_system i.opcode)
  | [] => by
    simp [remove_empty_blocks, getAllInstrList]
  | .instr r i :: bs => by
    obtain ⟨ih1, ih2⟩ := remove_empty_blocks_instr env bs
    simp only [remove_empty_blocks, getAllInstrList, Block.getAllInstr, List.singleton_append]
    refine ⟨ih1.cons₂ i, ?_⟩
    simp only [List.filter_cons, ih2]
  | .loop (.mk r s c sw) :: bs => by
    obtain ⟨ih1, ih2⟩ := remove_empty_blocks_instr env bs
    obtain ⟨ic1, ic2⟩ := loop_remove_instr env (.mk r s c sw)
    simp only [remove_empty_loop, LoopB._block_list] at ic1 ic2
    simp only [remove_empty_blocks]
    by_cases h : LoopB.isSystemOnly env (.mk r s c sw) = true
    · rw [if_pos h]
      simp only [getAllInstrList, Block.getAllInstr]
      refine ⟨List.Sublist.trans ih1 (List.sublist_append_right _ _), ?_⟩
      rw [ih2, List.filter_append]
      have hnil : (LoopB.mk r s c sw).getAllInstr.filter
          (fun i => !env.bh_opcode_is_system i.opcode) = [] := by
        rw [List.filter_eq_nil_iff]
        intro i hi
        rw [loop_instr_system_only env _ h i hi]
        decide
      rw [hnil, List.nil_append]
    · rw [if_neg h]
      simp only [getAllInstrList, Block.getAllInstr, remove_empty_loop, LoopB.getAllInstr]
      refine ⟨List.Sublist.append ic1 ih1, ?_⟩
      rw [List.filter_append, List.filter_append, ic2, ih2]
end

theorem remove_empty_blocks_eq (env : OpcodeInfo) (bs : List Block) :
    remove_empty_blocks env bs = (bs.filter (Block.survives env)).map (Block.pruned env) := by
  induction bs with
  | nil => simp [remove_empty_blocks]
  | cons b bs ih =>
    cases b with
    | instr r i =>
      simp only [remove_empty_blocks, List.filter_cons, Block.survives, if_true, List.map_cons,
        Block.pruned]
      rw [ih]
    | loop l =>
      simp only [remove_empty_blocks]
      by_cases h : LoopB.isSystemOnly env l = true
      · rw [if_pos h, ih]
        simp [List.filter_cons, Block.survives, h]
      · rw [if_neg h, ih]
        simp [List.filter_cons, Block.survives, h, Block.pruned]

theorem remove_empty_loop_fields (env : OpcodeInfo) (l : LoopB) :
    (remove_empty_loop env l).header = l.header ∧
    (remove_empty_loop env l)._block_list = remove_empty_blocks env l._block_list := by
  cases l with
  | mk r s bs sw => exact ⟨rfl, by simp only [remove_empty_loop, LoopB._block_list]⟩

/-- Claim C32: after `remove_empty_blocks(block_list)` no loop of the list, at any nesting
depth, is system-only.  The list holds the instructions of the old list and its loops that
are not system-only, in their order, each of these loops with its rank, size and sweeps and
with its own children pruned in the same way; at any depth, the loops are the loops of the
old list that are not system-only, in their order.  The instructions are a subsequence of
the old ones, and the instructions with an opcode that is not a system opcode are the old
ones, each kept once and in order. -/
theorem remove_empty_blocks_spec (env : OpcodeInfo) (block_list : List Block) :
    (∀ l ∈ loops_list (remove_empty_blocks env block_list), l.isSystemOnly env = false) ∧
    remove_empty_blocks env block_list
      = (block_list.filter (Block.survives env)).map (Block.pruned env) ∧
    (∀ l : LoopB, (remove_empty_loop env l).header = l.header ∧
      (remove_empty_loop env l)._block_list = remove_empty_blocks env l._block_list) ∧
    (loops_list (remove_empty_blocks env block_list)).map LoopB.header
      = ((loops_list block_list).filter (fun l => !l.isSystemOnly env)).map LoopB.header ∧
    (getAllInstrList (remove_empty_blocks env block_list)).Sublist
      (getAllInstrList block_list) ∧
    (getAllInstrList (remove_empty_blocks env block_list)).filter
        (fun i => !env.bh_opcode_is_system i.opcode)
      = (getAllInstrList block_list).filter (fun i => !env.bh_opcode_is_system i.opcode) :=
  ⟨(remove_empty_blocks_loops env block_list).1, remove_empty_blocks_eq env block_list,
    remove_empty_loop_fields env, (remove_empty_blocks_loops env block_list).2,
    (remove_empty_blocks_instr env block_list).1, (remove_empty_blocks_instr env block_list).2⟩

theorem remove_empty_blocks_spec_witness :
    remove_empty_blocks ex_env ex_prune_list
      = [.instr 1 ⟨1, [ex_view 2 [10], ex_view 0 [10], ex_view 1 [10]], 0⟩,
         .loop (.mk 0 10 [.instr 1 ⟨1, [ex_view 1 [10], ex_view 2 [10], ex_view 2 [10]], 0⟩,
           .instr 1 ⟨3, [ex_view 0 [10]], 0⟩] [])] ∧
    (∀ l ∈ loops_list (remove_empty_blocks ex_env ex_prune_list),
      l.isSystemOnly ex_env = false) ∧
    remove_empty_blocks ex_env ex_prune_list
      = (ex_prune_list.filter (Block.survives ex_env)).map (Block.pruned ex_env) ∧
    (∀ l : LoopB, (remove_empty_loop ex_env l).header = l.header ∧
      (remove_empty_loop ex_env l)._block_list = remove_empty_blocks ex_env l._block_list) ∧
    (loops_list (remove_empty_blocks ex_env ex_prune_list)).map LoopB.header
      = ((loops_list ex_prune_list).filter (fun l => !l.isSystemOnly ex_env)).map
          LoopB.header ∧
    (getAllInstrList (remove_empty_blocks ex_env ex_prune_list)).Sublist
      (getAllInstrList ex_prune_list) ∧
    (getAllInstrList (remove_empty_blocks ex_env ex_prune_list)).filter
        (fun i => !ex_env.bh_opcode_is_system i.opcode)
      = (getAllInstrList ex_prune_list).filter
          (fun i => !ex_env.bh_opcode_is_system i.opcode) :=
  ⟨rfl, remove_empty_blocks_spec ex_env ex_prune_list⟩

end jitk

/-! ## The greedy fuser -/

theorem merge_in_place_length {β : Type} (ops : FuserOps β) (l : List β) (i : Nat)
    (h : i + 1 < l.length) : (merge_in_place ops l i).length + 1 = l.length := by
  unfold merge_in_place
  rw [List.getElem?_eq_getElem (by omega : i < l.length), List.getElem?_eq_getElem h]
  simp only [List.length_append, List.length_take, List.length_cons, List.length_nil,
    List.length_drop]
  omega

/-- A walk changes the list only by merging. -/
theorem greedy_walk_result {β : Type} (ops : FuserOps β) :
    ∀ (fuel : Nat) (l : List β) (i : Nat) (merged : Bool),
      ((greedy_walk ops fuel l i merged).2 = false →
        merged = false ∧ (greedy_walk ops fuel l i merged).1 = l) ∧
      (greedy_walk ops fuel l i merged).1.length ≤ l.length ∧
      (merged = false → (greedy_walk ops fuel l i merged).2 = true →
        (greedy_walk ops fuel l i merged).1.length < l.length) := by
  intro fuel
  induction fuel with
  | zero =>
    intro l i merged
    refine ⟨fun h => ⟨h, rfl⟩, Nat.le_refl _, ?_⟩
    intro h1 h2
    simp only [greedy_walk] at h2
    rw [h1] at h2
    exact absurd h2 (by decide)
  | succ fuel ih =>
    intro l i merged
    unfold greedy_walk
    by_cases hi : i + 1 < l.length
    · rw [if_pos hi]
      by_cases hl : ops.legal l i = true
      · rw [if_pos hl]
        obtain ⟨h1, h2, _⟩ := ih (merge_in_place ops l i) i true
        have hlen := merge_in_place_length ops l i hi
        refine ⟨?_, by omega, ?_⟩
        · intro h
          exact absurd (h1 h).1 (by decide)
        · intro _ _
          omega
      · rw [if_neg hl]
        exact ih l (i + 1) merged
    · rw [if_neg hi]
      refine ⟨fun h => ⟨h, rfl⟩, Nat.le_refl _, ?_⟩
      intro h1 h2
      simp only at h2
      rw [h1] at h2
      exact absurd h2 (by decide)

/-- The fuel of a walk is enough: with `2 * l.length - i` steps or more, the walk from the
place `i` ends at the end of the list and more fuel does not change its result. -/
theorem greedy_walk_fuel {β : Type} (ops : FuserOps β) :
    ∀ (fuel : Nat) (l : List β) (i : Nat) (merged : Bool), 2 * l.length ≤ fuel + i →
      greedy_walk ops (fuel + 1) l i merged = greedy_walk ops fuel l i merged := by
  intro fuel
  induction fuel with
  | zero =>
    intro l i merged h
    have hi : ¬ i + 1 < l.length := by omega
    simp only [greedy_walk, hi, if_false]
  | succ fuel ih =>
    intro l i merged h
    rw [greedy_walk]
    conv_rhs => rw [greedy_walk]
    by_cases hi : i + 1 < l.length
    · rw [if_pos hi, if_pos hi]
      by_cases hl : ops.legal l i = true
      · rw [if_pos hl, if_pos hl]
        have hlen := merge_in_place_length ops l i hi
        exact ih _ i true (by omega)
      · rw [if_neg hl, if_neg hl]
        exact ih l (i + 1) merged (by omega)
    · rw [if_neg hi, if_neg hi]

/-- The list that `greedy_repeat` returns is a fixpoint: a walk over it merges nothing. -/
theorem greedy_repeat_fixpoint {β : Type} (ops : FuserOps β) :
    ∀ (fuel : Nat) (l : List β), l.length ≤ fuel →
      (greedy_walk ops (2 * (greedy_repeat ops fuel l).length)
        (greedy_repeat ops fuel l) 0 false).2 = false := by
  intro fuel
  induction fuel with
  | zero =>
    intro l h
    have hl : l = [] := List.length_eq_zero.mp (by omega)
    subst hl
    rfl
  | succ fuel ih =>
    intro l h
    unfold greedy_repeat
    simp only []
    obtain ⟨h1, _, h3⟩ := greedy_walk_result ops (2 * l.length) l 0 false
    by_cases hm : (greedy_walk ops (2 * l.length) l 0 false).2 = true
    · rw [if_pos hm]
      exact ih _ (by have := h3 rfl hm; omega)
    · rw [if_neg hm]
      have hf : (greedy_walk ops (2 * l.length) l 0 false).2 = false := by
        cases hv : (greedy_walk ops (2 * l.length) l 0 false).2 with
        | false => rfl
        | true => exact absurd hv hm
      rw [(h1 hf).2]
      exact hf

/-- On a fixpoint `greedy_repeat` returns the list as it is. -/
theorem greedy_repeat_of_fixpoint {β : Type} (ops : FuserOps β) (fuel : Nat) (l : List β)
    (h : (greedy_walk ops (2 * l.length) l 0 false).2 = false) :
    greedy_repeat ops fuel l = l := by
  cases fuel with
  | zero => rfl
  | succ fuel =>
    unfold greedy_repeat
    simp only []
    rw [if_neg (by rw [h]; decide)]
    exact ((greedy_walk_result ops (2 * l.length) l 0 false).1 h).2

/-- Claim C34: the greedy fuser applied to a block list that the greedy fuser has returned
gives back the same list of blocks. -/
theorem fuser_greedy_idempotent {β : Type} (ops : FuserOps β) (block_list : List β) :
    fuser_greedy ops (fuser_greedy ops block_list) = fuser_greedy ops block_list := by
  unfold fuser_greedy
  exact greedy_repeat_of_fixpoint ops _ _
    (greedy_repeat_fixpoint ops block_list.length block_list (Nat.le_refl _))

theorem fuser_greedy_idempotent_witness :
    (fuser_greedy ex_fuser_ops ex_block_list).length = 2 ∧
    (fuser_greedy ex_fuser_ops ex_block_list).map Block.getAllInstr = [[1, 2, 3], [4]] ∧
    fuser_greedy ex_fuser_ops (fuser_greedy ex_fuser_ops ex_block_list)
      = fuser_greedy ex_fuser_ops ex_block_list :=
  ⟨by decide, by decide, fuser_greedy_idempotent ex_fuser_ops ex_block_list⟩

namespace jitk

/-! ## Loops that are too short for a pragma -/

/-- The marks after the body of `write_loop_block`, when the calls for the nested loops keep
the marks: they are the marks at the call, if the loop has a rank above 0 or so few
iterations left that `write_openmp_header` is not called. -/
theorem write_loop_parts_marks (env : CodegenEnv) (config : ConfigParser)
    (write : BaseDB → LoopB → Except Failure (BaseDB × List Tok))
    (db : BaseDB) (block : LoopB) (dbf : BaseDB) (t : LoopText)
    (h : write_loop_parts env config write db block = .ok (dbf, t))
    (hw : ∀ l, (Block.loop l ∈ block._block_list ∨
        Block.loop l ∈ (peeled_block env block)._block_list) →
      ∀ db r, write db l = .ok r →
        r.1._omp_atomic = db._omp_atomic ∧ r.1._omp_critical = db._omp_critical)
    (hh : block.rank > 0 ∨ block.size - (t.start : Int) ≤ 1) :
    (dbf._omp_atomic = db._omp_atomic ∧ dbf._omp_critical = db._omp_critical) ∧
    (block.size - (t.start : Int) ≤ 1 → t.header = []) := by
  obtain ⟨db1, srs, db2, db3, db4, h1, h2, h3, h4, h5, _, _, h8, _⟩ :=
    write_loop_parts_ok env config write db block dbf t h
  obtain ⟨_, _, e3⟩ := scalar_replace_ok env block.rank _ _ _ _ _ h1
  have hsize : (if (decide (block._sweeps.length > 0)
      && need_to_peel env db1 block._sweeps) = true then block.size - 1 else block.size)
      = block.size - (t.start : Int) := by
    rw [h8]
    by_cases hp : (decide (block._sweeps.length > 0)
        && need_to_peel env db1 block._sweeps) = true
    · rw [if_pos hp, if_pos hp]
      rfl
    · rw [if_neg hp, if_neg hp]
      simp
  rw [hsize] at h3
  have q1 : db1._omp_atomic = db._omp_atomic ∧ db1._omp_critical = db._omp_critical := by
    rw [e3]
    exact ⟨rfl, rfl⟩
  have hrefl : ∀ d : BaseDB, d._omp_atomic = d._omp_atomic ∧ d._omp_critical = d._omp_critical :=
    fun _ => ⟨rfl, rfl⟩
  have htrans : ∀ a b c : BaseDB,
      (b._omp_atomic = a._omp_atomic ∧ b._omp_critical = a._omp_critical) →
      (c._omp_atomic = b._omp_atomic ∧ c._omp_critical = b._omp_critical) →
      (c._omp_atomic = a._omp_atomic ∧ c._omp_critical = a._omp_critical) :=
    fun a b c h1 h2 => ⟨h2.1.trans h1.1, h2.2.trans h1.2⟩
  have q2 : db2._omp_atomic = db1._omp_atomic ∧ db2._omp_critical = db1._omp_critical := by
    split at h2
    · unfold write_peeled at h2
      cases hq2 : write_peeled_list write (peeled_block env block)._block_list db1 with
      | error e =>
        rw [hq2] at h2
        cases h2
      | ok q =>
        rw [hq2] at h2
        obtain ⟨ea, _⟩ := Prod.mk.inj (Except.ok.inj h2)
        rw [← ea]
        exact write_peeled_list_rel
          (fun a b => b._omp_atomic = a._omp_atomic ∧ b._omp_critical = a._omp_critical)
          hrefl htrans write _ db1 q (fun l hl => hw l (Or.inr hl)) hq2
    · obtain ⟨ea, _⟩ := Prod.mk.inj (Except.ok.inj h2)
      rw [← ea]
      exact ⟨rfl, rfl⟩
  have q3 : (db3._omp_atomic = db2._omp_atomic ∧ db3._omp_critical = db2._omp_critical) ∧
      (block.size - (t.start : Int) ≤ 1 → t.header = []) := by
    by_cases hc : block.size - (t.start : Int) > 1
    · rw [if_pos hc] at h3
      rcases hh with hr | hs
      · rw [write_openmp_header_inner env block db2 db3 config _ hr h3]
        exact ⟨⟨rfl, rfl⟩, fun hs => absurd hc (by omega)⟩
      · exact absurd hc (by omega)
    · rw [if_neg hc] at h3
      obtain ⟨ea, eb⟩ := Prod.mk.inj (Except.ok.inj h3)
      rw [← ea, ← eb]
      exact ⟨⟨rfl, rfl⟩, fun _ => rfl⟩
  have q4 : db4._omp_atomic = db3._omp_atomic ∧ db4._omp_critical = db3._omp_critical :=
    write_body_list_rel
      (fun a b => b._omp_atomic = a._omp_atomic ∧ b._omp_critical = a._omp_critical)
      hrefl htrans env write _ db3 _ (fun l hl => hw l (Or.inl hl)) h4
  refine ⟨?_, q3.2⟩
  rw [h5, store_back_spec]
  exact htrans _ _ _ q1 (htrans _ _ _ q2 (htrans _ _ _ q3.1 q4))

/-- A loop of a rank above 0, with loops of ranks above 0 nested in it, leaves the marks as
they are. -/
theorem write_loop_block_marks (env : CodegenEnv) (config : ConfigParser) :
    ∀ (fuel : Nat) (db : BaseDB) (block : LoopB) (r : BaseDB × List Tok),
      block.ranks_pos = true → write_loop_block env config fuel db block = .ok r →
      r.1._omp_atomic = db._omp_atomic ∧ r.1._omp_critical = db._omp_critical := by
  intro fuel
  induction fuel with
  | zero =>
    intro db block r _ h
    cases h
  | succ fuel ih =>
    intro db block r hpos h
    unfold write_loop_block at h
    cases hp : write_loop_parts env config (write_loop_block env config fuel) db block with
    | error e =>
      rw [hp] at h
      cases h
    | ok p =>
      obtain ⟨dbf, t⟩ := p
      rw [hp] at h
      cases h
      obtain ⟨hr, hl⟩ := (LoopB.ranks_pos_iff block).mp hpos
      refine (write_loop_parts_marks env config _ db block dbf t hp ?_ (Or.inl hr)).1
      intro l hl2 db r hw
      apply ih db l r _ hw
      rcases hl2 with hl2 | hl2
      · exact ranks_pos_list_mem _ l hl hl2
      · rw [peeled_block_list] at hl2
        exact ranks_pos_list_mem _ l (by rw [ranks_pos_list_mapInstr]; exact hl) hl2

theorem write_body_list_leaves (env : CodegenEnv)
    (write : BaseDB → LoopB → Except Failure (BaseDB × List Tok)) :
    ∀ (bs : List Block) (db : BaseDB),
      bs.all (fun b => match b with
        | .instr _ _ => true
        | .loop _ => false) = true →
      ∃ out, write_body_list env write bs db = .ok (db, out) ∧
        ∀ cl, Tok.pragma_omp cl ∉ out := by
  intro bs
  induction bs with
  | nil =>
    intro db _
    exact ⟨[], rfl, fun cl hc => absurd hc (List.not_mem_nil _)⟩
  | cons b bs ih =>
    intro db h
    rw [List.all_cons, Bool.and_eq_true] at h
    cases b with
    | loop l => exact absurd h.1 (by simp)
    | instr r i =>
      obtain ⟨out, ho, hn⟩ := ih db h.2
      refine ⟨write_leaf env db r i ++ out, ?_, ?_⟩
      · simp only [write_body_list, ho]
      · intro cl hc
        rw [List.mem_append] at hc
        rcases hc with hc | hc
        · unfold write_leaf at hc
          rw [List.mem_append] at hc
          rcases hc with hc | hc
          · split at hc
            · split at hc
              · simp at hc
              · split at hc
                · simp at hc
                · simp at hc
            · simp at hc
          · simp at hc
        · exact hn cl hc

/-- The text of a loop without nested loops holds a line `#pragma omp ...` (other than the
guards `atomic` and `critical`) only in its header. -/
theorem write_loop_parts_pragma (env : CodegenEnv) (config : ConfigParser)
    (write : BaseDB → LoopB → Except Failure (BaseDB × List Tok))
    (db : BaseDB) (block : LoopB) (dbf : BaseDB) (t : LoopText)
    (h : write_loop_parts env config write db block = .ok (dbf, t))
    (hin : block.isInnermost = true) (cl : List Clause)
    (hc : Tok.pragma_omp cl ∈ t.out block.rank block.size) : Tok.pragma_omp cl ∈ t.header := by
  obtain ⟨db1, srs, db2, db3, db4, h1, h2, h3, h4, h5, h6, h7, _, h9⟩ :=
    write_loop_parts_ok env config write db block dbf t h
  obtain ⟨_, e2, _⟩ := scalar_replace_ok env block.rank _ _ _ _ _ h1
  have g_decls : Tok.pragma_omp cl ∉ t.decls := by
    rw [e2]
    simp [List.mem_flatMap]
  have g_seeds : Tok.pragma_omp cl ∉ t.seeds := by
    rw [h7]
    split
    · unfold write_seeds
      simp [List.mem_flatMap]
    · exact List.not_mem_nil _
  have g_tmp : ∀ d : BaseDB, Tok.pragma_omp cl ∉ write_tmp_decls d (env.getLocalTemps block)
      block.rank := by
    intro d hm
    unfold write_tmp_decls at hm
    rw [List.mem_flatMap] at hm
    obtain ⟨b, _, hb⟩ := hm
    split at hb
    · simp at hb
    · simp at hb
  have hleaves := (mapInstrList_all_leaves (peel_subst env block._sweeps)
    block._block_list).trans hin
  rw [← peeled_block_list] at hleaves
  have g_peeled : Tok.pragma_omp cl ∉ t.peeled := by
    split at h2
    · unfold write_peeled at h2
      rw [write_peeled_list_leaves write _ db1 hleaves] at h2
      obtain ⟨_, eb⟩ := Prod.mk.inj (Except.ok.inj h2)
      rw [← eb]
      intro hm
      simp only [List.mem_append, List.mem_cons, List.mem_singleton, List.not_mem_nil,
        or_false, false_or, List.mem_flatMap] at hm
      rcases hm with ((((hm | hm | hm) | hm) | hm) | ⟨b, _, hm⟩) | hm
      · cases hm
      · cases hm
      · cases hm
      · exact g_tmp db1 hm
      · cases hm
      · cases b with
        | instr r i => simp [peeled_leaf] at hm
        | loop l => simp [peeled_leaf] at hm
      · rcases hm with hm | hm | hm
        · cases hm
        · cases hm
        · cases hm
    · obtain ⟨_, eb⟩ := Prod.mk.inj (Except.ok.inj h2)
      rw [← eb]
      exact List.not_mem_nil _
  have g_body : Tok.pragma_omp cl ∉ t.body := by
    obtain ⟨out, ho, hn⟩ := write_body_list_leaves env write block._block_list db3 hin
    rw [ho] at h4
    obtain ⟨_, eb⟩ := Prod.mk.inj (Except.ok.inj h4)
    rw [← eb]
    exact hn cl
  have g_store : Tok.pragma_omp cl ∉ t.store := by
    rw [h6, store_back_spec]
    simp [List.mem_flatMap]
  unfold LoopText.out at hc
  simp only [List.mem_append, List.mem_cons, List.mem_singleton, List.not_mem_nil,
    or_false] at hc
  rcases hc with ((((((((hc | hc) | hc) | hc) | hc) | hc) | hc) | hc) | hc) | hc
  · cases hc
  · exact absurd hc g_decls
  · exact absurd hc g_seeds
  · exact absurd hc g_peeled
  · exact hc
  · cases hc
  · rw [h9] at hc
    exact absurd hc (g_tmp db3)
  · exact absurd hc g_body
  · rcases hc with hc | hc
    · cases hc
    · cases hc
  · exact absurd hc g_store

/-- A loop with so few iterations left that `write_openmp_header` is not called is written
without guard and sets no mark, when no base is marked at the call and the calls for the
nested loops do the same. -/
theorem write_loop_parts_unguarded_short (env : CodegenEnv) (config : ConfigParser)
    (write : BaseDB → LoopB → Except Failure (BaseDB × List Tok))
    (db : BaseDB) (block : LoopB) (dbf : BaseDB) (t : LoopText)
    (h : write_loop_parts env config write db block = .ok (dbf, t))
    (hq : db.unmarked)
    (hw : ∀ l, (Block.loop l ∈ block._block_list ∨
        Block.loop l ∈ (peeled_block env block)._block_list) →
      ∀ db r, db.unmarked → write db l = .ok r → r.1.unmarked ∧ unguarded r.2)
    (hs : block.size - (t.start : Int) ≤ 1) :
    dbf.unmarked ∧ unguarded (t.out block.rank block.size) := by
  obtain ⟨db1, srs, db2, db3, db4, h1, h2, h3, h4, h5, h6, h7, h8, h9⟩ :=
    write_loop_parts_ok env config write db block dbf t h
  obtain ⟨_, e2, e3⟩ := scalar_replace_ok env block.rank _ _ _ _ _ h1
  have hsize : (if (decide (block._sweeps.length > 0)
      && need_to_peel env db1 block._sweeps) = true then block.size - 1 else block.size)
      = block.size - (t.start : Int) := by
    rw [h8]
    by_cases hp : (decide (block._sweeps.length > 0)
        && need_to_peel env db1 block._sweeps) = true
    · rw [if_pos hp, if_pos hp]
      rfl
    · rw [if_neg hp, if_neg hp]
      simp
  rw [hsize, if_neg (by omega)] at h3
  have q1 : db1.unmarked := by
    rw [e3]
    exact hq
  have g_decls : unguarded t.decls := by
    rw [e2]
    apply unguarded_flatMap
    intro a _
    unfold unguarded
    simp
  have g_seeds : unguarded t.seeds := by
    rw [h7]
    split
    · unfold write_seeds
      apply unguarded_flatMap
      intro a _
      unfold unguarded
      simp
    · exact unguarded_nil
  have s2 : db2.unmarked ∧ unguarded t.peeled := by
    split at h2
    · unfold write_peeled at h2
      cases hq2 : write_peeled_list write (peeled_block env block)._block_list db1 with
      | error e =>
        rw [hq2] at h2
        cases h2
      | ok q =>
        rw [hq2] at h2
        obtain ⟨ea, eb⟩ := Prod.mk.inj (Except.ok.inj h2)
        obtain ⟨qq, gq⟩ := write_peeled_list_unguarded write _ db1 q
          (fun l hl => hw l (Or.inr hl)) q1 hq2
        rw [← ea, ← eb]
        refine ⟨qq, ?_⟩
        refine unguarded_append _ _ (unguarded_append _ _ (unguarded_append _ _
          (unguarded_append _ _ ?_ (write_tmp_decls_unguarded _ _ _)) ?_) gq) ?_
        · unfold unguarded
          simp
        · unfold unguarded
          simp
        · unfold unguarded
          simp
    · obtain ⟨ea, eb⟩ := Prod.mk.inj (Except.ok.inj h2)
      rw [← ea, ← eb]
      exact ⟨q1, unguarded_nil⟩
  have s3 : db3.unmarked ∧ unguarded t.header := by
    obtain ⟨ea, eb⟩ := Prod.mk.inj (Except.ok.inj h3)
    rw [← ea, ← eb]
    exact ⟨s2.1, unguarded_nil⟩
  obtain ⟨q4, g4⟩ := write_body_list_unguarded env write _ db3 _
    (fun l hl => hw l (Or.inl hl)) s3.1 h4
  have g_store : unguarded t.store := by
    rw [h6, store_back_spec]
    apply unguarded_flatMap
    intro a _
    unfold unguarded
    simp
  constructor
  · rw [h5, store_back_spec]
    exact q4
  · unfold LoopText.out
    refine unguarded_append _ _ (unguarded_append _ _ (unguarded_append _ _
      (unguarded_append _ _ (unguarded_append _ _ (unguarded_append _ _
      (unguarded_append _ _ (unguarded_append _ _ (unguarded_append _ _ ?_ g_decls)
        g_seeds) s2.2) s3.2) ?_) ?_) g4) ?_) g_store
    · unfold unguarded
      simp
    · unfold unguarded
      simp
    · rw [h9]
      exact write_tmp_decls_unguarded _ _ _
    · unfold unguarded
      simp

/-- Claim C38: a call of `write_loop_block` (on a block whose sweeps have three operands and
whose nested loops have ranks above 0) returns, and when at most one iteration is left for
the for-loop, that is when the size is at most 1 or the loop is peeled (the for-loop starts
at 1) and the size is at most 2, the call writes no line `#pragma omp` before the header of
the for-loop and leaves the atomic and critical marks of `base_ids` as they were, whatever
the rank, the sweeps and the configuration.  If no base is marked at the call, the text
holds no guard `#pragma omp atomic` or `#pragma omp critical`; if no loop is nested in the
block, the text holds no line `#pragma omp` with clauses at all. -/
theorem write_loop_block_short (env : CodegenEnv) (config : ConfigParser) (fuel : Nat)
    (db : BaseDB) (block : LoopB) (ht : block.sweeps_ternary env = true)
    (hd : block.depth ≤ fuel + 1) (hr : ranks_pos_list block._block_list = true) :
    ∃ db1 srs dbf t,
      scalar_replace env block.rank block._sweeps db = .ok (db1, t.decls, srs) ∧
      write_loop_parts env config (write_loop_block env config fuel) db block = .ok (dbf, t) ∧
      write_loop_block env config (fuel + 1) db block
        = .ok (dbf, t.out block.rank block.size) ∧
      (t.start = 1 ↔ need_to_peel env db1 block._sweeps = true) ∧
      (t.start = 0 ∨ t.start = 1) ∧
      ((block.size ≤ 1 ∨ (t.start = 1 ∧ block.size ≤ 2)) →
        t.header = [] ∧
        dbf._omp_atomic = db._omp_atomic ∧ dbf._omp_critical = db._omp_critical ∧
        (db.unmarked → unguarded (t.out block.rank block.size)) ∧
        (block.isInnermost = true →
          ∀ cl, Tok.pragma_omp cl ∉ t.out block.rank block.size)) := by
  obtain ⟨dbf, t, hp, hout⟩ := write_loop_block_parts env config fuel db block ht hd
  obtain ⟨db1, srs, _, _, _, h1, _, _, _, _, _, _, h8, _⟩ :=
    write_loop_parts_ok env config _ db block dbf t hp
  have hstart : (t.start = 1 ↔ need_to_peel env db1 block._sweeps = true) ∧
      (t.start = 0 ∨ t.start = 1) := by
    rw [h8]
    cases hn : need_to_peel env db1 block._sweeps with
    | false => simp
    | true => simp [need_to_peel_nonempty env db1 block._sweeps hn]
  refine ⟨db1, srs, dbf, t, h1, hp, hout, hstart.1, hstart.2, ?_⟩
  intro hs
  have hle : block.size - (t.start : Int) ≤ 1 := by
    rcases hs with hs | ⟨h1, hs⟩
    · omega
    · rw [h1]
      omega
  have hnest : ∀ l, (Block.loop l ∈ block._block_list ∨
      Block.loop l ∈ (peeled_block env block)._block_list) → l.ranks_pos = true := by
    intro l hl2
    rcases hl2 with hl2 | hl2
    · exact ranks_pos_list_mem _ l hr hl2
    · rw [peeled_block_list] at hl2
      exact ranks_pos_list_mem _ l (by rw [ranks_pos_list_mapInstr]; exact hr) hl2
  have hm := write_loop_parts_marks env config _ db block dbf t hp
    (fun l hl2 db r hw => write_loop_block_marks env config fuel db l r (hnest l hl2) hw)
    (Or.inr hle)
  have hhead := hm.2 hle
  refine ⟨hhead, hm.1.1, hm.1.2, ?_, ?_⟩
  · intro hq
    exact (write_loop_parts_unguarded_short env config _ db block dbf t hp hq
      (fun l hl2 db r hq2 hw =>
        write_loop_block_unguarded env config fuel db l r (hnest l hl2) hq2 hw) hle).2
  · intro hin cl hc
    have := write_loop_parts_pragma env config _ db block dbf t hp hin cl hc
    rw [hhead] at this
    exact absurd this (List.not_mem_nil _)

theorem write_loop_block_short_witness :
    ((ex_reduce_block 15 2).sweeps_ternary ex_codegen = true ∧
      (ex_reduce_block 15 2).depth ≤ 0 + 1 ∧
      ranks_pos_list (ex_reduce_block 15 2)._block_list = true) ∧
    ((ex_reduce_block 15 2).rank = 0 ∧ (ex_reduce_block 15 2).size = 2 ∧
      openmp_compatible ex_codegen (ex_reduce_block 15 2) = true ∧
      ex_config.compiler_openmp = true ∧
      need_to_peel ex_codegen ex_base_ids_scalar (ex_reduce_block 15 2)._sweeps = true) ∧
    ∃ db1 srs dbf t,
      scalar_replace ex_codegen (ex_reduce_block 15 2).rank (ex_reduce_block 15 2)._sweeps
        ex_base_ids = .ok (db1, t.decls, srs) ∧
      write_loop_parts ex_codegen ex_config (write_loop_block ex_codegen ex_config 0)
        ex_base_ids (ex_reduce_block 15 2) = .ok (dbf, t) ∧
      write_loop_block ex_codegen ex_config (0 + 1) ex_base_ids (ex_reduce_block 15 2)
        = .ok (dbf, t.out (ex_reduce_block 15 2).rank (ex_reduce_block 15 2).size) ∧
      (t.start = 1 ↔ need_to_peel ex_codegen db1 (ex_reduce_block 15 2)._sweeps = true) ∧
      (t.start = 0 ∨ t.start = 1) ∧
      (((ex_reduce_block 15 2).size ≤ 1 ∨ (t.start = 1 ∧ (ex_reduce_block 15 2).size ≤ 2)) →
        t.header = [] ∧
        dbf._omp_atomic = ex_base_ids._omp_atomic ∧
        dbf._omp_critical = ex_base_ids._omp_critical ∧
        (ex_base_ids.unmarked →
          unguarded (t.out (ex_reduce_block 15 2).rank (ex_reduce_block 15 2).size)) ∧
        ((ex_reduce_block 15 2).isInnermost = true →
          ∀ cl, Tok.pragma_omp cl ∉
            t.out (ex_reduce_block 15 2).rank (ex_reduce_block 15 2).size)) :=
  ⟨by decide, by decide,
    write_loop_block_short ex_codegen ex_config 0 ex_base_ids (ex_reduce_block 15 2)
      (by decide) (by decide) (by decide)⟩

/-! ## The pragma of a kernel of reductions -/

/-- Claim C28: take a loop block of rank 0 and of a size above 1, with OpenMP switched on,
whose sweeps are all reductions over the innermost axis of their input with an OpenMP
reduction symbol, in an opcode table that gives every opcode with such a symbol its
identity element.  The call of `write_loop_block` returns; nothing is peeled, and the text
holds, right before the `for` line, one pragma with `parallel for` and, for every sweep in
order, the clause `reduction(<symbol>:s<id>)`, or `t<id>` when the output is a temporary
array (for a call with no base scalar replaced; in general the output is written `s<id>`
when it is scalar replaced on entry or not a temporary array).  When the loops nested in
the block have ranks above 0, the call marks no base atomic or critical, and, no base
being marked on entry, the text holds neither `#pragma omp atomic` nor
`#pragma omp critical`. -/
theorem write_loop_block_parallel_reduction (env : CodegenEnv) (config : ConfigParser)
    (fuel : Nat) (db : BaseDB) (block : LoopB) (ht : block.sweeps_ternary env = true)
    (hd : block.depth ≤ fuel + 1) (hrank : block.rank = 0)
    (hopenmp : config.compiler_openmp = true)
    (hsw : ∀ s ∈ block._sweeps, env.bh_opcode_is_reduction s.opcode = true ∧
      env.ops.bh_opcode_is_sweep s.opcode = true ∧
      sweep_axis env.ops s = (s.operand1.ndim : Int) - 1 ∧
      openmp_reduce_compatible env s.opcode = true)
    (hsize : 1 < block.size)
    (htab : ∀ o, openmp_reduce_compatible env o = true → env.has_reduce_identity o = true) :
    ∃ dbf t cl,
      write_loop_parts env config (write_loop_block env config fuel) db block = .ok (dbf, t) ∧
      write_loop_block env config (fuel + 1) db block
        = .ok (dbf, t.out block.rank block.size) ∧
      t.peeled = [] ∧ t.start = 0 ∧
      t.header = [Tok.pragma_omp cl, Tok.spaces (4 + block.rank * 4)] ∧
      List.IsInfix [Tok.pragma_omp cl, Tok.spaces (4 + block.rank * 4),
        Tok.for_header block.rank 0 block.size] (t.out block.rank block.size) ∧
      Clause.parallel_for ∈ cl ∧
      cl.filter Clause.isReduction = block._sweeps.map (fun s =>
        Clause.reduction (openmp_reduce_symbol env s.opcode)
          (db.isScalarReplaced s.operand0.base || !db.isTmp s.operand0.base)
          (db.id s.operand0.base)) ∧
      (db._scalar_replacements = ∅ →
        cl.filter Clause.isReduction = block._sweeps.map (fun s =>
          Clause.reduction (openmp_reduce_symbol env s.opcode) (!db.isTmp s.operand0.base)
            (db.id s.operand0.base))) ∧
      (∀ s ∈ block._sweeps, ∃ symbol, openmp_reduce_symbol env s.opcode = some symbol) ∧
      (ranks_pos_list block._block_list = true →
        (dbf._omp_atomic = db._omp_atomic ∧ dbf._omp_critical = db._omp_critical) ∧
        (db.unmarked → dbf.unmarked ∧ unguarded (t.out block.rank block.size))) := by
  obtain ⟨dbf, t, hp, hwb⟩ := write_loop_block_parts env config fuel db block ht hd
  obtain ⟨db1, srs, db2, db3, db4, h1, h2, h3, h4, h5, _, _, h8, _⟩ :=
    write_loop_parts_ok env config _ db block dbf t hp
  obtain ⟨e1, _, e3⟩ := scalar_replace_ok env block.rank _ _ _ _ _ h1
  obtain ⟨v1, t1, f12, f23, f34⟩ :=
    write_loop_parts_frames env config fuel db block db1 db2 db3 db4 _ _ _ _ srs h1 h2 h3 h4
  -- the sweeps of the block that are scalar replaced
  have hrep : ∀ s ∈ block._sweeps, scalar_replaced env db s = !db.isTmp s.operand0.base := by
    intro s hs
    obtain ⟨a, b, c, _⟩ := hsw s hs
    unfold scalar_replaced
    rw [a, b, c]
    simp
  have hsr1 : ∀ s ∈ block._sweeps, db.isTmp s.operand0.base = false →
      s.operand0.base ∈ db1._scalar_replacements := by
    intro s hs htmp
    rw [e3, e1, List.map_map]
    apply Finset.mem_union_right
    rw [List.mem_toFinset]
    exact List.mem_map.mpr ⟨s, List.mem_filter.mpr ⟨hs, by rw [hrep s hs, htmp]; rfl⟩, rfl⟩
  have htmp1 : ∀ b, db1.isTmp b = db.isTmp b := by
    intro b
    unfold BaseDB.isTmp
    rw [t1]
  have hflag1 : ∀ s ∈ block._sweeps, db1.isScalarReplaced s.operand0.base = true ∨
      db1.isTmp s.operand0.base = true := by
    intro s hs
    cases htmp : db.isTmp s.operand0.base with
    | true => exact Or.inr (by rw [htmp1, htmp])
    | false =>
      refine Or.inl ?_
      unfold BaseDB.isScalarReplaced
      simpa using hsr1 s hs htmp
  -- every sweep has its identity element and a scalar or temporary output: no peeling
  have hnp : need_to_peel env db1 block._sweeps = false :=
    (need_to_peel_false_iff env db1 block._sweeps).mpr
      (fun s hs => ⟨htab _ (hsw s hs).2.2.2, hflag1 s hs⟩)
  have hpeel : ¬ ((decide (block._sweeps.length > 0) && need_to_peel env db1 block._sweeps)
      = true) := by
    rw [hnp]
    simp
  rw [if_neg hpeel] at h2
  rw [if_neg hpeel] at h3
  rw [if_neg hpeel] at h8
  obtain ⟨e12, epeel⟩ := Prod.mk.inj (Except.ok.inj h2)
  have e21 : db2 = db1 := e12.symm
  have hscalar2 : ∀ s ∈ block._sweeps, db2.isScalarReplaced s.operand0.base
      = (db.isScalarReplaced s.operand0.base || !db.isTmp s.operand0.base) := by
    intro s hs
    rw [e21]
    cases htmp : db.isTmp s.operand0.base with
    | false =>
      have hm := hsr1 s hs htmp
      unfold BaseDB.isScalarReplaced
      simp [hm]
    | true =>
      rw [Bool.not_true, Bool.or_false, Bool.eq_iff_iff]
      unfold BaseDB.isScalarReplaced
      rw [decide_eq_true_iff, decide_eq_true_iff]
      constructor
      · intro hm
        rw [e3, e1, List.map_map] at hm
        rcases Finset.mem_union.mp hm with hm0 | hm1
        · exact hm0
        · rw [List.mem_toFinset] at hm1
          obtain ⟨s2, hs2, hb2⟩ := List.mem_map.mp hm1
          obtain ⟨hs2m, hs2r⟩ := List.mem_filter.mp hs2
          rw [hrep s2 hs2m] at hs2r
          have hb2e : s2.operand0.base = s.operand0.base := hb2
          rw [hb2e, htmp] at hs2r
          cases hs2r
      · intro hm
        rw [e3]
        exact Finset.mem_union_left _ hm
  have htmp2 : ∀ b, db2.isTmp b = db.isTmp b := by
    intro b
    unfold BaseDB.isTmp
    rw [f12.tmps, t1]
  have hclass2 : ∀ s ∈ block._sweeps, reduction_class env db2 s = true := by
    intro s hs
    unfold reduction_class
    rw [(hsw s hs).2.2.2, e21]
    rcases hflag1 s hs with h | h
    · rw [h]
      rfl
    · rw [h]
      simp
  -- the header is written
  rw [if_pos hsize] at h3
  obtain ⟨ss0, reds, hpp, _, hout⟩ :=
    write_openmp_header_ok env block db2 config db3 t.header hopenmp h3
  have hcompat : block.rank = 0 ∧ openmp_compatible env block = true :=
    ⟨hrank, (openmp_compatible_iff env block).mpr (fun s hs => (hsw s hs).1)⟩
  obtain ⟨edb, hs0, hreds⟩ := (parallel_part_ok env block db2 db3 ss0 reds hpp).1 hcompat
  have hfa : block._sweeps.filter (atomic_class env db2) = [] := by
    rw [List.filter_eq_nil_iff]
    intro s hs
    simp [atomic_class, hclass2 s hs]
  have hfc : block._sweeps.filter (critical_class env db2) = [] := by
    rw [List.filter_eq_nil_iff]
    intro s hs
    simp [critical_class, hclass2 s hs]
  rw [hfa, hfc] at edb
  simp only [List.map_nil, marked_nil] at edb
  rw [List.filter_eq_self.mpr hclass2] at hreds
  have hr2 : (simd_part env block db3 config.compiler_openmp_simd ss0 reds).2 = reds := by
    by_cases hsimd : (config.compiler_openmp_simd = true ∧ block.isInnermost = true ∧
        simd_compatible env block db3 = true)
    · rw [((simd_part_fst env block db3 _ ss0 reds).1 hsimd).2, if_neg (by omega)]
    · exact ((simd_part_fst env block db3 _ ss0 reds).2 hsimd).2
  have hmem : Clause.parallel_for ∈
      (simd_part env block db3 config.compiler_openmp_simd ss0 reds).1
        ++ (simd_part env block db3 config.compiler_openmp_simd ss0 reds).2.map
          (reduction_clause env db3) :=
    (header_parallel_iff env block db2 db3 _ ss0 reds hpp).mpr hcompat
  have hne : (simd_part env block db3 config.compiler_openmp_simd ss0 reds).1
        ++ (simd_part env block db3 config.compiler_openmp_simd ss0 reds).2.map
          (reduction_clause env db3) ≠ [] := by
    intro he
    rw [he] at hmem
    exact absurd hmem (List.not_mem_nil _)
  rw [if_pos hne] at hout
  have hclause : ∀ s ∈ block._sweeps, reduction_clause env db3 s
      = Clause.reduction (openmp_reduce_symbol env s.opcode)
          (db.isScalarReplaced s.operand0.base || !db.isTmp s.operand0.base)
          (db.id s.operand0.base) := by
    intro s hs
    unfold reduction_clause
    rw [edb, hscalar2 s hs]
    have hid : db2.id s.operand0.base = db.id s.operand0.base := by
      unfold BaseDB.id
      rw [f12.vec, v1]
    rw [hid]
  have hfilter : ((simd_part env block db3 config.compiler_openmp_simd ss0 reds).1
        ++ (simd_part env block db3 config.compiler_openmp_simd ss0 reds).2.map
          (reduction_clause env db3)).filter Clause.isReduction
      = block._sweeps.map (fun s =>
        Clause.reduction (openmp_reduce_symbol env s.opcode)
          (db.isScalarReplaced s.operand0.base || !db.isTmp s.operand0.base)
          (db.id s.operand0.base)) := by
    rw [List.filter_append, hr2, filter_reduction_clauses, hreds]
    have hfst : ((simd_part env block db3 config.compiler_openmp_simd ss0
        block._sweeps).1).filter Clause.isReduction = [] := by
      rcases simd_part_fst_cases env block db3 config.compiler_openmp_simd ss0
        block._sweeps with e | e
      · rw [e, hs0]
        rfl
      · rw [e, hs0]
        rfl
    rw [hfst, List.nil_append]
    exact List.map_congr_left hclause
  refine ⟨dbf, t, _, hp, hwb, epeel.symm, h8, hout, ?_, hmem, hfilter, ?_, ?_, ?_⟩
  · unfold LoopText.out
    rw [hout, h8]
    exact ⟨[Tok.spaces (4 + block.rank * 4)] ++ t.decls ++ t.seeds ++ t.peeled,
      t.tmp_decls ++ t.body ++ [Tok.spaces (4 + block.rank * 4), Tok.close] ++ t.store,
      by simp⟩
  · intro hsr
    rw [hfilter]
    apply List.map_congr_left
    intro s _
    have : db.isScalarReplaced s.operand0.base = false := by
      unfold BaseDB.isScalarReplaced
      rw [hsr]
      simp
    rw [this, Bool.false_or]
  · intro s hs
    have := (hsw s hs).2.2.2
    unfold openmp_reduce_compatible at this
    exact Option.isSome_iff_exists.mp this
  · intro hinner
    constructor
    · have hrefl : ∀ d : BaseDB,
          d._omp_atomic = d._omp_atomic ∧ d._omp_critical = d._omp_critical :=
        fun _ => ⟨rfl, rfl⟩
      have htrans : ∀ a b c : BaseDB,
          (b._omp_atomic = a._omp_atomic ∧ b._omp_critical = a._omp_critical) →
          (c._omp_atomic = b._omp_atomic ∧ c._omp_critical = b._omp_critical) →
          (c._omp_atomic = a._omp_atomic ∧ c._omp_critical = a._omp_critical) :=
        fun a b c h1 h2 => ⟨h2.1.trans h1.1, h2.2.trans h1.2⟩
      have q1 : db1._omp_atomic = db._omp_atomic ∧ db1._omp_critical = db._omp_critical := by
        rw [e3]
        exact ⟨rfl, rfl⟩
      have q4 : db4._omp_atomic = db3._omp_atomic ∧ db4._omp_critical = db3._omp_critical :=
        write_body_list_rel
          (fun a b => b._omp_atomic = a._omp_atomic ∧ b._omp_critical = a._omp_critical)
          hrefl htrans env (write_loop_block env config fuel) _ db3 _
          (fun l hl dbx rx hwx =>
            write_loop_block_marks env config fuel dbx l rx (ranks_pos_list_mem _ l hinner hl)
              hwx) h4
      rw [edb, e21] at q4
      rw [h5, store_back_spec]
      exact htrans _ _ _ q1 q4
    · intro hq
      apply write_loop_parts_unguarded env config _ db block dbf t hp hq
      · intro l hl dbx rx hqx hwx
        apply write_loop_block_unguarded env config fuel dbx l rx _ hqx hwx
        rcases hl with hl | hl
        · exact ranks_pos_list_mem _ l hinner hl
        · rw [peeled_block_list] at hl
          exact ranks_pos_list_mem _ l (by rw [ranks_pos_list_mapInstr]; exact hinner) hl
      · intro db1b declsb srsb db2b peeledb db3b outb g1 g2 hqb g3
        rw [h1] at g1
        have ea : db1 = db1b := (Prod.mk.inj (Except.ok.inj g1)).1
        subst ea
        rw [if_neg hpeel] at g2
        have eb : db1 = db2b := (Prod.mk.inj (Except.ok.inj g2)).1
        rw [← eb, ← e21] at g3
        rw [h3] at g3
        have ec : db3 = db3b := (Prod.mk.inj (Except.ok.inj g3)).1
        rw [← ec, edb, e21, eb]
        exact hqb

theorem ex_codegen_identities_table : ∀ o,
    openmp_reduce_compatible ex_codegen_identities o = true →
    ex_codegen_identities.has_reduce_identity o = true := by
  intro o h
  unfold openmp_reduce_compatible openmp_reduce_symbol at h
  show (decide (10 ≤ o) && decide (o ≤ 16)) = true
  rw [Bool.and_eq_true, decide_eq_true_eq, decide_eq_true_eq]
  split_ifs at h with h1 h2 h3 h4 h5 h6 h7
  · have : o = 10 := h1
    omega
  · have : o = 11 := h2
    omega
  · have : o = 12 := h3
    omega
  · have : o = 13 := h4
    omega
  · have : o = 14 := h5
    omega
  · have : o = 15 := h6
    omega
  · have : o = 16 := h7
    omega
  · cases h

set_option maxRecDepth 100000 in
theorem write_loop_block_parallel_reduction_witness :
    ((ex_reduce_block 10 10).sweeps_ternary ex_codegen_identities = true ∧
      (ex_reduce_block 10 10).depth ≤ 0 + 1 ∧ (ex_reduce_block 10 10).rank = 0 ∧
      ex_config.compiler_openmp = true ∧
      (∀ s ∈ (ex_reduce_block 10 10)._sweeps,
        ex_codegen_identities.bh_opcode_is_reduction s.opcode = true ∧
        ex_codegen_identities.ops.bh_opcode_is_sweep s.opcode = true ∧
        sweep_axis ex_codegen_identities.ops s = (s.operand1.ndim : Int) - 1 ∧
        openmp_reduce_compatible ex_codegen_identities s.opcode = true) ∧
      1 < (ex_reduce_block 10 10).size ∧
      (∀ o, openmp_reduce_compatible ex_codegen_identities o = true →
        ex_codegen_identities.has_reduce_identity o = true)) ∧
    (ex_base_ids._scalar_replacements = ∅ ∧ ex_base_ids.unmarked ∧
      ranks_pos_list (ex_reduce_block 10 10)._block_list = true) ∧
    (write_loop_block ex_codegen_identities ex_config 1 ex_base_ids
        (ex_reduce_block 10 10)).toOption.map (fun r => render ex_writers r.2)
      = some ("    double s1;\n    s1 = 0;\n"
        ++ "    #pragma omp parallel for simd reduction(+:s1)\n"
        ++ "    for(uint64_t i0=0; i0 < 10; ++i0) \x7b\n"
        ++ "        ...;\n    \x7d\n    a1[0] = s1;\n") ∧
    (write_loop_block ex_codegen_identities ex_config 1 ex_base_ids
        (ex_reduce_block 15 2)).toOption.map (fun r => render ex_writers r.2)
      = some ("    double s1;\n    s1 = 0;\n"
        ++ "    #pragma omp parallel for simd reduction(max:s1)\n"
        ++ "    for(uint64_t i0=0; i0 < 2; ++i0) \x7b\n"
        ++ "        ...;\n    \x7d\n    a1[0] = s1;\n") ∧
    (write_loop_block ex_codegen_identities ex_config 1 ex_base_ids_tmp
        (ex_reduce_block 11 10)).toOption.map (fun r => render ex_writers r.2)
      = some ("    t1 = 0;\n"
        ++ "    #pragma omp parallel for simd reduction(*:t1)\n"
        ++ "    for(uint64_t i0=0; i0 < 10; ++i0) \x7b\n"
        ++ "        ...;\n    \x7d\n") ∧
    ∃ (dbf : BaseDB) (t : LoopText) (cl : List Clause),
      write_loop_block ex_codegen_identities ex_config (0 + 1) ex_base_ids
          (ex_reduce_block 10 10)
        = .ok (dbf, t.out (ex_reduce_block 10 10).rank (ex_reduce_block 10 10).size) ∧
      t.peeled = [] ∧ t.start = 0 ∧
      t.header = [Tok.pragma_omp cl, Tok.spaces (4 + (ex_reduce_block 10 10).rank * 4)] ∧
      List.IsInfix [Tok.pragma_omp cl, Tok.spaces (4 + (ex_reduce_block 10 10).rank * 4),
          Tok.for_header (ex_reduce_block 10 10).rank 0 (ex_reduce_block 10 10).size]
        (t.out (ex_reduce_block 10 10).rank (ex_reduce_block 10 10).size) ∧
      Clause.parallel_for ∈ cl ∧
      cl.filter Clause.isReduction = [Clause.reduction (some "+") true 1] ∧
      (dbf._omp_atomic = ex_base_ids._omp_atomic ∧
        dbf._omp_critical = ex_base_ids._omp_critical) ∧
      dbf.unmarked ∧
      unguarded (t.out (ex_reduce_block 10 10).rank (ex_reduce_block 10 10).size) := by
  refine ⟨⟨by decide, by decide, by decide, by decide, by decide, by decide,
    ex_codegen_identities_table⟩, ⟨by decide, ⟨rfl, rfl⟩, by decide⟩, rfl, rfl, rfl, ?_⟩
  obtain ⟨dbf, t, cl, _, a2, a3, a4, a5, a6, a7, _, a9, _, a11⟩ :=
    write_loop_block_parallel_reduction ex_codegen_identities ex_config 0 ex_base_ids
      (ex_reduce_block 10 10) (by decide) (by decide) (by decide) (by decide) (by decide)
      (by decide) ex_codegen_identities_table
  exact ⟨dbf, t, cl, a2, a3, a4, a5, a6, a7, (a9 (by decide)).trans rfl,
    (a11 (by decide)).1, (a11 (by decide)).2 ⟨rfl, rfl⟩⟩

end jitk

namespace jitk

/-! ## The kernel wrapper and the driver -/

theorem push_unique_fold {α : Type} [DecidableEq α] : ∀ (l acc : List α), acc.Nodup →
    (l.foldl push_back_new acc).Nodup ∧
    ∀ x, x ∈ l.foldl push_back_new acc ↔ x ∈ acc ∨ x ∈ l := by
  intro l
  induction l with
  | nil =>
    intro acc h
    exact ⟨h, fun x => by simp⟩
  | cons a l ih =>
    intro acc h
    rw [List.foldl_cons]
    by_cases ha : a ∈ acc
    · have e : push_back_new acc a = acc := if_pos ha
      rw [e]
      obtain ⟨h1, h2⟩ := ih acc h
      refine ⟨h1, ?_⟩
      intro x
      rw [h2 x, List.mem_cons]
      constructor
      · rintro (hx | hx)
        · exact Or.inl hx
        · exact Or.inr (Or.inr hx)
      · rintro (hx | hx | hx)
        · exact Or.inl hx
        · exact Or.inl (hx ▸ ha)
        · exact Or.inr hx
    · have e : push_back_new acc a = acc ++ [a] := if_neg ha
      rw [e]
      have hnd : (acc ++ [a]).Nodup := by
        rw [List.nodup_append]
        refine ⟨h, List.nodup_singleton a, ?_⟩
        intro x hx hx2
        rw [List.mem_singleton] at hx2
        exact ha (hx2 ▸ hx)
      obtain ⟨h1, h2⟩ := ih (acc ++ [a]) hnd
      refine ⟨h1, ?_⟩
      intro x
      rw [h2 x, List.mem_append, List.mem_singleton, List.mem_cons]
      constructor
      · rintro ((hx | hx) | hx)
        · exact Or.inl hx
        · exact Or.inr (Or.inl hx)
        · exact Or.inr (Or.inr hx)
      · rintro (hx | hx | hx)
        · exact Or.inl (Or.inl hx)
        · exact Or.inl (Or.inr hx)
        · exact Or.inr hx

theorem push_unique_spec {α : Type} [DecidableEq α] (l : List α) :
    (push_unique l).Nodup ∧ ∀ x, x ∈ push_unique l ↔ x ∈ l := by
  obtain ⟨h1, h2⟩ := push_unique_fold l [] List.nodup_nil
  refine ⟨h1, ?_⟩
  intro x
  unfold push_unique
  rw [h2 x]
  simp

theorem operand_bases_some (ops : OpcodeInfo) (instr : bh_instruction) (b : BasePtr)
    (h : b ∈ operand_bases ops instr) : ∃ p, b = some p := by
  unfold operand_bases at h
  rw [List.mem_map] at h
  obtain ⟨v, hv, rfl⟩ := h
  rw [List.mem_filter] at hv
  have hc := hv.2
  unfold bh_is_constant at hc
  cases hb : v.base with
  | none =>
    rw [hb] at hc
    exact absurd hc (by decide)
  | some p => exact ⟨p, rfl⟩

theorem assign_ids_fold : ∀ (l : List BasePtr) (db : BaseDB),
    l.foldl BaseDB.insert db
      = ⟨l.foldl push_back_new db._vec, db._tmps, db._scalar_replacements, db._omp_atomic,
          db._omp_critical⟩ := by
  intro l
  induction l with
  | nil => intro db; rfl
  | cons a l ih =>
    intro db
    rw [List.foldl_cons, List.foldl_cons, ih]
    rfl

theorem assign_ids_eq (ops : OpcodeInfo) (instr_list : List InstrPtr) :
    assign_ids ops instr_list
      = ⟨push_unique (instr_list.flatMap (operand_bases ops)), ∅, ∅, ∅, ∅⟩ := by
  unfold assign_ids push_unique
  rw [assign_ids_fold]

/-- The non-temporary bases of a kernel: pointers that are not null, without repetition,
none of them a temporary array, all of them among the bases of the instructions. -/
theorem Kernel.create_non_temps (ops : OpcodeInfo) (kenv : KernelEnv) (block : LoopB) :
    ∃ ps : List Nat, (Kernel.create ops kenv block).getNonTemps = ps.map some ∧ ps.Nodup ∧
      (∀ p ∈ ps, some p ∉ (Kernel.create ops kenv block).getAllTemps) ∧
      (∀ p ∈ ps, some p ∈ (assign_ids ops (Kernel.create ops kenv block).getAllInstr)._vec) := by
  obtain ⟨hnd, hmem⟩ := push_unique_spec ((block.getAllInstr.flatMap (operand_bases ops)).filter
    (fun b => decide (b ∉ kenv.getAllTemps block)))
  have hsome : ∀ b ∈ push_unique ((block.getAllInstr.flatMap (operand_bases ops)).filter
      (fun b => decide (b ∉ kenv.getAllTemps block))), ∃ p, b = some p := by
    intro b hb
    rw [hmem b, List.mem_filter, List.mem_flatMap] at hb
    obtain ⟨⟨i, _, hi⟩, _⟩ := hb
    exact operand_bases_some ops i b hi
  refine ⟨(push_unique ((block.getAllInstr.flatMap (operand_bases ops)).filter
      (fun b => decide (b ∉ kenv.getAllTemps block)))).filterMap id, ?_, ?_, ?_, ?_⟩
  · show push_unique _ = _
    generalize push_unique ((block.getAllInstr.flatMap (operand_bases ops)).filter
      (fun b => decide (b ∉ kenv.getAllTemps block))) = l at hsome
    induction l with
    | nil => rfl
    | cons a l ih =>
      obtain ⟨p, rfl⟩ := hsome a (List.mem_cons_self _ _)
      rw [List.filterMap_cons_some (by rfl), List.map_cons,
        ← ih (fun b hb => hsome b (List.mem_cons_of_mem _ hb))]
  · exact hnd.filterMap (fun a b c ha hb => by
      simp only [id, Option.mem_def] at ha hb
      rw [ha, hb])
  · intro p hp
    rw [List.mem_filterMap] at hp
    obtain ⟨b, hb, hbp⟩ := hp
    simp only [id] at hbp
    subst hbp
    rw [hmem _, List.mem_filter] at hb
    simpa using hb.2
  · intro p hp
    rw [List.mem_filterMap] at hp
    obtain ⟨b, hb, hbp⟩ := hp
    simp only [id] at hbp
    subst hbp
    rw [hmem _, List.mem_filter] at hb
    rw [assign_ids_eq]
    show some p ∈ push_unique _
    rw [(push_unique_spec _).2]
    exact hb.1

theorem bh_data_malloc_spec (alloc : Nat → Option Nat) (mem : BaseMem) (p : Nat)
    (h : (mem p).data = none → ∃ d, alloc p = some d) :
    ∃ mem1, bh_data_malloc alloc mem (some p) = .ok mem1 ∧
      (∀ q, (mem1 q).type = (mem q).type ∧ (mem1 q).nelem = (mem q).nelem ∧
        ((mem q).data ≠ none → (mem1 q).data = (mem q).data) ∧ (q ≠ p → mem1 q = mem q)) ∧
      (mem1 p).data ≠ none := by
  cases hd : (mem p).data with
  | some d =>
    refine ⟨mem, ?_, fun q => ⟨rfl, rfl, fun _ => rfl, fun _ => rfl⟩, ?_⟩
    · simp only [bh_data_malloc, hd]
    · rw [hd]
      exact Option.some_ne_none d
  | none =>
    obtain ⟨d, hd2⟩ := h hd
    refine ⟨fun q => if q = p then ⟨(mem p).type, (mem p).nelem, some d⟩ else mem q,
      ?_, ?_, ?_⟩
    · simp only [bh_data_malloc, hd, hd2]
    · intro q
      by_cases hq : q = p
      · subst hq
        refine ⟨?_, ?_, ?_, ?_⟩ <;> simp [hd]
      · refine ⟨?_, ?_, ?_, ?_⟩ <;> simp [hq]
    · simp

/-- The loop of the allocations: it returns when the allocations succeed, every base of the
list has data afterwards, and nothing else of the bases changes. -/
theorem malloc_all_spec (alloc : Nat → Option Nat) : ∀ (ps : List Nat) (mem : BaseMem),
    (∀ p ∈ ps, (mem p).data = none → ∃ d, alloc p = some d) →
    ∃ mem1, malloc_all alloc (ps.map some) mem = .ok mem1 ∧
      (∀ q, (mem1 q).type = (mem q).type ∧ (mem1 q).nelem = (mem q).nelem ∧
        ((mem q).data ≠ none → (mem1 q).data = (mem q).data) ∧ (q ∉ ps → mem1 q = mem q)) ∧
      ∀ p ∈ ps, (mem1 p).data ≠ none := by
  intro ps
  induction ps with
  | nil =>
    intro mem _
    exact ⟨mem, rfl, fun q => ⟨rfl, rfl, fun _ => rfl, fun _ => rfl⟩,
      fun p hp => absurd hp (List.not_mem_nil _)⟩
  | cons p ps ih =>
    intro mem h
    obtain ⟨mem1, h1, hk1, hd1⟩ :=
      bh_data_malloc_spec alloc mem p (h p (List.mem_cons_self _ _))
    obtain ⟨mem2, h2, hk2, hd2⟩ := ih mem1 (by
      intro q hq hn
      apply h q (List.mem_cons_of_mem _ hq)
      by_contra hne
      have := (hk1 q).2.2.1 hne
      rw [hn] at this
      exact hne this.symm)
    refine ⟨mem2, ?_, ?_, ?_⟩
    · simp only [List.map_cons, malloc_all, h1]
      exact h2
    · intro q
      refine ⟨(hk2 q).1.trans (hk1 q).1, (hk2 q).2.1.trans (hk1 q).2.1, ?_, ?_⟩
      · intro hne
        have e1 := (hk1 q).2.2.1 hne
        have e2 := (hk2 q).2.2.1 (by rw [e1]; exact hne)
        rw [e2, e1]
      · intro hq
        rw [List.mem_cons, not_or] at hq
        rw [(hk2 q).2.2.2 hq.2, (hk1 q).2.2.2 hq.1]
    · intro q hq
      rw [List.mem_cons] at hq
      rcases hq with rfl | hq
      · rw [(hk2 q).2.2.1 hd1]
        exact hd1
      · exact hd2 q hq

theorem write_params_eq (mem : BaseMem) (base_ids : BaseDB) : ∀ (ps : List Nat),
    write_params mem base_ids (ps.map some)
      = .ok ((ps.map (fun p => KTok.param (mem p).type (base_ids.id (some p))
          (mem p).nelem)).intersperse KTok.comma) := by
  intro ps
  induction ps with
  | nil => rfl
  | cons p ps ih =>
    simp only [List.map_cons, write_params, base_at, ih]
    cases ps with
    | nil => rfl
    | cons q qs => simp [List.intersperse]

theorem write_launcher_decls_eq (mem : BaseMem) (base_ids : BaseDB) :
    ∀ (ps : List Nat) (i : Nat),
      write_launcher_decls mem base_ids i (ps.map some)
        = .ok ((ps.enumFrom i).map (fun e =>
            KTok.launcher_decl (mem e.2).type (base_ids.id (some e.2)) e.1)) := by
  intro ps
  induction ps with
  | nil => intro i; rfl
  | cons p ps ih =>
    intro i
    simp only [List.map_cons, write_launcher_decls, base_at, ih, List.enumFrom_cons]

theorem write_call_args_eq (base_ids : BaseDB) : ∀ (bs : List BasePtr),
    write_call_args base_ids bs
      = (bs.map (fun b => KTok.arg (base_ids.id b))).intersperse KTok.comma := by
  intro bs
  induction bs with
  | nil => rfl
  | cons b bs ih =>
    simp only [write_call_args, ih]
    cases bs with
    | nil => rfl
    | cons c cs => simp [List.intersperse]

theorem pack_data_list_eq (mem : BaseMem) : ∀ (ps : List Nat),
    (∀ p ∈ ps, (mem p).data ≠ none) →
    ∃ data_list, pack_data_list mem (ps.map some) = .ok data_list ∧
      data_list.map some = ps.map (fun p => (mem p).data) := by
  intro ps
  induction ps with
  | nil =>
    intro _
    exact ⟨[], rfl, rfl⟩
  | cons p ps ih =>
    intro h
    obtain ⟨dl, h1, h2⟩ := ih (fun q hq => h q (List.mem_cons_of_mem _ hq))
    cases hd : (mem p).data with
    | none => exact absurd hd (h p (List.mem_cons_self _ _))
    | some d =>
      refine ⟨d :: dl, ?_, ?_⟩
      · simp only [List.map_cons, pack_data_list, base_at, hd, h1]
      · simp only [List.map_cons, h2, hd]

theorem indexOf_base_inj (a b : BasePtr) : ∀ (l : List BasePtr), a ∈ l → b ∈ l →
    l.indexOf a = l.indexOf b → a = b := by
  intro l
  induction l with
  | nil => intro ha; exact absurd ha (List.not_mem_nil _)
  | cons x l ih =>
    intro ha hb h
    rw [List.indexOf_cons, List.indexOf_cons] at h
    cases hxa : (x == a) with
    | true =>
      cases hxb : (x == b) with
      | true => exact (eq_of_beq hxa).symm.trans (eq_of_beq hxb)
      | false =>
        rw [hxa, hxb] at h
        simp at h
    | false =>
      cases hxb : (x == b) with
      | true =>
        rw [hxa, hxb] at h
        simp at h
      | false =>
        rw [hxa, hxb] at h
        simp only [cond_false, Nat.add_right_cancel_iff] at h
        have hax : a ≠ x := fun e => by
          rw [e] at hxa
          simp at hxa
        have hbx : b ≠ x := fun e => by
          rw [e] at hxb
          simp at hxb
        exact ih ((List.mem_cons.mp ha).resolve_left hax)
          ((List.mem_cons.mp hb).resolve_left hbx) h

theorem BaseDB.id_inj (db : BaseDB) (a b : BasePtr) (ha : a ∈ db._vec) (hb : b ∈ db._vec)
    (h : db.id a = db.id b) : a = b :=
  indexOf_base_inj a b db._vec ha hb h

/-- Claim C31: for a loop block whose sweeps have three operands (and when the allocations
succeed) the driver gets a source text from `write_kernel` and packs a `data_list` such
that, for the non-temporary bases `b_0, ..., b_(k-1)` of the kernel in their order: the
parameters of `execute` are `<type of b_i> a<id of b_i>[static <nelem of b_i>]`, the
declarations of `launcher` are `<type of b_i> *a<id of b_i> = data_list[i]`, the arguments
of the call of `execute` are `a<id of b_i>`, all in this order, and `data_list` holds the
data pointer of `b_i` at place `i`.  The ids are those of one `base_ids`, in which two of
these bases never have the same id; no `b_i` is a temporary array of the kernel, and no
base occurs twice. -/
theorem execute_block_parameters (env : CodegenEnv) (kenv : KernelEnv) (config : ConfigParser)
    (fuel : Nat) (alloc : Nat → Option Nat) (mem : BaseMem) (l : LoopB)
    (ht : l.sweeps_ternary env = true) (hd : l.depth ≤ fuel)
    (halloc : ∀ p, some p ∈ (Kernel.create env.ops kenv l).getNonTemps →
      (mem p).data = none → ∃ d, alloc p = some d) :
    ∃ (ps : List Nat) (base_ids base_ids1 : BaseDB) (mem1 : BaseMem) (out : List Tok)
        (data_list : List Nat),
      (Kernel.create env.ops kenv l).getNonTemps = ps.map some ∧ ps.Nodup ∧
      base_ids = (assign_ids env.ops l.getAllInstr).insertTmp (kenv.getAllTemps l) ∧
      (∀ p ∈ ps, some p ∉ (Kernel.create env.ops kenv l).getAllTemps ∧
        base_ids.isTmp (some p) = false) ∧
      (∀ p ∈ ps, ∀ q ∈ ps, base_ids.id (some p) = base_ids.id (some q) → p = q) ∧
      write_loop_block env config fuel base_ids l = .ok (base_ids1, out) ∧
      execute_block env kenv config fuel alloc mem (.loop l)
        = .ok (mem1,
            [KTok.include_line "stdint.h", KTok.include_line "stdlib.h",
              KTok.include_line "stdbool.h", KTok.include_line "complex.h",
              KTok.include_line "tgmath.h", KTok.include_line "math.h"]
            ++ (if kenv.useRandom l = true then
                [KTok.include_line "kernel_dependencies/random123_openmp.h"] else [])
            ++ [KTok.endl] ++ [KTok.execute_open]
            ++ (ps.map (fun p => KTok.param (mem1 p).type (base_ids.id (some p))
                (mem1 p).nelem)).intersperse KTok.comma
            ++ [KTok.execute_body] ++ [KTok.body out] ++ [KTok.close, KTok.endl]
            ++ [KTok.launcher_open]
            ++ ps.enum.map (fun e =>
                KTok.launcher_decl (mem1 e.2).type (base_ids.id (some e.2)) e.1)
            ++ [KTok.spaces 4, KTok.call_open]
            ++ (ps.map (fun p => KTok.arg (base_ids.id (some p)))).intersperse KTok.comma
            ++ [KTok.call_close, KTok.close],
            data_list) ∧
      data_list.map some = ps.map (fun p => (mem1 p).data) ∧
      (∀ q, (mem1 q).type = (mem q).type ∧ (mem1 q).nelem = (mem q).nelem ∧
        ((mem q).data ≠ none → (mem1 q).data = (mem q).data)) := by
  obtain ⟨ps, hps, hnd, htmp, hvec⟩ := Kernel.create_non_temps env.ops kenv l
  have hall : ∀ p ∈ ps, (mem p).data = none → ∃ d, alloc p = some d := by
    intro p hp
    apply halloc p
    rw [hps]
    exact List.mem_map_of_mem _ hp
  obtain ⟨mem1, hm1, hk1, hd1⟩ := malloc_all_spec alloc ps mem hall
  obtain ⟨r, hr⟩ := write_loop_block_returns env config fuel
    ((assign_ids env.ops l.getAllInstr).insertTmp (kenv.getAllTemps l)) l ht hd
  obtain ⟨base_ids1, out⟩ := r
  have hframe := write_loop_block_frame env config fuel _ l _ hr
  obtain ⟨data_list, hp1, hp2⟩ := pack_data_list_eq mem1 ps hd1
  have hid : ∀ b, base_ids1.id b
      = ((assign_ids env.ops l.getAllInstr).insertTmp (kenv.getAllTemps l)).id b := by
    intro b
    unfold BaseDB.id
    rw [hframe.vec]
  refine ⟨ps, _, base_ids1, mem1, out, data_list, hps, hnd, rfl, ?_, ?_, hr, ?_, hp2,
    fun q => ⟨(hk1 q).1, (hk1 q).2.1, (hk1 q).2.2.1⟩⟩
  · intro p hp
    refine ⟨htmp p hp, ?_⟩
    have := htmp p hp
    unfold BaseDB.isTmp BaseDB.insertTmp
    rw [assign_ids_eq]
    simpa [Kernel.getAllTemps, Kernel.create] using this
  · intro p hp q hq h
    have := BaseDB.id_inj _ (some p) (some q) (hvec p hp) (hvec q hq) h
    exact Option.some.inj this
  · unfold execute_block
    simp only []
    have hk : (Kernel.create env.ops kenv l).getAllInstr = l.getAllInstr := rfl
    have hb : (Kernel.create env.ops kenv l).block = l := rfl
    have hu : (Kernel.create env.ops kenv l).useRandom = kenv.useRandom l := rfl
    have ht2 : (Kernel.create env.ops kenv l).getAllTemps = kenv.getAllTemps l := rfl
    unfold write_kernel
    rw [hk, ht2, hps, hm1]
    simp only []
    rw [write_params_eq, hb, hr]
    simp only []
    rw [write_launcher_decls_eq, write_call_args_eq]
    simp only []
    rw [hp1, hu]
    simp only [List.map_map, List.enum]
    congr 2
    have e1 : (fun e : Nat × Nat => KTok.launcher_decl (mem1 e.2).type
        (base_ids1.id (some e.2)) e.1)
        = (fun e : Nat × Nat => KTok.launcher_decl (mem1 e.2).type
          (((assign_ids env.ops l.getAllInstr).insertTmp (kenv.getAllTemps l)).id (some e.2))
          e.1) := by
      funext e
      rw [hid]
    have e2 : ((fun b => KTok.arg (base_ids1.id b)) ∘ some)
        = (fun p : Nat => KTok.arg
          (((assign_ids env.ops l.getAllInstr).insertTmp (kenv.getAllTemps l)).id (some p))) := by
      funext p
      simp only [Function.comp, hid]
    rw [e1, e2]

set_option maxRecDepth 100000 in
theorem execute_block_parameters_witness :
    (ex_kernel_block.sweeps_ternary ex_codegen = true ∧ ex_kernel_block.depth ≤ 1 ∧
      ∀ p, some p ∈ (Kernel.create ex_codegen.ops ex_kernel_env ex_kernel_block).getNonTemps →
        (ex_base_mem p).data = none → ∃ d, (fun q => some (200 + q)) p = some d) ∧
    (Kernel.create ex_codegen.ops ex_kernel_env ex_kernel_block).getNonTemps
      = [some 0, some 1, some 3] ∧
    (execute_block ex_codegen ex_kernel_env ex_config 1 (fun q => some (200 + q)) ex_base_mem
        (.loop ex_kernel_block)).toOption.map
        (fun r => (render_kernel ex_writers r.2.1, r.2.2))
      = some ("#include <stdint.h>\n#include <stdlib.h>\n#include <stdbool.h>\n"
          ++ "#include <complex.h>\n#include <tgmath.h>\n#include <math.h>\n\n"
          ++ "void execute(double a1[static 10], double a2[static 10], "
          ++ "double a3[static 10]) \x7b\n"
          ++ "    #pragma omp parallel for simd\n"
          ++ "    for(uint64_t i0=0; i0 < 10; ++i0) \x7b\n"
          ++ "        ...;\n        ...;\n    \x7d\n\x7d\n\n"
          ++ "void launcher(void* data_list[]) \x7b\n"
          ++ "double *a1 = data_list[0];\ndouble *a2 = data_list[1];\n"
          ++ "double *a3 = data_list[2];\n    execute(a1, a2, a3);\n\x7d\n",
        [100, 101, 203]) ∧
    ∃ (ps : List Nat) (base_ids base_ids1 : BaseDB) (mem1 : BaseMem) (out : List Tok)
        (data_list : List Nat),
      (Kernel.create ex_codegen.ops ex_kernel_env ex_kernel_block).getNonTemps
        = ps.map some ∧ ps.Nodup ∧
      base_ids = (assign_ids ex_codegen.ops ex_kernel_block.getAllInstr).insertTmp
        (ex_kernel_env.getAllTemps ex_kernel_block) ∧
      (∀ p ∈ ps,
        some p ∉ (Kernel.create ex_codegen.ops ex_kernel_env ex_kernel_block).getAllTemps ∧
        base_ids.isTmp (some p) = false) ∧
      (∀ p ∈ ps, ∀ q ∈ ps, base_ids.id (some p) = base_ids.id (some q) → p = q) ∧
      write_loop_block ex_codegen ex_config 1 base_ids ex_kernel_block
        = .ok (base_ids1, out) ∧
      execute_block ex_codegen ex_kernel_env ex_config 1 (fun q => some (200 + q)) ex_base_mem
          (.loop ex_kernel_block)
        = .ok (mem1,
            [KTok.include_line "stdint.h", KTok.include_line "stdlib.h",
              KTok.include_line "stdbool.h", KTok.include_line "complex.h",
              KTok.include_line "tgmath.h", KTok.include_line "math.h"]
            ++ (if ex_kernel_env.useRandom ex_kernel_block = true then
                [KTok.include_line "kernel_dependencies/random123_openmp.h"] else [])
            ++ [KTok.endl] ++ [KTok.execute_open]
            ++ (ps.map (fun p => KTok.param (mem1 p).type (base_ids.id (some p))
                (mem1 p).nelem)).intersperse KTok.comma
            ++ [KTok.execute_body] ++ [KTok.body out] ++ [KTok.close, KTok.endl]
            ++ [KTok.launcher_open]
            ++ ps.enum.map (fun e =>
                KTok.launcher_decl (mem1 e.2).type (base_ids.id (some e.2)) e.1)
            ++ [KTok.spaces 4, KTok.call_open]
            ++ (ps.map (fun p => KTok.arg (base_ids.id (some p)))).intersperse KTok.comma
            ++ [KTok.call_close, KTok.close],
            data_list) ∧
      data_list.map some = ps.map (fun p => (mem1 p).data) ∧
      (∀ q, (mem1 q).type = (ex_base_mem q).type ∧ (mem1 q).nelem = (ex_base_mem q).nelem ∧
        ((ex_base_mem q).data ≠ none → (mem1 q).data = (ex_base_mem q).data)) :=
  ⟨⟨by decide, by decide, fun p _ _ => ⟨200 + p, rfl⟩⟩, by decide, rfl,
    execute_block_parameters ex_codegen ex_kernel_env ex_config 1 (fun q => some (200 + q))
      ex_base_mem ex_kernel_block (by decide) (by decide) (fun p _ _ => ⟨200 + p, rfl⟩)⟩

end jitk

end bohrium
